import Mathlib

/-!
# gowiki: a shallow embedding of the wiki-markup parser

Go strings are byte sequences.  They are modelled as lists of natural numbers
(one number per byte); every library routine the parser calls (`strings`,
`unicode/utf8`, `html`, `regexp`) is modelled by an executable function on such
lists.  The large tables of the Go library (Unicode case mapping, letters, the
HTML entity list) are collected in a record `Tables` that the model takes as
a parameter; `goTables` is an excerpt used to evaluate concrete inputs.
-/

set_option autoImplicit false

namespace Gowiki

/-! ## Strings and UTF-8 -/

/-- A Go string: its bytes. -/
abbrev Str := List Nat

/-- The rune `utf8.RuneError`, U+FFFD. -/
def RuneError : Nat := 0xFFFD

/-- The bytes written by `utf8.EncodeRune` (surrogates and values above U+10FFFF are
written as U+FFFD). -/
def encodeRune (r : Nat) : Str :=
  if r < 0x80 then [r]
  else if r < 0x800 then [0xC0 + r / 64, 0x80 + r % 64]
  else if (0xD800 ≤ r ∧ r ≤ 0xDFFF) ∨ 0x10FFFF < r then [0xEF, 0xBF, 0xBD]
  else if r < 0x10000 then [0xE0 + r / 4096, 0x80 + (r / 64) % 64, 0x80 + r % 64]
  else [0xF0 + r / 262144, 0x80 + (r / 4096) % 64, 0x80 + (r / 64) % 64, 0x80 + r % 64]

/-- The bytes of a string literal (its UTF-8 encoding). -/
def str (s : String) : Str := s.data.flatMap (fun c => encodeRune c.toNat)

/-- A continuation byte `10xxxxxx`. -/
def isCont (b : Nat) : Bool := decide (0x80 ≤ b) && decide (b ≤ 0xBF)

/-- The range of second bytes that `utf8` accepts after the first byte `s0`
(`acceptRanges`): `[lo, hi]` is 0x80..0xBF, narrowed after 0xE0, 0xED, 0xF0 and 0xF4. -/
def accepts (s0 s1 : Nat) : Bool :=
  decide ((if s0 = 0xE0 then 0xA0 else if s0 = 0xF0 then 0x90 else 0x80) ≤ s1) &&
  decide (s1 ≤ (if s0 = 0xED then 0x9F else if s0 = 0xF4 then 0x8F else 0xBF))

/-- The first rune of a string and its width, as `utf8.DecodeRuneInString` returns
them: an ill-formed or truncated sequence gives `(RuneError, 1)`, the empty string
`(RuneError, 0)`. -/
def decodeRune : Str → Nat × Nat
  | [] => (RuneError, 0)
  | s0 :: t =>
    if s0 < 0x80 then (s0, 1)
    else if s0 < 0xC2 then (RuneError, 1)
    else if s0 < 0xE0 then
      match t with
      | s1 :: _ => if accepts s0 s1 then ((s0 % 32) * 64 + s1 % 64, 2) else (RuneError, 1)
      | _ => (RuneError, 1)
    else if s0 < 0xF0 then
      match t with
      | s1 :: s2 :: _ =>
        if accepts s0 s1 ∧ isCont s2 then ((s0 % 16) * 4096 + (s1 % 64) * 64 + s2 % 64, 3)
        else (RuneError, 1)
      | _ => (RuneError, 1)
    else if s0 < 0xF5 then
      match t with
      | s1 :: s2 :: s3 :: _ =>
        if accepts s0 s1 ∧ isCont s2 ∧ isCont s3 then
          ((s0 % 8) * 262144 + (s1 % 64) * 4096 + (s2 % 64) * 64 + s3 % 64, 4)
        else (RuneError, 1)
      | _ => (RuneError, 1)
    else (RuneError, 1)

/-- The `(byte index, rune)` pairs a Go `for i, r := range s` loop visits, starting at
byte index `i`. -/
def runesAux : Nat → Nat → Str → List (Nat × Nat)
  | 0, _, _ => []
  | _ + 1, _, [] => []
  | fuel + 1, i, b :: t =>
    let d := decodeRune (b :: t)
    (i, d.1) :: runesAux fuel (i + d.2) ((b :: t).drop d.2)

/-- The `(byte index, rune)` pairs of `for i, r := range s`. -/
def runes (s : Str) : List (Nat × Nat) := runesAux s.length 0 s

/-- The Go slice expression `s[lo:hi]` (for indices within bounds). -/
def slice {α : Type} (s : List α) (lo hi : Nat) : List α := (s.take hi).drop lo

/-- Whether `p` is a leading part of `s`: `strings.HasPrefix`. -/
def startsWith (s p : Str) : Bool := p.isPrefixOf s

/-- The byte index of the first occurrence of the byte `c`, or `-1`:
`strings.IndexByte`, and `strings.IndexRune` for an ASCII rune. -/
def IndexByte (s : Str) (c : Nat) : Int :=
  if s.indexOf c < s.length then (s.indexOf c : Int) else -1

/-- The byte index of the first occurrence of `sep` in `s` at or after offset `i`. -/
def indexFrom (sep : Str) : Nat → Str → Int
  | i, [] => if sep = [] then (i : Int) else -1
  | i, c :: t => if sep.isPrefixOf (c :: t) then (i : Int) else indexFrom sep (i + 1) t

/-- The byte index of the first occurrence of `sep` in `s`, or `-1`: `strings.Index`. -/
def Index (s sep : Str) : Int := indexFrom sep 0 s

/-- `unicode.IsSpace`. -/
def isSpace (r : Nat) : Bool :=
  r = 0x09 ∨ r = 0x0A ∨ r = 0x0B ∨ r = 0x0C ∨ r = 0x0D ∨ r = 0x20 ∨ r = 0x85 ∨ r = 0xA0 ∨
  r = 0x1680 ∨ (0x2000 ≤ r ∧ r ≤ 0x200A) ∨ r = 0x2028 ∨ r = 0x2029 ∨ r = 0x202F ∨
  r = 0x205F ∨ r = 0x3000

/-- Whether a byte starts a rune (`utf8.RuneStart`): it is not a continuation byte. -/
def runeStart (b : Nat) : Bool := !isCont b

/-- The last rune of a string and its width: `utf8.DecodeLastRuneInString`.  The scan
looks back over at most three continuation bytes for the start of the rune. -/
def decodeLastRune (s : Str) : Nat × Nat :=
  match s.reverse with
  | [] => (RuneError, 0)
  | b0 :: rest =>
    if b0 < 0x80 then (b0, 1)
    else
      -- number of bytes stepped back from the last one (at most 3)
      let back : Nat :=
        match rest with
        | [] => 0
        | b1 :: r1 =>
          if runeStart b1 then 1 else
          match r1 with
          | [] => 1
          | b2 :: r2 =>
            if runeStart b2 then 2 else
            match r2 with
            | [] => 2
            | _ :: _ => 3
      let d := decodeRune (s.drop (s.length - 1 - back))
      if d.2 = back + 1 then d else (RuneError, 1)

/-- Drop the leading white-space runes: `strings.TrimLeftFunc(s, unicode.IsSpace)`. -/
def trimLeftSpace : Nat → Str → Str
  | 0, s => s
  | _ + 1, [] => []
  | fuel + 1, b :: t =>
    let d := decodeRune (b :: t)
    if isSpace d.1 then trimLeftSpace fuel ((b :: t).drop d.2) else b :: t

/-- Drop the trailing white-space runes: `strings.TrimRightFunc(s, unicode.IsSpace)`. -/
def trimRightSpace : Nat → Str → Str
  | 0, s => s
  | fuel + 1, s =>
    match s with
    | [] => []
    | _ :: _ =>
      let d := decodeLastRune s
      if isSpace d.1 then trimRightSpace fuel (s.take (s.length - d.2)) else s

/-- `strings.TrimSpace`: the string without leading and trailing Unicode white space. -/
def TrimSpace (s : Str) : Str :=
  let l := trimLeftSpace s.length s
  trimRightSpace l.length l

/-- The tables of the Go library the parser depends on, for runes outside ASCII:
`unicode.ToLower`, `unicode.ToUpper`, `unicode.IsLetter`, and the named character
references of package `html` (`entity` for one code point, `entity2` for two; the
names are looked up with their trailing `;` when present). -/
structure Tables where
  lower : Nat → Nat
  upper : Nat → Nat
  isLetter : Nat → Bool
  entity : Str → Option Nat
  entity2 : Str → Option (Nat × Nat)

/-- ASCII lower-casing of a byte. -/
def lowerByte (c : Nat) : Nat := if 65 ≤ c ∧ c ≤ 90 then c + 32 else c

/-- ASCII upper-casing of a byte. -/
def upperByte (c : Nat) : Nat := if 97 ≤ c ∧ c ≤ 122 then c - 32 else c

/-- `unicode.ToLower`; U+FFFD has no case mapping. -/
def toLowerRune (T : Tables) (r : Nat) : Nat :=
  if r < 0x80 then lowerByte r else if r = RuneError then RuneError else T.lower r

/-- `unicode.ToUpper`; U+FFFD has no case mapping. -/
def toUpperRune (T : Tables) (r : Nat) : Nat :=
  if r < 0x80 then upperByte r else if r = RuneError then RuneError else T.upper r

/-- `unicode.IsLetter`. -/
def isLetter (T : Tables) (r : Nat) : Bool :=
  if r < 0x80 then decide ((65 ≤ r ∧ r ≤ 90) ∨ (97 ≤ r ∧ r ≤ 122)) else T.isLetter r

/-- Whether all bytes are ASCII. -/
def isASCII (s : Str) : Bool := s.all (fun c => decide (c < 0x80))

/-- `strings.Map` for a mapping without negative values: every rune of the input,
ill-formed bytes counting as U+FFFD, is replaced by the encoding of its image. -/
def Map (f : Nat → Nat) (s : Str) : Str := (runes s).flatMap (fun p => encodeRune (f p.2))

/-- `strings.ToLower`. -/
def ToLower (T : Tables) (s : Str) : Str :=
  if isASCII s then s.map lowerByte else Map (toLowerRune T) s

/-- `strings.ToUpper`. -/
def ToUpper (T : Tables) (s : Str) : Str :=
  if isASCII s then s.map upperByte else Map (toUpperRune T) s

/-! ## html.UnescapeString -/

/-- Letters and digits, the characters of an entity name. -/
def isAlnum (c : Nat) : Bool :=
  decide ((97 ≤ c ∧ c ≤ 122) ∨ (65 ≤ c ∧ c ≤ 90) ∨ (48 ≤ c ∧ c ≤ 57))

/-- The value of a 32-bit signed integer after overflow. -/
def wrap32 (v : Int) : Int := (v + 2147483648) % 4294967296 - 2147483648

/-- The replacements of the C1 range 0x80..0x9F (Windows-1252) in numeric character
references. -/
def replacementTable : List Nat :=
  [0x20AC, 0x0081, 0x201A, 0x0192, 0x201E, 0x2026, 0x2020, 0x2021,
   0x02C6, 0x2030, 0x0160, 0x2039, 0x0152, 0x008D, 0x017D, 0x008F,
   0x0090, 0x2018, 0x2019, 0x201C, 0x201D, 0x2022, 0x2013, 0x2014,
   0x02DC, 0x2122, 0x0161, 0x203A, 0x0153, 0x009D, 0x017E, 0x0178]

/-- The digits of a numeric character reference: scans `s` from index `i`, with `x`
the value so far; returns the value and the index after the reference. -/
def scanDigits (hex : Bool) : Str → Nat → Int → Int × Nat
  | [], i, x => (x, i)
  | c :: t, i, x =>
    if hex ∧ 48 ≤ c ∧ c ≤ 57 then scanDigits hex t (i + 1) (wrap32 (16 * x + c - 48))
    else if hex ∧ 97 ≤ c ∧ c ≤ 102 then scanDigits hex t (i + 1) (wrap32 (16 * x + c - 97 + 10))
    else if hex ∧ 65 ≤ c ∧ c ≤ 70 then scanDigits hex t (i + 1) (wrap32 (16 * x + c - 65 + 10))
    else if ¬ hex ∧ 48 ≤ c ∧ c ≤ 57 then scanDigits hex t (i + 1) (wrap32 (10 * x + c - 48))
    else if c ≠ 59 then (x, i) else (x, i + 1)

/-- The index after the entity name that starts at index 1: letters and digits, and a
closing `;` when present. -/
def scanName : Str → Nat → Nat
  | [], i => i
  | c :: t, i => if isAlnum c then scanName t (i + 1) else if c ≠ 59 then i else i + 1

/-- The longest entity without a semicolon that is a proper leading part of `name`, tried
from `j` characters down to 2. -/
def longestEntity (T : Tables) (name : Str) : Nat → Option (Nat × Nat)
  | 0 => none
  | j + 1 =>
    if j + 1 > 1 then
      match T.entity (name.take (j + 1)) with
      | some x => some (x, j + 1)
      | none => longestEntity T name j
    else none

/-- One character reference: `s` starts with `&`; returns the bytes written in its place
and the number of bytes of `s` consumed (`unescapeEntity` of package `html`). -/
def unescapeEntity (T : Tables) (s : Str) : Str × Nat :=
  if s.length ≤ 1 then (s.take 1, 1)
  else if s.get? 1 = some 35 then
    if s.length ≤ 3 then (s.take 1, 1)
    else
      let hex : Bool := decide (s.get? 2 = some 120 ∨ s.get? 2 = some 88)
      let i0 := if hex then 3 else 2
      let r := scanDigits hex (s.drop i0) i0 0
      let x := r.1
      let i := r.2
      if i ≤ 3 then (s.take 1, 1)
      else
        let x : Int :=
          if 0x80 ≤ x ∧ x ≤ 0x9F then (replacementTable.getD (x - 0x80).toNat 0 : Nat)
          else if x = 0 ∨ (0xD800 ≤ x ∧ x ≤ 0xDFFF) ∨ x > 0x10FFFF then 0xFFFD
          else x
        (if x < 0 then encodeRune RuneError else encodeRune x.toNat, i)
  else
    let i := scanName (s.drop 1) 1
    let name := slice s 1 i
    if name.length = 0 then (s.take i, i)
    else
      match T.entity name with
      | some x => (encodeRune x, i)
      | none =>
        match T.entity2 name with
        | some (x, y) => (encodeRune x ++ encodeRune y, i)
        | none =>
          match longestEntity T name (min (name.length - 1) 6) with
          | some (x, j) => (encodeRune x, j + 1)
          | none => (s.take i, i)

/-- The scan of `html.UnescapeString`: bytes are copied up to the next `&`, where one
character reference is decoded. -/
def unescapeLoop (T : Tables) : Nat → Str → Str
  | 0, s => s
  | _ + 1, [] => []
  | fuel + 1, c :: t =>
    if c = 38 then
      let r := unescapeEntity T (c :: t)
      r.1 ++ unescapeLoop T fuel ((c :: t).drop r.2)
    else c :: unescapeLoop T fuel t

/-- `html.UnescapeString`. -/
def UnescapeString (T : Tables) (s : Str) : Str := unescapeLoop T s.length s

/-! ## Link canonicalisation (gowiki.go) -/

/-- `canoReSpaces.ReplaceAllString(s, " ")` for the expression `[ _]+`: every maximal
run of spaces and underscores becomes one space. -/
def canoReSpaces : Str → Str
  | [] => []
  | c :: t =>
    if c = 32 ∨ c = 95 then
      match t with
      | d :: _ => if d = 32 ∨ d = 95 then canoReSpaces t else 32 :: canoReSpaces t
      | [] => [32]
    else c :: canoReSpaces t

/-- A link target (gowiki.go, `WikiLink`). -/
structure WikiLink where
  Namespace : Str
  PageName : Str
  Anchor : Str
deriving DecidableEq, Repr

/-- The type `Namespaces`, a `map[string]string`: lower-cased alias to canonical name. -/
abbrev Namespaces := List (Str × Str)

/-- `StandardNamespaces` (gowiki.go). -/
def StandardNamespaces : Namespaces :=
  [ (str "media", str "Media"),
    (str "special", str "Special"),
    (str "talk", str "Talk"),
    (str "user", str "User"),
    (str "user talk", str "User talk"),
    (str "wikipedia", str "Wikipedia"),
    (str "wikipedia talk", str "Wikipedia talk"),
    (str "file", str "File"),
    (str "file talk", str "File talk"),
    (str "mediawiki", str "MediaWiki"),
    (str "mediawiki talk", str "MediaWiki talk"),
    (str "template", str "Template"),
    (str "template talk", str "Template talk"),
    (str "help", str "Help"),
    (str "help talk", str "Help talk"),
    (str "category", str "Category"),
    (str "category talk", str "Category talk"),
    (str "portal", str "Portal"),
    (str "portal talk", str "Portal talk"),
    (str "book", str "Book"),
    (str "book talk", str "Book talk"),
    (str "draft", str "Draft"),
    (str "draft talk", str "Draft talk"),
    (str "education program", str "Education Program"),
    (str "education program talk", str "Education Program talk"),
    (str "timedtext", str "TimedText"),
    (str "timedtext talk", str "TimedText talk"),
    (str "module", str "Module"),
    (str "module talk", str "Module talk"),
    (str "topic", str "Topic") ]

/-- `Namespaces.WikiCanonicalFormNamespaceEsc` (gowiki.go). -/
def WikiCanonicalFormNamespaceEsc (T : Tables) (namespaces : Namespaces) (l : Str)
    (defaultNamespace : Str) (unescape : Bool) : WikiLink :=
  let hpos := IndexByte l 35
  let anchor := if hpos ≥ 0 then l.drop (hpos + 1).toNat else []
  let l := if hpos ≥ 0 then l.take hpos.toNat else l
  let i := Index l [58]
  let r : Str × Int :=
    if i ≥ 0 then
      let cns := TrimSpace (canoReSpaces (l.take i.toNat))
      let cns := if unescape then UnescapeString T cns else cns
      match namespaces.lookup (ToLower T cns) with
      | some ns => if cns.length > 0 then (ns, i) else ([], i)
      | none => (defaultNamespace, -1)
    else (defaultNamespace, i)
  let ns := r.1
  let i := r.2
  let article := TrimSpace (canoReSpaces (l.drop (i + 1).toNat))
  let anchor := canoReSpaces anchor
  let article := if unescape then UnescapeString T article else article
  let anchor := if unescape then UnescapeString T anchor else anchor
  let article := if article.length > 0 then ToUpper T (article.take 1) ++ article.drop 1 else article
  { Namespace := ns, PageName := article, Anchor := anchor }

/-- `WikiCanonicalFormEsc` (gowiki.go). -/
def WikiCanonicalFormEsc (T : Tables) (l : Str) (unescape : Bool) : WikiLink :=
  WikiCanonicalFormNamespaceEsc T StandardNamespaces l [] unescape

/-- `WikiCanonicalForm` (gowiki.go). -/
def WikiCanonicalForm (T : Tables) (l : Str) : WikiLink :=
  WikiCanonicalFormNamespaceEsc T StandardNamespaces l [] true

/-- `WikiCanonicalFormNamespace` (gowiki.go). -/
def WikiCanonicalFormNamespace (T : Tables) (l : Str) (defaultNamespace : Str) : WikiLink :=
  WikiCanonicalFormNamespaceEsc T StandardNamespaces l defaultNamespace true

/-- `WikiLink.FullPagename` (gowiki.go). -/
def WikiLink.FullPagename (wl : WikiLink) : Str :=
  if wl.Namespace.length = 0 then wl.PageName else wl.Namespace ++ [58] ++ wl.PageName

/-- `WikiLink.FullPagenameAnchor` (gowiki.go). -/
def WikiLink.FullPagenameAnchor (wl : WikiLink) : Str :=
  let ns := if wl.Namespace.length ≠ 0 then wl.Namespace ++ [58] else []
  let an := if wl.Anchor.length ≠ 0 then [35] ++ wl.Anchor else []
  ns ++ wl.PageName ++ an

/-- An excerpt of the Go library tables: the case mapping and the letters of the Latin-1
block (with the Kelvin sign and the dotted capital I, the two runes outside ASCII whose
lower case is an ASCII letter), and a few of the named character references. -/
def goTables : Tables where
  lower := fun r =>
    if (0xC0 ≤ r ∧ r ≤ 0xDE ∧ r ≠ 0xD7) then r + 32
    else if r = 0x212A then 0x6B else if r = 0x130 then 0x69 else r
  upper := fun r =>
    if (0xE0 ≤ r ∧ r ≤ 0xFE ∧ r ≠ 0xF7) then r - 32
    else if r = 0xFF then 0x178 else if r = 0xB5 then 0x39C else r
  isLetter := fun r =>
    decide (r = 0xAA ∨ r = 0xB5 ∨ r = 0xBA ∨ (0xC0 ≤ r ∧ r ≤ 0xFF ∧ r ≠ 0xD7 ∧ r ≠ 0xF7))
  entity := fun n =>
    [ (str "amp;", 38), (str "amp", 38), (str "lt;", 60), (str "lt", 60),
      (str "gt;", 62), (str "gt", 62), (str "quot;", 34), (str "quot", 34),
      (str "apos;", 39), (str "nbsp;", 160), (str "nbsp", 160),
      (str "lowbar;", 95), (str "num;", 35), (str "Tab;", 9),
      (str "eacute;", 233), (str "eacute", 233) ].lookup n
  entity2 := fun _ => none

/-! ## Outcomes -/

/-- The outcome of running a routine of the program: a value, a Go run-time panic
(an index or slice bound out of range), or the recursion budget of the model used
up. -/
inductive Res (α : Type) where
  | ok : α → Res α
  | panic : Res α
  | fuel : Res α
deriving DecidableEq, Repr

/-- Sequencing of outcomes. -/
def Res.bind {α β : Type} (x : Res α) (f : α → Res β) : Res β :=
  match x with
  | .ok a => f a
  | .panic => .panic
  | .fuel => .fuel

instance : Monad Res where
  pure := Res.ok
  bind := Res.bind

/-! ## Tokens and the inline tokenizer (tokenize.go) -/

/-- A token (tokenize.go, `Token`). -/
structure Token where
  TText : Str := []
  TType : Str := []
  TAttr : Str := []
  TLink : WikiLink := ⟨[], [], []⟩
  TClosed : Bool := false
  TPipes : List Str := []
deriving DecidableEq, Repr

/-- The loop state of `decodeHTMLtag`. -/
structure TagScan where
  matchingpos : Nat := 0
  inquote : Bool := false
  lastbackslash : Bool := false
  quote : Nat := 35
  closefound : Bool := false
  tagend : Nat := 0
  tagstart : Nat := 0

/-- The loop `dhtLoop` of `decodeHTMLtag` over the runes of the line. -/
def dhtLoop : List (Nat × Nat) → TagScan → TagScan
  | [], st => st
  | (idx, rv) :: rest, st =>
    if rv = 62 ∧ ¬ st.inquote then { st with matchingpos := idx }
    else
      let st :=
        if rv = 39 ∨ rv = 34 then
          if st.inquote ∧ st.quote = rv ∧ ¬ st.lastbackslash then { st with inquote := false }
          else if ¬ st.inquote then { st with inquote := true, quote := rv }
          else st
        else if rv = 47 then { st with closefound := true }
        else st
      let st := { st with lastbackslash := decide (rv = 92) }
      let st := if ¬ isSpace rv ∧ st.tagstart = 0 then { st with tagstart := idx } else st
      let st := if rv ≠ 47 ∧ ¬ isSpace rv then { st with closefound := false } else st
      let st := if isSpace rv ∧ st.tagstart ≠ 0 ∧ st.tagend = 0 then { st with tagend := idx } else st
      dhtLoop rest st

/-- `Article.decodeHTMLtag`: the end position, tag, attributes and self-closing flag of
the HTML tag at the start of `l`, or `none` where the source returns `ok = false`. -/
def decodeHTMLtag (l : Str) : Option (Nat × Str × Str × Bool) :=
  let st := dhtLoop (runes l) {}
  if st.matchingpos = 0 ∨ st.tagstart = 0 then none
  else if st.tagend = 0 then
    some (st.matchingpos + 1, slice l st.tagstart st.matchingpos, [], st.closefound)
  else
    some (st.matchingpos + 1, slice l st.tagstart st.tagend, slice l st.tagend st.matchingpos,
      st.closefound)

/-- `strings.EqualFold(s, t)` for an ASCII string `t`: the runes of `s` against the bytes
of `t`, equal up to ASCII case, or the Kelvin sign for `k` and the long s for `s` (the
only runes outside ASCII that fold to an ASCII letter). -/
def equalFoldASCII : List (Nat × Nat) → Str → Bool
  | [], [] => true
  | (_, r) :: rs, c :: cs =>
    (decide (lowerByte r = lowerByte c ∧ r < 0x80) ||
      decide (r = 0x212A ∧ lowerByte c = 107) || decide (r = 0x17F ∧ lowerByte c = 115)) &&
    equalFoldASCII rs cs
  | _, _ => false

/-- `matchPrefixes` (tokenize.go). -/
def matchPrefixes (s : Str) (prefixes : List Str) : Bool :=
  prefixes.any (fun p => decide (s.length ≥ p.length) && equalFoldASCII (runes (s.take p.length)) p)

/-- `isExtLink` (tokenize.go). -/
def isExtLink (l : Str) : Bool := matchPrefixes l [str "http://", str "ftp://", str "//"]

/-- `possibleFileLink` (tokenize.go). -/
def possibleFileLink (l : Str) : Bool :=
  matchPrefixes l [str "[[image:", str "[[media:", str "[[file:"]

/-- The loop state of `parseInternalLink`. -/
structure LinkScan where
  pipepos : Nat := 0
  closed : Bool := false
  matchingpos : Nat := 0
  linktrail : Nat := 0

/-- The scanning loop of `parseInternalLink`; `none` where the loop returns "not a
link". -/
def internalLinkLoop (T : Tables) (l : Str) : List (Nat × Nat) → LinkScan → Option LinkScan
  | [], st => some st
  | (idx, rv) :: rest, st =>
    if idx < 2 then internalLinkLoop T l rest st
    else if st.matchingpos = 0 then
      if rv = 7 then
        if st.pipepos = 0 then none else internalLinkLoop T l rest st
      else if rv = 91 then
        if idx = 2 ∨ (l.length > idx + 1 ∧ l.get? (idx + 1) = some 91) then none
        else internalLinkLoop T l rest st
      else if rv = 93 then
        if l.length > idx + 1 ∧ l.get? (idx + 1) = some 93 then
          internalLinkLoop T l rest { st with matchingpos := idx }
        else internalLinkLoop T l rest st
      else if rv = 124 then
        if st.pipepos = 0 then internalLinkLoop T l rest { st with pipepos := idx }
        else internalLinkLoop T l rest st
      else internalLinkLoop T l rest st
    else if ¬ st.closed then internalLinkLoop T l rest { st with closed := true }
    else if isLetter T rv then internalLinkLoop T l rest { st with linktrail := idx }
    else some st

/-- `Article.parseInternalLink`; `pit` is `parseInlineText`.  The result is `none` where
the source returns `ok = false`. -/
def parseInternalLink (T : Tables) (pit : Str → Nat → Nat → Res (List Token)) (l : Str) :
    Res (Option (Nat × List Token)) :=
  match internalLinkLoop T l (runes l) {} with
  | none => .ok none
  | some st =>
    if ¬ st.closed then .ok none
    else
      let trail := if st.linktrail ≠ 0 then slice l (st.matchingpos + 2) (st.linktrail + 1) else []
      let e := if st.linktrail ≠ 0 then st.linktrail + 1 else st.matchingpos + 2
      if st.pipepos = 0 then
        let innerstring := slice l 2 st.matchingpos ++ trail
        let link := WikiCanonicalForm T (slice l 2 st.matchingpos)
        .ok (some (e, [{ TLink := link, TType := str "link" },
                       { TText := innerstring, TType := str "text" },
                       { TType := str "closelink" }]))
      else
        let innerstring := slice l (st.pipepos + 1) st.matchingpos ++ trail
        let link := WikiCanonicalForm T (slice l 2 st.pipepos)
        if st.pipepos + 1 < st.matchingpos then
          match pit innerstring 0 innerstring.length with
          | .ok nt =>
            .ok (some (e, [{ TLink := link, TType := str "link" }] ++ nt ++
                          [{ TType := str "closelink" }]))
          | .panic => .panic
          | .fuel => .fuel
        else
          .ok (some (e, [{ TLink := link, TType := str "link" }, { TType := str "closelink" }]))

/-- The loop state of `parseExternalLink`. -/
structure ExtScan where
  spacepos : Nat := 0
  matchingpos : Nat := 0
  endpos : Nat := 0
  intLinkOpen : Bool := false
  skipNext : Bool := false

/-- The loop `plLoop2` of `parseExternalLink`; `none` where it returns "not a link". -/
def extLinkLoop (l : Str) : List (Nat × Nat) → ExtScan → Option ExtScan
  | [], st => some st
  | (idx, rv) :: rest, st =>
    if idx < 1 then extLinkLoop l rest st
    else if st.skipNext then extLinkLoop l rest { st with skipNext := false }
    else if rv = 7 then
      if st.spacepos = 0 then none else extLinkLoop l rest st
    else if rv = 91 then
      if l.length > idx + 1 ∧ l.get? (idx + 1) = some 91 then
        extLinkLoop l rest { st with intLinkOpen := true }
      else extLinkLoop l rest st
    else if rv = 32 then
      if st.spacepos = 0 then extLinkLoop l rest { st with spacepos := idx }
      else extLinkLoop l rest st
    else if rv = 60 then
      if st.spacepos > 0 then
        match decodeHTMLtag (l.drop idx) with
        | some (_, tag, _, _) =>
          if tag = str "/ref" then some { st with matchingpos := idx, endpos := idx }
          else extLinkLoop l rest st
        | none => extLinkLoop l rest st
      else extLinkLoop l rest st
    else if rv = 93 then
      if st.intLinkOpen ∧ l.length > idx + 1 ∧ l.get? (idx + 1) = some 93 then
        extLinkLoop l rest { st with intLinkOpen := false, skipNext := true }
      else some { st with matchingpos := idx, endpos := idx + 1 }
    else extLinkLoop l rest st

/-- `Article.parseExternalLink`; `pit` is `parseInlineText`. -/
def parseExternalLink (pit : Str → Nat → Nat → Res (List Token)) (l : Str) :
    Res (Option (Nat × List Token)) :=
  match extLinkLoop l (runes l) {} with
  | none => .ok none
  | some st =>
    if st.matchingpos = 0 then .ok none
    else if st.spacepos = 0 then
      let link := slice l 1 st.matchingpos
      if ¬ isExtLink link then .ok none
      else .ok (some (st.endpos, [{ TText := link, TType := str "extlink" },
                                  { TType := str "closeextlink" }]))
    else
      let link := slice l 1 st.spacepos
      if ¬ isExtLink link then .ok none
      else if st.spacepos + 1 < st.matchingpos then
        match pit l (st.spacepos + 1) st.matchingpos with
        | .ok nt =>
          .ok (some (st.endpos, [{ TText := link, TType := str "extlink" }] ++ nt ++
                                [{ TType := str "closeextlink" }]))
        | .panic => .panic
        | .fuel => .fuel
      else .ok (some (st.endpos, [{ TText := link, TType := str "extlink" },
                                  { TType := str "closeextlink" }]))

/-- The loop state of `parseFileLink`. -/
structure FileScan where
  pipepos : List Nat := []
  closed : Bool := false
  matchingpos : Nat := 0
  intLinkOpen : Bool := false
  skipNext : Bool := false

/-- The loop `plLoop` of `parseFileLink`; `none` where it returns "not a link". -/
def fileLinkLoop (l : Str) : List (Nat × Nat) → FileScan → Option FileScan
  | [], st => some st
  | (idx, rv) :: rest, st =>
    if idx < 2 then fileLinkLoop l rest st
    else if st.skipNext then fileLinkLoop l rest { st with skipNext := false }
    else if rv = 7 then
      if st.pipepos.length = 0 then none else fileLinkLoop l rest st
    else if rv = 91 then
      if l.length > idx + 1 ∧ l.get? (idx + 1) = some 91 then
        fileLinkLoop l rest { st with intLinkOpen := true, skipNext := true }
      else fileLinkLoop l rest st
    else if rv = 93 then
      if l.length > idx + 1 ∧ l.get? (idx + 1) = some 93 then
        if st.intLinkOpen then
          fileLinkLoop l rest { st with intLinkOpen := false, skipNext := true }
        else some { st with matchingpos := idx, closed := true }
      else fileLinkLoop l rest st
    else if rv = 124 then
      if ¬ st.intLinkOpen then fileLinkLoop l rest { st with pipepos := st.pipepos ++ [idx] }
      else fileLinkLoop l rest st
    else fileLinkLoop l rest st

/-- The segments between consecutive pipes: `l[pipepos[i]+1 : pipepos[i+1]]`. -/
def pipeSegments (l : Str) : List Nat → List Str
  | p :: q :: rest => slice l (p + 1) q :: pipeSegments l (q :: rest)
  | _ => []

/-- `Article.parseFileLink`; `pit` is `parseInlineText`. -/
def parseFileLink (T : Tables) (pit : Str → Nat → Nat → Res (List Token)) (l : Str) :
    Res (Option (Nat × List Token)) :=
  match fileLinkLoop l (runes l) {} with
  | none => .ok none
  | some st =>
    if ¬ st.closed then .ok none
    else
      match st.pipepos with
      | [] =>
        let link := WikiCanonicalForm T (slice l 2 st.matchingpos)
        .ok (some (st.matchingpos + 2,
          [{ TLink := link, TType := str "filelink", TPipes := [] },
           { TText := slice l 2 st.matchingpos, TType := str "text" },
           { TType := str "closefilelink" }]))
      | p0 :: ps =>
        let link := WikiCanonicalForm T (slice l 2 p0)
        let pipes := pipeSegments l (p0 :: ps)
        let lastpipe := (p0 :: ps).getLast?.getD 0
        if lastpipe + 1 < st.matchingpos then
          match pit l (lastpipe + 1) st.matchingpos with
          | .ok nt =>
            .ok (some (st.matchingpos + 2,
              [{ TLink := link, TType := str "filelink", TPipes := pipes }] ++ nt ++
              [{ TType := str "closefilelink" }]))
          | .panic => .panic
          | .fuel => .fuel
        else
          .ok (some (st.matchingpos + 2,
            [{ TLink := link, TType := str "filelink", TPipes := pipes },
             { TType := str "closefilelink" }]))

/-- `Article.parseLink`; `pit` is `parseInlineText`. -/
def parseLink (T : Tables) (pit : Str → Nat → Nat → Res (List Token)) (l : Str) :
    Res (Option (Nat × List Token)) :=
  if l.length < 5 then .ok none
  else if l.get? 1 = some 91 then
    if possibleFileLink l then parseFileLink T pit l else parseInternalLink T pit l
  else parseExternalLink pit l

/-- `Article.decodeBehavSwitch`: the length of the match of `^__[A-Z]+__` at the start
of `l`, if any. -/
def decodeBehavSwitch (l : Str) : Option Nat :=
  match l with
  | 95 :: 95 :: rest =>
    let name := rest.takeWhile (fun c => decide (65 ≤ c ∧ c ≤ 90))
    if name.length > 0 ∧ startsWith (rest.drop name.length) [95, 95] then some (name.length + 4)
    else none
  | _ => none

/-- The pending text `l[tStart:tEnd]` is emitted as a text token when it is not empty. -/
def flushText (l : Str) (tStart tEnd : Nat) (nt : List Token) : List Token :=
  if tEnd > tStart then nt ++ [{ TText := slice l tStart tEnd, TType := str "text" }] else nt

/-- The scanning loop of `Article.parseInlineText`, from position `pos` with the pending
text `l[tStart:tEnd]` and the tokens `nt` emitted so far. -/
def inlineLoop (T : Tables) : Nat → Str → Nat → Nat → Nat → Nat → List Token → Res (List Token)
  | 0, _, _, _, _, _, _ => .fuel
  | fuel + 1, l, end_, pos, tStart, tEnd, nt =>
    if pos < end_ then
      if end_ > l.length then .panic else
      let d := decodeRune (slice l pos end_)
      let rv := d.1
      let rune_len := d.2
      let pit : Str → Nat → Nat → Res (List Token) :=
        fun l2 s2 e2 => inlineLoop T fuel l2 e2 s2 s2 s2 []
      let next : Res (List Token) :=
        inlineLoop T fuel l end_ (pos + rune_len) tStart (pos + rune_len) nt
      if rv = 60 then
        match decodeHTMLtag (slice l pos end_) with
        | some (e, tag, attr, closed) =>
          inlineLoop T fuel l end_ (pos + e) (pos + e) (pos + e)
            (flushText l tStart tEnd nt ++
              [{ TType := str "html", TText := tag, TAttr := attr, TClosed := closed }])
        | none => next
      else if rv = 91 then
        match parseLink T pit (slice l pos end_) with
        | .ok (some (e, lt)) =>
          inlineLoop T fuel l end_ (pos + e) (pos + e) (pos + e) (flushText l tStart tEnd nt ++ lt)
        | .ok none => next
        | .panic => .panic
        | .fuel => .fuel
      else if rv = 95 then
        match decodeBehavSwitch (slice l pos end_) with
        | some e =>
          inlineLoop T fuel l end_ (pos + e) (pos + e) (pos + e)
            (flushText l tStart tEnd nt ++ [{ TType := str "magic", TAttr := slice l pos (pos + e) }])
        | none => next
      else if rv = 32 ∨ rv = 9 ∨ rv = 13 then
        inlineLoop T fuel l end_ (pos + rune_len) (pos + rune_len) (pos + rune_len)
          (flushText l tStart tEnd nt ++ [{ TType := str "space" }])
      else if rv = 39 then
        inlineLoop T fuel l end_ (pos + rune_len) (pos + rune_len) (pos + rune_len)
          (flushText l tStart tEnd nt ++ [{ TType := str "quote" }])
      else if rv = 58 then
        inlineLoop T fuel l end_ (pos + rune_len) (pos + rune_len) (pos + rune_len)
          (flushText l tStart tEnd nt ++ [{ TType := str "colon" }])
      else if rv = 7 then
        if pos + 8 ≤ l.length then
          inlineLoop T fuel l end_ (pos + 8) (pos + 8) (pos + 8)
            (flushText l tStart tEnd nt ++ [{ TType := str "special", TText := slice l pos (pos + 8) }])
        else .panic
      else next
    else .ok (flushText l tStart tEnd nt)

/-- `Article.parseInlineText(l, start, end)`, with a recursion budget. -/
def parseInlineText (T : Tables) (fuel : Nat) (l : Str) (start end_ : Nat) : Res (List Token) :=
  inlineLoop T fuel l end_ start start start []

/-! ## Redirect detection in a template body (redirect.go) -/

/-- `Article.checkRedirect`: the target of a body that starts with `#redirect`, taken
from the first link token of its first line. -/
def checkRedirect (T : Tables) (mw : Str) : Res (Option WikiLink) :=
  if mw.length < 9 ∨ ToLower T (mw.take 9) ≠ str "#redirect" then .ok none
  else
    let idx := Index mw [10]
    let idx : Nat := if idx < 0 then mw.length else idx.toNat
    match parseInlineText T (mw.length + 1) mw 9 idx with
    | .ok nnt =>
      match nnt.find? (fun t => decide (t.TType = str "link")) with
      | some t => .ok (some t.TLink)
      | none => .ok none
    | .panic => .panic
    | .fuel => .fuel

/-! ## Comments and inclusion markers -/

/-- `Article.stripComments`: `commentsRe.ReplaceAllLiteralString(mw, "")` for the
expression `(?isU)<!--.*(?:-->|\z)`: each `<!--` is removed together with the text up
to and including the first following `-->`, or up to the end of the input. -/
def stripCommentsAux : Nat → Str → Str
  | 0, s => s
  | _ + 1, [] => []
  | fuel + 1, c :: t =>
    if startsWith (c :: t) (str "<!--") then
      let i := Index ((c :: t).drop 4) (str "-->")
      if i ≥ 0 then stripCommentsAux fuel ((c :: t).drop (4 + i.toNat + 3)) else []
    else c :: stripCommentsAux fuel t

/-- `Article.stripComments` (tokenize.go). -/
def stripComments (mw : Str) : Str := stripCommentsAux mw.length mw

/-- Whether `s` starts with the ASCII lower-case word `w`, ignoring ASCII case (the
words used have no `k` and no `s`, so no rune outside ASCII folds to one of their
letters). -/
def startsWithFold (s w : Str) : Bool := decide ((s.take w.length).map lowerByte = w)

/-- `noincludeRe.ReplaceAllLiteralString(mw, "")` for the expression
`(?isU)<noinclude>.*(?:</noinclude>|\z)`. -/
def stripNoincludeAux : Nat → Str → Str
  | 0, s => s
  | _ + 1, [] => []
  | fuel + 1, c :: t =>
    if startsWithFold (c :: t) (str "<noinclude>") then
      stripNoincludeSkip fuel ((c :: t).drop 11)
    else c :: stripNoincludeAux fuel t
where
  /-- Inside a `<noinclude>` section: skip to the position after the closing tag. -/
  stripNoincludeSkip : Nat → Str → Str
  | 0, s => s
  | _ + 1, [] => []
  | fuel + 1, c :: t =>
    if startsWithFold (c :: t) (str "</noinclude>") then stripNoincludeAux fuel ((c :: t).drop 12)
    else stripNoincludeSkip fuel t

/-- The first groups of `includeonlyRe.FindAllStringSubmatch(mw, -1)` for the expression
`(?isU)<includeonly>(.*)(?:</includeonly>|\z)`. -/
def includeonlyAux : Nat → Str → List Str
  | 0, _ => []
  | _ + 1, [] => []
  | fuel + 1, c :: t =>
    if startsWithFold (c :: t) (str "<includeonly>") then
      includeonlyBody fuel ((c :: t).drop 13) []
    else includeonlyAux fuel t
where
  /-- Inside an `<includeonly>` section, with the body `acc` read so far. -/
  includeonlyBody : Nat → Str → Str → List Str
  | 0, _, acc => [acc]
  | _ + 1, [], acc => [acc]
  | fuel + 1, c :: t, acc =>
    if startsWithFold (c :: t) (str "</includeonly>") then
      acc :: includeonlyAux fuel ((c :: t).drop 14)
    else includeonlyBody fuel t (acc ++ [c])

/-- `Article.stripNoinclude` (template.go). -/
def stripNoinclude (mw : Str) : Str :=
  let mwni := stripNoincludeAux (mw.length + 1) mw
  let ssl := includeonlyAux (mwni.length + 1) mwni
  if ssl.length = 0 then mwni else ssl.flatten

/-! ## The template engine (template.go) -/

/-- A streak of braces (template.go, `streak`). -/
structure streak where
  opening : Bool
  length : Nat
  b : Nat
  e : Nat
deriving DecidableEq, Repr

/-- A template span (template.go, `template`).  The source links templates by pointers;
here the templates of one text live in a list and `children` holds positions in that
list. -/
structure template where
  b : Nat
  e : Nat
  isparam : Bool
  children : List Nat := []
  rt : Str := []
  rendered : Bool := false
deriving DecidableEq, Repr

/-- One iteration of the loop of `findCurlyStreaks`, at the rune `p.2` with byte index
`p.1`; the state is `(out, found, beg)`. -/
def streakStep (st : List (Nat × Nat) × Nat × Nat) (p : Nat × Nat) : List (Nat × Nat) × Nat × Nat :=
  if p.2 = st.2.1 then st
  else
    ((if p.1 - st.2.2 > 1 ∧ (st.2.1 = 123 ∨ st.2.1 = 125) then st.1 ++ [(st.2.2, p.1)] else st.1),
      p.2, p.1)

/-- `findCurlyStreaks` (template.go): the spans of the runs of at least two equal
braces. -/
def findCurlyStreaks (mw : Str) : List (Nat × Nat) :=
  let st := (runes mw).foldl streakStep ([], 46, 0)
  if st.2.2 + 1 < mw.length ∧ (st.2.1 = 123 ∨ st.2.1 = 125) then st.1 ++ [(st.2.2, mw.length)]
  else st.1

/-- The search of `findTemplates` for the opening streak that pairs with the closing
streak `i`: the positions `j = i-1, ..., 0` are tried in this order; `js` lists them. -/
def findOpening (streaks : List streak) : List Nat → Option Nat
  | [] => none
  | j :: js =>
    match streaks.get? j with
    | some sj => if sj.opening ∧ sj.length > 1 then some j else findOpening streaks js
    | none => findOpening streaks js

/-- The pairing loop of `findTemplates`, at closing candidate `i`, with the streaks as
consumed so far and the templates found so far. -/
def pairStreaks : Nat → List streak → Nat → List template → Res (List template)
  | 0, _, _, _ => .fuel
  | fuel + 1, streaks, i, tl =>
    match streaks.get? i with
    | none => .ok tl
    | some si =>
      if ¬ si.opening ∧ si.length > 1 then
        match findOpening streaks ((List.range i).reverse) with
        | some j =>
          let sj := streaks.getD j si
          let isparam : Bool := decide (si.length > 2 ∧ sj.length > 2)
          let n := if isparam then 3 else 2
          let t : template := { isparam := isparam, b := sj.e - n, e := si.b + n }
          let streaks := streaks.set i { si with length := si.length - n, b := si.b + n }
          let streaks := streaks.set j { sj with length := sj.length - n, e := sj.e - n }
          pairStreaks fuel streaks i (tl ++ [t])
        | none => pairStreaks fuel streaks (i + 1) tl
      else pairStreaks fuel streaks (i + 1) tl

/-- Insertion into a list of templates ordered by start offset. -/
def insertByStart (t : template) : List template → List template
  | [] => [t]
  | u :: us => if t.b < u.b then t :: u :: us else u :: insertByStart t us

/-- `sort.Sort(byStart(tl))`: the templates by increasing start offset (the start
offsets of the templates of one text are distinct). -/
def sortByStart : List template → List template
  | [] => []
  | t :: ts => insertByStart t (sortByStart ts)

/-- The search of the nesting loop of `findTemplates` for the parent of template `i`:
the nearest earlier template that ends after it. -/
def findParent (tl : List template) (ei : Nat) : List Nat → Option Nat
  | [] => none
  | j :: js =>
    match tl.get? j with
    | some tj => if tj.e > ei then some j else findParent tl ei js
    | none => findParent tl ei js

/-- The nesting loop of `findTemplates` over `i = 0, 1, ...`: returns the templates with
their children set and the positions of the top-level templates. -/
def nestTemplates : List Nat → List template → Nat → List Nat → List template × List Nat
  | [], tl, _, out => (tl, out)
  | i :: is, tl, cur_end, out =>
    match tl.get? i with
    | none => nestTemplates is tl cur_end out
    | some ti =>
      let ti := { ti with children := [] }
      let tl := tl.set i ti
      if ti.b ≥ cur_end then nestTemplates is tl ti.e (out ++ [i])
      else
        match findParent tl ti.e ((List.range i).reverse) with
        | some j =>
          let tj := tl.getD j ti
          nestTemplates is (tl.set j { tj with children := tj.children ++ [i] }) cur_end out
        | none => nestTemplates is tl cur_end out

/-- `findTemplates` (template.go): all templates of the text, by start offset, and the
positions of the top-level ones. -/
def findTemplates (mw : Str) : Res (List template × List Nat) :=
  let tsl := findCurlyStreaks mw
  let streaks : List streak := tsl.map (fun pair =>
    { opening := decide (mw.get? pair.1 = some 123), length := pair.2 - pair.1,
      b := pair.1, e := pair.2 })
  match pairStreaks (mw.length + streaks.length + 1) streaks 0 [] with
  | .ok tl =>
    let tl := sortByStart tl
    .ok (nestTemplates (List.range tl.length) tl 0 [])
  | .panic => .panic
  | .fuel => .fuel

/-- The loop state of `findTemplateParamPos`. -/
structure ParamScan where
  out : List (List Nat) := []
  inlink : Bool := false
  lastopen : Bool := false
  lastclosed : Bool := false

/-- One iteration of the loop of `findTemplateParamPos`, at the rune `p.2` with index
`p.1` in the text of the template `t`. -/
def paramStep (tl : List template) (t : template) (st : ParamScan) (p : Nat × Nat) : ParamScan :=
  let i := p.1
  let rv := p.2
  let inChildTemplate : Bool := t.children.any (fun ci =>
    match tl.get? ci with
    | some ct => decide (i + t.b ≥ ct.b ∧ i + t.b < ct.e)
    | none => false)
  if inChildTemplate then { st with lastopen := false, lastclosed := false }
  else if rv = 91 then
    { st with inlink := st.inlink || st.lastopen, lastopen := true, lastclosed := false }
  else if rv = 93 then
    { st with inlink := st.inlink && !st.lastclosed, lastopen := false, lastclosed := true }
  else if rv = 124 ∧ ¬ st.inlink then
    { st with out := st.out ++ [[i + t.b]], lastopen := false, lastclosed := false }
  else if rv = 61 ∧ st.out.length > 0 ∧ (st.out.getLast?.getD []).length = 1 ∧ ¬ st.inlink then
    { st with out := st.out.dropLast ++ [(st.out.getLast?.getD []) ++ [i + t.b]],
              lastopen := false, lastclosed := false }
  else { st with lastopen := false, lastclosed := false }

/-- `findTemplateParamPos` (template.go): for every pipe of the template outside its
children and outside links, its position, followed by the position of the first `=`
after it, if any. -/
def findTemplateParamPos (tl : List template) (mw : Str) (t : template) : List (List Nat) :=
  ((runes (slice mw t.b t.e)).foldl (paramStep tl t) {}).out

/-- A `map[string]string`, as the list of its entries. -/
abbrev Params := List (Str × Str)

/-- The assignment `m[k] = v`. -/
def mapSet {α : Type} (m : List (Str × α)) (k : Str) (v : α) : List (Str × α) :=
  if (m.lookup k).isSome then m.map (fun e => if e.1 = k then (k, v) else e) else m ++ [(k, v)]

/-- The decimal digits of `n`, most significant first, for `n` below `10 ^ fuel`. -/
def digits : Nat → Nat → Str
  | 0, _ => []
  | fuel + 1, n => if n < 10 then [48 + n] else digits fuel (n / 10) ++ [48 + n % 10]

/-- `fmt.Sprint(n)` for a non-negative integer. -/
def itoa (n : Nat) : Str := digits (n + 1) n

/-- `fmt.Sprintf("%0wd", n)`: the decimal digits of `n`, padded with zeros on the left
to at least `w` characters. -/
def padded (w n : Nat) : Str := List.replicate (w - (itoa n).length) 48 ++ itoa n

/-- `templateType` (template.go). -/
def noHashFunctionsMap : List Str :=
  [ "displaytitle", "formatdate", "int", "namespace", "pagesinnamespace", "speciale",
    "special", "tag", "anchorencode", "basepagenamee", "basepagename", "canonicalurle",
    "canonicalurl", "cascadingsources", "defaultsort", "filepath", "formatnum",
    "fullpagenamee", "fullpagename", "fullurle", "fullurl", "gender", "grammar", "language",
    "lcfirst", "lc", "localurle", "localurl", "namespacee", "namespacenumber", "nse", "ns",
    "numberingroup", "numberofactiveusers", "numberofadmins", "numberofarticles",
    "numberofedits", "numberoffiles", "numberofpages", "numberofusers", "numberofviews",
    "padleft", "padright", "pageid", "pagenamee", "pagename", "pagesincategory", "pagesize",
    "plural", "protectionlevel", "revisionday2", "revisionday", "revisionid",
    "revisionmonth1", "revisionmonth", "revisiontimestamp", "revisionuser", "revisionyear",
    "rootpagenamee", "rootpagename", "subjectpagenamee", "subjectpagename", "subjectspacee",
    "subjectspace", "subpagenamee", "subpagename", "talkpagenamee", "talkpagename",
    "talkspacee", "talkspace", "ucfirst", "uc", "urlencode" ].map str

/-- The keys of `variablesMap` (template.go). -/
def variablesMap : List Str :=
  [ "articlepath", "basepagenamee", "basepagename", "cascadingsources", "contentlanguage",
    "currentday2", "currentdayname", "currentday", "currentdow", "currenthour",
    "currentmonth1", "currentmonthabbrev", "currentmonthnamegen", "currentmonthname",
    "currentmonth", "currenttimestamp", "currenttime", "currentversion", "currentweek",
    "currentyear", "directionmark", "fullpagenamee", "fullpagename", "localday2",
    "localdayname", "localday", "localdow", "localhour", "localmonth1", "localmonthabbrev",
    "localmonthnamegen", "localmonthname", "localmonth", "localtimestamp", "localtime",
    "localweek", "localyear", "namespacee", "namespacenumber", "namespace",
    "numberofactiveusers", "numberofadmins", "numberofarticles", "numberofedits",
    "numberoffiles", "numberofpages", "numberofusers", "numberofviews", "pageid",
    "pagenamee", "pagename", "revisionday2", "revisionday", "revisionid", "revisionmonth1",
    "revisionmonth", "revisionsize", "revisiontimestamp", "revisionuser", "revisionyear",
    "rootpagenamee", "rootpagename", "scriptpath", "servername", "server", "sitename",
    "stylepath", "subjectpagenamee", "subjectpagename", "subjectspacee", "subjectspace",
    "subpagenamee", "subpagename", "talkpagenamee", "talkpagename", "talkspacee",
    "talkspace" ].map str

/-- `templateType` (template.go). -/
def templateType (T : Tables) (tn : Str) : Str :=
  let index := Index tn [58]
  let tns := TrimSpace tn
  let base := if index > 0 then TrimSpace (tn.take index.toNat) else tns
  let base := ToLower T base
  if base ∈ noHashFunctionsMap ∨ base ∈ variablesMap then str "magic"
  else if startsWith tns [35] then str "ext"
  else str "normal"

/-- The keys of `MagicMap` (template.go). -/
def MagicMap : List Str := [str "DISPLAYTITLE"]

/-- `detectTemplateType` (template.go): base name, attribute and type. -/
def detectTemplateType (tn : Str) : Str × Str × Str :=
  let index := Index tn [58]
  let base := if index > 0 then TrimSpace (tn.take index.toNat) else tn
  let attr := if index > 0 then TrimSpace (tn.drop (index.toNat + 1)) else []
  if base ∈ MagicMap then (base, attr, str "magic") else (tn, [], str "normal")

/-- A template descriptor (template.go, `Template`). -/
structure Template where
  Typ : Str
  Name : Str
  Attr : Str
  Parameters : Params
deriving DecidableEq, Repr

/-- The descriptor that `Article.addTemplate` appends to `a.Templates`. -/
def addTemplate (tn : Str) (pm : Params) : Template :=
  let d := detectTemplateType tn
  { Typ := d.2.2, Name := d.1, Attr := d.2.1, Parameters := pm }

/-- The interface `PageGetter`: the page text of a link, or `none` for an error. -/
abbrev PageGetter := WikiLink → Option Str

/-- The Go slice expression `s[lo:hi]`, which panics unless `0 ≤ lo ≤ hi ≤ len(s)`. -/
def sliceChk (s : Str) (lo hi : Int) : Res Str :=
  if 0 ≤ lo ∧ lo ≤ hi ∧ hi ≤ (s.length : Int) then .ok (slice s lo.toNat hi.toNat) else .panic

/-- The redirect loop of `TranscludeTemplatesRecursive`: `true` when the loop is left by
`break`, `false` when the routine returns the empty string from inside the loop; with the
pages requested from the getter, in order. -/
def followRedirects (T : Tables) (g : PageGetter) :
    Nat → Str → Nat → List WikiLink → Res (Bool × List WikiLink)
  | 0, _, _, _ => .fuel
  | fuel + 1, mw, followed, tr =>
    if followed > 4 then .ok (false, tr)
    else
      let mws := stripComments mw
      match checkRedirect T mws with
      | .ok none => .ok (true, tr)
      | .ok (some redirect) =>
        match g redirect with
        | none => .ok (false, tr ++ [redirect])
        | some mw2 => followRedirects T g fuel mw2 (followed + 1) (tr ++ [redirect])
      | .panic => .panic
      | .fuel => .fuel

/-- The result of `renderInnerTemplates`: the templates after rendering, the name and
parameter map returned, and the pages requested from the getter. -/
abbrev Rendered := List template × (Str × Params) × List WikiLink

/-- `Article.TranscludeTemplatesRecursive`; `rit` is `renderInnerTemplates`.  Returns the
text and the pages requested from the getter. -/
def TranscludeTemplatesRecursive (T : Tables)
    (rit : List template → Str → Nat → Params → Nat → Res Rendered)
    (mw : Str) (params : Params) (g : PageGetter) (depth : Nat) : Res (Str × List WikiLink) :=
  -- `var mws string`: the loop below declares its own `mws`, this one stays empty
  let mws : Str := []
  match followRedirects T g 6 mw 0 [] with
  | .ok (false, tr) => .ok ([], tr)
  | .ok (true, tr) =>
    let mws := stripNoinclude mws
    match findTemplates mws with
    | .ok (tl, mlt) =>
      let r : Res (List template × Nat × Str × List WikiLink) :=
        mlt.foldl (fun acc ti =>
          match acc with
          | .ok (tl, last, out, tr) =>
            match rit tl mws ti params depth with
            | .ok (tl2, _, tr2) =>
              match tl2.get? ti with
              | some t => .ok (tl2, t.e, out ++ slice mws last t.b ++ t.rt, tr ++ tr2)
              | none => .panic
            | .panic => .panic
            | .fuel => .fuel
          | .panic => .panic
          | .fuel => .fuel) (.ok (tl, 0, [], tr))
      match r with
      | .ok (_, last, out, tr) => .ok (out ++ mws.drop last, tr)
      | .panic => .panic
      | .fuel => .fuel
    | .panic => .panic
    | .fuel => .fuel
  | .panic => .panic
  | .fuel => .fuel

/-- `Article.renderTemplateRecursive`; `rit` is `renderInnerTemplates`. -/
def renderTemplateRecursive (T : Tables)
    (rit : List template → Str → Nat → Params → Nat → Res Rendered)
    (name : Str) (params : Params) (g : PageGetter) (depth : Nat) : Res (Str × List WikiLink) :=
  if depth > 4 then .ok ([], [])
  else if templateType T name = str "magic" then .ok ([], [])
  else if templateType T name = str "ext" then .ok ([], [])
  else
    let page := WikiCanonicalFormNamespace T name (str "Template")
    match g page with
    | none => .ok ([], [page])
    | some mw =>
      match TranscludeTemplatesRecursive T rit mw params g depth with
      | .ok (out, tr) => .ok (out, page :: tr)
      | .panic => .panic
      | .fuel => .fuel

/-- The state of the loop of `renderInnerTemplates` that splices the rendered children
into the template text and moves the pipe positions accordingly. -/
structure Splice where
  pp : List (List Int)
  mw : Str
  tci : Nat
  ioff : Int
  ooff : Int
  ppi0 : Nat
  ppi1 : Nat

/-- The splicing loop of `renderInnerTemplates`. -/
def spliceLoop (tl : List template) (mws : Str) (t : template) : Nat → Splice → Res Splice
  | 0, _ => .fuel
  | fuel + 1, st =>
    if st.ppi0 < st.pp.length then
      match (st.pp.getD st.ppi0 []).get? st.ppi1 with
      | none => .panic
      | some v =>
        if v ≤ st.ioff then
          let row := (st.pp.getD st.ppi0 []).set st.ppi1 (v + st.ooff)
          let pp := st.pp.set st.ppi0 row
          if st.ppi1 + 1 ≥ row.length then
            spliceLoop tl mws t fuel { st with pp := pp, ppi0 := st.ppi0 + 1, ppi1 := 0 }
          else spliceLoop tl mws t fuel { st with pp := pp, ppi1 := st.ppi1 + 1 }
        else
          match (t.children.get? st.tci).bind tl.get? with
          | none => .panic
          | some c =>
            let ioff : Int :=
              match (t.children.get? (st.tci + 1)).bind tl.get? with
              | some c2 => c2.b
              | none => t.e
            match sliceChk mws c.e ioff with
            | .ok seg =>
              spliceLoop tl mws t fuel
                { st with mw := st.mw ++ c.rt ++ seg,
                          ooff := st.ooff + (c.rt.length : Int) - ((c.e : Int) - (c.b : Int)),
                          tci := st.tci + 1, ioff := ioff }
            | .panic => .panic
            | .fuel => .fuel
    else .ok st

/-- The parameter map built by `renderInnerTemplates` from the pipe positions `pp`:
positional parameters are named by their number, named ones by the text before `=`. -/
def buildParams (mw : Str) : Nat → List (List Int) → Params → Res Params
  | i, p :: q :: rest, pm =>
    match p, q with
    | p0 :: p1 :: _, q0 :: _ =>
      match sliceChk mw (p0 + 1) p1, sliceChk mw (p1 + 1) q0 with
      | .ok name, .ok param =>
        buildParams mw (i + 1) (q :: rest) (mapSet pm (TrimSpace name) (TrimSpace param))
      | .fuel, _ => .fuel
      | _, .fuel => .fuel
      | _, _ => .panic
    | [p0], q0 :: _ =>
      match sliceChk mw (p0 + 1) q0 with
      | .ok param => buildParams mw (i + 1) (q :: rest) (mapSet pm (itoa (i + 1)) (TrimSpace param))
      | .panic => .panic
      | .fuel => .fuel
    | _, _ => .panic
  | _, _, pm => .ok pm

/-- `Article.renderInnerTemplates` for the template at position `ti` of `tl`, with a
recursion budget.  The fields `rt` and `rendered` of the templates are updated in the
returned list. -/
def renderInnerTemplates (T : Tables) (g : PageGetter) :
    Nat → List template → Str → Nat → Params → Nat → Res Rendered
  | 0, _, _, _, _, _ => .fuel
  | fuel + 1, tl, mws, ti, params, depth =>
    match tl.get? ti with
    | none => .panic
    | some t =>
      -- render inner templates first
      let r : Res (List template × List WikiLink) :=
        t.children.foldl (fun acc it =>
          match acc with
          | .ok (tl, tr) =>
            match tl.get? it with
            | some c =>
              if ¬ c.rendered then
                match renderInnerTemplates T g fuel tl mws it params depth with
                | .ok (tl2, _, tr2) => .ok (tl2, tr ++ tr2)
                | .panic => .panic
                | .fuel => .fuel
              else .ok (tl, tr)
            | none => .panic
          | .panic => .panic
          | .fuel => .fuel) (.ok (tl, []))
      match r with
      | .panic => .panic
      | .fuel => .fuel
      | .ok (tl, tr) =>
        let pp := findTemplateParamPos tl mws t
        let n : Nat := if t.isparam then 3 else 2
        let pp : List (List Int) :=
          (pp.map (fun row => row.map (fun (v : Nat) => (v : Int)))) ++ [[(t.e : Int) - n]]
        let sp : Res Splice :=
          if t.children.length = 0 then
            .ok { pp := pp, mw := mws, tci := 0, ioff := 0, ooff := 0, ppi0 := 0, ppi1 := 0 }
          else
            match (t.children.get? 0).bind tl.get? with
            | none => .panic
            | some c0 =>
              match sliceChk mws t.b c0.b with
              | .ok seg =>
                spliceLoop tl mws t (pp.length * 2 + t.children.length + 1)
                  { pp := pp, mw := seg, tci := 0, ioff := c0.b, ooff := -(t.b : Int),
                    ppi0 := 0, ppi1 := 0 }
              | .panic => .panic
              | .fuel => .fuel
        match sp with
        | .panic => .panic
        | .fuel => .fuel
        | .ok st =>
          let pp := st.pp
          let mw := st.mw
          let tb : Nat := if t.children.length = 0 then t.b else 0
          let first : Int :=
            if pp.length > 1 then (pp.getD 0 []).getD 0 0
            else (pp.getD (pp.length - 1) []).getD 0 0
          let last : Int := (pp.getD (pp.length - 1) []).getD 0 0
          match sliceChk mw ((tb : Int) + n) first with
          | .panic => .panic
          | .fuel => .fuel
          | .ok rawName =>
            let tn := TrimSpace rawName
            if t.isparam then
              match params.lookup tn with
              | some text =>
                .ok (tl.set ti { t with rendered := true, rt := text }, ([], []), tr)
              | none =>
                if pp.length = 1 then
                  .ok (tl.set ti { t with rendered := true, rt := str "\x7b\x7b\x7b" ++ tn ++ str "\x7d\x7d\x7d" },
                    ([], []), tr)
                else
                  match sliceChk mw (first + 1) last with
                  | .ok d => .ok (tl.set ti { t with rendered := true, rt := d }, ([], []), tr)
                  | .panic => .panic
                  | .fuel => .fuel
            else
              match buildParams mw 0 pp [] with
              | .panic => .panic
              | .fuel => .fuel
              | .ok pm =>
                let rit := fun tl2 mws2 ti2 params2 depth2 =>
                  renderInnerTemplates T g fuel tl2 mws2 ti2 params2 depth2
                match renderTemplateRecursive T rit tn pm g (depth + 1) with
                | .ok (rt, tr2) =>
                  .ok (tl.set ti { t with rendered := true, rt := rt }, (tn, pm), tr ++ tr2)
                | .panic => .panic
                | .fuel => .fuel

/-- A `map[string]*Token`, as the list of its entries. -/
abbrev TokenMap := List (Str × Token)

/-- The result of `processTemplates`: the text with every top-level template replaced
by its rendering between two sentinels, the placeholder map, the template descriptors
appended to `a.Templates`, and the pages requested from the getter. -/
structure Processed where
  out : Str
  tokens : TokenMap
  templates : List Template
  trace : List WikiLink
deriving DecidableEq, Repr

/-- One iteration of the loop of `processTemplates`, for the top-level template `ti`:
the state holds the templates, the counter `i`, the offset `last` and the results so
far. -/
def processStep (T : Tables) (g : PageGetter) (fuel : Nat) (mws : Str)
    (acc : Res (List template × Nat × Nat × Processed)) (ti : Nat) :
    Res (List template × Nat × Nat × Processed) :=
  match acc with
  | .ok (tl, i, last, p) =>
    let sb := [7] ++ str "tb" ++ padded 5 i
    let se := [7] ++ str "te" ++ padded 5 i
    match renderInnerTemplates T g fuel tl mws ti [] 0 with
    | .ok (tl2, (tn, pm), tr2) =>
      match tl2.get? ti with
      | some t =>
        .ok (tl2, i + 1, t.e,
          { out := p.out ++ slice mws last t.b ++ (sb ++ t.rt ++ se),
            tokens := mapSet (mapSet p.tokens sb { TText := itoa i, TType := str "tb" })
                        se { TText := itoa i, TType := str "te" },
            templates := p.templates ++ [addTemplate tn pm],
            trace := p.trace ++ tr2 })
      | none => .panic
    | .panic => .panic
    | .fuel => .fuel
  | .panic => .panic
  | .fuel => .fuel

/-- `Article.processTemplates`, with a recursion budget for the template rendering. -/
def processTemplates (T : Tables) (fuel : Nat) (mws : Str) (tokens : TokenMap) (g : PageGetter) :
    Res Processed :=
  match findTemplates mws with
  | .panic => .panic
  | .fuel => .fuel
  | .ok (tl, mlt) =>
    match mlt.foldl (processStep T g fuel mws)
        (.ok (tl, 0, 0, { out := [], tokens := tokens, templates := [], trace := [] })) with
    | .ok (_, _, last, p) => .ok { p with out := p.out ++ mws.drop last }
    | .panic => .panic
    | .fuel => .fuel

/-! ## Verbatim regions (tokenize.go, `stripNowikiPreMath`) -/

/-- The class `\s` of Go regular expressions: `[\t\n\f\r ]`. -/
def isReSpace (c : Nat) : Bool := decide (c = 9 ∨ c = 10 ∨ c = 12 ∨ c = 13 ∨ c = 32)

/-- The match of the case-insensitive word `w` (ASCII, lower case) at the start of `s`:
the number of bytes matched.  Under `(?i)` the letter `k` also matches the Kelvin sign
and `s` the long s. -/
def matchFold : Str → Str → Option Nat
  | [], _ => some 0
  | w :: ws, s =>
    let d := decodeRune s
    if s ≠ [] ∧ ((d.1 < 0x80 ∧ lowerByte d.1 = w) ∨ (w = 107 ∧ d.1 = 0x212A) ∨
        (w = 115 ∧ d.1 = 0x17F)) then
      (matchFold ws (s.drop d.2)).map (fun k => k + d.2)
    else none

/-- The rest of a tag expression, `\s*[^>/]*>` (or `\s*[^>]*>` when a slash is
allowed), matched at the start of `s`: the number of bytes matched. -/
def matchTagRest (noSlash : Bool) (s : Str) : Option Nat :=
  let body := s.takeWhile (fun c => decide (c ≠ 62) && (!noSlash || decide (c ≠ 47)))
  if (s.drop body.length).head? = some 62 then some (body.length + 1) else none

/-- The match of `(?i)<\s*(name)\s*[^>/]*>` at the start of `s`: its length and the
span of the group. -/
def matchOpenTag (name : Str) (noSlash : Bool) (s : Str) : Option (Nat × Nat × Nat) :=
  match s with
  | 60 :: t =>
    let ws := (t.takeWhile isReSpace).length
    match matchFold name (t.drop ws) with
    | some k =>
      match matchTagRest noSlash (t.drop (ws + k)) with
      | some r => some (1 + ws + k + r, 1 + ws, 1 + ws + k)
      | none => none
    | none => none
  | _ => none

/-- The match of `(?i)<(/name)\s*[^>/]*>` at the start of `s`: its length and the span
of the group. -/
def matchCloseTag (name : Str) (noSlash : Bool) (s : Str) : Option (Nat × Nat × Nat) :=
  match s with
  | 60 :: t =>
    match matchFold (47 :: name) t with
    | some k =>
      match matchTagRest noSlash (t.drop k) with
      | some r => some (1 + k + r, 1, 1 + k)
      | none => none
    | none => none
  | _ => none

/-- One entry of the list `am` of `stripNowikiPreMath`: the match span `[s, e)`, the
span of the tag name `[gs, ge)` and the kind (0, 2, 4 for an opening nowiki, pre, math
tag; 1, 3, 5 for the closing ones).  The source keeps the five numbers in a slice. -/
structure TagMatch where
  s : Nat
  e : Nat
  gs : Nat
  ge : Nat
  typ : Nat
deriving DecidableEq, Repr

/-- `FindAllStringSubmatchIndex` for one of the six tag expressions: the successive
non-overlapping matches, leftmost first, from byte offset `pos`. -/
def findAllTags (m : Str → Option (Nat × Nat × Nat)) (typ : Nat) :
    Nat → Nat → Str → List TagMatch
  | 0, _, _ => []
  | _ + 1, _, [] => []
  | fuel + 1, pos, c :: t =>
    match m (c :: t) with
    | some (len, gs, ge) =>
      { s := pos, e := pos + len, gs := pos + gs, ge := pos + ge, typ := typ } ::
        findAllTags m typ fuel (pos + len) ((c :: t).drop len)
    | none => findAllTags m typ fuel (pos + 1) t

/-- Insertion into a list of matches ordered by start offset. -/
def insertByS (m : TagMatch) : List TagMatch → List TagMatch
  | [] => [m]
  | u :: us => if m.s < u.s then m :: u :: us else u :: insertByS m us

/-- `sort.Sort(ssInt(am))`: the matches by increasing start offset (matches of different
tag expressions start at different offsets). -/
def sortByS : List TagMatch → List TagMatch
  | [] => []
  | m :: ms => insertByS m (sortByS ms)

/-- The loop state of the sweep of `stripNowikiPreMath`; `ctype` is `none` for `-1`. -/
structure Sweep where
  ctype : Option Nat := none
  out : Str := []
  lastclose : Nat := 0
  openidx : Nat := 0
  count : Nat := 0
  tokens : TokenMap := []

/-- The token recorded for the region opened by the match `o` and closed at offset
`stop`. -/
def regionToken (T : Tables) (mw : Str) (o : TagMatch) (stop : Nat) : Token :=
  { TText := slice mw o.e stop,
    TType := ToLower T (slice mw o.gs o.ge),
    TAttr := slice mw o.ge (o.e - 1) }

/-- The list `am` of `stripNowikiPreMath`: the matches of the six tag expressions in
`mw`, by increasing start offset. -/
def tagEvents (mw : Str) : List TagMatch :=
  let n := mw.length
  let nwoc := findAllTags (matchOpenTag (str "nowiki") true) 0 n 0 mw
  let nwcc := findAllTags (matchCloseTag (str "nowiki") true) 1 n 0 mw
  let poc := findAllTags (matchOpenTag (str "pre") false) 2 n 0 mw
  let pcc := findAllTags (matchCloseTag (str "pre") false) 3 n 0 mw
  let moc := findAllTags (matchOpenTag (str "math") false) 4 n 0 mw
  let mcc := findAllTags (matchCloseTag (str "math") false) 5 n 0 mw
  sortByS (nwoc ++ nwcc ++ poc ++ pcc ++ moc ++ mcc)

/-- The entry `am[i]`. -/
def amAt (am : List TagMatch) (i : Nat) : TagMatch :=
  am.getD i { s := 0, e := 0, gs := 0, ge := 0, typ := 0 }

/-- The sentinel `fmt.Sprintf("\x07%07d", count)`. -/
def regionSentinel (count : Nat) : Str := [7] ++ padded 7 count

/-- One iteration of the sweep of `stripNowikiPreMath` over `am`, at index `i`. -/
def sweepStep (T : Tables) (mw : Str) (am : List TagMatch) (st : Sweep) (i : Nat) : Sweep :=
  let ami := amAt am i
  let amo := amAt am st.openidx
  if st.ctype ≠ none ∧ some ami.typ = st.ctype.map (fun c => c + 1) ∧ amo.e ≤ ami.s then
    let special := regionSentinel st.count
    { st with tokens := mapSet st.tokens special (regionToken T mw amo ami.s),
              out := st.out ++ special, ctype := none, lastclose := ami.e,
              count := st.count + 1 }
  else if st.ctype = none ∧ ami.typ % 2 = 0 ∧ st.lastclose ≤ ami.s then
    { st with out := st.out ++ slice mw st.lastclose ami.s, ctype := some ami.typ,
              openidx := i }
  else st

/-- The end of `stripNowikiPreMath`, after the sweep: a region still open is closed at
the end of the text. -/
def sweepFinish (T : Tables) (mw : Str) (am : List TagMatch) (st : Sweep) : Str × TokenMap :=
  if st.ctype ≠ none then
    let special := regionSentinel st.count
    (st.out ++ special,
      mapSet st.tokens special (regionToken T mw (amAt am st.openidx) mw.length))
  else (st.out ++ mw.drop st.lastclose, st.tokens)

/-- `Article.stripNowikiPreMath` (tokenize.go). -/
def stripNowikiPreMath (T : Tables) (mw : Str) : Str × TokenMap :=
  let am := tagEvents mw
  if am.length = 0 then (mw, [])
  else sweepFinish T mw am ((List.range am.length).foldl (sweepStep T mw am) {})

/-! ## Multi-line links (tokenize.go, `preprocessLinks`) -/

/-- The match of `(?sm)\[\[[^\n|]*\|.*?\]\]` at the start of `s`: its length. -/
def matchMultiLineLink (s : Str) : Option Nat :=
  match s with
  | 91 :: 91 :: t =>
    let name := t.takeWhile (fun c => decide (c ≠ 10 ∧ c ≠ 124))
    if (t.drop name.length).head? = some 124 then
      let i := Index (t.drop (name.length + 1)) [93, 93]
      if i ≥ 0 then some (2 + name.length + 1 + i.toNat + 2) else none
    else none
  | _ => none

/-- The walk of `preprocessLinks` over one match, rune by rune: a newline becomes a
space. -/
def newlinesToSpaces : Nat → Str → Str
  | 0, s => s
  | _ + 1, [] => []
  | fuel + 1, c :: t =>
    let d := decodeRune (c :: t)
    if d.1 = 10 then 32 :: newlinesToSpaces fuel t
    else (c :: t).take d.2 ++ newlinesToSpaces fuel ((c :: t).drop d.2)

/-- `Article.preprocessLinks`: inside every match of `multiLineLinksRe`, newlines
become spaces. -/
def preprocessLinksAux : Nat → Str → Str
  | 0, s => s
  | _ + 1, [] => []
  | fuel + 1, c :: t =>
    match matchMultiLineLink (c :: t) with
    | some len =>
      newlinesToSpaces len ((c :: t).take len) ++ preprocessLinksAux fuel ((c :: t).drop len)
    | none => c :: preprocessLinksAux fuel t

/-- `Article.preprocessLinks` (tokenize.go). -/
def preprocessLinks (s : Str) : Str := preprocessLinksAux s.length s

/-! ## Lines (tokenize.go) -/

/-- `strings.Split(s, "\n")`. -/
def splitLines : Str → List Str
  | [] => [[]]
  | c :: t =>
    match splitLines t with
    | [] => [[]]
    | l :: ls => if c = 10 then [] :: l :: ls else (c :: l) :: ls

/-- `Article.isHeading`, for a non-empty line. -/
def isHeading (l : Str) : Bool :=
  if l.head? ≠ some 61 then false
  else
    ((runes l).foldl (fun (st : Nat × Bool) p =>
      let done := st.1 + 1
      if done > 2 then
        if isSpace p.2 then (done, st.2)
        else if p.2 = 61 then (done, true)
        else (done, false)
      else (done, st.2)) (0, false)).2

/-- `Article.isTable`. -/
def isTable (l : Str) : Bool :=
  (decide (l.length > 1) && (decide (l.take 2 = str "\x7b|") || decide (l.take 2 = str "|\x7d") ||
      decide (l.take 2 = str "|+") || decide (l.take 2 = str "|-"))) ||
  (decide (l.length > 0) && (decide (l.take 1 = str "|") || decide (l.take 1 = str "!")))

/-- `Article.lineType`. -/
def lineType (T : Tables) (l : Str) : Str :=
  if l.length = 0 then str "blank"
  else if l.length > 8 ∧ ToLower T (l.take 9) = str "#redirect" then str "redirect"
  else if l.length > 3 ∧ l.take 4 = str "----" then str "hr"
  else if isHeading l then str "heading"
  else if l.head? = some 59 ∨ l.head? = some 58 ∨ l.head? = some 42 ∨ l.head? = some 35 then str "list"
  else if isTable l then str "table"
  else if l.head? = some 32 then str "wikipre"
  else str "normal"

/-- `Article.parseRedirectLine`. -/
def parseRedirectLine (T : Tables) (l : Str) : Res (List Token) :=
  match parseInlineText T (l.length + 1) l 9 l.length with
  | .ok nnt => .ok ({ TType := str "redirect" } :: nnt)
  | .panic => .panic
  | .fuel => .fuel

/-- `Article.parseWikiPreLine`. -/
def parseWikiPreLine (T : Tables) (l : Str) : Res (List Token) :=
  match parseInlineText T (l.length + 1) l 1 l.length with
  | .ok nnt => .ok ({ TType := str "wikipre" } :: nnt)
  | .panic => .panic
  | .fuel => .fuel

/-- `Article.parseHRuler`. -/
def parseHRuler (T : Tables) (l : Str) : Res (List Token) :=
  let pos : Nat := (((runes l).find? (fun p => decide (p.2 ≠ 45))).map (fun p => p.1)).getD 0
  if pos ≠ 0 then
    match parseInlineText T (l.length + 1) l pos l.length with
    | .ok nnt => .ok ({ TType := str "hrule" } :: nnt)
    | .panic => .panic
    | .fuel => .fuel
  else .ok [{ TType := str "hrule" }]

/-- The byte `l[i]`, which panics unless `0 ≤ i < len(l)`. -/
def byteAt (l : Str) (i : Int) : Res Nat :=
  if 0 ≤ i then
    match l.get? i.toNat with
    | some c => .ok c
    | none => .panic
  else .panic

/-- The loop of `parseHeadingLine` that matches the leading `=` against the trailing
ones; returns `pf` and `pl` as they stand after the loop. -/
def headingLoop (l : Str) : Nat → Int → Int → Res (Int × Int)
  | 0, _, _ => .fuel
  | fuel + 1, pf, pl =>
    let pf := pf + 1
    if pf = pl then .ok (pf - 1, pl)
    else
      match byteAt l pf with
      | .panic => .panic
      | .fuel => .fuel
      | .ok c =>
        if c ≠ 61 then .ok (pf - 1, pl)
        else
          let pl := pl - 1
          if pf = pl then .ok (pf - 1, pl + 1)
          else
            match byteAt l pl with
            | .panic => .panic
            | .fuel => .fuel
            | .ok c2 => if c2 ≠ 61 then .ok (pf - 1, pl + 1) else headingLoop l fuel pf pl

/-- The first loop of `parseHeadingLine`: the byte index of the last `=` of the line. -/
def lastEq (l : Str) : Nat := (runes l).foldl (fun pl p => if p.2 = 61 then p.1 else pl) 0

/-- `Article.parseHeadingLine`. -/
def parseHeadingLine (T : Tables) (l : Str) : Res (List Token) :=
  match headingLoop l (l.length + 1) 0 (lastEq l) with
  | .panic => .panic
  | .fuel => .fuel
  | .ok (pf, pl) =>
    let pf := pf + 1
    let diff : Int := if pf > 6 then pf - 6 else 0
    let pf := pf - diff
    let pl := pl + diff
    if pf < 0 ∨ pl < 0 then .panic
    else
      match parseInlineText T (l.length + 1) l pf.toNat pl.toNat with
      | .ok nnt => .ok ({ TType := str "h" ++ itoa pf.toNat } :: nnt)
      | .panic => .panic
      | .fuel => .fuel

/-- `Article.parseListLine`. -/
def parseListLine (T : Tables) (l : Str) : Res (List Token) :=
  let marks := l.takeWhile (fun c => decide (c = 59 ∨ c = 58 ∨ c = 42 ∨ c = 35))
  let nt : List Token := marks.map (fun c => { TType := [c] })
  let pos := marks.length
  if pos < l.length then
    match parseInlineText T (l.length + 1) l pos l.length with
    | .ok nnt => .ok (nt ++ nnt)
    | .panic => .panic
    | .fuel => .fuel
  else .ok nt

/-- `Article.parseTableLine`. -/
def parseTableLine (_l : Str) : Res (List Token) := .ok []

/-- The tokens of one line, followed by the `newline` token. -/
def tokenizeLine (T : Tables) (l : Str) : Res (List Token) :=
  let lt := lineType T l
  let r : Res (List Token) :=
    if lt = str "normal" then parseInlineText T (l.length + 1) l 0 l.length
    else if lt = str "redirect" then parseRedirectLine T l
    else if lt = str "hr" then parseHRuler T l
    else if lt = str "heading" then parseHeadingLine T l
    else if lt = str "list" then parseListLine T l
    else if lt = str "table" then parseTableLine l
    else if lt = str "wikipre" then parseWikiPreLine T l
    else if lt = str "blank" then .ok [{ TType := str "blank" }]
    else .ok []
  match r with
  | .ok nt => .ok (nt ++ [{ TType := str "newline" }])
  | .panic => .panic
  | .fuel => .fuel

/-- The tokens of all lines, in order. -/
def tokenizeLines (T : Tables) : List Str → Res (List Token)
  | [] => .ok []
  | l :: ls =>
    match tokenizeLine T l, tokenizeLines T ls with
    | .ok a, .ok b => .ok (a ++ b)
    | .panic, _ => .panic
    | .fuel, _ => .fuel
    | _, .panic => .panic
    | _, .fuel => .fuel

/-- The pass of `Tokenize` that replaces every `special` token by the token stored for
its text in the placeholder map; `none` when a text is not in the map. -/
def resolveSpecials (m : TokenMap) : List Token → Option (List Token)
  | [] => some []
  | t :: ts =>
    if t.TType = str "special" then
      match m.lookup t.TText, resolveSpecials m ts with
      | some u, some us => some (u :: us)
      | _, _ => none
    else (resolveSpecials m ts).map (fun us => t :: us)

/-- The result of `Tokenize`: the tokens, or the error message; with the template
descriptors added to the article and the pages requested from the getter. -/
structure Tokenized where
  tokens : Except Str (List Token)
  templates : List Template
  trace : List WikiLink

/-- `Article.Tokenize` (tokenize.go); `fuel` is the recursion budget of the template
rendering. -/
def Tokenize (T : Tables) (fuel : Nat) (mw : Str) (g : PageGetter) : Res Tokenized :=
  let mwnc := stripComments mw
  let sn := stripNowikiPreMath T mwnc
  match processTemplates T fuel sn.1 sn.2 g with
  | .panic => .panic
  | .fuel => .fuel
  | .ok p =>
    let mw_links := preprocessLinks p.out
    match tokenizeLines T (splitLines mw_links) with
    | .panic => .panic
    | .fuel => .fuel
    | .ok tokens =>
      match resolveSpecials p.tokens tokens with
      | some ts => .ok { tokens := .ok ts, templates := p.templates, trace := p.trace }
      | none =>
        .ok { tokens := .error (str "special not in map"), templates := p.templates,
              trace := p.trace }

/-! ## The quote state machine (parse.go, `doQuotes`) -/

/-- The emphasis state: the constants `QS_none`, `QS_i`, `QS_b`, `QS_ib`, `QS_bi`. -/
inductive QS where
  | none | i | b | ib | bi
deriving DecidableEq, Repr

/-- An html token with the given tag text. -/
def htmlTok (s : String) : Token := { TType := str "html", TText := str s }

/-- The closing tags emitted for a state at a link boundary, a newline or the end. -/
def closeOut : QS → List Token
  | .b => [htmlTok "/b"]
  | .i => [htmlTok "/i"]
  | .ib => [htmlTok "/b", htmlTok "/i"]
  | .bi => [htmlTok "/i", htmlTok "/b"]
  | .none => []

/-- The action of `doQuotes` for a run of `l` apostrophes in state `state`: the tokens
emitted and the new state. -/
def quoteAction (l : Nat) (state : QS) : List Token × QS :=
  if l = 0 then ([], state)
  else if l = 1 then ([{ TText := str "'", TType := str "text" }], state)
  else if l = 2 then
    match state with
    | .b => ([htmlTok "i"], .bi)
    | .i => ([htmlTok "/i"], .none)
    | .bi => ([htmlTok "/i"], .b)
    | .ib => ([htmlTok "/b", htmlTok "/i", htmlTok "b"], .b)
    | .none => ([htmlTok "i"], .i)
  else if l = 3 ∨ l = 4 then
    let pre : List Token := if l = 4 then [{ TText := str "'", TType := str "text" }] else []
    match state with
    | .b => (pre ++ [htmlTok "/b"], .none)
    | .i => (pre ++ [htmlTok "b"], .ib)
    | .ib => (pre ++ [htmlTok "/b"], .i)
    | .bi => (pre ++ [htmlTok "/i", htmlTok "/b", htmlTok "i"], .i)
    | .none => (pre ++ [htmlTok "b"], .b)
  else
    let s : Str := List.replicate (l - 5) 39
    let pre : List Token := if s.length > 0 then [{ TText := s, TType := str "text" }] else []
    match state with
    | .b => (pre ++ [htmlTok "/b", htmlTok "i"], .i)
    | .i => (pre ++ [htmlTok "/i", htmlTok "b"], .b)
    | .ib => (pre ++ [htmlTok "/b", htmlTok "/i"], .none)
    | .bi => (pre ++ [htmlTok "/i", htmlTok "/b"], .none)
    | .none => (pre ++ [htmlTok "b", htmlTok "i"], .bi)

/-- The loop state of `doQuotes`. -/
structure QState where
  state : QS := .none
  save : QS := .none
  l : Nat := 0
  tn : List Token := []

/-- One iteration of the loop of `doQuotes`, for the token `t`; `last` tells whether it
is the last token of the list. -/
def quoteStep (st : QState) (t : Token) (last : Bool) : QState :=
  let st := if t.TType = str "quote" then { st with l := st.l + 1 } else st
  let st :=
    if t.TType ≠ str "quote" ∨ last then
      let r := quoteAction st.l st.state
      { st with tn := st.tn ++ r.1, state := r.2, l := 0 }
    else st
  let st :=
    if t.TType = str "link" ∨ t.TType = str "extlink" ∨ t.TType = str "filelink" then
      { st with save := st.state, tn := st.tn ++ closeOut st.state, state := .none, l := 0 }
    else st
  let st :=
    if t.TType = str "closelink" ∨ t.TType = str "closeextlink" ∨ t.TType = str "closefilelink" then
      { st with tn := st.tn ++ closeOut st.state, state := st.save, save := .none, l := 0 }
    else st
  let st :=
    if t.TType ≠ str "quote" ∧ t.TType ≠ str "newline" then { st with tn := st.tn ++ [t] } else st
  let st :=
    if t.TType = str "newline" ∨ last then
      { st with tn := st.tn ++ closeOut st.state, state := .none, l := 0, save := .none }
    else st
  if t.TType = str "newline" then { st with tn := st.tn ++ [t] } else st

/-- The loop of `doQuotes` over the tokens. -/
def quoteLoop : List Token → QState → QState
  | [], st => st
  | t :: rest, st => quoteLoop rest (quoteStep st t rest.isEmpty)

/-- `Article.doQuotes`: the new value of `a.Tokens`. -/
def doQuotes (tokens : List Token) : List Token := (quoteLoop tokens {}).tn

/-! ## The tree builder (parse.go) -/

/-- A node of the parse tree (parse.go, `ParseNode`). -/
inductive ParseNode where
  | mk (NType : Str) (NSubType : Str) (Link : WikiLink) (Contents : Str) (Flags : Nat)
      (Nodes : List ParseNode)
deriving Repr

/-- The field `NType`. -/
def ParseNode.NType : ParseNode → Str
  | .mk a _ _ _ _ _ => a

/-- The field `NSubType`. -/
def ParseNode.NSubType : ParseNode → Str
  | .mk _ a _ _ _ _ => a

/-- The field `Link`. -/
def ParseNode.Link : ParseNode → WikiLink
  | .mk _ _ a _ _ _ => a

/-- The field `Contents`. -/
def ParseNode.Contents : ParseNode → Str
  | .mk _ _ _ a _ _ => a

/-- The field `Flags`. -/
def ParseNode.Flags : ParseNode → Nat
  | .mk _ _ _ _ a _ => a

/-- The field `Nodes`. -/
def ParseNode.Nodes : ParseNode → List ParseNode
  | .mk _ _ _ _ _ a => a

/-- A node with the given kind, subkind and contents, and no children. -/
def leaf (ntype nsub : String) (contents : Str) : ParseNode :=
  .mk (str ntype) (str nsub) ⟨[], [], []⟩ contents 0 []

/-- The constant `TClosed`. -/
def TClosed : Nat := 1

/-- The constant `maxInnerParseErrorCount`. -/
def maxInnerParseErrorCount : Nat := 100

/-- A link with its text span (gowiki.go, `FullWikiLink`). -/
structure FullWikiLink where
  Link : WikiLink
  Text : Str
  Start : Nat
  End : Nat
deriving DecidableEq, Repr

/-- The article (gowiki.go, `Article`). -/
structure Article where
  MediaWiki : Str := []
  Title : Str := []
  Links : List WikiLink := []
  ExtLinks : List Str := []
  Type_ : Str := []
  AbstractText : Str := []
  Media : List WikiLink := []
  Tokens : List Token := []
  Root : Option ParseNode := none
  Parsed : Bool := false
  Text : Str := []
  TextLinks : List FullWikiLink := []
  Templates : List Template := []
  gt : Bool := false
  text : Str := []
  nchar : Nat := 0
  innerParseErrorCount : Nat := 0

/-- `strconv.Atoi`: the value of an optional sign followed by decimal digits. -/
def Atoi (s : Str) : Option Int :=
  let body := match s with
    | 43 :: t => t
    | 45 :: t => t
    | _ => s
  if body.length = 0 ∨ ¬ body.all (fun c => decide (48 ≤ c ∧ c ≤ 57)) then none
  else
    let v : Nat := body.foldl (fun acc c => acc * 10 + (c - 48)) 0
    let v : Int := if s.head? = some 45 then -(v : Int) else v
    if v < -9223372036854775808 ∨ v > 9223372036854775807 then none else some v

/-- The scan for the close token that matches an open link or file link: from position
`ni` over the tokens `ts`, with `nopen` links open; returns the position of the match, or
the length of the list. -/
def findClose (opn cls : Str) : List Token → Nat → Nat → Nat
  | [], ni, _ => ni
  | t :: ts, ni, nopen =>
    let nopen := if t.TType = opn then nopen + 1 else if t.TType = cls then nopen - 1 else nopen
    if nopen = 0 then ni else findClose opn cls ts (ni + 1) nopen

/-- The scan for the closing tag of an html element `tag`, counting nested elements of
the same tag. -/
def findCloseTag (T : Tables) (tag : Str) : List Token → Nat → Nat → Nat
  | [], ni, _ => ni
  | t :: ts, ni, nopen =>
    if t.TType = str "html" then
      let ntag := ToLower T t.TText
      let nopen := if ntag = tag then nopen + 1 else if ntag = [47] ++ tag then nopen - 1 else nopen
      if nopen = 0 then ni else findCloseTag T tag ts (ni + 1) nopen
    else findCloseTag T tag ts (ni + 1) nopen

/-- The position of the first token of `ts` (which starts at position `ni`) whose kind
is in `kinds`, or the length of the list. -/
def findKind (kinds : List Str) : List Token → Nat → Nat
  | [], ni => ni
  | t :: ts, ni => if t.TType ∈ kinds then ni else findKind kinds ts (ni + 1)

/-- The scan of the `wikipre` case: from position `ni`, a `wikipre` token after a newline
is turned into `nop`, and the scan stops at the first newline not followed by one.
Returns the tokens, the final `ni` and `closebefore`. -/
def wikipreScan : Nat → List Token → Nat → List Token × Nat × Nat
  | 0, t, ni => (t, ni, t.length)
  | fuel + 1, t, ni =>
    if ni + 1 < t.length then
      match t.get? ni, t.get? (ni + 1) with
      | some a, some b =>
        if a.TType = str "newline" then
          if b.TType = str "wikipre" then
            wikipreScan fuel (t.set (ni + 1) { b with TType := str "nop" }) (ni + 1)
          else (t, ni, ni)
        else wikipreScan fuel t (ni + 1)
      | _, _ => (t, ni, t.length)
    else (t, ni, t.length)

/-- The result of `internalParse`: the article, the tokens (a `wikipre` token may have
been turned into `nop`), and the nodes or the error. -/
abbrev Parsed := Article × List Token × Except Str (List ParseNode)

/-- The main loop of `Article.internalParse` at position `ti`; `lastti` is `none` for
`-1`; `nl` holds the nodes built so far. -/
def parseLoop (T : Tables) :
    Nat → Article → List Token → Nat → Option Nat → List ParseNode → Res Parsed
  | 0, _, _, _, _, _ => .fuel
  | fuel + 1, a, t, ti, lastti, nl =>
    match t.get? ti with
    | none => .ok (a, t, .ok nl)
    | some tok =>
      if lastti = some ti then .ok (a, t, .error (str "parsing issue"))
      else
        let ty := tok.TType
        -- the interior `t[ti+1:ni]` parsed, put back in place, and the node built by `mk`
        let inner (a : Article) (ni : Nat) (next : Nat) (mk : List ParseNode → ParseNode) :
            Res Parsed :=
          if ni > ti + 1 then
            match parseLoop T fuel a (slice t (ti + 1) ni) 0 none [] with
            | .ok (a2, sub, .ok nodes) =>
              parseLoop T fuel a2 (t.take (ti + 1) ++ sub ++ t.drop ni) next (some ti)
                (nl ++ [mk nodes])
            | .ok (a2, sub, .error e) => .ok (a2, t.take (ti + 1) ++ sub ++ t.drop ni, .error e)
            | .panic => .panic
            | .fuel => .fuel
          else parseLoop T fuel a t next (some ti) (nl ++ [mk []])
        if ty = str "nowiki" then
          parseLoop T fuel a t (ti + 1) (some ti)
            (nl ++ [leaf "text" "nowiki" (UnescapeString T tok.TText)])
        else if ty = str "text" then
          parseLoop T fuel a t (ti + 1) (some ti) (nl ++ [leaf "text" "" (UnescapeString T tok.TText)])
        else if ty = str "math" then
          parseLoop T fuel a t (ti + 1) (some ti) (nl ++ [leaf "math" "" tok.TText])
        else if ty = str "pre" then
          parseLoop T fuel a t (ti + 1) (some ti)
            (nl ++ [.mk (str "html") (str "pre") ⟨[], [], []⟩ tok.TAttr 0
              [leaf "text" "pre" (UnescapeString T tok.TText)]])
        else if ty = str "nop" then parseLoop T fuel a t (ti + 1) (some ti) nl
        else if ty = str "wikipre" then
          let r := wikipreScan t.length t (ti + 1)
          let t := r.1
          let ni := r.2.1
          let closebefore := r.2.2
          if closebefore ≤ ni + 1 then
            parseLoop T fuel a t (ti + 1) (some ti) (nl ++ [leaf "html" "pre" []])
          else
            match parseLoop T fuel a (slice t (ti + 1) closebefore) 0 none [] with
            | .ok (a2, sub, .ok nodes) =>
              parseLoop T fuel a2 (t.take (ti + 1) ++ sub ++ t.drop closebefore) closebefore
                (some ti) (nl ++ [.mk (str "html") (str "pre") ⟨[], [], []⟩ [] 0 nodes])
            | .ok (a2, sub, .error e) =>
              .ok (a2, t.take (ti + 1) ++ sub ++ t.drop closebefore, .error e)
            | .panic => .panic
            | .fuel => .fuel
        else if ty = str "extlink" then
          let ni := findKind [str "closeextlink"] (t.drop (ti + 1)) (ti + 1)
          if ni = t.length then
            .ok (a, t, .error (str "Unmatched external link token for link: " ++ tok.TText))
          else
            inner { a with ExtLinks := a.ExtLinks ++ [tok.TText] } ni (ni + 1)
              (fun nodes => .mk (str "extlink") [] ⟨[], [], []⟩ tok.TText 0 nodes)
        else if ty = str "closeextlink" then
          .ok (a, t, .error (str "Unmatched close external link token"))
        else if ty = str "hrule" then
          parseLoop T fuel a t (ti + 1) (some ti) (nl ++ [leaf "html" "hr" []])
        else if ty = str "magic" then
          parseLoop T fuel a t (ti + 1) (some ti) (nl ++ [leaf "magic" "" tok.TText])
        else if ty = str "colon" then
          parseLoop T fuel a t (ti + 1) (some ti) (nl ++ [leaf "text" "" (str ":")])
        else if ty = str "space" then
          parseLoop T fuel a t (ti + 1) (some ti) (nl ++ [leaf "space" "" (str " ")])
        else if ty = str "blank" then
          parseLoop T fuel a t (ti + 1) (some ti) (nl ++ [leaf "break" "" []])
        else if ty = str "redirect" then
          let ni := findKind [str "newline", str "link"] (t.drop (ti + 1)) (ti + 1)
          match t.get? ni with
          | none =>
            parseLoop T fuel a t (ti + 1) (some ti) (nl ++ [leaf "text" "" (UnescapeString T tok.TText)])
          | some tni =>
            if tni.TType = str "newline" then
              parseLoop T fuel a t (ti + 1) (some ti)
                (nl ++ [leaf "text" "" (UnescapeString T tok.TText)])
            else
              parseLoop T fuel a t (ti + 1) (some ti)
                (nl ++ [.mk (str "redirect") tni.TAttr tni.TLink [] 0 []])
        else if ty = str "link" then
          let ni := findClose (str "link") (str "closelink") (t.drop (ti + 1)) (ti + 1) 1
          if ni = t.length then
            .ok (a, t, .error (str "Unmatched link token for link: " ++ tok.TLink.PageName ++
              str " namespace: " ++ tok.TLink.Namespace))
          else
            inner { a with Links := a.Links ++ [tok.TLink] } ni (ni + 1)
              (fun nodes => .mk (str "link") [] tok.TLink [] 0 nodes)
        else if ty = str "filelink" then
          let ni := findClose (str "filelink") (str "closefilelink") (t.drop (ti + 1)) (ti + 1) 1
          if ni = t.length then
            .ok (a, t, .error (str "Unmatched filelink token for filelink: " ++
              tok.TLink.PageName ++ str " namespace: " ++ tok.TLink.Namespace))
          else
            inner { a with Media := a.Media ++ [tok.TLink] } ni (ni + 1)
              (fun nodes => .mk (str "image") [] tok.TLink [] 0 nodes)
        else if ty = str "closelink" then .ok (a, t, .error (str "Unmatched close link token"))
        else if ty = str "closefilelink" then
          .ok (a, t, .error (str "Unmatched close file link token"))
        else if ty = str "html" then
          let tag := ToLower T tok.TText
          match tag.head? with
          | none => .panic
          | some c0 =>
            if c0 = 47 then parseLoop T fuel a t (ti + 1) (some ti) nl
            else if tok.TClosed then
              parseLoop T fuel a t (ti + 1) (some ti)
                (nl ++ [.mk (str "html") tag ⟨[], [], []⟩ tok.TAttr TClosed []])
            else
              let ni := findCloseTag T tag (t.drop (ti + 1)) (ti + 1) 1
              let next := if ni + 1 > t.length then t.length else ni + 1
              if ni > ti + 1 then
                match parseLoop T fuel a (slice t (ti + 1) ni) 0 none [] with
                | .ok (a2, sub, .ok nodes) =>
                  parseLoop T fuel a2 (t.take (ti + 1) ++ sub ++ t.drop ni) next (some ti)
                    (nl ++ [.mk (str "html") tag ⟨[], [], []⟩ tok.TAttr 0 nodes])
                | .ok (a2, sub, .error e) =>
                  let a3 := { a2 with innerParseErrorCount := a2.innerParseErrorCount + 1 }
                  let t3 := t.take (ti + 1) ++ sub ++ t.drop ni
                  if a3.innerParseErrorCount ≥ maxInnerParseErrorCount then .ok (a3, t3, .error e)
                  else parseLoop T fuel a3 t3 (ti + 1) (some ti) nl
                | .panic => .panic
                | .fuel => .fuel
              else
                parseLoop T fuel a t next (some ti)
                  (nl ++ [.mk (str "html") tag ⟨[], [], []⟩ tok.TAttr 0 []])
        else if ty = str "*" ∨ ty = str "#" ∨ ty = str ";" ∨ ty = str ":" then
          parseLoop T fuel a t (ti + 1) (some ti) nl
        else if ty = str "newline" then
          parseLoop T fuel a t (ti + 1) (some ti) (nl ++ [leaf "text" "" [10]])
        else if ty = str "h1" ∨ ty = str "h2" ∨ ty = str "h3" ∨ ty = str "h4" ∨ ty = str "h5" ∨
            ty = str "h6" then
          let ni := findKind [str "newline"] (t.drop (ti + 1)) (ti + 1)
          if ni = t.length then .ok (a, t, .error (str "No newline after heading"))
          else inner a ni (ni + 1) (fun nodes => .mk (str "html") ty ⟨[], [], []⟩ [] 0 nodes)
        else if ty = str "tb" ∨ ty = str "te" then
          match Atoi tok.TText with
          | none => .ok (a, t, .error (str "Malformed tb token"))
          | some templateIndex =>
            if templateIndex ≥ (a.Templates.length : Int) then
              .ok (a, t, .error (str "Template index out of range"))
            else if templateIndex < 0 then .panic
            else
              match a.Templates.get? templateIndex.toNat with
              | some tpl =>
                parseLoop T fuel a t (ti + 1) (some ti)
                  (nl ++ [.mk ty [] ⟨[], [], []⟩ tpl.Name 0 []])
              | none => .panic
        else .ok (a, t, .error (str "Unrecognized token type: " ++ ty))

/-- `Article.internalParse`. -/
def internalParse (T : Tables) (a : Article) (t : List Token) : Res Parsed :=
  parseLoop T (2 * t.length + 2) a t 0 none []

/-- `Article.parse`: the article after parsing and the error, if any. -/
def parse (T : Tables) (a : Article) : Res (Article × Option Str) :=
  let a := { a with Tokens := doQuotes a.Tokens }
  match internalParse T a a.Tokens with
  | .ok (a2, t2, .ok nodes) =>
    .ok ({ a2 with Tokens := t2, Root := some (.mk (str "root") [] ⟨[], [], []⟩ [] 0 nodes),
                   Parsed := true }, none)
  | .ok (a2, t2, .error e) => .ok ({ a2 with Tokens := t2 }, some e)
  | .panic => .panic
  | .fuel => .fuel

/-- `NewArticle` (gowiki.go). -/
def NewArticle (title text : Str) : Article := { Title := title, MediaWiki := text }

/-- `ParseArticle` (parse.go): the article and the error, if any; with the pages
requested from the getter.  `fuel` is the recursion budget of the template rendering. -/
def ParseArticle (T : Tables) (fuel : Nat) (title text : Str) (g : PageGetter) :
    Res (Article × Option Str) :=
  let a := NewArticle title text
  match Tokenize T fuel a.MediaWiki g with
  | .panic => .panic
  | .fuel => .fuel
  | .ok tk =>
    let a := { a with Templates := a.Templates ++ tk.templates }
    match tk.tokens with
    | .error e => .ok (a, some e)
    | .ok tokens =>
      match parse T { a with Tokens := tokens } with
      | .ok (a2, none) => .ok ({ a2 with gt := false }, none)
      | .ok (a2, some e) => .ok (a2, some e)
      | .panic => .panic
      | .fuel => .fuel

/-! ## The plain-text projection (text.go) -/

/-- `Article.appendText`. -/
def appendText (a : Article) (t : Str) : Article :=
  { a with nchar := a.nchar + (runes t).length, text := a.text ++ t }

mutual
/-- `Article.genTextInternal` for the node list `nodes` of a parent, with the flag
`lastwasspace` of the loop. -/
def genTextNodes : List ParseNode → Bool → Article → Article
  | [], _, a => a
  | n :: rest, lastwasspace, a => genTextNodes rest (decide (n.NType = str "space"))
      (genTextNode n lastwasspace a)
/-- One iteration of the loop of `genTextInternal`, for the node `n`. -/
def genTextNode : ParseNode → Bool → Article → Article
  | .mk ntype nsub link contents _ nodes, lastwasspace, a =>
    let isLink : Bool := decide (ntype = str "link")
    let linkStart := a.text.length
    let start := a.nchar
    let r : Article × Str :=
      if ntype = str "break" then (appendText a [10], [])
      else if ntype = str "space" then (if ¬ lastwasspace then appendText a [32] else a, [])
      else if ntype = str "text" then (appendText a contents, [])
      else if ntype = str "image" then (appendText a [10], [10])
      else if ntype = str "html" then
        if nsub = str "h1" ∨ nsub = str "h2" ∨ nsub = str "h3" ∨ nsub = str "h4" ∨
            nsub = str "h5" ∨ nsub = str "h6" then
          let a := appendText a [10]
          (if a.AbstractText.length = 0 then { a with AbstractText := a.text } else a, [10])
        else if nsub = str "br" then (appendText a [10], [])
        else if nsub = str "ref" then (appendText a [32], [])
        else (a, [])
      else (a, [])
    let a := r.1
    let tappend := r.2
    let a := genTextNodes nodes false a
    let a :=
      if isLink then
        { a with TextLinks := a.TextLinks ++
            [{ Link := link, Start := start, End := a.nchar, Text := a.text.drop linkStart }] }
      else a
    appendText a tappend
end

/-- `Article.genText`.  A nil `Root` makes the source panic. -/
def genText (a : Article) : Res Article :=
  match a.Root with
  | none => .panic
  | some root =>
    let a := { a with text := [], nchar := 0, AbstractText := [] }
    let a := genTextNodes root.Nodes false a
    let a := { a with Text := a.text }
    let a := if a.AbstractText.length = 0 then { a with AbstractText := a.Text } else a
    .ok { a with gt := true }

/-- `Article.GenText`. -/
def GenText (a : Article) : Res Article := genText a

/-- `Article.GetText`: the article after the call and the text returned. -/
def GetText (a : Article) : Res (Article × Str) :=
  if ¬ a.gt then
    match genText a with
    | .ok a2 => .ok (a2, a2.Text)
    | .panic => .panic
    | .fuel => .fuel
  else .ok (a, a.Text)

/-- `Article.GetAbstract`. -/
def GetAbstract (a : Article) : Res (Article × Str) :=
  if ¬ a.gt then
    match genText a with
    | .ok a2 => .ok (a2, a2.AbstractText)
    | .panic => .panic
    | .fuel => .fuel
  else .ok (a, a.AbstractText)

/-- `Article.GetTextLinks`. -/
def GetTextLinks (a : Article) : Res (Article × List FullWikiLink) :=
  if ¬ a.gt then
    match genText a with
    | .ok a2 => .ok (a2, a2.TextLinks)
    | .panic => .panic
    | .fuel => .fuel
  else .ok (a, a.TextLinks)

/-- `Article.CheckRedirect` (utils.go). -/
def CheckRedirect (a : Article) : Option WikiLink :=
  let r : Bool × Option WikiLink :=
    (a.Tokens.take 11).foldl (fun (st : Bool × Option WikiLink) t =>
      if st.2.isSome then st
      else if t.TType = str "redirect" then (true, none)
      else if t.TType = str "link" ∧ st.1 then (st.1, some t.TLink)
      else st) (false, none)
  r.2

/-! ## Observations used in the statements -/

/-- The value of an outcome, if there is one. -/
def Res.val? {α : Type} : Res α → Option α
  | .ok a => some a
  | _ => none

mutual
/-- The nodes of a tree in pre-order (first-visit order). -/
def preorder : ParseNode → List ParseNode
  | .mk a b c d e ns => .mk a b c d e ns :: preorderList ns
/-- The nodes of a list of trees in pre-order. -/
def preorderList : List ParseNode → List ParseNode
  | [] => []
  | n :: ns => preorder n ++ preorderList ns
end

/-- Kind, subkind and contents of every node of the parse tree of an article, in
pre-order. -/
def nodeKinds (a : Article) : List (Str × Str × Str) :=
  match a.Root with
  | some r => (preorder r).map (fun n => (n.NType, n.NSubType, n.Contents))
  | none => []

/-- Kind and text of every token. -/
def tokenKinds (ts : List Token) : List (Str × Str) := ts.map (fun t => (t.TType, t.TText))

/-- `DummyPageGetter` (gowiki.go): every page is empty. -/
def DummyPageGetter : PageGetter := fun _ => some []

/-- A getter that knows the page `Template:Echo`, with text `{{{1}}}`; asking for any
other page is an error. -/
def echoGetter : PageGetter := fun wl =>
  if wl.Namespace = str "Template" ∧ wl.PageName = str "Echo" then some (str "\x7b\x7b\x7b1\x7d\x7d\x7d")
  else none

/-- A getter whose every page transcludes the template `X` again. -/
def selfGetter : PageGetter := fun _ => some (str "\x7b\x7bX\x7d\x7d")

/-- A getter whose every page is a redirect to the page `X`. -/
def redirectGetter : PageGetter := fun _ => some (str "#REDIRECT [[X]]")

/-- The substring of `s` made of the runes with indices in `[a, b)`, the indices counted
in runes as a `for range` loop over `s` counts them. -/
def runeSlice (s : Str) (a b : Nat) : Str :=
  let off := fun k => (((runes s).get? k).map (fun p => p.1)).getD s.length
  slice s (off a) (off b)

mutual
/-- The nodes of a tree whose root is at depth `d`, in pre-order, each with its depth,
kind and contents. -/
def shape : Nat → ParseNode → List (Nat × Str × Str)
  | d, .mk a _ _ c _ ns => (d, a, c) :: shapeList (d + 1) ns
/-- The same for a list of trees whose roots are at depth `d`. -/
def shapeList : Nat → List ParseNode → List (Nat × Str × Str)
  | _, [] => []
  | d, n :: ns => shape d n ++ shapeList d ns
end

/-- Depth, kind and contents of every node of the parse tree of an article, in
pre-order; the root has depth 0. -/
def treeShape (a : Article) : List (Nat × Str × Str) :=
  match a.Root with
  | some r => shape 0 r
  | none => []

/-! ## Notions used in the proofs -/

/-- A string without underscore in which no space is followed by a space: the strings
that `canoReSpaces` leaves unchanged. -/
def noRun : Str → Bool
  | [] => true
  | c :: t => decide (c ≠ 95) && (decide (c ≠ 32) || (decide (t.head? ≠ some 32))) && noRun t

/-- What the proof of the case-folding property uses of a key of the namespace table. -/
def goodKey (kv : Str × Str) : Bool :=
  isASCII kv.1 && noRun kv.1 && decide (35 ∉ kv.1) && decide (58 ∉ kv.1) && decide (38 ∉ kv.1) &&
  (match kv.1.head? with | some b => !isSpace b | none => false) &&
  (match kv.1.getLast? with | some b => !isSpace b | none => false) &&
  decide (StandardNamespaces.lookup kv.1 = some kv.2)

/-- The page name computed by `WikiCanonicalFormNamespaceEsc` from the text after the
namespace: trimmed, collapsed, optionally unescaped, first byte upper-cased. -/
def canonArticle (T : Tables) (u : Bool) (x : Str) : Str :=
  let article := TrimSpace (canoReSpaces x)
  let article := if u then UnescapeString T article else article
  if article.length > 0 then ToUpper T (article.take 1) ++ article.drop 1 else article

/-- The anchor computed by `WikiCanonicalFormNamespaceEsc` from the text after `#`. -/
def canonAnchor (T : Tables) (u : Bool) (x : Str) : Str :=
  if u then UnescapeString T (canoReSpaces x) else canoReSpaces x

/-- The namespace candidate computed from the text before the first colon. -/
def canonCns (T : Tables) (u : Bool) (x : Str) : Str :=
  if u then UnescapeString T (TrimSpace (canoReSpaces x)) else TrimSpace (canoReSpaces x)

/-- The part of `WikiCanonicalFormNamespaceEsc` after the split at `#`, by cases on the
first colon and on the namespace table. -/
def canonBody (T : Tables) (nss : Namespaces) (l anchor d : Str) (u : Bool) : WikiLink :=
  if Index l [58] ≥ 0 then
    match nss.lookup (ToLower T (canonCns T u (l.take (Index l [58]).toNat))) with
    | some ns =>
      { Namespace := if (canonCns T u (l.take (Index l [58]).toNat)).length > 0 then ns else [],
        PageName := canonArticle T u (l.drop ((Index l [58]) + 1).toNat),
        Anchor := canonAnchor T u anchor }
    | none => { Namespace := d, PageName := canonArticle T u l, Anchor := canonAnchor T u anchor }
  else { Namespace := d, PageName := canonArticle T u l, Anchor := canonAnchor T u anchor }

/-- Whether a node is an html node with subtype `h1` to `h6`. -/
def isHeadingNode (n : ParseNode) : Bool :=
  decide (n.NType = str "html") &&
  decide (n.NSubType ∈ [str "h1", str "h2", str "h3", str "h4", str "h5", str "h6"])

/-- A word none of whose proper leading parts is also a trailing part: two occurrences
of such a word in a text cannot overlap. -/
def borderFree (sep : Str) : Bool :=
  (List.range sep.length).all (fun j => decide (j = 0) || decide (sep.drop j ≠ sep.take (sep.length - j)))

/-- The variable `base` of `templateType` after lower-casing: the trimmed text before
the first `:`, or the whole trimmed name when there is no `:` after position 0. -/
def templateBase (T : Tables) (tn : Str) : Str :=
  ToLower T (if Index tn [58] > 0 then TrimSpace (tn.take (Index tn [58]).toNat) else TrimSpace tn)

/-- The replacement of one token by the pass of `Tokenize` over the specials: a
`special` token becomes the token stored for its text in the map `m`. -/
def resolveToken (m : TokenMap) (t : Token) : Token :=
  if t.TType = str "special" then (m.lookup t.TText).getD t else t

/-- All bytes of `mw` at the offsets in `[lo, hi)` are `c`. -/
def allByte (mw : Str) (c lo hi : Nat) : Prop := ∀ k, lo ≤ k → k < hi → mw.get? k = some c

/-- What the loop of `findCurlyStreaks` keeps true of its state `(out, found, beg)` when
the next rune starts at offset `pos`: the spans found are runs of at least two equal
braces, in increasing order, before `beg`; and the bytes from `beg` to `pos` are the brace
`found`, when `found` is a brace. -/
def streakInv (mw : Str) (st : List (Nat × Nat) × Nat × Nat) (pos : Nat) : Prop :=
  (∀ p ∈ st.1, p.1 + 2 ≤ p.2 ∧ p.2 ≤ st.2.2 ∧
    ∃ c, (c = 123 ∨ c = 125) ∧ allByte mw c p.1 p.2) ∧
  List.Pairwise (fun a b : Nat × Nat => a.2 ≤ b.1) st.1 ∧
  st.2.2 ≤ pos ∧
  ((st.2.1 = 123 ∨ st.2.1 = 125) → allByte mw st.2.1 st.2.2 pos)

/-- A streak record describes a run of its own kind of brace in `mw`: it spans `length`
bytes from `b` to `e`, all of them `'{'` for an opening streak and `'}'` otherwise. -/
def streakOK (mw : Str) (s : streak) : Prop :=
  s.b + s.length = s.e ∧ s.e ≤ mw.length ∧ allByte mw (if s.opening then 123 else 125) s.b s.e

/-- The streak records describe runs of braces of `mw`, in increasing order. -/
def streaksInv (mw : Str) (l : List streak) : Prop :=
  (∀ k s, l.get? k = some s → streakOK mw s) ∧
  (∀ k m sk sm, k < m → l.get? k = some sk → l.get? m = some sm → sk.e ≤ sm.b)

/-- The number of braces of a template on each side. -/
def braces (t : template) : Nat := if t.isparam then 3 else 2

/-- The template starts with its opening braces and ends with its closing braces. -/
def templateOK (mw : Str) (t : template) : Prop :=
  allByte mw 123 t.b (t.b + braces t) ∧ allByte mw 125 (t.e - braces t) t.e ∧
  t.b + 2 * braces t ≤ t.e

/-- The fields of a template that say where it lies and what it is. -/
def templateKey (t : template) : Nat × Nat × Bool := (t.b, t.e, t.isparam)

/-- What one iteration of the loop of `internalParse` does at a token: return the error
`e`; crash; go to the next token with the nodes `new` appended (the tokens are `t1`: a
`wikipre` token may have been turned into `nop`); or parse the interior `t1[ti+1:ni]` with
the article `a1`, append the node `mk nodes` and go on at `next`, where `recover` tells
whether a failure of the interior is tolerated (html elements). -/
inductive Step where
  | stop (e : Str)
  | crash
  | next (t1 : List Token) (new : List ParseNode)
  | nest (a1 : Article) (t1 : List Token) (ni next : Nat) (mk : List ParseNode → ParseNode)
      (recover : Bool)

/-- The iteration of the loop of `internalParse` at the token `tok = t[ti]`, read off the
cases of `parseLoop`. -/
def stepOf (T : Tables) (a : Article) (t : List Token) (ti : Nat) (tok : Token) : Step :=
  let ty := tok.TType
  if ty = str "nowiki" then .next t [leaf "text" "nowiki" (UnescapeString T tok.TText)]
  else if ty = str "text" then .next t [leaf "text" "" (UnescapeString T tok.TText)]
  else if ty = str "math" then .next t [leaf "math" "" tok.TText]
  else if ty = str "pre" then
    .next t [.mk (str "html") (str "pre") ⟨[], [], []⟩ tok.TAttr 0
      [leaf "text" "pre" (UnescapeString T tok.TText)]]
  else if ty = str "nop" then .next t []
  else if ty = str "wikipre" then
    let r := wikipreScan t.length t (ti + 1)
    if r.2.2 ≤ r.2.1 + 1 then .next r.1 [leaf "html" "pre" []]
    else .nest a r.1 r.2.2 r.2.2
      (fun nodes => .mk (str "html") (str "pre") ⟨[], [], []⟩ [] 0 nodes) false
  else if ty = str "extlink" then
    let ni := findKind [str "closeextlink"] (t.drop (ti + 1)) (ti + 1)
    if ni = t.length then .stop (str "Unmatched external link token for link: " ++ tok.TText)
    else .nest { a with ExtLinks := a.ExtLinks ++ [tok.TText] } t ni (ni + 1)
      (fun nodes => .mk (str "extlink") [] ⟨[], [], []⟩ tok.TText 0 nodes) false
  else if ty = str "closeextlink" then .stop (str "Unmatched close external link token")
  else if ty = str "hrule" then .next t [leaf "html" "hr" []]
  else if ty = str "magic" then .next t [leaf "magic" "" tok.TText]
  else if ty = str "colon" then .next t [leaf "text" "" (str ":")]
  else if ty = str "space" then .next t [leaf "space" "" (str " ")]
  else if ty = str "blank" then .next t [leaf "break" "" []]
  else if ty = str "redirect" then
    let ni := findKind [str "newline", str "link"] (t.drop (ti + 1)) (ti + 1)
    match t.get? ni with
    | none => .next t [leaf "text" "" (UnescapeString T tok.TText)]
    | some tni =>
      if tni.TType = str "newline" then .next t [leaf "text" "" (UnescapeString T tok.TText)]
      else .next t [.mk (str "redirect") tni.TAttr tni.TLink [] 0 []]
  else if ty = str "link" then
    let ni := findClose (str "link") (str "closelink") (t.drop (ti + 1)) (ti + 1) 1
    if ni = t.length then
      .stop (str "Unmatched link token for link: " ++ tok.TLink.PageName ++
        str " namespace: " ++ tok.TLink.Namespace)
    else .nest { a with Links := a.Links ++ [tok.TLink] } t ni (ni + 1)
      (fun nodes => .mk (str "link") [] tok.TLink [] 0 nodes) false
  else if ty = str "filelink" then
    let ni := findClose (str "filelink") (str "closefilelink") (t.drop (ti + 1)) (ti + 1) 1
    if ni = t.length then
      .stop (str "Unmatched filelink token for filelink: " ++
        tok.TLink.PageName ++ str " namespace: " ++ tok.TLink.Namespace)
    else .nest { a with Media := a.Media ++ [tok.TLink] } t ni (ni + 1)
      (fun nodes => .mk (str "image") [] tok.TLink [] 0 nodes) false
  else if ty = str "closelink" then .stop (str "Unmatched close link token")
  else if ty = str "closefilelink" then .stop (str "Unmatched close file link token")
  else if ty = str "html" then
    let tag := ToLower T tok.TText
    match tag.head? with
    | none => .crash
    | some c0 =>
      if c0 = 47 then .next t []
      else if tok.TClosed then .next t [.mk (str "html") tag ⟨[], [], []⟩ tok.TAttr TClosed []]
      else
        let ni := findCloseTag T tag (t.drop (ti + 1)) (ti + 1) 1
        .nest a t ni (if ni + 1 > t.length then t.length else ni + 1)
          (fun nodes => .mk (str "html") tag ⟨[], [], []⟩ tok.TAttr 0 nodes) true
  else if ty = str "*" ∨ ty = str "#" ∨ ty = str ";" ∨ ty = str ":" then .next t []
  else if ty = str "newline" then .next t [leaf "text" "" [10]]
  else if ty = str "h1" ∨ ty = str "h2" ∨ ty = str "h3" ∨ ty = str "h4" ∨ ty = str "h5" ∨
      ty = str "h6" then
    let ni := findKind [str "newline"] (t.drop (ti + 1)) (ti + 1)
    if ni = t.length then .stop (str "No newline after heading")
    else .nest a t ni (ni + 1) (fun nodes => .mk (str "html") ty ⟨[], [], []⟩ [] 0 nodes) false
  else if ty = str "tb" ∨ ty = str "te" then
    match Atoi tok.TText with
    | none => .stop (str "Malformed tb token")
    | some templateIndex =>
      if templateIndex ≥ (a.Templates.length : Int) then .stop (str "Template index out of range")
      else if templateIndex < 0 then .crash
      else
        match a.Templates.get? templateIndex.toNat with
        | some tpl => .next t [.mk ty [] ⟨[], [], []⟩ tpl.Name 0 []]
        | none => .crash
  else .stop (str "Unrecognized token type: " ++ ty)

/-- The loop of `internalParse` after the iteration `s` at position `ti`, where `loop` is
the loop itself. -/
def runStep (loop : Article → List Token → Nat → Option Nat → List ParseNode → Res Parsed)
    (a : Article) (t : List Token) (ti : Nat) (nl : List ParseNode) : Step → Res Parsed
  | .stop e => .ok (a, t, .error e)
  | .crash => .panic
  | .next t1 new => loop a t1 (ti + 1) (some ti) (nl ++ new)
  | .nest a1 t1 ni next mk recover =>
    if ni > ti + 1 then
      match loop a1 (slice t1 (ti + 1) ni) 0 none [] with
      | .ok (a2, sub, .ok nodes) =>
        loop a2 (t1.take (ti + 1) ++ sub ++ t1.drop ni) next (some ti) (nl ++ [mk nodes])
      | .ok (a2, sub, .error e) =>
        if recover then
          if a2.innerParseErrorCount + 1 ≥ maxInnerParseErrorCount then
            .ok ({ a2 with innerParseErrorCount := a2.innerParseErrorCount + 1 },
              t1.take (ti + 1) ++ sub ++ t1.drop ni, .error e)
          else
            loop { a2 with innerParseErrorCount := a2.innerParseErrorCount + 1 }
              (t1.take (ti + 1) ++ sub ++ t1.drop ni) (ti + 1) (some ti) nl
        else .ok (a2, t1.take (ti + 1) ++ sub ++ t1.drop ni, .error e)
      | .panic => .panic
      | .fuel => .fuel
    else loop a1 t1 next (some ti) (nl ++ [mk []])

/-- The kinds of the link tokens: the three opening kinds and their closing kinds. -/
def linkKinds : List Str :=
  [str "link", str "closelink", str "filelink", str "closefilelink", str "extlink",
   str "closeextlink"]

/-- The three pairs of an opening kind and its closing kind. -/
def linkPairs : List (Str × Str) :=
  [(str "link", str "closelink"), (str "filelink", str "closefilelink"),
   (str "extlink", str "closeextlink")]

/-- The kind of a link token, and the empty string for every other token. -/
def linkKind (tok : Token) : Str := if tok.TType ∈ linkKinds then tok.TType else []

/-- Bracket matching of the tokens of kinds `o` (open) and `c` (close), read from left to
right at depth `d`: the depth at the end, or `none` when a close token arrives at depth
0, that is, when it has no open token before it to match.  The tokens of the two kinds
pair up exactly when the result from depth 0 is `some 0`. -/
def depthScan (o c : Str) : List Token → Nat → Option Nat
  | [], d => some d
  | t :: ts, d =>
    if t.TType = o then depthScan o c ts (d + 1)
    else if t.TType = c then (if d = 0 then none else depthScan o c ts (d - 1))
    else depthScan o c ts d

/-- The `Link` values of the nodes of kind `link` of the trees `ns`, in pre-order. -/
def linkNodes (ns : List ParseNode) : List WikiLink :=
  ((preorderList ns).filter (fun n => decide (n.NType = str "link"))).map ParseNode.Link

/-- The tokens `t1` are the tokens `t` with some `wikipre` tokens turned into `nop`. -/
def retyped (t t1 : List Token) : Prop :=
  List.Forall₂ (fun x y : Token =>
    y = x ∨ (x.TType = str "wikipre" ∧ y = { x with TType := str "nop" })) t t1

/-- A token the tree builder can read: an `html` token has a tag name and a `tb` or `te`
token does not hold a negative number. -/
def saneToken (tok : Token) : Prop :=
  (tok.TType = str "html" → tok.TText ≠ []) ∧
  (tok.TType = str "tb" ∨ tok.TType = str "te" → ∀ v, Atoi tok.TText = some v → 0 ≤ v)

/-- What the proofs use of one iteration of the loop of `internalParse` at the token
`tok = t[ti]`: a crash needs a token that is not `saneToken`; a plain step is at a token
that is no link token and adds no link node; a nested step parses an interior that lies
within the tokens, adds the link of a `link` token to `Links` and nothing else, and is
either at an open link token whose close token stands at `ni`, or at a token that is no
link token and skips at most one token after the interior, no link token either. -/
def stepFacts (a : Article) (t : List Token) (ti : Nat) (tok : Token) : Step → Prop
  | .stop _ => True
  | .crash => ¬ saneToken tok
  | .next t1 new => linkKind tok = [] ∧ linkNodes new = [] ∧ retyped t t1
  | .nest a1 t1 ni next mk recover =>
    ti + 1 ≤ ni ∧ ni ≤ t.length ∧ retyped t t1 ∧ a1.Templates = a.Templates ∧
    a1.innerParseErrorCount = a.innerParseErrorCount ∧
    ((a1.Links = a.Links ∧ ∀ nodes, linkNodes [mk nodes] = linkNodes nodes) ∨
     (a1.Links = a.Links ++ [tok.TLink] ∧
       ∀ nodes, linkNodes [mk nodes] = tok.TLink :: linkNodes nodes)) ∧
    ((∃ p ∈ linkPairs, tok.TType = p.1 ∧ next = ni + 1 ∧ recover = false ∧
        ∃ tc, t.get? ni = some tc ∧ tc.TType = p.2) ∨
     (linkKind tok = [] ∧
       (next = ni ∨ (next = ni + 1 ∧ ∃ tc, t.get? ni = some tc ∧ linkKind tc = []))))

/-- Whether an outcome of `ParseArticle` is an article without an error. -/
def parsedOK (r : Res (Article × Option Str)) : Bool :=
  match r with
  | .ok (_, none) => true
  | _ => false

/-- Whether a token is a link token. -/
def isLinkToken (tok : Token) : Bool := decide (tok.TType ∈ linkKinds)

/-- A token made by `doQuotes`: an html token with text `i`, `/i`, `b` or `/b`, or a text
token made only of apostrophes. -/
def quoteMade (x : Token) : Prop :=
  (x.TType = str "html" ∧ x.TText ∈ [str "i", str "/i", str "b", str "/b"]) ∨
  (x.TType = str "text" ∧ ∀ c ∈ x.TText, c = 39)

/-- Whether a token is not of kind `quote`. -/
def notQuote (x : Token) : Bool := decide (x.TType ≠ str "quote")

/-- The list `out` is the list `ins` with tokens made by `doQuotes` put in between. -/
inductive Inserted : List Token → List Token → Prop where
  | done : Inserted [] []
  | keep (x : Token) (xs ys : List Token) : Inserted xs ys → Inserted (x :: xs) (x :: ys)
  | add (y : Token) (xs ys : List Token) : quoteMade y → Inserted xs ys → Inserted xs (y :: ys)

/-- A text token of `n` apostrophes. -/
def apostrophes (n : Nat) : Token := { TText := List.replicate n 39, TType := str "text" }

/-- The tokens the action table gives for a first run of `l` apostrophes, in state
none. -/
def openRun (l : Nat) : List Token :=
  if l = 1 then [apostrophes 1]
  else if l = 2 then [htmlTok "i"]
  else if l = 3 then [htmlTok "b"]
  else if l = 4 then [apostrophes 1, htmlTok "b"]
  else (if l = 5 then [] else [apostrophes (l - 5)]) ++ [htmlTok "b", htmlTok "i"]

/-- The tokens the action table gives for a second run of `l` apostrophes, after a first
run of the same length. -/
def closeRun (l : Nat) : List Token :=
  if l = 1 then [apostrophes 1]
  else if l = 2 then [htmlTok "/i"]
  else if l = 3 then [htmlTok "/b"]
  else if l = 4 then [apostrophes 1, htmlTok "/b"]
  else (if l = 5 then [] else [apostrophes (l - 5)]) ++ [htmlTok "/i", htmlTok "/b"]

/-- A token that is no quote, no newline and no link token. -/
def plainToken (t : Token) : Bool :=
  decide (t.TType ∉ [str "quote", str "newline", str "link", str "extlink", str "filelink",
    str "closelink", str "closeextlink", str "closefilelink"])

/-- The abstract gathered so far is an initial part of the text gathered so far. -/
def absOK (a : Article) : Prop := a.AbstractText <+: a.text

/-- Tokens on which interiors of html elements fail and nothing else does: `d` open tags
`<b>`, a heading token, `d` closing tags `</b>`, a newline.  Inside every element the
heading has no newline after it; seen from outside all of them, it has.  The interior of
the outermost element fails after the failures of `failingNest (d - 1)`, and the loop then
goes on at the next open tag, which is the start of `failingNest (d - 1)` again: the
number of failed interiors is `2 ^ d - 1`. -/
def failingNest (d : Nat) : List Token :=
  List.replicate d (htmlTok "b") ++ [{ TType := str "h1" }] ++
    List.replicate d (htmlTok "/b") ++ [{ TType := str "newline" }]

/-- The counter of failed interiors and the error of an outcome of `parse`. -/
def parseOutcome (r : Res (Article × Option Str)) : Option (Nat × Option Str) :=
  match r with
  | .ok (a, e) => some (a.innerParseErrorCount, e)
  | _ => none

/-! # Properties -/

/-! ## Lemmas on strings -/

theorem IndexByte_of_not_mem (s : Str) (c : Nat) (h : c ∉ s) : IndexByte s c = -1 := by
  unfold IndexByte
  have : s.indexOf c = s.length := List.indexOf_eq_length.mpr h
  simp [this]

theorem IndexByte_append_cons (a b : Str) (c : Nat) (h : c ∉ a) :
    IndexByte (a ++ c :: b) c = (a.length : Int) := by
  unfold IndexByte
  have h1 : (a ++ c :: b).indexOf c = a.length := by
    induction a with
    | nil => simp
    | cons x xs ih =>
      have hx : x ≠ c := fun e => h (by simp [e])
      have hxs : c ∉ xs := fun e => h (by simp [e])
      simp [List.indexOf_cons, hx, ih hxs]
  simp [h1]

theorem indexFrom_single_not_mem (c : Nat) (s : Str) (i : Nat) (h : c ∉ s) :
    indexFrom [c] i s = -1 := by
  induction s generalizing i with
  | nil => simp [indexFrom]
  | cons x xs ih =>
    have hx : c ≠ x := fun e => h (by simp [e])
    have hxs : c ∉ xs := fun e => h (by simp [e])
    simp [indexFrom, List.isPrefixOf, hx, ih _ hxs]

theorem indexFrom_single_append (c : Nat) (a b : Str) (i : Nat) (h : c ∉ a) :
    indexFrom [c] i (a ++ c :: b) = ((i + a.length : Nat) : Int) := by
  induction a generalizing i with
  | nil => simp [indexFrom, List.isPrefixOf]
  | cons x xs ih =>
    have hx : c ≠ x := fun e => h (by simp [e])
    have hxs : c ∉ xs := fun e => h (by simp [e])
    simp [indexFrom, List.isPrefixOf, hx, ih _ hxs]
    omega

theorem Index_single_not_mem (c : Nat) (s : Str) (h : c ∉ s) : Index s [c] = -1 :=
  indexFrom_single_not_mem c s 0 h

theorem Index_single_append (c : Nat) (a b : Str) (h : c ∉ a) :
    Index (a ++ c :: b) [c] = (a.length : Int) := by
  have := indexFrom_single_append c a b 0 h
  simpa [Index] using this

theorem canoReSpaces_of_noRun (s : Str) (h : noRun s = true) : canoReSpaces s = s := by
  induction s with
  | nil => rfl
  | cons c t ih =>
    simp only [noRun, Bool.and_eq_true, Bool.or_eq_true, decide_eq_true_eq] at h
    obtain ⟨⟨h1, h2⟩, h3⟩ := h
    unfold canoReSpaces
    by_cases hc : c = 32
    · subst hc
      cases t with
      | nil => simp
      | cons d t' =>
        have hd : d ≠ 32 := by
          rcases h2 with h2 | h2
          · exact absurd rfl h2
          · simpa using h2
        have hd' : d ≠ 95 := by
          simp only [noRun, Bool.and_eq_true, Bool.or_eq_true, decide_eq_true_eq] at h3
          exact h3.1.1
        simp [hd, hd', ih h3]
    · simp [hc, h1, ih h3]

theorem noRun_canoReSpaces (s : Str) : noRun (canoReSpaces s) = true := by
  induction s with
  | nil => rfl
  | cons c t ih =>
    unfold canoReSpaces
    by_cases hc : c = 32 ∨ c = 95
    · simp only [hc, if_true]
      cases t with
      | nil => simp [noRun]
      | cons d t' =>
        by_cases hd : d = 32 ∨ d = 95
        · simp only [hd, if_true]; exact ih
        · simp only [hd, if_false]
          have h2 : canoReSpaces (d :: t') = d :: canoReSpaces t' := by
            conv_lhs => unfold canoReSpaces
            simp [hd]
          rw [h2] at ih ⊢
          simp only [noRun, Bool.and_eq_true, Bool.or_eq_true, decide_eq_true_eq] at ih ⊢
          push_neg at hd
          refine ⟨⟨by decide, Or.inr ?_⟩, ih⟩
          simp [hd.1]
    · simp only [hc, if_false]
      push_neg at hc
      simp only [noRun, Bool.and_eq_true, Bool.or_eq_true, decide_eq_true_eq]
      exact ⟨⟨hc.2, Or.inl hc.1⟩, ih⟩

theorem unescapeLoop_of_not_mem (T : Tables) (fuel : Nat) (s : Str) (h : 38 ∉ s) :
    unescapeLoop T fuel s = s := by
  induction s generalizing fuel with
  | nil => cases fuel <;> rfl
  | cons c t ih =>
    cases fuel with
    | zero => rfl
    | succ f =>
      have hc : c ≠ 38 := fun e => h (by simp [e])
      have ht : 38 ∉ t := fun e => h (by simp [e])
      simp [unescapeLoop, hc, ih f ht]

theorem UnescapeString_of_not_mem (T : Tables) (s : Str) (h : 38 ∉ s) : UnescapeString T s = s :=
  unescapeLoop_of_not_mem T _ s h


theorem decodeRune_ascii (b : Nat) (t : Str) (h : b < 0x80) : decodeRune (b :: t) = (b, 1) := by
  simp [decodeRune, h]

theorem decodeLastRune_ascii (s : Str) (e : Nat) (h : s.getLast? = some e) (he : e < 0x80) :
    decodeLastRune s = (e, 1) := by
  unfold decodeLastRune
  have hr : s.reverse.head? = some e := by simpa using h
  cases hrev : s.reverse with
  | nil => simp [hrev] at hr
  | cons b0 rest =>
    rw [hrev] at hr
    simp only [List.head?_cons, Option.some.injEq] at hr
    subst hr
    simp [he]

theorem TrimSpace_of_ascii_ends (s : Str) (b e : Nat) (hb : s.head? = some b) (hb1 : b < 0x80)
    (hb2 : isSpace b = false) (he : s.getLast? = some e) (he1 : e < 0x80)
    (he2 : isSpace e = false) : TrimSpace s = s := by
  cases s with
  | nil => simp at hb
  | cons c t =>
    simp only [List.head?_cons, Option.some.injEq] at hb
    subst hb
    have hl : trimLeftSpace (c :: t).length (c :: t) = c :: t := by
      simp [trimLeftSpace, decodeRune_ascii c t hb1, hb2]
    unfold TrimSpace
    simp only [hl]
    simp [trimRightSpace, decodeLastRune_ascii _ e he he1, he2]

theorem lowerByte_lt (c : Nat) : lowerByte c < 0x80 ↔ c < 0x80 := by
  unfold lowerByte; split <;> omega

theorem isSpace_lowerByte (c : Nat) : isSpace (lowerByte c) = isSpace c := by
  unfold lowerByte
  split
  · rename_i h
    have h1 : isSpace (c + 32) = false := by simp [isSpace]; omega
    have h2 : isSpace c = false := by simp [isSpace]; omega
    rw [h1, h2]
  · rfl

theorem noRun_map_lowerByte (s : Str) : noRun (s.map lowerByte) = noRun s := by
  have e95 : ∀ c, lowerByte c = 95 ↔ c = 95 := by intro c; unfold lowerByte; split <;> omega
  have e32 : ∀ c, lowerByte c = 32 ↔ c = 32 := by intro c; unfold lowerByte; split <;> omega
  induction s with
  | nil => rfl
  | cons c t ih =>
    simp only [List.map_cons, noRun, ih]
    congr 1
    congr 1
    · simp [e95]
    · congr 1
      · simp [e32]
      · cases t with
        | nil => simp
        | cons d t' => simp [e32]

theorem isASCII_of_map_lowerByte (s : Str) (h : isASCII (s.map lowerByte) = true) :
    isASCII s = true := by
  simp only [isASCII, List.all_eq_true, decide_eq_true_eq, List.mem_map, forall_exists_index,
    and_imp, forall_apply_eq_imp_iff₂] at h ⊢
  intro c hc
  exact (lowerByte_lt c).mp (h c hc)

theorem mem_map_lowerByte_of_mem (s : Str) (c : Nat) (hc : ¬ (65 ≤ c ∧ c ≤ 90)) (h : c ∈ s) :
    c ∈ s.map lowerByte := by
  refine List.mem_map.mpr ⟨c, h, ?_⟩
  simp [lowerByte, hc]

theorem ToLower_of_isASCII (T : Tables) (s : Str) (h : isASCII s = true) :
    ToLower T s = s.map lowerByte := by
  simp [ToLower, h]

set_option maxRecDepth 100000 in
theorem StandardNamespaces_goodKey : ∀ kv ∈ StandardNamespaces, goodKey kv = true := by
  decide!

theorem split_first (c : Nat) (s : Str) (h : c ∈ s) : ∃ a b, s = a ++ c :: b ∧ c ∉ a := by
  induction s with
  | nil => simp at h
  | cons x xs ih =>
    by_cases hx : x = c
    · exact ⟨[], xs, by simp [hx], by simp⟩
    · have hxs : c ∈ xs := by
        rcases List.mem_cons.mp h with h | h
        · exact absurd h.symm hx
        · exact h
      obtain ⟨a, b, hab, ha⟩ := ih hxs
      refine ⟨x :: a, b, by simp [hab], ?_⟩
      simp only [List.mem_cons, not_or]
      exact ⟨fun e => hx e.symm, ha⟩

theorem canonBody_eq (T : Tables) (nss : Namespaces) (l anchor d : Str) (u : Bool) :
    (let i := Index l [58]
     let r : Str × Int :=
       if i ≥ 0 then
         let cns := TrimSpace (canoReSpaces (l.take i.toNat))
         let cns := if u then UnescapeString T cns else cns
         match nss.lookup (ToLower T cns) with
         | some ns => if cns.length > 0 then (ns, i) else ([], i)
         | none => (d, -1)
       else (d, i)
     let ns := r.1
     let i := r.2
     let article := TrimSpace (canoReSpaces (l.drop (i + 1).toNat))
     let anchor := canoReSpaces anchor
     let article := if u then UnescapeString T article else article
     let anchor := if u then UnescapeString T anchor else anchor
     let article := if article.length > 0 then ToUpper T (article.take 1) ++ article.drop 1 else article
     ({ Namespace := ns, PageName := article, Anchor := anchor } : WikiLink))
    = canonBody T nss l anchor d u := by
  unfold canonBody canonArticle canonAnchor canonCns
  by_cases hi : Index l [58] ≥ 0
  · simp only [hi, if_true]
    cases u <;>
    · simp only [Bool.false_eq_true, if_false, if_true]
      split <;> rename_i h
      · split <;> simp_all
      · simp_all
  · have hi2 : Index l [58] = -1 := by
      by_cases hm : 58 ∈ l
      · obtain ⟨a, b, rfl, ha⟩ := split_first 58 l hm
        rw [Index_single_append 58 a b ha] at hi
        omega
      · exact Index_single_not_mem 58 l hm
    simp only [hi, if_false, hi2]
    simp


theorem canon_unfold (T : Tables) (nss : Namespaces) (l d : Str) (u : Bool) :
    WikiCanonicalFormNamespaceEsc T nss l d u
      = canonBody T nss (if IndexByte l 35 ≥ 0 then l.take (IndexByte l 35).toNat else l)
          (if IndexByte l 35 ≥ 0 then l.drop (IndexByte l 35 + 1).toNat else []) d u :=
  canonBody_eq T nss _ _ d u

theorem canon_of_hash (T : Tables) (nss : Namespaces) (l0 an0 d : Str) (u : Bool)
    (h : 35 ∉ l0) :
    WikiCanonicalFormNamespaceEsc T nss (l0 ++ 35 :: an0) d u = canonBody T nss l0 an0 d u := by
  rw [canon_unfold]
  have e1 := IndexByte_append_cons l0 an0 35 h
  have hpos : (l0.length : Int) ≥ 0 := by omega
  have e2 : List.take l0.length (l0 ++ 35 :: an0) = l0 := by simp
  have e3 : List.drop (l0.length + 1) (l0 ++ 35 :: an0) = an0 := by
    rw [List.drop_append_eq_append_drop]; simp
  have e4 : ((l0.length : Int) + 1).toNat = l0.length + 1 := by omega
  simp only [e1, hpos, if_true, Int.toNat_ofNat, e2, e4, e3]

theorem canon_of_no_hash (T : Tables) (nss : Namespaces) (l d : Str) (u : Bool) (h : 35 ∉ l) :
    WikiCanonicalFormNamespaceEsc T nss l d u = canonBody T nss l [] d u := by
  rw [canon_unfold]
  have e1 := IndexByte_of_not_mem l 35 h
  simp [e1]

theorem canonBody_no_colon (T : Tables) (nss : Namespaces) (l an d : Str) (u : Bool)
    (h : 58 ∉ l) :
    canonBody T nss l an d u
      = { Namespace := d, PageName := canonArticle T u l, Anchor := canonAnchor T u an } := by
  unfold canonBody
  simp [Index_single_not_mem 58 l h]

theorem canonBody_colon (T : Tables) (nss : Namespaces) (A B an d : Str) (u : Bool)
    (h : 58 ∉ A) :
    canonBody T nss (A ++ 58 :: B) an d u
      = match nss.lookup (ToLower T (canonCns T u A)) with
        | some ns =>
          { Namespace := if (canonCns T u A).length > 0 then ns else [],
            PageName := canonArticle T u B, Anchor := canonAnchor T u an }
        | none =>
          { Namespace := d, PageName := canonArticle T u (A ++ 58 :: B),
            Anchor := canonAnchor T u an } := by
  unfold canonBody
  have e1 := Index_single_append 58 A B h
  have hpos : (A.length : Int) ≥ 0 := by omega
  have e2 : List.take A.length (A ++ 58 :: B) = A := by simp
  have e3 : List.drop (A.length + 1) (A ++ 58 :: B) = B := by
    rw [List.drop_append_eq_append_drop]; simp
  have e4 : ((A.length : Int) + 1).toNat = A.length + 1 := by omega
  simp only [e1, hpos, if_true, Int.toNat_ofNat, e2, e4, e3]

theorem namespace_of_key (T : Tables) (nss : Namespaces) (k' p a v d : Str) (u : Bool)
    (a1 : isASCII k' = true) (a2 : noRun k' = true) (a3 : 35 ∉ k') (a4 : 58 ∉ k')
    (a5 : 38 ∉ k') (b e : Nat) (hb : k'.head? = some b) (hb1 : b < 0x80)
    (hb2 : isSpace b = false) (he : k'.getLast? = some e) (he1 : e < 0x80)
    (he2 : isSpace e = false) (hl : nss.lookup (k'.map lowerByte) = some v) (hp : 35 ∉ p) :
    (WikiCanonicalFormNamespaceEsc T nss (k' ++ [58] ++ p ++ [35] ++ a) d u).Namespace = v := by
  have hne : k'.length > 0 := by
    cases k' with
    | nil => simp at hb
    | cons c t => simp
  have h35 : 35 ∉ k' ++ 58 :: p := by simp [a3, hp]
  have e0 : k' ++ [58] ++ p ++ [35] ++ a = (k' ++ 58 :: p) ++ 35 :: a := by simp
  have e3 : canonCns T u k' = k' := by
    unfold canonCns
    rw [canoReSpaces_of_noRun k' a2, TrimSpace_of_ascii_ends k' b e hb hb1 hb2 he he1 he2,
      UnescapeString_of_not_mem T k' a5]
    simp
  rw [e0, canon_of_hash T nss _ a d u h35, canonBody_colon T nss k' p a d u a4, e3,
    ToLower_of_isASCII T k' a1, hl]
  simp [hne]

/-- C2: for every key `k` of `StandardNamespaces` with value `v`, every re-casing `k'` of
`k` (a string whose ASCII lower-casing is `k`), every page text `p` without `#` and every
anchor text `a`, the namespace of `k' + ":" + p + "#" + a` is `v`. -/
theorem C2_namespace_case_folding (T : Tables) (k v k' p a : Str)
    (hk : (k, v) ∈ StandardNamespaces) (hcase : k'.map lowerByte = k) (hp : 35 ∉ p) :
    (WikiCanonicalFormNamespaceEsc T StandardNamespaces (k' ++ [58] ++ p ++ [35] ++ a) [] true).Namespace
      = v := by
  have hg := StandardNamespaces_goodKey (k, v) hk
  simp only [goodKey, Bool.and_eq_true, decide_eq_true_eq] at hg
  obtain ⟨⟨⟨⟨⟨⟨⟨g1, g2⟩, g3⟩, g4⟩, g5⟩, g6⟩, g7⟩, g8⟩ := hg
  subst hcase
  have a1 : isASCII k' = true := isASCII_of_map_lowerByte k' g1
  have a2 : noRun k' = true := by rw [← noRun_map_lowerByte]; exact g2
  have a3 : 35 ∉ k' := fun h => g3 (mem_map_lowerByte_of_mem k' 35 (by omega) h)
  have a4 : 58 ∉ k' := fun h => g4 (mem_map_lowerByte_of_mem k' 58 (by omega) h)
  have a5 : 38 ∉ k' := fun h => g5 (mem_map_lowerByte_of_mem k' 38 (by omega) h)
  have a6 : ∃ b, k'.head? = some b ∧ b < 0x80 ∧ isSpace b = false := by
    cases k' with
    | nil => simp at g6
    | cons c t =>
      refine ⟨c, rfl, ?_, ?_⟩
      · simp [isASCII] at a1; exact a1.1
      · simp only [List.map_cons, List.head?_cons] at g6
        rw [isSpace_lowerByte] at g6; simpa using g6
  have a7 : ∃ e, k'.getLast? = some e ∧ e < 0x80 ∧ isSpace e = false := by
    cases hl : k'.getLast? with
    | none => simp [List.getLast?_map, hl] at g7
    | some e =>
      refine ⟨e, rfl, ?_, ?_⟩
      · simp only [isASCII, List.all_eq_true, decide_eq_true_eq] at a1
        exact a1 e (List.mem_of_getLast?_eq_some hl)
      · simp only [List.getLast?_map, hl, Option.map_some'] at g7
        rw [isSpace_lowerByte] at g7; simpa using g7
  obtain ⟨b, hb, hb1, hb2⟩ := a6
  obtain ⟨e, he, he1, he2⟩ := a7
  exact namespace_of_key T StandardNamespaces k' p a v [] true a1 a2 a3 a4 a5 b e hb hb1 hb2
    he he1 he2 g8 hp


set_option maxRecDepth 100000 in
/-- C2 at the input of `TestWikiCanonicalFormNamespaceEsc`: "WiKIpEdia:pagename#section"
gives the namespace "Wikipedia" (and the page name "Pagename", the anchor "section"). -/
theorem C2_namespace_case_folding_witness :
    (WikiCanonicalFormNamespaceEsc goTables StandardNamespaces
        (str "WiKIpEdia" ++ [58] ++ str "pagename" ++ [35] ++ str "section") [] true).Namespace
      = str "Wikipedia" ∧
    WikiCanonicalFormNamespaceEsc goTables StandardNamespaces (str "WiKIpEdia:pagename#section")
        [] true
      = { Namespace := str "Wikipedia", PageName := str "Pagename", Anchor := str "section" } :=
  ⟨C2_namespace_case_folding goTables (str "wikipedia") (str "Wikipedia") (str "WiKIpEdia")
      (str "pagename") (str "section") (by decide!) (by decide!) (by decide!), by decide!⟩


/-! ## C3: the first rune of a page name -/

set_option maxRecDepth 100000 in
/-- C3 (defect of the code): the page name of "étoile" does not start with the upper-case
form of its first rune.  The code upper-cases the first byte, `article[0:1]`, which for a
rune of several bytes is an ill-formed string: `strings.ToUpper` turns it into U+FFFD and
the remaining bytes of the rune follow. -/
theorem C3_first_byte_not_first_rune :
    (WikiCanonicalFormNamespaceEsc goTables StandardNamespaces (str "étoile") [] true).PageName
      = [0xEF, 0xBF, 0xBD, 0xA9] ++ str "toile" ∧
    (WikiCanonicalFormNamespaceEsc goTables StandardNamespaces (str "étoile") [] true).PageName
      ≠ str "Étoile" := by
  decide!

/-! ## C6: transclusion end to end -/

set_option maxRecDepth 100000 in
/-- C6 (defect of the code): parsing `{{echo|hi}}` with a getter that returns `{{{1}}}`
for `Template:Echo` succeeds, the getter is asked for exactly that page, and the plain
text of the article is a single newline: it does not contain "hi". -/
theorem C6_transclusion_renders_nothing :
    ((ParseArticle goTables 10 (str "Test") (str "\x7b\x7becho|hi\x7d\x7d") echoGetter).bind
        (fun r => GetText r.1)).val?.map (fun r => r.2) = some [10] ∧
    (Tokenize goTables 10 (str "\x7b\x7becho|hi\x7d\x7d") echoGetter).val?.map (fun r => r.trace)
      = some [{ Namespace := str "Template", PageName := str "Echo", Anchor := [] }] := by
  decide!

/-! ## C9 and C10: the quote state machine at link boundaries -/

set_option maxRecDepth 100000 in
/-- C9 (defect of the code): on the tokens of the line `''[[a]]''` the html tokens that
`doQuotes` emits are `i`, `/i` before the link and a lone `/i` after it: the state saved at
the link is restored at its close without the opening tag being emitted again, so the
last `/i` closes nothing. -/
theorem C9_closer_without_opener :
    (Tokenize goTables 10 (str "''[[a]]''") DummyPageGetter).val?.map
        (fun r => r.tokens.toOption.map (fun ts => tokenKinds (doQuotes ts)))
      = some (some [(str "html", str "i"), (str "html", str "/i"), (str "link", []),
          (str "text", str "a"), (str "closelink", []), (str "html", str "/i"),
          (str "newline", [])]) := by
  decide!

set_option maxRecDepth 100000 in
/-- C10 (defect of the code): for the test input of `TestParseArticle`, `ParseArticle`
returns no error and the token stream holds the link to "The Album (ABBA album)" in the
empty namespace; the html tokens are `i /i` before the link, `i /i` inside it, and a
third `/i` after it that no `i` matches. -/
theorem C10_abba_tokens :
    (ParseArticle goTables 10 (str "Test")
        (str "* ''[[The Album (ABBA album)|''The Album'']]'' (1977)") DummyPageGetter).val?.map
      (fun r => (r.2, tokenKinds r.1.Tokens))
      = some (none,
          [(str "*", []), (str "space", []), (str "html", str "i"), (str "html", str "/i"),
           (str "link", []), (str "html", str "i"), (str "text", str "The"), (str "space", []),
           (str "text", str "Album"), (str "html", str "/i"), (str "closelink", []),
           (str "html", str "/i"), (str "space", []), (str "text", str "(1977)"),
           (str "newline", [])]) ∧
    (ParseArticle goTables 10 (str "Test")
        (str "* ''[[The Album (ABBA album)|''The Album'']]'' (1977)") DummyPageGetter).val?.map
      (fun r => (r.1.Tokens.filter (fun t => decide (t.TType = str "link"))).map (fun t => t.TLink))
      = some [{ Namespace := [], PageName := str "The Album (ABBA album)", Anchor := [] }] := by
  decide!


/-! ## C7: the recursion cap -/

/-- C7: a call of `renderTemplateRecursive` with depth above 4 returns the empty string
and asks the getter for nothing, whatever the name, the parameters and the getter; and
for the getter whose every page is `{{X}}`, `processTemplates` on `{{X}}` returns (for
every positive recursion budget of the model), having asked the getter for one page. -/
theorem C7_recursion_cap :
    (∀ (T : Tables) (rit : List template → Str → Nat → Params → Nat → Res Rendered)
        (name : Str) (params : Params) (g : PageGetter) (depth : Nat), depth > 4 →
        renderTemplateRecursive T rit name params g depth = .ok ([], [])) ∧
    (∀ (T : Tables) (fuel : Nat),
      processTemplates T (fuel + 1) (str "\x7b\x7bX\x7d\x7d") [] selfGetter
        = .ok { out := [7] ++ str "tb00000" ++ [7] ++ str "te00000",
                tokens := [([7] ++ str "tb00000", { TText := str "0", TType := str "tb" }),
                           ([7] ++ str "te00000", { TText := str "0", TType := str "te" })],
                templates := [{ Typ := str "normal", Name := str "X", Attr := [],
                                Parameters := [] }],
                trace := [{ Namespace := str "Template", PageName := str "X", Anchor := [] }] }) := by
  refine ⟨?_, ?_⟩
  · intro T rit name params g depth h
    simp [renderTemplateRecursive, h]
  · intro T fuel
    rfl

/-- C7 at depth 5, for the getter whose every page is `{{X}}`. -/
theorem C7_recursion_cap_witness :
    renderTemplateRecursive goTables (fun _ _ _ _ _ => .fuel) (str "X") [] selfGetter 5
      = .ok ([], []) :=
  C7_recursion_cap.1 goTables _ (str "X") [] selfGetter 5 (by decide)

/-! ## C11, C29: the link trail is cut by bytes -/

set_option maxRecDepth 100000 in
/-- C11 (defect of the code): for the article `[[Foo]]é [[Bar]]` the plain text is
`Fooé Bar` followed by a newline, and `TextLinks` holds the text `Foo` followed by the
byte 0xC3 with the span `[0, 4)`, whose runes in the plain text are `Fooé`, and the text
`Bar` with the span `[6, 9)`, whose runes in the plain text are `ar` and the newline: the
text of a link is not the substring of the plain text over its span, counted in runes. -/
theorem C11_rune_offsets_fail :
    ((ParseArticle goTables 10 (str "T") (str "[[Foo]]é [[Bar]]") DummyPageGetter).bind
        (fun r => GetTextLinks r.1)).val?.map
      (fun r => (r.1.Text, r.2.map (fun fl =>
        (fl.Text, fl.Start, fl.End, runeSlice r.1.Text fl.Start fl.End))))
    = some (str "Fooé Bar\n",
        [([70, 111, 111, 0xC3], 0, 4, str "Fooé"), (str "Bar", 6, 9, str "ar\n")]) := by
  decide!

set_option maxRecDepth 100000 in
/-- C29 (defect of the code): on `[[Foo]]é [[Bar]]`, where the link trail is the two-byte
letter `é`, `parseInternalLink` consumes 8 bytes, one less than the 9 bytes of `[[Foo]]é`,
and the text token is `Foo` followed by the byte 0xC3, the first half of the letter. -/
theorem C29_trail_cut_inside_rune :
    parseInternalLink goTables (parseInlineText goTables 10) (str "[[Foo]]é [[Bar]]")
      = .ok (some (8, [{ TLink := ⟨[], str "Foo", []⟩, TType := str "link" },
                       { TText := [70, 111, 111, 0xC3], TType := str "text" },
                       { TType := str "closelink" }])) ∧
    (str "[[Foo]]é").length = 9 := by
  decide!

/-! ## C14: the abstract of an article that starts with a heading -/

set_option maxRecDepth 100000 in
/-- C14 (the claim fails): for the article `==Heading==` newline `body`, `GetAbstract`
does not return the empty string. -/
theorem C14_abstract_not_empty :
    ((ParseArticle goTables 10 (str "T") (str "==Heading==\nbody") DummyPageGetter).bind
        (fun r => GetAbstract r.1)).val?.map (fun r => r.2) ≠ some [] := by
  decide!

set_option maxRecDepth 100000 in
/-- C14 (amended): for the article `==Heading==` newline `body`, `GetAbstract` returns
one newline (the text before the first heading and the newline written in front of the
heading), and `GetText` returns newline, `Heading`, newline, `body`, newline, which
contains newline, `Heading`, newline, `body`. -/
theorem C14_abstract_is_newline :
    ((ParseArticle goTables 10 (str "T") (str "==Heading==\nbody") DummyPageGetter).bind
        (fun r => GetAbstract r.1)).val?.map (fun r => r.2) = some (str "\n") ∧
    ((ParseArticle goTables 10 (str "T") (str "==Heading==\nbody") DummyPageGetter).bind
        (fun r => GetText r.1)).val?.map (fun r => r.2) = some (str "\nHeading\nbody\n") ∧
    (str "\nHeading\nbody") <:+: (str "\nHeading\nbody\n") := by
  refine ⟨by decide!, by decide!, ⟨[], [10], by decide⟩⟩

/-! ## C16: an external link -/

set_option maxRecDepth 100000 in
/-- C16: the article `[http://x.example hello]` parses without error; its `ExtLinks` is
exactly `http://x.example`; the tree has exactly one node of kind `extlink`, with contents
`http://x.example`; and the tree is the root with two children, the `extlink` node, which
has one child, a text node with contents `hello`, and the text node of the newline. -/
theorem C16_external_link_tree :
    (ParseArticle goTables 10 (str "T") (str "[http://x.example hello]") DummyPageGetter).val?.map
      (fun r => (r.2, r.1.ExtLinks)) = some (none, [str "http://x.example"]) ∧
    (ParseArticle goTables 10 (str "T") (str "[http://x.example hello]") DummyPageGetter).val?.map
      (fun r => (nodeKinds r.1).filter (fun k => decide (k.1 = str "extlink")))
      = some [(str "extlink", [], str "http://x.example")] ∧
    (ParseArticle goTables 10 (str "T") (str "[http://x.example hello]") DummyPageGetter).val?.map
      (fun r => treeShape r.1)
      = some [(0, str "root", []), (1, str "extlink", str "http://x.example"),
              (2, str "text", str "hello"), (1, str "text", str "\n")] := by
  refine ⟨by decide!, by decide!, by decide!⟩

/-! ## C20: a template marker swallowed by an html tag -/

set_option maxRecDepth 100000 in
/-- C20 (defect of the code): for the text `<a {{{x|>}}}` the parameter reference renders
as its default `>`, the sentinel of `tb` ends up inside the attributes of the html tag
`a`, and the token stream of `Tokenize` is the html token, a `te` token with text `0` and
the newline: a `te` without its `tb`. -/
theorem C20_te_without_tb :
    (Tokenize goTables 10 (str "<a \x7b\x7b\x7bx|>\x7d\x7d\x7d") DummyPageGetter).val?.map
      (fun r => (r.tokens.toOption.map tokenKinds, r.templates.length))
    = some (some [(str "html", str "a"), (str "te", str "0"), (str "newline", [])], 1) := by
  decide!

/-! ## C24: the type recorded in a template descriptor -/

set_option maxRecDepth 100000 in
/-- C24 (defect of the code): for the text `{{PAGENAME}} {{#if: x}} {{{x}}}` the three
descriptors appended to `Templates` all have type `normal` (the third with an empty
name), while `templateType` classifies `PAGENAME` as `magic` and `#if: x` as `ext`. -/
theorem C24_descriptor_type_always_normal :
    (Tokenize goTables 10 (str "\x7b\x7bPAGENAME\x7d\x7d \x7b\x7b#if: x\x7d\x7d \x7b\x7b\x7bx\x7d\x7d\x7d")
        DummyPageGetter).val?.map (fun r => r.templates.map (fun t => (t.Typ, t.Name)))
      = some [(str "normal", str "PAGENAME"), (str "normal", str "#if: x"), (str "normal", [])] ∧
    templateType goTables (str "PAGENAME") = str "magic" ∧
    templateType goTables (str "#if: x") = str "ext" := by
  decide!

/-! ## C25: the number of redirects followed -/

/-- When the body and every page of the getter are redirects, the redirect loop ends by
the hop limit, after `5 - followed` more requests. -/
theorem followRedirects_all (T : Tables) (g : PageGetter)
    (hg : ∀ wl, ∃ b r, g wl = some b ∧ checkRedirect T (stripComments b) = .ok (some r)) :
    ∀ (fuel followed : Nat) (mw : Str) (tr : List WikiLink),
      (∃ r, checkRedirect T (stripComments mw) = .ok (some r)) → followed ≤ 5 →
      5 - followed < fuel →
      ∃ tr2, followRedirects T g fuel mw followed tr = .ok (false, tr2) ∧
        tr2.length = tr.length + (5 - followed) := by
  intro fuel
  induction fuel with
  | zero => intro followed mw tr _ _ h; omega
  | succ n ih =>
    intro followed mw tr hmw hle hlt
    unfold followRedirects
    by_cases h4 : followed > 4
    · refine ⟨tr, ?_, ?_⟩
      · simp [h4]
      · omega
    · obtain ⟨r, hr⟩ := hmw
      obtain ⟨b, r2, hb, hr2⟩ := hg r
      obtain ⟨tr2, h1, h2⟩ := ih (followed + 1) b (tr ++ [r]) ⟨r2, hr2⟩ (by omega) (by omega)
      refine ⟨tr2, ?_, ?_⟩
      · simp [h4, hr, hb, h1]
      · simp at h2; omega

/-- C25 (the claim fails): with the getter whose every page is `#REDIRECT [[X]]`,
`TranscludeTemplatesRecursive` on such a body returns the empty string after five
requests to the getter, not after at most four. -/
theorem C25_five_calls :
    TranscludeTemplatesRecursive goTables (renderInnerTemplates goTables redirectGetter 10)
      (str "#REDIRECT [[X]]") [] redirectGetter 0
      = .ok ([], List.replicate 5 ⟨[], str "X", []⟩) := by
  rfl

/-- C25 (amended): when the body and every page of the getter are redirects,
`TranscludeTemplatesRecursive` returns the empty string after exactly five requests to
the getter. -/
theorem C25_redirect_hops (T : Tables) (g : PageGetter)
    (rit : List template → Str → Nat → Params → Nat → Res Rendered)
    (mw : Str) (params : Params) (depth : Nat)
    (hmw : ∃ r, checkRedirect T (stripComments mw) = .ok (some r))
    (hg : ∀ wl, ∃ b r, g wl = some b ∧ checkRedirect T (stripComments b) = .ok (some r)) :
    ∃ tr, TranscludeTemplatesRecursive T rit mw params g depth = .ok ([], tr) ∧
      tr.length = 5 := by
  obtain ⟨tr, h1, h2⟩ := followRedirects_all T g hg 6 0 mw [] hmw (by omega) (by omega)
  refine ⟨tr, ?_, by simpa using h2⟩
  simp [TranscludeTemplatesRecursive, h1]

/-- C25, a witness: the getter whose every page is `#REDIRECT [[X]]`. -/
theorem C25_redirect_hops_witness :
    ∃ tr, TranscludeTemplatesRecursive goTables (renderInnerTemplates goTables redirectGetter 1)
        (str "#REDIRECT [[X]]") [] redirectGetter 0 = .ok ([], tr) ∧ tr.length = 5 :=
  C25_redirect_hops goTables redirectGetter _ (str "#REDIRECT [[X]]") [] 0
    ⟨⟨[], str "X", []⟩, by decide!⟩
    (fun _ => ⟨str "#REDIRECT [[X]]", ⟨[], str "X", []⟩, rfl, by decide!⟩)

/-! ## C15: the abstract of an article without heading -/

/-- `appendText` does not touch `AbstractText`. -/
theorem appendText_AbstractText (a : Article) (t : Str) :
    (appendText a t).AbstractText = a.AbstractText := rfl

mutual
/-- The text projection of a list of trees without heading node leaves `AbstractText`
as it is. -/
theorem genTextNodes_AbstractText : ∀ (ns : List ParseNode) (lws : Bool) (a : Article),
    (∀ n ∈ preorderList ns, isHeadingNode n = false) →
    (genTextNodes ns lws a).AbstractText = a.AbstractText
  | [], _, _, _ => by simp [genTextNodes]
  | n :: rest, lws, a, h => by
    rw [genTextNodes,
      genTextNodes_AbstractText rest _ _ (fun m hm => h m (by simp [preorderList, hm])),
      genTextNode_AbstractText n lws a (fun m hm => h m (by simp [preorderList, hm]))]
/-- The text projection of a tree without heading node leaves `AbstractText` as it
is. -/
theorem genTextNode_AbstractText : ∀ (n : ParseNode) (lws : Bool) (a : Article),
    (∀ m ∈ preorder n, isHeadingNode m = false) →
    (genTextNode n lws a).AbstractText = a.AbstractText
  | .mk ntype nsub link contents f nodes, lws, a, h => by
    have hself : isHeadingNode (.mk ntype nsub link contents f nodes) = false :=
      h _ (by simp [preorder])
    have hkids : ∀ m ∈ preorderList nodes, isHeadingNode m = false :=
      fun m hm => h m (by simp [preorder, hm])
    have hsub : ¬ (ntype = str "html" ∧ (nsub = str "h1" ∨ nsub = str "h2" ∨ nsub = str "h3" ∨
        nsub = str "h4" ∨ nsub = str "h5" ∨ nsub = str "h6")) := by
      intro hh
      simp [isHeadingNode, ParseNode.NType, ParseNode.NSubType] at hself
      rcases hh with ⟨h1, h2⟩
      have := hself h1
      rcases h2 with h2 | h2 | h2 | h2 | h2 | h2 <;> simp_all
    rw [genTextNode]
    simp only [appendText_AbstractText]
    rw [apply_ite Article.AbstractText]
    simp only [ite_self]
    rw [genTextNodes_AbstractText nodes false _ hkids]
    split_ifs <;> first | rfl | (exfalso; apply hsub; simp_all)
end

/-- C15: for every article whose parse tree contains no html node with subtype `h1` to
`h6`, `genText` returns, and in the article it returns `AbstractText` equals `Text`. -/
theorem C15_abstract_is_text (a : Article) (root : ParseNode) (hroot : a.Root = some root)
    (hno : ∀ n ∈ preorder root, isHeadingNode n = false) :
    ∃ a2, genText a = .ok a2 ∧ a2.AbstractText = a2.Text := by
  have hkids : ∀ m ∈ preorderList root.Nodes, isHeadingNode m = false := by
    intro m hm
    apply hno
    cases root with
    | mk a b c d e ns => simp [preorder]; right; simpa [ParseNode.Nodes] using hm
  have key := genTextNodes_AbstractText root.Nodes false
    { a with text := [], nchar := 0, AbstractText := [] } hkids
  simp only [hroot] at key
  simp only [genText, hroot]
  refine ⟨_, rfl, ?_⟩
  rw [if_pos (by rw [key]; rfl)]

set_option maxRecDepth 100000 in
/-- C15, a witness: a tree with two text nodes around a line break. -/
theorem C15_abstract_is_text_witness :
    ∃ a2, genText { Root := some (.mk (str "root") [] ⟨[], [], []⟩ [] 0
        [leaf "text" "" (str "a"), leaf "html" "br" [], leaf "text" "" (str "b")]) } = .ok a2 ∧
      a2.AbstractText = a2.Text :=
  C15_abstract_is_text _ _ rfl (by decide)

/-! ## C18: comments -/

/-- A border-free word that does not occur in `a` does not start inside `a` in
`a ++ sep ++ t`. -/
theorem not_isPrefixOf_of_absent (sep a t : Str) (hb : borderFree sep = true)
    (ha : ¬ sep <:+: a) (hne : a ≠ []) : sep.isPrefixOf (a ++ (sep ++ t)) = false := by
  by_contra hcon
  simp only [Bool.not_eq_false] at hcon
  rw [List.isPrefixOf_iff_prefix] at hcon
  rcases Nat.lt_or_ge a.length sep.length with hlt | hge
  · -- `a` is a proper leading part of `sep`
    have h1 : a <+: sep :=
      List.prefix_of_prefix_length_le (List.prefix_append a (sep ++ t)) hcon (by omega)
    obtain ⟨s2, hs2⟩ := h1
    subst hs2
    simp only [List.append_assoc] at hcon
    have h3 : s2 <+: a ++ (s2 ++ t) := (List.prefix_append_right_inj a).1 hcon
    have h2 : s2 <+: a ++ s2 :=
      List.prefix_of_prefix_length_le h3
        (by rw [← List.append_assoc]; exact List.prefix_append _ _) (by simp)
    have hpos : 0 < a.length := List.length_pos.2 hne
    have hdrop : (a ++ s2).drop a.length = s2 := by simp
    have htake : (a ++ s2).take ((a ++ s2).length - a.length) = s2 := by
      have : (a ++ s2).length - a.length = s2.length := by simp
      rw [this]
      exact (List.prefix_iff_eq_take.1 h2).symm
    have := List.all_eq_true.1 hb a.length (List.mem_range.2 hlt)
    rw [hdrop, htake] at this
    simp at this
    first | omega | exact hne this
  · apply ha
    have h1 : sep <+: a := List.prefix_of_prefix_length_le hcon (List.prefix_append a (sep ++ t)) hge
    exact h1.isInfix

/-- A word that does not occur in `a` is not a leading part of `a`. -/
theorem not_isPrefixOf_of_absent_nil (sep a : Str) (ha : ¬ sep <:+: a) :
    sep.isPrefixOf a = false := by
  by_contra hcon
  simp only [Bool.not_eq_false] at hcon
  rw [List.isPrefixOf_iff_prefix] at hcon
  exact ha hcon.isInfix

/-- A word that does not occur in a text does not occur in its tail. -/
theorem not_infix_tail (sep : Str) (c : Nat) (t : Str) (h : ¬ sep <:+: c :: t) : ¬ sep <:+: t :=
  fun h2 => h (h2.trans (List.suffix_cons c t).isInfix)

/-- The first occurrence of a border-free word in `a ++ sep ++ t`, where it does not
occur in `a`, is the one after `a`. -/
theorem indexFrom_append_sep (sep t : Str) (hb : borderFree sep = true) (hne : sep ≠ []) :
    ∀ (a : Str) (i : Nat), ¬ sep <:+: a → indexFrom sep i (a ++ (sep ++ t)) = ((i + a.length : Nat) : Int)
  | [], i, _ => by
    cases hs : sep ++ t with
    | nil => simp at hs; exact absurd hs.1 hne
    | cons c u =>
      have : sep.isPrefixOf (c :: u) = true := by
        rw [← hs, List.isPrefixOf_iff_prefix]; exact List.prefix_append sep t
      simp [indexFrom, hs, this]
  | c :: a, i, h => by
    have h1 := not_isPrefixOf_of_absent sep (c :: a) t hb h (by simp)
    have h2 := indexFrom_append_sep sep t hb hne a (i + 1) (not_infix_tail sep c a h)
    simp only [List.cons_append] at h1 ⊢
    simp only [indexFrom, h1, h2]
    simp; omega

/-- `strings.Index` gives `-1` for a word that does not occur. -/
theorem indexFrom_of_absent (sep : Str) (hne : sep ≠ []) :
    ∀ (a : Str) (i : Nat), ¬ sep <:+: a → indexFrom sep i a = -1
  | [], i, _ => by simp [indexFrom, hne]
  | c :: a, i, h => by
    have h1 := not_isPrefixOf_of_absent_nil sep (c :: a) h
    have h2 := indexFrom_of_absent sep hne a (i + 1) (not_infix_tail sep c a h)
    simp only [indexFrom, h1, h2]
    simp

/-- The scan of `stripComments` does not depend on the budget, once it covers the
text. -/
theorem stripCommentsAux_fuel : ∀ (f1 f2 : Nat) (s : Str), s.length ≤ f1 → s.length ≤ f2 →
    stripCommentsAux f1 s = stripCommentsAux f2 s
  | 0, f2, s, h1, _ => by
    have : s = [] := List.length_eq_zero.1 (by omega)
    subst this; cases f2 <;> simp [stripCommentsAux]
  | f1 + 1, 0, s, _, h2 => by
    have : s = [] := List.length_eq_zero.1 (by omega)
    subst this; simp [stripCommentsAux]
  | f1 + 1, f2 + 1, [], _, _ => by simp [stripCommentsAux]
  | f1 + 1, f2 + 1, c :: t, h1, h2 => by
    simp only [stripCommentsAux]
    simp only [List.length_cons] at h1 h2
    split
    · split
      · apply stripCommentsAux_fuel <;> simp <;> omega
      · rfl
    · rw [stripCommentsAux_fuel f1 f2 t (by omega) (by omega)]

/-- A text without `<!--` is left unchanged. -/
theorem stripCommentsAux_of_absent : ∀ (fuel : Nat) (a : Str), ¬ (str "<!--") <:+: a →
    stripCommentsAux fuel a = a
  | 0, a, _ => by simp [stripCommentsAux]
  | f + 1, [], _ => by simp [stripCommentsAux]
  | f + 1, c :: t, h => by
    have h1 := not_isPrefixOf_of_absent_nil _ (c :: t) h
    simp only [stripCommentsAux, startsWith, h1]
    simp [stripCommentsAux_of_absent f t (not_infix_tail _ c t h)]

/-- The bytes of `<!--`. -/
theorem str_open : str "<!--" = [60, 33, 45, 45] := by decide

/-- The bytes of `-->`. -/
theorem str_close : str "-->" = [45, 45, 62] := by decide

/-- Scanning the text before the first comment: the bytes are kept, and the scan goes on
at the comment. -/
theorem stripCommentsAux_before (t : Str) : ∀ (a : Str) (fuel : Nat),
    ¬ (str "<!--") <:+: a → (a ++ (str "<!--" ++ t)).length ≤ fuel →
    stripCommentsAux fuel (a ++ (str "<!--" ++ t)) =
      a ++ stripCommentsAux (fuel - a.length) (str "<!--" ++ t)
  | [], fuel, _, _ => by simp
  | c :: a, 0, _, h => by simp at h
  | c :: a, fuel + 1, h, hl => by
    have h1 := not_isPrefixOf_of_absent (str "<!--") (c :: a) t (by decide) h (by simp)
    have h2 := stripCommentsAux_before t a fuel (not_infix_tail _ c a h)
      (by simp at hl ⊢; omega)
    simp only [List.cons_append] at h1 ⊢
    simp only [stripCommentsAux, startsWith, h1, h2]
    simp

/-- One step of the scan at the start of a comment. -/
theorem stripCommentsAux_at_open (fuel : Nat) (u : Str) :
    stripCommentsAux (fuel + 1) (60 :: 33 :: 45 :: 45 :: u) =
      if Index u (str "-->") ≥ 0 then
        stripCommentsAux fuel (u.drop ((Index u (str "-->")).toNat + 3))
      else [] := by
  rw [stripCommentsAux]
  have hp : startsWith (60 :: 33 :: 45 :: 45 :: u) (str "<!--") = true := by
    rw [str_open]; simp [startsWith, List.isPrefixOf]
  have hd : ∀ k : Nat, List.drop (4 + k + 3) (60 :: 33 :: 45 :: 45 :: u) = u.drop (k + 3) := by
    intro k
    have : 4 + k + 3 = (k + 3) + 4 := by omega
    rw [this]; rfl
  simp only [hp, if_true, hd]
  rfl

/-- C18: `stripComments` against the reference definition.  For a text `a` without
`<!--` and a text `c` without `-->`: `a` is returned unchanged; in `a <!-- c` (a comment
that is not terminated) everything from the comment on is removed; and in
`a <!-- c --> rest` the comment is removed up to and including the first `-->`, the bytes
of `a` are kept, and the scan goes on in the same way in `rest`. -/
theorem C18_stripComments_reference (a c rest : Str)
    (ha : ¬ (str "<!--") <:+: a) (hc : ¬ (str "-->") <:+: c) :
    stripComments a = a ∧
    stripComments (a ++ str "<!--" ++ c) = a ∧
    stripComments (a ++ str "<!--" ++ c ++ str "-->" ++ rest) = a ++ stripComments rest := by
  refine ⟨stripCommentsAux_of_absent _ a ha, ?_, ?_⟩
  · unfold stripComments
    rw [List.append_assoc, stripCommentsAux_before c a _ ha (by simp)]
    have hlen : (a ++ (str "<!--" ++ c)).length - a.length = c.length + 3 + 1 := by
      simp [str_open]
    have hi : Index c (str "-->") = -1 := indexFrom_of_absent _ (by decide) c 0 hc
    rw [hlen, str_open]
    simp only [List.cons_append, List.nil_append]
    rw [stripCommentsAux_at_open, hi]
    simp
  · unfold stripComments
    have e1 : a ++ str "<!--" ++ c ++ str "-->" ++ rest = a ++ (str "<!--" ++ (c ++ (str "-->" ++ rest))) := by
      simp
    rw [e1, stripCommentsAux_before _ a _ ha (by simp)]
    have hlen : (a ++ (str "<!--" ++ (c ++ (str "-->" ++ rest)))).length - a.length
        = (c.length + rest.length + 6) + 1 := by
      simp [str_open, str_close]; omega
    have hi : Index (c ++ (str "-->" ++ rest)) (str "-->") = (c.length : Int) := by
      have := indexFrom_append_sep (str "-->") rest (by decide) (by decide) c 0 hc
      simpa [Index] using this
    have hd : List.drop (c.length + 3) (c ++ (str "-->" ++ rest)) = rest := by
      rw [← List.drop_drop, List.drop_left, str_close]; rfl
    rw [hlen, str_open]
    simp only [List.cons_append, List.nil_append]
    rw [stripCommentsAux_at_open, hi]
    simp only [Int.toNat_ofNat, hd]
    rw [if_pos (by omega)]
    congr 1
    exact stripCommentsAux_fuel _ _ rest (by omega) (le_refl _)

/-- C18, a witness: a text with a comment, and the same text with the comment left
open. -/
theorem C18_stripComments_reference_witness :
    stripComments (str "ab") = str "ab" ∧
    stripComments (str "ab" ++ str "<!--" ++ str "x-y") = str "ab" ∧
    stripComments (str "ab" ++ str "<!--" ++ str "x-y" ++ str "-->" ++ str "cd") =
      str "ab" ++ stripComments (str "cd") :=
  C18_stripComments_reference (str "ab") (str "x-y") (str "cd") (by decide) (by decide)

/-! ## C19: the sweep over the verbatim regions -/

/-- The entry after a leading part `l1` of the event list. -/
theorem amAt_append (l1 l2 : List TagMatch) (j : Nat) :
    amAt (l1 ++ l2) (l1.length + j) = amAt l2 j := by
  simp [amAt, List.getD_eq_getElem?_getD, List.getElem?_append_right]

/-- The first entry. -/
theorem amAt_cons_zero (x : TagMatch) (l : List TagMatch) : amAt (x :: l) 0 = x := rfl

/-- The entries after the first one. -/
theorem amAt_cons_succ (x : TagMatch) (l : List TagMatch) (j : Nat) :
    amAt (x :: l) (j + 1) = amAt l j := rfl

/-- An entry at an index inside the leading part `l`. -/
theorem amAt_mem (l l2 : List TagMatch) (j : Nat) (h : j < l.length) : amAt (l ++ l2) j ∈ l := by
  simp [amAt, List.getD_eq_getElem?_getD, List.getElem?_append_left h, List.getElem?_eq_getElem h]

/-- A fold whose every step leaves the state as it is. -/
theorem foldl_fixed {α β : Type} (f : α → β → α) (st : α) :
    ∀ l : List β, (∀ i ∈ l, f st i = st) → l.foldl f st = st
  | [], _ => rfl
  | i :: l, h => by
    rw [List.foldl_cons, h i (by simp)]
    exact foldl_fixed f st l (fun j hj => h j (by simp [hj]))

/-- The sweep opens a region at an opener that starts after the last close. -/
theorem sweepStep_open (T : Tables) (mw : Str) (am : List TagMatch) (st : Sweep) (i : Nat)
    (hc : st.ctype = none) (ho : (amAt am i).typ % 2 = 0) (hl : st.lastclose ≤ (amAt am i).s) :
    sweepStep T mw am st i =
      { st with out := st.out ++ slice mw st.lastclose (amAt am i).s,
                ctype := some (amAt am i).typ, openidx := i } := by
  simp [sweepStep, hc, ho, hl]

/-- Inside an open region the sweep skips every event that is not a closing tag of the
type of the region starting after the opener. -/
theorem sweepStep_skip (T : Tables) (mw : Str) (am : List TagMatch) (st : Sweep) (i ty : Nat)
    (hc : st.ctype = some ty)
    (hn : ¬ ((amAt am i).typ = ty + 1 ∧ (amAt am st.openidx).e ≤ (amAt am i).s)) :
    sweepStep T mw am st i = st := by
  simp only [sweepStep, hc]
  rw [if_neg, if_neg]
  · simp
  · intro h
    apply hn
    simp at h
    exact ⟨h.1, h.2⟩

/-- The sweep closes the open region at a closing tag of its type that starts after the
opener. -/
theorem sweepStep_close (T : Tables) (mw : Str) (am : List TagMatch) (st : Sweep) (i ty : Nat)
    (hc : st.ctype = some ty) (ht : (amAt am i).typ = ty + 1)
    (he : (amAt am st.openidx).e ≤ (amAt am i).s) :
    sweepStep T mw am st i =
      { st with tokens := mapSet st.tokens (regionSentinel st.count)
                  (regionToken T mw (amAt am st.openidx) (amAt am i).s),
                out := st.out ++ regionSentinel st.count, ctype := none,
                lastclose := (amAt am i).e, count := st.count + 1 } := by
  simp [sweepStep, hc, ht, he]

/-- A key has a value exactly when it is among the keys of the entries. -/
theorem lookup_isSome_iff {α : Type} (m : List (Str × α)) (k : Str) :
    (m.lookup k).isSome = true ↔ k ∈ m.map Prod.fst := by
  induction m with
  | nil => simp
  | cons e m ih =>
    obtain ⟨k1, v1⟩ := e
    by_cases h : k = k1
    · subst h; simp [List.lookup]
    · have h2 : (k == k1) = false := by simpa using h
      simp [List.lookup, h2, ih, h]

/-- The keys after the assignment `m[k] = v`. -/
theorem mem_keys_mapSet {α : Type} (m : List (Str × α)) (k k2 : Str) (v : α) :
    k2 ∈ (mapSet m k v).map Prod.fst ↔ k2 ∈ m.map Prod.fst ∨ k2 = k := by
  unfold mapSet
  split
  · rename_i h
    have hk := (lookup_isSome_iff m k).1 h
    have hmap : (m.map (fun e => if e.1 = k then (k, v) else e)).map Prod.fst = m.map Prod.fst := by
      rw [List.map_map]
      apply List.map_congr_left
      intro e _
      by_cases he : e.1 = k <;> simp [he]
    rw [hmap]
    constructor
    · exact fun h => Or.inl h
    · rintro (h | h)
      · exact h
      · rw [h]; exact hk
  · simp

/-- The key just set is a key of the map. -/
theorem lookup_mapSet_self {α : Type} (m : List (Str × α)) (k : Str) (v : α) :
    ((mapSet m k v).lookup k).isSome = true :=
  (lookup_isSome_iff _ _).2 ((mem_keys_mapSet m k k v).2 (Or.inr rfl))

/-- A key of the map stays a key after an assignment. -/
theorem lookup_mapSet_of_isSome {α : Type} (m : List (Str × α)) (k k2 : Str) (v : α)
    (h : (m.lookup k2).isSome = true) : ((mapSet m k v).lookup k2).isSome = true :=
  (lookup_isSome_iff _ _).2 ((mem_keys_mapSet m k k2 v).2 (Or.inl ((lookup_isSome_iff _ _).1 h)))

/-- A step of the sweep keeps the output written so far and the keys of the map. -/
theorem sweepStep_mono (T : Tables) (mw : Str) (am : List TagMatch) (st : Sweep) (i : Nat) :
    st.out <+: (sweepStep T mw am st i).out ∧
    ∀ k, (st.tokens.lookup k).isSome = true →
      ((sweepStep T mw am st i).tokens.lookup k).isSome = true := by
  unfold sweepStep
  simp only
  split_ifs
  · exact ⟨List.prefix_append _ _, fun k hk => lookup_mapSet_of_isSome _ _ _ _ hk⟩
  · exact ⟨List.prefix_append _ _, fun k hk => hk⟩
  · exact ⟨List.prefix_refl _, fun k hk => hk⟩

/-- The sweep keeps the output written so far and the keys of the map. -/
theorem sweepFold_mono (T : Tables) (mw : Str) (am : List TagMatch) :
    ∀ (l : List Nat) (st : Sweep),
    st.out <+: (l.foldl (sweepStep T mw am) st).out ∧
    ∀ k, (st.tokens.lookup k).isSome = true →
      (((l.foldl (sweepStep T mw am) st)).tokens.lookup k).isSome = true
  | [], st => ⟨List.prefix_refl _, fun _ h => h⟩
  | i :: l, st => by
    have h1 := sweepStep_mono T mw am st i
    have h2 := sweepFold_mono T mw am l (sweepStep T mw am st i)
    exact ⟨h1.1.trans h2.1, fun k hk => h2.2 k (h1.2 k hk)⟩

/-- The end of the sweep keeps the output written so far and the keys of the map. -/
theorem sweepFinish_mono (T : Tables) (mw : Str) (am : List TagMatch) (st : Sweep) :
    st.out <+: (sweepFinish T mw am st).1 ∧
    ∀ k, (st.tokens.lookup k).isSome = true →
      ((sweepFinish T mw am st).2.lookup k).isSome = true := by
  unfold sweepFinish
  simp only
  split_ifs
  · exact ⟨List.prefix_append _ _, fun k hk => lookup_mapSet_of_isSome _ _ _ _ hk⟩
  · exact ⟨List.prefix_append _ _, fun k hk => hk⟩

/-- The sweep from a closed state over an opener and the events that do not close it:
the region is open, with the text before the opener written out. -/
theorem sweep_open_mid (T : Tables) (mw : Str) (pre mid tail : List TagMatch) (o : TagMatch)
    (st : Sweep) (hopen : o.typ % 2 = 0)
    (hmid : ∀ m ∈ mid, ¬ (m.typ = o.typ + 1 ∧ o.e ≤ m.s))
    (hc : st.ctype = none) (hl : st.lastclose ≤ o.s) :
    (List.range' pre.length (1 + mid.length)).foldl
        (sweepStep T mw (pre ++ (o :: (mid ++ tail)))) st =
      { st with out := st.out ++ slice mw st.lastclose o.s, ctype := some o.typ,
                openidx := pre.length } := by
  have hat : amAt (pre ++ (o :: (mid ++ tail))) pre.length = o := by
    have := amAt_append pre (o :: (mid ++ tail)) 0
    simpa using this
  have : List.range' pre.length (1 + mid.length) =
      pre.length :: List.range' (pre.length + 1) mid.length := by
    rw [Nat.add_comm 1]; rfl
  rw [this, List.foldl_cons,
    sweepStep_open T mw _ st pre.length hc (by rw [hat]; exact hopen) (by rw [hat]; exact hl), hat]
  apply foldl_fixed
  intro i hi
  obtain ⟨h1, h2⟩ := List.mem_range'_1.1 hi
  apply sweepStep_skip T mw _ _ i o.typ rfl
  have hi2 : amAt (pre ++ (o :: (mid ++ tail))) i ∈ mid := by
    obtain ⟨j, rfl⟩ : ∃ j, i = pre.length + (j + 1) := ⟨i - pre.length - 1, by omega⟩
    rw [amAt_append, amAt_cons_succ]
    have := amAt_mem mid tail j (by omega)
    simpa using this
  simpa [hat] using hmid _ hi2
/-- The indices of the event list `pre ++ [o] ++ mid ++ [c] ++ rest`, by parts. -/
theorem range_parts (p m r : Nat) :
    List.range (p + 1 + m + 1 + r) =
      List.range p ++ List.range' p (1 + m) ++ [p + m + 1] ++ List.range' (p + m + 2) r := by
  rw [List.range_eq_range', List.range_eq_range']
  have h1 : List.range' 0 p ++ List.range' p (1 + m) = List.range' 0 (p + 1 + m) := by
    have := List.range'_append_1 0 p (1 + m)
    simp only [Nat.zero_add] at this
    rw [this]; congr 1; omega
  have h2 : List.range' 0 (p + 1 + m) ++ [p + m + 1] = List.range' 0 (p + 1 + m + 1) := by
    rw [List.range'_1_concat]; simp; omega
  have h3 : List.range' 0 (p + 1 + m + 1) ++ List.range' (p + m + 2) r
      = List.range' 0 (p + 1 + m + 1 + r) := by
    have := List.range'_append_1 0 (p + 1 + m + 1) r
    simp only [Nat.zero_add] at this
    have e : p + 1 + m + 1 = p + m + 2 := by omega
    rw [e] at this ⊢
    rw [this]; congr 1; omega
  rw [h1, h2, h3]

/-- C19: the sweep of `stripNowikiPreMath` over the events `am` (the matches of the six
tag expressions, by start offset).  Let the sweep be closed after the events `pre`, let
`o` be an opener that starts after the last close, and let `mid` hold no closing tag of
the type of `o` that starts after `o` (it may hold openers and closers of any type,
including closers of the type of `o` that overlap `o`).  If the next event `c` is a
closing tag of the type of `o` after `o`, the region is closed there: the token text is
the text between `o` and `c`, everything in `mid` included, the text before `o` and one
sentinel are written, the sweep goes on after `c`, the sentinel is in the output and is a
key of the returned map.  If the events end with `mid`, the region is closed at the end
of the text: the token text is everything after `o`. -/
theorem C19_verbatim_sweep (T : Tables) (mw : Str) (pre mid : List TagMatch) (o : TagMatch)
    (st : Sweep) (hopen : o.typ % 2 = 0)
    (hmid : ∀ m ∈ mid, ¬ (m.typ = o.typ + 1 ∧ o.e ≤ m.s))
    (hc : st.ctype = none) (hl : st.lastclose ≤ o.s) :
    (∀ (c : TagMatch) (rest : List TagMatch),
        tagEvents mw = pre ++ [o] ++ mid ++ [c] ++ rest →
        (List.range pre.length).foldl (sweepStep T mw (tagEvents mw)) {} = st →
        c.typ = o.typ + 1 → o.e ≤ c.s →
        stripNowikiPreMath T mw = sweepFinish T mw (tagEvents mw)
          ((List.range' (pre.length + mid.length + 2) rest.length).foldl
            (sweepStep T mw (tagEvents mw))
            { ctype := none,
              out := st.out ++ slice mw st.lastclose o.s ++ regionSentinel st.count,
              lastclose := c.e, openidx := pre.length, count := st.count + 1,
              tokens := mapSet st.tokens (regionSentinel st.count) (regionToken T mw o c.s) }) ∧
        st.out ++ slice mw st.lastclose o.s ++ regionSentinel st.count
          <+: (stripNowikiPreMath T mw).1 ∧
        ((stripNowikiPreMath T mw).2.lookup (regionSentinel st.count)).isSome = true) ∧
    (tagEvents mw = pre ++ [o] ++ mid →
        (List.range pre.length).foldl (sweepStep T mw (tagEvents mw)) {} = st →
        stripNowikiPreMath T mw =
          (st.out ++ slice mw st.lastclose o.s ++ regionSentinel st.count,
           mapSet st.tokens (regionSentinel st.count) (regionToken T mw o mw.length))) := by
  constructor
  · intro c rest ham hst hct hce
    have ham2 : tagEvents mw = pre ++ (o :: (mid ++ (c :: rest))) := by simp [ham]
    have hlen : (tagEvents mw).length = pre.length + 1 + mid.length + 1 + rest.length := by
      simp [ham]; omega
    have hrun : (List.range (tagEvents mw).length).foldl (sweepStep T mw (tagEvents mw)) {} =
        (List.range' (pre.length + mid.length + 2) rest.length).foldl
            (sweepStep T mw (tagEvents mw))
            { ctype := none,
              out := st.out ++ slice mw st.lastclose o.s ++ regionSentinel st.count,
              lastclose := c.e, openidx := pre.length, count := st.count + 1,
              tokens := mapSet st.tokens (regionSentinel st.count) (regionToken T mw o c.s) } := by
      rw [hlen, range_parts, List.foldl_append, List.foldl_append, List.foldl_append, hst]
      congr 1
      rw [ham2, sweep_open_mid T mw pre mid (c :: rest) o st hopen hmid hc hl]
      have hat : amAt (pre ++ (o :: (mid ++ (c :: rest)))) (pre.length + mid.length + 1) = c := by
        have h1 := amAt_append pre (o :: (mid ++ (c :: rest))) (mid.length + 1)
        rw [amAt_cons_succ] at h1
        have h2 := amAt_append mid (c :: rest) 0
        rw [Nat.add_zero, amAt_cons_zero] at h2
        rw [← Nat.add_assoc] at h1
        rw [h1, h2]
      have hao : amAt (pre ++ (o :: (mid ++ (c :: rest)))) pre.length = o := by
        have := amAt_append pre (o :: (mid ++ (c :: rest))) 0
        simpa using this
      rw [List.foldl_cons, List.foldl_nil,
        sweepStep_close T mw _ _ _ o.typ rfl (by rw [hat]; exact hct)
          (by simp only [hao, hat]; exact hce)]
      simp only [hao, hat]
    have hstrip : stripNowikiPreMath T mw = sweepFinish T mw (tagEvents mw)
        ((List.range (tagEvents mw).length).foldl (sweepStep T mw (tagEvents mw)) {}) := by
      unfold stripNowikiPreMath
      simp only
      rw [if_neg (by omega)]
    rw [hstrip, hrun]
    obtain ⟨st2, hst2⟩ : ∃ st2 : Sweep, st2 =
        { ctype := none,
          out := st.out ++ slice mw st.lastclose o.s ++ regionSentinel st.count,
          lastclose := c.e, openidx := pre.length, count := st.count + 1,
          tokens := mapSet st.tokens (regionSentinel st.count) (regionToken T mw o c.s) } :=
      ⟨_, rfl⟩
    rw [← hst2]
    have ho : st.out ++ slice mw st.lastclose o.s ++ regionSentinel st.count = st2.out := by
      rw [hst2]
    have ht : (st2.tokens.lookup (regionSentinel st.count)).isSome = true := by
      rw [hst2]; exact lookup_mapSet_self _ _ _
    refine ⟨rfl, ?_, ?_⟩
    · rw [ho]
      exact (sweepFold_mono T mw _ _ st2).1.trans (sweepFinish_mono T mw _ _).1
    · apply (sweepFinish_mono T mw _ _).2
      exact (sweepFold_mono T mw _ _ st2).2 _ ht
  · intro ham hst
    have ham2 : tagEvents mw = pre ++ (o :: (mid ++ [])) := by simp [ham]
    have hlen : (tagEvents mw).length = pre.length + (1 + mid.length) := by
      simp [ham]; omega
    have hstrip : stripNowikiPreMath T mw = sweepFinish T mw (tagEvents mw)
        ((List.range (tagEvents mw).length).foldl (sweepStep T mw (tagEvents mw)) {}) := by
      unfold stripNowikiPreMath
      simp only
      rw [if_neg (by omega)]
    have hr : List.range (pre.length + (1 + mid.length)) =
        List.range pre.length ++ List.range' pre.length (1 + mid.length) := by
      rw [List.range_eq_range', List.range_eq_range']
      have := List.range'_append_1 0 pre.length (1 + mid.length)
      simp only [Nat.zero_add] at this
      rw [this]; congr 1; omega
    rw [hstrip, hlen, hr, List.foldl_append, hst, ham2,
      sweep_open_mid T mw pre mid [] o st hopen hmid hc hl]
    have hao : amAt (pre ++ (o :: mid)) pre.length = o := by
      have := amAt_append pre (o :: mid) 0
      simpa using this
    simp [sweepFinish, hao]

set_option maxRecDepth 100000 in
/-- C19, a witness: in `a<nowiki>b<pre>c</nowiki>d` the opening `pre` tag lies inside
the `nowiki` region and is ignored. -/
theorem C19_verbatim_sweep_witness :
    stripNowikiPreMath goTables (str "a<nowiki>b<pre>c</nowiki>d") =
      (str "a" ++ regionSentinel 0 ++ str "d",
        [(regionSentinel 0, { TText := str "b<pre>c", TType := str "nowiki" })]) := by
  have h := (C19_verbatim_sweep goTables (str "a<nowiki>b<pre>c</nowiki>d") []
    [{ s := 10, e := 15, gs := 11, ge := 14, typ := 2 }]
    { s := 1, e := 9, gs := 2, ge := 8, typ := 0 } {} (by decide) (by decide) rfl
    (by decide)).1 { s := 16, e := 25, gs := 17, ge := 24, typ := 1 } [] (by decide!) rfl
    (by decide) (by decide)
  rw [h.1]
  decide!

/-! ## C17: file links -/

/-- The segments between `k` pipes are `k - 1` in number. -/
theorem pipeSegments_length (l : Str) : ∀ ps : List Nat,
    (pipeSegments l ps).length = ps.length - 1
  | [] => rfl
  | [_] => rfl
  | p :: q :: rest => by
    rw [pipeSegments, List.length_cons, pipeSegments_length l (q :: rest)]
    simp

/-- The `i`-th segment is the text between pipe `i` and pipe `i + 1`. -/
theorem pipeSegments_get (l : Str) : ∀ (ps : List Nat) (i : Nat), i + 1 < ps.length →
    (pipeSegments l ps).get? i = some (slice l (ps.getD i 0 + 1) (ps.getD (i + 1) 0))
  | [], _, h => by simp at h
  | [_], _, h => by simp at h
  | p :: q :: rest, 0, _ => by simp [pipeSegments]
  | p :: q :: rest, i + 1, h => by
    rw [pipeSegments, List.get?_cons_succ, pipeSegments_get l (q :: rest) i (by simpa using h)]
    simp

set_option maxRecDepth 100000 in
/-- C17: whenever `parseFileLink` succeeds on a link in which the scan found the
top-level pipes `p0 :: ps` (`k` of them), the tokens are the `filelink` token, the tokens
`nt` and the `closefilelink` token; `TPipes` of the `filelink` token holds `k - 1`
segments, the `i`-th being the text between pipe `i` and pipe `i + 1`; and `nt` is the
inline parse of the text after the last pipe (no token when that text is empty).  For
`[[File:a.jpg|thumb|caption]]` the article parses without error, `Media` is the one link
`File:A.jpg`, the tree has one image node, with the text node of the caption below it,
and `TPipes` of the `filelink` token is `thumb`. -/
theorem C17_file_link_pipes :
    (∀ (T : Tables) (pit : Str → Nat → Nat → Res (List Token)) (l : Str) (st : FileScan)
        (p0 : Nat) (ps : List Nat) (e : Nat) (toks : List Token),
      fileLinkLoop l (runes l) {} = some st → st.pipepos = p0 :: ps →
      parseFileLink T pit l = .ok (some (e, toks)) →
      ∃ nt, toks = [{ TLink := WikiCanonicalForm T (slice l 2 p0), TType := str "filelink",
                      TPipes := pipeSegments l (p0 :: ps) }] ++ nt ++
                   [{ TType := str "closefilelink" }] ∧
        (pipeSegments l (p0 :: ps)).length = (p0 :: ps).length - 1 ∧
        (∀ i, i + 1 < (p0 :: ps).length → (pipeSegments l (p0 :: ps)).get? i =
          some (slice l ((p0 :: ps).getD i 0 + 1) ((p0 :: ps).getD (i + 1) 0))) ∧
        (if (p0 :: ps).getLast?.getD 0 + 1 < st.matchingpos then
            pit l ((p0 :: ps).getLast?.getD 0 + 1) st.matchingpos = .ok nt
          else nt = [])) ∧
    (ParseArticle goTables 10 (str "T") (str "[[File:a.jpg|thumb|caption]]") DummyPageGetter).val?.map
      (fun r => (r.2, r.1.Media)) = some (none, [⟨str "File", str "A.jpg", []⟩]) ∧
    (ParseArticle goTables 10 (str "T") (str "[[File:a.jpg|thumb|caption]]") DummyPageGetter).val?.map
      (fun r => treeShape r.1)
      = some [(0, str "root", []), (1, str "image", []), (2, str "text", str "caption"),
              (1, str "text", str "\n")] ∧
    (Tokenize goTables 10 (str "[[File:a.jpg|thumb|caption]]") DummyPageGetter).val?.map
      (fun r => r.tokens.toOption.map (fun ts => ts.map (fun t => (t.TType, t.TPipes))))
      = some (some [(str "filelink", [str "thumb"]), (str "text", []), (str "closefilelink", []),
          (str "newline", [])]) := by
  refine ⟨?_, by decide!, by decide!, by decide!⟩
  intro T pit l st p0 ps e toks hscan hpipes hres
  unfold parseFileLink at hres
  simp only [hscan, hpipes] at hres
  by_cases hcl : st.closed = true
  · simp only [hcl, not_true_eq_false, if_false] at hres
    by_cases hlast : (p0 :: ps).getLast?.getD 0 + 1 < st.matchingpos
    · simp only [hlast, if_true] at hres
      cases hp : pit l ((p0 :: ps).getLast?.getD 0 + 1) st.matchingpos with
      | ok nt =>
        simp only [hp] at hres
        injection hres with hres
        injection hres with hres
        injection hres with h1 h2
        exact ⟨nt, h2.symm, pipeSegments_length l _, pipeSegments_get l _, by simp [hlast]⟩
      | panic => simp [hp] at hres
      | fuel => simp [hp] at hres
    · simp only [hlast, if_false] at hres
      injection hres with hres
      injection hres with hres
      injection hres with h1 h2
      exact ⟨[], by simp [← h2], pipeSegments_length l _, pipeSegments_get l _, by simp [hlast]⟩
  · simp [hcl] at hres

/-! ## Lemmas on runes -/

/-- An accepted second byte is a continuation byte. -/
theorem accepts_isCont (s0 s1 : Nat) (h : accepts s0 s1 = true) : isCont s1 = true := by
  simp only [accepts, isCont, Bool.and_eq_true, decide_eq_true_eq] at *
  split_ifs at h <;> omega

/-- An ASCII byte is not a continuation byte. -/
theorem isCont_ascii (c : Nat) (hc : c < 0x80) : isCont c = false := by
  simp [isCont]; omega

/-- An ASCII byte is not accepted as a second byte. -/
theorem accepts_ascii (s0 c : Nat) (hc : c < 0x80) : accepts s0 c = false := by
  cases h : accepts s0 c with
  | false => rfl
  | true => have := accepts_isCont s0 c h; rw [isCont_ascii c hc] at this; cases this

/-- The first rune of a non-empty string has width at least 1. -/
theorem decodeRune_width_pos (b : Nat) (t : Str) : 1 ≤ (decodeRune (b :: t)).2 := by
  rcases t with _ | ⟨x1, _ | ⟨x2, _ | ⟨x3, t⟩⟩⟩ <;> simp only [decodeRune] <;> split_ifs <;> simp

/-- The width of the first rune is at most the length. -/
theorem decodeRune_width_le (s : Str) : (decodeRune s).2 ≤ s.length := by
  rcases s with _ | ⟨b, _ | ⟨x1, _ | ⟨x2, _ | ⟨x3, t⟩⟩⟩⟩ <;> simp only [decodeRune] <;>
    (try split_ifs) <;> simp

/-- A string that does not start with an ASCII byte does not start with an ASCII rune. -/
theorem decodeRune_ge_of_not_ascii (b : Nat) (t : Str) (h : ¬ b < 0x80) :
    0x80 ≤ (decodeRune (b :: t)).1 := by
  rcases t with _ | ⟨x1, _ | ⟨x2, _ | ⟨x3, t⟩⟩⟩ <;> simp only [decodeRune] <;> split_ifs <;>
    simp only [RuneError, accepts, isCont, Bool.and_eq_true, decide_eq_true_eq] at * <;>
    (try split_ifs at *) <;> omega

/-- An ASCII byte after a non-empty string does not change its first rune. -/
theorem decodeRune_append_ascii (x : Nat) (X Y : Str) (c : Nat) (hc : c < 0x80) :
    decodeRune ((x :: X) ++ c :: Y) = decodeRune (x :: X) := by
  have hcc : isCont c = false := isCont_ascii c hc
  have hca : ∀ s0, accepts s0 c = false := fun s0 => accepts_ascii s0 c hc
  rcases X with _ | ⟨x1, _ | ⟨x2, _ | ⟨x3, X⟩⟩⟩ <;>
  rcases Y with _ | ⟨y1, _ | ⟨y2, Y⟩⟩ <;>
    simp [decodeRune, hcc, hca]


/-- The empty string has no rune. -/
theorem runes_nil : runes [] = [] := rfl

/-- A string whose first rune is ASCII starts with an ASCII byte. -/
theorem decodeRune_lt_ascii (b : Nat) (t : Str) (h : (decodeRune (b :: t)).1 < 0x80) :
    b < 0x80 := by
  by_contra hb
  have := decodeRune_ge_of_not_ascii b t hb
  omega

/-- The runes do not depend on the budget, once it covers the string. -/
theorem runesAux_fuel (f1 f2 : Nat) (i : Nat) (s : Str) (h1 : s.length ≤ f1) (h2 : s.length ≤ f2) :
    runesAux f1 i s = runesAux f2 i s := by
  induction f1 generalizing f2 i s with
  | zero =>
    have : s = [] := List.length_eq_zero.mp (by omega)
    subst this
    cases f2 <;> rfl
  | succ f ih =>
    cases s with
    | nil => cases f2 <;> rfl
    | cons b t =>
      cases f2 with
      | zero => simp at h2
      | succ g =>
        simp only [runesAux]
        have hw := decodeRune_width_pos b t
        congr 1
        apply ih
        · simp only [List.length_drop, List.length_cons] at *; omega
        · simp only [List.length_drop, List.length_cons] at *; omega

/-- Starting the byte index at `i` shifts all indices by `i`. -/
theorem runesAux_shift (fuel i : Nat) (s : Str) :
    runesAux fuel i s = (runesAux fuel 0 s).map (fun p => (p.1 + i, p.2)) := by
  induction fuel generalizing i s with
  | zero => rfl
  | succ f ih =>
    cases s with
    | nil => rfl
    | cons b t =>
      simp only [runesAux, List.map_cons, Nat.zero_add]
      congr 1
      rw [ih (i + _), ih (decodeRune (b :: t)).2, List.map_map]
      apply List.map_congr_left
      intro p _
      simp only [Function.comp]
      congr 1
      omega

/-- The runes of a string that starts with an ASCII byte. -/
theorem runes_cons_ascii (c : Nat) (t : Str) (hc : c < 0x80) :
    runes (c :: t) = (0, c) :: (runes t).map (fun p => (p.1 + 1, p.2)) := by
  simp only [runes, List.length_cons, runesAux, decodeRune_ascii c t hc, List.drop_succ_cons,
    List.drop_zero, Nat.zero_add]
  rw [runesAux_shift]

/-- The runes of `a ++ c :: b` for an ASCII byte `c`: those of `a`, then those of `c :: b`. -/
theorem runesAux_append_ascii (n : Nat) (a b : Str) (c : Nat) (hc : c < 0x80)
    (hn : a.length ≤ n) :
    runes (a ++ c :: b) = runes a ++ (runes (c :: b)).map (fun p => (p.1 + a.length, p.2)) := by
  induction n generalizing a with
  | zero =>
    have : a = [] := List.length_eq_zero.mp (by omega)
    subst this
    simp [runes_nil]
  | succ n ih =>
    cases a with
    | nil => simp [runes_nil]
    | cons x X =>
      have hd := decodeRune_append_ascii x X b c hc
      have hw := decodeRune_width_pos x X
      have hle := decodeRune_width_le (x :: X)
      set w := (decodeRune (x :: X)).2 with hwdef
      have e1 : runes ((x :: X) ++ c :: b)
          = (0, (decodeRune (x :: X)).1) :: (runes (((x :: X).drop w) ++ c :: b)).map
              (fun p => (p.1 + w, p.2)) := by
        have hdrop : ((x :: X) ++ c :: b).drop w = (x :: X).drop w ++ c :: b := by
          rw [List.drop_append_of_le_length hle]
        show runesAux ((x :: X) ++ c :: b).length 0 ((x :: X) ++ c :: b) = _
        rw [show ((x :: X) ++ c :: b) = x :: (X ++ c :: b) from rfl]
        simp only [List.length_cons, runesAux]
        rw [show x :: (X ++ c :: b) = (x :: X) ++ c :: b from rfl, hd, ← hwdef, hdrop]
        congr 1
        rw [runesAux_shift, Nat.zero_add]
        congr 1
        apply runesAux_fuel
        · simp only [List.length_append, List.length_drop, List.length_cons] at *; omega
        · exact le_refl _
      have e2 : runes (x :: X)
          = (0, (decodeRune (x :: X)).1) :: (runes ((x :: X).drop w)).map
              (fun p => (p.1 + w, p.2)) := by
        show runesAux (x :: X).length 0 (x :: X) = _
        simp only [List.length_cons, runesAux]
        rw [← hwdef]
        congr 1
        rw [runesAux_shift, Nat.zero_add]
        congr 1
        apply runesAux_fuel
        · simp only [List.length_drop, List.length_cons] at *; omega
        · exact le_refl _
      have hlen : ((x :: X).drop w).length ≤ n := by
        simp only [List.length_drop, List.length_cons] at *; omega
      rw [e1, e2, ih _ hlen]
      simp only [List.map_append, List.map_map, List.cons_append, List.length_drop]
      congr 2
      apply List.map_congr_left
      intro p _
      simp only [Function.comp]
      congr 1
      simp only [List.length_cons] at *
      omega

/-- The runes of `a ++ c :: b` for an ASCII byte `c`: those of `a`, then those of `c :: b`. -/
theorem runes_append_ascii (a b : Str) (c : Nat) (hc : c < 0x80) :
    runes (a ++ c :: b) = runes a ++ (runes (c :: b)).map (fun p => (p.1 + a.length, p.2)) :=
  runesAux_append_ascii a.length a b c hc (le_refl _)

/-- An ASCII rune of a string is one of its bytes. -/
theorem runesAux_mem_ascii (fuel i : Nat) (s : Str) (p : Nat × Nat) (hp : p ∈ runesAux fuel i s)
    (h : p.2 < 0x80) : p.2 ∈ s := by
  induction fuel generalizing i s with
  | zero => simp [runesAux] at hp
  | succ f ih =>
    cases s with
    | nil => simp [runesAux] at hp
    | cons b t =>
      simp only [runesAux, List.mem_cons] at hp
      rcases hp with hp | hp
      · subst hp
        have hb := decodeRune_lt_ascii b t h
        simp only [decodeRune_ascii b t hb] at h ⊢
        simp
      · exact List.mem_of_mem_drop (ih _ _ hp)

/-- An ASCII rune of a string is one of its bytes. -/
theorem runes_mem_ascii (s : Str) (p : Nat × Nat) (hp : p ∈ runes s) (h : p.2 < 0x80) :
    p.2 ∈ s :=
  runesAux_mem_ascii _ _ s p hp h

/-! ## C26: the kind of a line -/

/-- A rune whose encoding is ASCII is below 0x80 and is encoded as itself. -/
theorem encodeRune_ascii (r : Nat) (h : isASCII (encodeRune r) = true) :
    r < 0x80 ∧ encodeRune r = [r] := by
  unfold encodeRune at h ⊢
  split_ifs at h ⊢ <;> simp [isASCII] at h ⊢
  all_goals omega

/-- A first rune of width 1 that is not an ASCII byte is U+FFFD. -/
theorem decodeRune_width_one (b : Nat) (t : Str) (hb : ¬ b < 0x80)
    (hw : (decodeRune (b :: t)).2 = 1) : (decodeRune (b :: t)).1 = RuneError := by
  rcases t with _ | ⟨x1, _ | ⟨x2, _ | ⟨x3, t⟩⟩⟩ <;> simp only [decodeRune] at hw ⊢ <;>
    split_ifs at hw ⊢ <;> simp_all

/-- When the image of a string under a letter mapping that fixes U+FFFD is ASCII, it is
at most as long as the string, and as long only if the string is ASCII. -/
theorem Map_ascii_length (f : Nat → Nat) (hf : f RuneError = RuneError) :
    ∀ (fuel i : Nat) (s : Str), s.length ≤ fuel →
      isASCII ((runesAux fuel i s).flatMap (fun p => encodeRune (f p.2))) = true →
      ((runesAux fuel i s).flatMap (fun p => encodeRune (f p.2))).length ≤ s.length ∧
      (((runesAux fuel i s).flatMap (fun p => encodeRune (f p.2))).length = s.length →
        isASCII s = true)
  | 0, i, s, h, _ => by
    have : s = [] := List.length_eq_zero.1 (by omega)
    subst this; simp [runesAux, isASCII]
  | fuel + 1, i, [], _, _ => by simp [runesAux, isASCII]
  | fuel + 1, i, b :: t, h, ha => by
    have hw := decodeRune_width_pos b t
    have hle := decodeRune_width_le (b :: t)
    simp only [runesAux, List.flatMap_cons] at ha ⊢
    have ha1 : isASCII (encodeRune (f (decodeRune (b :: t)).1)) = true := by
      simp only [isASCII, List.all_append, Bool.and_eq_true] at ha ⊢; exact ha.1
    have ha2 : isASCII ((runesAux fuel (i + (decodeRune (b :: t)).2)
        ((b :: t).drop (decodeRune (b :: t)).2)).flatMap (fun p => encodeRune (f p.2))) = true := by
      simp only [isASCII, List.all_append, Bool.and_eq_true] at ha ⊢; exact ha.2
    obtain ⟨h1, h2⟩ := encodeRune_ascii _ ha1
    have ih := Map_ascii_length f hf fuel (i + (decodeRune (b :: t)).2)
      ((b :: t).drop (decodeRune (b :: t)).2)
      (by simp only [List.length_drop, List.length_cons] at *; omega) ha2
    simp only [List.length_drop, List.length_cons] at ih h hle
    rw [h2]
    simp only [List.length_append, List.length_cons, List.length_nil]
    constructor
    · omega
    · intro heq
      have hw1 : (decodeRune (b :: t)).2 = 1 := by omega
      have hb : b < 0x80 := by
        by_contra hb
        have := decodeRune_width_one b t hb hw1
        rw [this, hf] at h1
        simp [RuneError] at h1
      have ht := ih.2 (by omega)
      rw [hw1] at ht
      simp only [List.drop_succ_cons, List.drop_zero] at ht
      simp only [isASCII, List.all_cons, Bool.and_eq_true, decide_eq_true_eq]
      exact ⟨hb, ht⟩

/-- `strings.ToLower` gives an ASCII string of the same length only for an ASCII
string. -/
theorem ToLower_eq_ascii (T : Tables) (s w : Str) (hw : isASCII w = true)
    (hlen : w.length = s.length) (h : ToLower T s = w) : s.map lowerByte = w := by
  unfold ToLower at h
  split_ifs at h with ha
  · exact h
  · exfalso
    apply ha
    have := Map_ascii_length (toLowerRune T) (by simp [toLowerRune, RuneError]) s.length 0 s
      (le_refl _) (by unfold Map runes at h; rw [h]; exact hw)
    exact this.2 (by unfold Map runes at h; rw [h]; exact hlen)

/-- `isTable` accepts the lines that start with `|`, `!` or `{|`. -/
theorem isTable_iff (l : Str) :
    isTable l = true ↔
      (l.head? = some 124 ∨ l.head? = some 33 ∨ startsWith l (str "\x7b|") = true) := by
  have h1 : str "\x7b|" = [123, 124] := by decide
  have h2 : str "|\x7d" = [124, 125] := by decide
  have h3 : str "|+" = [124, 43] := by decide
  have h4 : str "|-" = [124, 45] := by decide
  have h5 : str "|" = [124] := by decide
  have h6 : str "!" = [33] := by decide
  rw [isTable, h1, h2, h3, h4, h5, h6]
  rcases l with _ | ⟨a, _ | ⟨b, t⟩⟩
  · simp [startsWith]
  · simp [startsWith, List.isPrefixOf]
  · simp only [startsWith, List.isPrefixOf, List.length_cons, List.take_succ_cons, List.take_zero,
      List.head?_cons, Option.some.injEq, Bool.or_eq_true, Bool.and_eq_true, decide_eq_true_eq,
      List.cons.injEq, and_true, beq_iff_eq]
    constructor
    · rintro (⟨_, ((⟨h, h'⟩ | ⟨h, _⟩) | ⟨h, _⟩) | ⟨h, _⟩⟩ | ⟨_, h | h⟩)
      · exact Or.inr (Or.inr ⟨h.symm, h'.symm⟩)
      · exact Or.inl h
      · exact Or.inl h
      · exact Or.inl h
      · exact Or.inl h
      · exact Or.inr (Or.inl h)
    · rintro (h | h | ⟨h, h'⟩)
      · exact Or.inr ⟨by omega, Or.inl h⟩
      · exact Or.inr ⟨by omega, Or.inr h⟩
      · exact Or.inl ⟨by omega, Or.inl (Or.inl (Or.inl ⟨h.symm, h'.symm⟩))⟩

/-- C26: the kind of a line, by the priority of `lineType`.  The empty line is `blank`; a
line of at least 9 bytes whose first 9 bytes are `#redirect` up to ASCII case is
`redirect`; otherwise a line that starts with `----` is `hr`; otherwise a line accepted by
`isHeading` is `heading`; otherwise a line that starts with `;`, `:`, `*` or `#` is
`list`; otherwise a line that starts with `|`, `!` or `{|` is `table`; otherwise a line
that starts with a space is `wikipre`; every other line is `normal`. -/
theorem C26_lineType_priority (T : Tables) (l : Str) :
    lineType T l =
      if l = [] then str "blank"
      else if 9 ≤ l.length ∧ (l.take 9).map lowerByte = str "#redirect" then str "redirect"
      else if startsWith l (str "----") then str "hr"
      else if isHeading l then str "heading"
      else if l.head? = some 59 ∨ l.head? = some 58 ∨ l.head? = some 42 ∨ l.head? = some 35 then
        str "list"
      else if l.head? = some 124 ∨ l.head? = some 33 ∨ startsWith l (str "\x7b|") then str "table"
      else if l.head? = some 32 then str "wikipre"
      else str "normal" := by
  unfold lineType
  by_cases h0 : l = []
  · simp [h0]
  have h0' : l.length ≠ 0 := fun h => h0 (List.length_eq_zero.1 h)
  rw [if_neg h0', if_neg h0]
  have hred : (l.length > 8 ∧ ToLower T (l.take 9) = str "#redirect") ↔
      (9 ≤ l.length ∧ (l.take 9).map lowerByte = str "#redirect") := by
    constructor
    · rintro ⟨h1, h2⟩
      refine ⟨h1, ToLower_eq_ascii T _ _ (by decide) ?_ h2⟩
      rw [List.length_take, Nat.min_eq_left h1]; decide
    · rintro ⟨h1, h2⟩
      refine ⟨h1, ?_⟩
      have := isASCII_of_map_lowerByte (l.take 9) (by rw [h2]; decide)
      rw [ToLower_of_isASCII T _ this, h2]
  by_cases hr : 9 ≤ l.length ∧ (l.take 9).map lowerByte = str "#redirect"
  · rw [if_pos (hred.2 hr), if_pos hr]
  rw [if_neg (fun h => hr (hred.1 h)), if_neg hr]
  have hhr : (l.length > 3 ∧ l.take 4 = str "----") ↔ startsWith l (str "----") = true := by
    rw [startsWith, List.isPrefixOf_iff_prefix, List.prefix_iff_eq_take]
    have : (str "----").length = 4 := by decide
    rw [this]
    constructor
    · rintro ⟨_, h⟩; exact h.symm
    · intro h
      refine ⟨?_, h.symm⟩
      have h2 := congrArg List.length h
      rw [List.length_take] at h2
      have : (str "----").length = 4 := by decide
      omega
  by_cases hh : startsWith l (str "----") = true
  · rw [if_pos (hhr.2 hh), if_pos hh]
  rw [if_neg (fun h => hh (hhr.1 h)), if_neg hh]
  by_cases hd : isHeading l = true
  · rw [if_pos hd, if_pos hd]
  rw [if_neg hd, if_neg hd]
  by_cases hl : l.head? = some 59 ∨ l.head? = some 58 ∨ l.head? = some 42 ∨ l.head? = some 35
  · rw [if_pos hl, if_pos hl]
  rw [if_neg hl, if_neg hl]
  have htab := isTable_iff l
  by_cases ht : l.head? = some 124 ∨ l.head? = some 33 ∨ startsWith l (str "\x7b|") = true
  · rw [if_pos (htab.2 ht), if_pos ht]
  rw [if_neg (fun h => ht (htab.1 h)), if_neg ht]

/-! ## C27: headings -/

/-- The byte indices of the runes of a string are below its length (shifted by the
start index). -/
theorem runesAux_index_lt : ∀ (fuel i : Nat) (s : Str) (p : Nat × Nat),
    p ∈ runesAux fuel i s → i ≤ p.1 ∧ p.1 < i + s.length
  | 0, _, _, _, h => by simp [runesAux] at h
  | _ + 1, _, [], _, h => by simp [runesAux] at h
  | fuel + 1, i, b :: t, p, h => by
    simp only [runesAux, List.mem_cons] at h
    rcases h with h | h
    · subst h; simp
    · have := runesAux_index_lt fuel _ _ p h
      have hw := decodeRune_width_pos b t
      have hle := decodeRune_width_le (b :: t)
      simp only [List.length_drop, List.length_cons] at this hle ⊢
      omega

/-- The fold that keeps the index of the last `=` stays at or above a bound that the
start value and all indices respect, and below a bound that they respect. -/
theorem lastEq_fold_bounds (lo hi : Nat) : ∀ (L : List (Nat × Nat)) (pl : Nat),
    lo ≤ pl → pl < hi → (∀ p ∈ L, lo ≤ p.1 ∧ p.1 < hi) →
    lo ≤ L.foldl (fun pl p => if p.2 = 61 then p.1 else pl) pl ∧
    L.foldl (fun pl p => if p.2 = 61 then p.1 else pl) pl < hi
  | [], pl, h1, h2, _ => ⟨h1, h2⟩
  | p :: L, pl, h1, h2, h => by
    rw [List.foldl_cons]
    have hp := h p (by simp)
    apply lastEq_fold_bounds lo hi L
    · split_ifs
      · exact hp.1
      · exact h1
    · split_ifs
      · exact hp.2
      · exact h2
    · exact fun q hq => h q (by simp [hq])

/-- The last `=` found is inside the line. -/
theorem lastEq_lt (l : Str) (h : l ≠ []) : lastEq l < l.length := by
  have := lastEq_fold_bounds 0 l.length (runes l) 0 (le_refl _) (List.length_pos.2 h)
    (fun p hp => by
      have := runesAux_index_lt _ _ _ p hp
      omega)
  exact this.2

/-- The last `=` found is at or after every `=` of the line. -/
theorem lastEq_ge (a b : Str) : a.length ≤ lastEq (a ++ 61 :: b) := by
  unfold lastEq
  rw [runes_append_ascii a b 61 (by decide), List.foldl_append, runes_cons_ascii 61 b (by decide),
    List.map_cons, List.foldl_cons]
  simp only [if_true, Nat.zero_add]
  have := lastEq_fold_bounds a.length (a.length + (61 :: b).length + 1)
    (List.map (fun p => (p.1 + a.length, p.2)) (List.map (fun p => (p.1 + 1, p.2)) (runes b)))
    a.length (le_refl _) (by omega)
    (fun p hp => by
      simp only [List.mem_map] at hp
      obtain ⟨q, ⟨r, hr, rfl⟩, rfl⟩ := hp
      have := runesAux_index_lt _ _ _ r hr
      simp only [List.length_cons] at *
      omega)
  exact this.1

/-- The byte read by `parseHeadingLine` at an index inside the line. -/
theorem byteAt_of_get (l : Str) (i : Int) (c : Nat) (h0 : 0 ≤ i) (h : l.get? i.toNat = some c) :
    byteAt l i = .ok c := by
  rw [List.get?_eq_getElem?] at h
  simp [byteAt, h0, h]

/-- The loop of `parseHeadingLine`, started with `pf < pl` inside the line, returns
without a failure; it has taken as many `=` from the right as from the left. -/
theorem headingLoop_ok (l : Str) : ∀ (fuel : Nat) (pf pl : Int),
    0 ≤ pf → pf < pl → pl < l.length → pl - pf ≤ fuel →
    ∃ pf2 pl2 : Int, headingLoop l fuel pf pl = .ok (pf2, pl2) ∧
      pf ≤ pf2 ∧ pf2 < pl2 ∧ pl2 = pl - (pf2 - pf)
  | 0, pf, pl, _, h2, _, h4 => by omega
  | fuel + 1, pf, pl, h1, h2, h3, h4 => by
    unfold headingLoop
    simp only
    by_cases e1 : pf + 1 = pl
    · exact ⟨pf, pl, by simp [e1]; omega, le_refl _, h2, by omega⟩
    · rw [if_neg e1]
      obtain ⟨c, hc⟩ : ∃ c, l.get? (pf + 1).toNat = some c := by
        have : (pf + 1).toNat < l.length := by omega
        exact ⟨l.get ⟨_, this⟩, List.get?_eq_get this⟩
      rw [byteAt_of_get l (pf + 1) c (by omega) hc]
      simp only
      by_cases e2 : c ≠ 61
      · exact ⟨pf, pl, by simp [e2], le_refl _, h2, by omega⟩
      · rw [if_neg e2]
        by_cases e3 : pf + 1 = pl - 1
        · exact ⟨pf, pl, by simp [e3]; omega, le_refl _, h2, by omega⟩
        · rw [if_neg e3]
          obtain ⟨c2, hc2⟩ : ∃ c2, l.get? (pl - 1).toNat = some c2 := by
            have : (pl - 1).toNat < l.length := by omega
            exact ⟨l.get ⟨_, this⟩, List.get?_eq_get this⟩
          rw [byteAt_of_get l (pl - 1) c2 (by omega) hc2]
          simp only
          by_cases e4 : c2 ≠ 61
          · exact ⟨pf, pl, by simp [e4], le_refl _, h2, by omega⟩
          · rw [if_neg e4]
            obtain ⟨pf2, pl2, h5, h6, h7, h8⟩ := headingLoop_ok l fuel (pf + 1) (pl - 1)
              (by omega) (by omega) (by omega) (by omega)
            exact ⟨pf2, pl2, h5, by omega, h7, by omega⟩

/-- An ASCII rune of a string is the byte at its index. -/
theorem runesAux_get_ascii : ∀ (fuel i : Nat) (s : Str) (p : Nat × Nat),
    p ∈ runesAux fuel i s → p.2 < 0x80 → s.get? (p.1 - i) = some p.2
  | 0, _, _, _, h, _ => by simp [runesAux] at h
  | _ + 1, _, [], _, h, _ => by simp [runesAux] at h
  | fuel + 1, i, b :: t, p, h, ha => by
    simp only [runesAux, List.mem_cons] at h
    rcases h with h | h
    · subst h
      have hb := decodeRune_lt_ascii b t ha
      simp [decodeRune_ascii b t hb]
    · have h1 := runesAux_get_ascii fuel _ _ p h ha
      have h2 := runesAux_index_lt fuel _ _ p h
      have hw := decodeRune_width_pos b t
      rw [List.get?_eq_getElem?, List.getElem?_drop, ← List.get?_eq_getElem?] at h1
      have : (decodeRune (b :: t)).2 + (p.1 - (i + (decodeRune (b :: t)).2)) = p.1 - i := by omega
      rw [this] at h1
      exact h1

/-- A string splits at an index that holds a byte. -/
theorem split_at_get (l : Str) (i c : Nat) (h : l.get? i = some c) :
    ∃ a b, l = a ++ c :: b ∧ a.length = i := by
  have hi : i < l.length := by
    by_contra hcon
    rw [List.get?_eq_none.2 (by omega)] at h
    cases h
  refine ⟨l.take i, l.drop (i + 1), ?_, by simp; omega⟩
  rw [List.get?_eq_get hi] at h
  injection h with h
  rw [← h]
  have := List.take_append_drop i l
  conv_lhs => rw [← this]
  congr 1
  exact List.drop_eq_getElem_cons hi

/-- The fold of `isHeading`, from a count of at least 2: the flag is set only by an
`=`. -/
theorem isHeading_fold (L : List (Nat × Nat)) : ∀ (d : Nat) (f : Bool), 2 ≤ d →
    (L.foldl (fun (st : Nat × Bool) p =>
      let done := st.1 + 1
      if done > 2 then
        if isSpace p.2 then (done, st.2)
        else if p.2 = 61 then (done, true)
        else (done, false)
      else (done, st.2)) (d, f)).2 = true →
    f = true ∨ ∃ p ∈ L, p.2 = 61 := by
  induction L with
  | nil => intro d f _ h; exact Or.inl h
  | cons p L ih =>
    intro d f hd h
    rw [List.foldl_cons] at h
    simp only [show d + 1 > 2 from by omega, if_true] at h
    by_cases h1 : isSpace p.2 = true
    · simp only [h1, if_true] at h
      rcases ih (d + 1) f (by omega) h with h2 | ⟨q, hq, hq2⟩
      · exact Or.inl h2
      · exact Or.inr ⟨q, by simp [hq], hq2⟩
    · simp only [h1] at h
      by_cases h2 : p.2 = 61
      · exact Or.inr ⟨p, by simp, h2⟩
      · simp only [h2, if_false] at h
        rcases ih (d + 1) false (by omega) h with h3 | ⟨q, hq, hq2⟩
        · cases h3
        · exact Or.inr ⟨q, by simp [hq], hq2⟩

/-- A line accepted by `isHeading` has an `=` at byte index 2 or later. -/
theorem isHeading_lastEq (l : Str) (h : isHeading l = true) : 2 ≤ lastEq l := by
  unfold isHeading at h
  split_ifs at h with h0
  rcases l with _ | ⟨b0, _ | ⟨b1, t⟩⟩
  · simp [runes, runesAux] at h
  · simp [runes, runesAux] at h
  · -- the first two runes do not set the flag; an `=` follows at index 2 or later
    have hw0 := decodeRune_width_pos b0 (b1 :: t)
    have hle0 := decodeRune_width_le (b0 :: b1 :: t)
    obtain ⟨p, hp, hp61, hp2⟩ : ∃ p ∈ runes (b0 :: b1 :: t), p.2 = 61 ∧ 2 ≤ p.1 := by
      simp only [runes, List.length_cons, runesAux, List.foldl_cons] at h ⊢
      cases hs : List.drop (decodeRune (b0 :: b1 :: t)).2 (b0 :: b1 :: t) with
      | nil => simp [hs, runesAux] at h
      | cons c u =>
        have hw1 := decodeRune_width_pos c u
        rw [hs] at h
        simp only [runesAux, List.foldl_cons] at h
        simp only [Nat.zero_add, show ¬ (0 + 1 > 2) from by omega, show ¬ (1 + 1 > 2) from by omega,
          if_false] at h
        rcases isHeading_fold _ 2 false (le_refl _) h with h3 | ⟨q, hq, hq2⟩
        · cases h3
        · have hq3 := runesAux_index_lt _ _ _ q hq
          refine ⟨q, ?_, hq2, by omega⟩
          simp only [runesAux, List.mem_cons, Nat.zero_add]
          exact Or.inr (Or.inr hq)
    have hget := runesAux_get_ascii _ 0 _ p hp (by omega)
    rw [hp61, Nat.sub_zero] at hget
    obtain ⟨a, b, hab, ha⟩ := split_at_get _ _ _ hget
    have := lastEq_ge a b
    rw [← hab] at this
    omega

/-- The tokens of a heading line, in terms of the inline parse of the range
`[pf, pl)`. -/
theorem parseHeadingLine_of_loop (T : Tables) (l : Str) (pf pl : Int)
    (h : headingLoop l (l.length + 1) 0 (lastEq l) = .ok (pf, pl)) (h0 : 0 ≤ pf) (h1 : pf < pl) :
    parseHeadingLine T l =
      match parseInlineText T (l.length + 1) l (min (pf.toNat + 1) 6)
          (pl.toNat + (pf.toNat + 1 - 6)) with
      | .ok nnt => .ok ({ TType := str "h" ++ itoa (min (pf.toNat + 1) 6) } :: nnt)
      | .panic => .panic
      | .fuel => .fuel := by
  unfold parseHeadingLine
  rw [h]
  simp only
  have e1 : (pf + 1 - if pf + 1 > 6 then pf + 1 - 6 else 0).toNat = min (pf.toNat + 1) 6 := by
    split_ifs <;> omega
  have e2 : (pl + if pf + 1 > 6 then pf + 1 - 6 else 0).toNat = pl.toNat + (pf.toNat + 1 - 6) := by
    split_ifs <;> omega
  have e3 : ¬ ((pf + 1 - if pf + 1 > 6 then pf + 1 - 6 else 0) < 0 ∨
      (pl + if pf + 1 > 6 then pf + 1 - 6 else 0) < 0) := by
    split_ifs <;> omega
  rw [if_neg e3, e1, e2]

/-- The bytes of a line `=`^n c `=`^n. -/
theorem heading_get (n : Nat) (c : Str) (i : Nat) :
    (i < n → (List.replicate n 61 ++ c ++ List.replicate n 61).get? i = some 61) ∧
    ((List.replicate n 61 ++ c ++ List.replicate n 61).get? (n + i) =
      (c ++ List.replicate n 61).get? i) ∧
    (n + c.length ≤ i → i < n + c.length + n →
      (List.replicate n 61 ++ c ++ List.replicate n 61).get? i = some 61) := by
  refine ⟨?_, ?_, ?_⟩
  · intro h
    rw [List.get?_eq_getElem?, List.append_assoc, List.getElem?_append_left (by simpa using h)]
    simp [List.getElem?_replicate, h]
  · rw [List.get?_eq_getElem?, List.get?_eq_getElem?, List.append_assoc,
      List.getElem?_append_right (by simp)]
    simp
  · intro h1 h2
    rw [List.get?_eq_getElem?, List.getElem?_append_right (by simp; omega)]
    simp [List.getElem?_replicate]
    omega

/-- The loop of `parseHeadingLine` on `=`^n c `=`^n, where `c` does not start with `=`,
after `k` rounds: it stops after `n - 1` rounds. -/
theorem headingLoop_heading (n : Nat) (c : Str) (hc : c ≠ []) (hh : c.head? ≠ some 61) :
    ∀ (fuel k : Nat), k < n → n - k ≤ fuel →
    headingLoop (List.replicate n 61 ++ c ++ List.replicate n 61) fuel (k : Int)
        ((n + c.length + n - 1 - k : Nat) : Int) =
      .ok (((n - 1 : Nat) : Int), ((n + c.length : Nat) : Int))
  | 0, k, h1, h2 => by omega
  | fuel + 1, k, h1, h2 => by
    have hcl : 1 ≤ c.length := List.length_pos.2 hc
    unfold headingLoop
    simp only
    have e1 : ¬ ((k : Int) + 1 = ((n + c.length + n - 1 - k : Nat) : Int)) := by omega
    rw [if_neg e1]
    by_cases hk : k + 1 < n
    · have g1 := (heading_get n c (k + 1)).1 hk
      rw [byteAt_of_get _ ((k : Int) + 1) 61 (by omega) (by
        have : ((k : Int) + 1).toNat = k + 1 := by omega
        rw [this]; exact g1)]
      simp only [ne_eq, not_true_eq_false, if_false]
      have e3 : ¬ ((k : Int) + 1 = ((n + c.length + n - 1 - k : Nat) : Int) - 1) := by omega
      rw [if_neg e3]
      have g2 := (heading_get n c (n + c.length + n - 1 - k - 1)).2.2 (by omega) (by omega)
      rw [byteAt_of_get _ (((n + c.length + n - 1 - k : Nat) : Int) - 1) 61 (by omega) (by
        have : (((n + c.length + n - 1 - k : Nat) : Int) - 1).toNat = n + c.length + n - 1 - k - 1 := by
          omega
        rw [this]; exact g2)]
      simp only [ne_eq, not_true_eq_false, if_false]
      have ih := headingLoop_heading n c hc hh fuel (k + 1) hk (by omega)
      have c1 : ((k : Int) + 1) = ((k + 1 : Nat) : Int) := by omega
      have c2 : (((n + c.length + n - 1 - k : Nat) : Int) - 1) =
          ((n + c.length + n - 1 - (k + 1) : Nat) : Int) := by omega
      rw [c1, c2]
      exact ih
    · have hkn : k + 1 = n := by omega
      obtain ⟨c0, ct, rfl⟩ : ∃ c0 ct, c = c0 :: ct := by
        cases c with
        | nil => exact absurd rfl hc
        | cons c0 ct => exact ⟨c0, ct, rfl⟩
      have g1 := (heading_get n (c0 :: ct) 0).2.1
      simp only [Nat.add_zero, List.cons_append, List.get?_cons_zero] at g1
      rw [byteAt_of_get _ ((k : Int) + 1) c0 (by omega) (by
        have : ((k : Int) + 1).toNat = n := by omega
        rw [this]; exact g1)]
      simp only
      have hc0 : c0 ≠ 61 := by
        intro h; apply hh; simp [h]
      rw [if_pos hc0]
      congr 2
      · omega
      · simp only [List.length_cons] at *; omega

/-- The text between the first `k` and the last `k` bytes of `=`^n c `=`^n. -/
theorem heading_slice (n k : Nat) (c : Str) (hk : k ≤ n) :
    slice (List.replicate n 61 ++ c ++ List.replicate n 61) k (n + c.length + n - k) =
      List.replicate (n - k) 61 ++ c ++ List.replicate (n - k) 61 := by
  have h1 : List.replicate n 61 = List.replicate k 61 ++ List.replicate (n - k) 61 := by
    rw [← List.replicate_add]; congr 1; omega
  have h2 : List.replicate n 61 = List.replicate (n - k) 61 ++ List.replicate k 61 := by
    rw [← List.replicate_add]; congr 1; omega
  have e : List.replicate n 61 ++ c ++ List.replicate n 61 =
      List.replicate k 61 ++ (List.replicate (n - k) 61 ++ c ++ List.replicate (n - k) 61) ++
        List.replicate k 61 := by
    have e0 : List.replicate n 61 ++ c ++ List.replicate n 61 =
        (List.replicate k 61 ++ List.replicate (n - k) 61) ++ c ++
          (List.replicate (n - k) 61 ++ List.replicate k 61) := by rw [← h1, ← h2]
    rw [e0]
    simp only [List.append_assoc]
  rw [e, slice]
  have hlen : n + c.length + n - k =
      (List.replicate k 61 ++ (List.replicate (n - k) 61 ++ c ++ List.replicate (n - k) 61)).length := by
    simp; omega
  rw [hlen, List.take_left, List.drop_left' (by simp)]

/-- C27: heading depth.  For every `n ≥ 1` and every non-empty content `c` that does not
start with `=`, `parseHeadingLine` on `=`^n c `=`^n gives the token `h` followed by
`min n 6`, then the inline parse of the range between the first and the last `min n 6`
bytes of the line; that range holds `c` when `n ≤ 6`, and `=`^(n-6) c `=`^(n-6) when
`n > 6`.  For every line accepted by `isHeading`, `parseHeadingLine` gives a token `h`
followed by a level `k` between 1 and 6, then the inline parse of a range of the line that
starts at `k`. -/
theorem C27_heading_depth (T : Tables) :
    (∀ (n : Nat) (c : Str), 1 ≤ n → c ≠ [] → c.head? ≠ some 61 →
      parseHeadingLine T (List.replicate n 61 ++ c ++ List.replicate n 61) =
        (match parseInlineText T (n + c.length + n + 1)
            (List.replicate n 61 ++ c ++ List.replicate n 61) (min n 6)
            (n + c.length + n - min n 6) with
        | .ok nnt => .ok ({ TType := str "h" ++ itoa (min n 6) } :: nnt)
        | .panic => .panic
        | .fuel => .fuel) ∧
      slice (List.replicate n 61 ++ c ++ List.replicate n 61) (min n 6)
          (n + c.length + n - min n 6) =
        List.replicate (n - min n 6) 61 ++ c ++ List.replicate (n - min n 6) 61) ∧
    (∀ l : Str, isHeading l = true →
      ∃ k pl : Nat, 1 ≤ k ∧ k ≤ 6 ∧ k ≤ pl ∧ pl ≤ l.length ∧
        parseHeadingLine T l =
          match parseInlineText T (l.length + 1) l k pl with
          | .ok nnt => .ok ({ TType := str "h" ++ itoa k } :: nnt)
          | .panic => .panic
          | .fuel => .fuel) := by
  constructor
  · intro n c hn hc hh
    refine ⟨?_, heading_slice n (min n 6) c (Nat.min_le_left _ _)⟩
    have hcl : 1 ≤ c.length := List.length_pos.2 hc
    have hlen : (List.replicate n 61 ++ c ++ List.replicate n 61).length = n + c.length + n := by
      simp; omega
    have hlast : lastEq (List.replicate n 61 ++ c ++ List.replicate n 61) = n + c.length + n - 1 := by
      have e : (List.replicate n 61 ++ c ++ List.replicate (n - 1) 61) ++ 61 :: [] =
          List.replicate n 61 ++ c ++ List.replicate n 61 := by
        have : List.replicate n 61 = List.replicate (n - 1) 61 ++ [61] := by
          rw [← List.replicate_succ']; congr 1; omega
        rw [List.append_assoc (List.replicate n 61 ++ c), ← this]
      have h1 := lastEq_ge (List.replicate n 61 ++ c ++ List.replicate (n - 1) 61) []
      have h2 := lastEq_lt (List.replicate n 61 ++ c ++ List.replicate n 61) (by
        intro h; have := congrArg List.length h; rw [hlen] at this; simp at this; omega)
      rw [e] at h1
      rw [hlen] at h2
      simp only [List.length_append, List.length_replicate] at h1
      omega
    have hloop := headingLoop_heading n c hc hh (n + c.length + n + 1) 0 (by omega) (by omega)
    have hcast : ((n + c.length + n - 1 - 0 : Nat) : Int) =
        ((lastEq (List.replicate n 61 ++ c ++ List.replicate n 61) : Nat) : Int) := by
      rw [hlast]; rfl
    rw [hcast] at hloop
    have hmain := parseHeadingLine_of_loop T _ _ _ (by rw [hlen]; exact hloop) (by omega) (by omega)
    rw [hmain, hlen]
    have e1 : min ((((n - 1 : Nat) : Int)).toNat + 1) 6 = min n 6 := by
      congr 1; omega
    have e2 : (((n + c.length : Nat) : Int)).toNat + ((((n - 1 : Nat) : Int)).toNat + 1 - 6) =
        n + c.length + n - min n 6 := by
      omega
    rw [e1, e2]
  · intro l h
    have h2 := isHeading_lastEq l h
    have hne : l ≠ [] := by
      intro e; subst e; simp [lastEq, runes, runesAux] at h2
    have h3 := lastEq_lt l hne
    obtain ⟨pf2, pl2, h5, h6, h7, h8⟩ := headingLoop_ok l (l.length + 1) 0 (lastEq l)
      (le_refl _) (by omega) (by omega) (by omega)
    refine ⟨min (pf2.toNat + 1) 6, pl2.toNat + (pf2.toNat + 1 - 6), by omega, by omega, by omega,
      by omega, ?_⟩
    exact parseHeadingLine_of_loop T l pf2 pl2 h5 h6 h7

/-! ## C28: an opening bracket inside an internal link -/

set_option maxRecDepth 100000 in
/-- C28 (the claim fails): `[[a[b]]` is tokenized as a link, to the page `A[b`: the
opening bracket inside the link name is not at the first position and is not followed by
another opening bracket. -/
theorem C28_single_bracket_is_link :
    parseInternalLink goTables (parseInlineText goTables 10) (str "[[a[b]]")
      = .ok (some (7, [{ TLink := ⟨[], str "A[b", []⟩, TType := str "link" },
                       { TText := str "a[b", TType := str "text" },
                       { TType := str "closelink" }])) := by
  decide!

/-- The scan of `parseInternalLink` over runes that hold no `]`, before the link is
closed: it reports "not a link", or it goes on with the link still open. -/
theorem internalLinkLoop_open (T : Tables) (l : Str) (L2 : List (Nat × Nat)) :
    ∀ (L1 : List (Nat × Nat)) (st : LinkScan), st.matchingpos = 0 →
      (∀ p ∈ L1, 2 ≤ p.1 ∧ p.2 ≠ 93) →
      internalLinkLoop T l (L1 ++ L2) st = none ∨
      ∃ st2 : LinkScan, st2.matchingpos = 0 ∧
        internalLinkLoop T l (L1 ++ L2) st = internalLinkLoop T l L2 st2
  | [], st, h, _ => Or.inr ⟨st, h, rfl⟩
  | p :: L1, st, h, hL => by
    have hp := hL p (by simp)
    have hL' : ∀ q ∈ L1, 2 ≤ q.1 ∧ q.2 ≠ 93 := fun q hq => hL q (by simp [hq])
    obtain ⟨idx, rv⟩ := p
    simp only at hp
    rw [List.cons_append, internalLinkLoop]
    rw [if_neg (by omega), if_pos h]
    by_cases h7 : rv = 7
    · rw [if_pos h7]
      split_ifs
      · exact Or.inl rfl
      · exact internalLinkLoop_open T l L2 L1 st h hL'
    rw [if_neg h7]
    by_cases h91 : rv = 91
    · rw [if_pos h91]
      split_ifs
      · exact Or.inl rfl
      · exact internalLinkLoop_open T l L2 L1 st h hL'
    rw [if_neg h91, if_neg hp.2]
    by_cases h124 : rv = 124
    · rw [if_pos h124]
      split_ifs
      · exact internalLinkLoop_open T l L2 L1 _ h hL'
      · exact internalLinkLoop_open T l L2 L1 st h hL'
    · rw [if_neg h124]
      exact internalLinkLoop_open T l L2 L1 st h hL'

/-- C28 (amended): in `parseInternalLink`, an opening bracket as the first byte of the
link name, and an opening bracket that is followed by another one anywhere before the
closing brackets, make the function report that the text is not a link. -/
theorem C28_bracket_aborts (T : Tables) (pit : Str → Nat → Nat → Res (List Token))
    (x rest : Str) (hx : 93 ∉ x) :
    parseInternalLink T pit ([91, 91, 91] ++ rest) = .ok none ∧
    parseInternalLink T pit ([91, 91] ++ x ++ [91, 91] ++ rest) = .ok none := by
  constructor
  · unfold parseInternalLink
    have e : [91, 91, 91] ++ rest = 91 :: 91 :: 91 :: rest := rfl
    rw [e, runes_cons_ascii _ _ (by decide), runes_cons_ascii _ _ (by decide),
      runes_cons_ascii _ _ (by decide)]
    simp only [List.map_cons, internalLinkLoop, show (0 : Nat) < 2 from by omega,
      show (0 + 1 : Nat) < 2 from by omega, if_true]
    simp
  · have hr : runes ([91, 91] ++ x ++ [91, 91] ++ rest) =
        (0, 91) :: (1, 91) :: ((runes x).map (fun p => (p.1 + 2, p.2)) ++
          (x.length + 2, 91) :: (runes (91 :: rest)).map (fun p => (p.1 + (x.length + 3), p.2))) := by
      have e : [91, 91] ++ x ++ [91, 91] ++ rest = 91 :: 91 :: (x ++ 91 :: (91 :: rest)) := by simp
      rw [e, runes_cons_ascii _ _ (by decide), runes_cons_ascii _ _ (by decide),
        runes_append_ascii x _ 91 (by decide), runes_cons_ascii 91 (91 :: rest) (by decide)]
      simp only [List.map_cons, List.map_append, List.map_map]
      have f1 : ((fun p : Nat × Nat => (p.1 + 1, p.2)) ∘ (fun p : Nat × Nat => (p.1 + 1, p.2))) =
          fun p => (p.1 + 2, p.2) := by funext p; simp [Function.comp]
      have f2 : ((fun p : Nat × Nat => (p.1 + 1, p.2)) ∘ (fun p : Nat × Nat => (p.1 + 1, p.2)) ∘
          (fun p : Nat × Nat => (p.1 + x.length, p.2)) ∘ (fun p : Nat × Nat => (p.1 + 1, p.2))) =
          fun p => (p.1 + (x.length + 3), p.2) := by
        funext p; simp [Function.comp]; omega
      have f3 : 0 + x.length + 1 + 1 = x.length + 2 := by omega
      rw [f1, f2, f3]
    have hstep := internalLinkLoop_open T ([91, 91] ++ x ++ [91, 91] ++ rest)
      ((x.length + 2, 91) :: (runes (91 :: rest)).map (fun p => (p.1 + (x.length + 3), p.2)))
      ((runes x).map (fun p => (p.1 + 2, p.2))) {} rfl (by
        intro p hp
        obtain ⟨q, hq, rfl⟩ := List.mem_map.1 hp
        refine ⟨by simp, ?_⟩
        intro h93
        have := runes_mem_ascii x q hq (by simp at h93; omega)
        simp at h93
        rw [h93] at this
        exact hx this)
    have hget : ([91, 91] ++ x ++ [91, 91] ++ rest).get? (x.length + 2 + 1) = some 91 := by
      have e : [91, 91] ++ x ++ [91, 91] ++ rest = ([91, 91] ++ x ++ [91]) ++ 91 :: rest := by simp
      rw [e, List.get?_eq_getElem?, List.getElem?_append_right (by simp)]
      simp
    have hlen : ([91, 91] ++ x ++ [91, 91] ++ rest).length > x.length + 2 + 1 := by
      simp; omega
    unfold parseInternalLink
    rw [hr]
    simp only [internalLinkLoop, show (0 : Nat) < 2 from by omega, show (1 : Nat) < 2 from by omega,
      if_true]
    rcases hstep with h | ⟨st2, h0, h⟩
    · rw [h]
    · rw [h, internalLinkLoop, if_neg (by omega), if_pos h0, if_neg (by decide), if_pos rfl,
        if_pos (Or.inr ⟨hlen, hget⟩)]

/-- C28, a witness: `[[a|b[[c]]` is not a link. -/
theorem C28_bracket_aborts_witness :
    parseInternalLink goTables (parseInlineText goTables 10) ([91, 91, 91] ++ str "a]]") = .ok none ∧
    parseInternalLink goTables (parseInlineText goTables 10)
      ([91, 91] ++ str "a|b" ++ [91, 91] ++ str "c]]") = .ok none :=
  C28_bracket_aborts goTables (parseInlineText goTables 10) (str "a|b") (str "c]]") (by decide)

/-! ## C23: the classification of template names -/

/-- The ways a first rune is decoded: an ASCII byte, an ill-formed byte, or a well-formed
sequence of two, three or four bytes. -/
theorem decodeRune_cases (s0 : Nat) (t : Str) :
    (s0 < 0x80 ∧ decodeRune (s0 :: t) = (s0, 1)) ∨
    (¬ s0 < 0x80 ∧ decodeRune (s0 :: t) = (RuneError, 1)) ∨
    (∃ s1 t2, t = s1 :: t2 ∧ ¬ s0 < 0x80 ∧ isCont s1 = true ∧
      (∀ u, decodeRune (s0 :: s1 :: u) = decodeRune (s0 :: t)) ∧ (decodeRune (s0 :: t)).2 = 2) ∨
    (∃ s1 s2 t2, t = s1 :: s2 :: t2 ∧ ¬ s0 < 0x80 ∧ isCont s1 = true ∧ isCont s2 = true ∧
      (∀ u, decodeRune (s0 :: s1 :: s2 :: u) = decodeRune (s0 :: t)) ∧
      (decodeRune (s0 :: t)).2 = 3) ∨
    (∃ s1 s2 s3 t2, t = s1 :: s2 :: s3 :: t2 ∧ ¬ s0 < 0x80 ∧ isCont s1 = true ∧
      isCont s2 = true ∧ isCont s3 = true ∧
      (∀ u, decodeRune (s0 :: s1 :: s2 :: s3 :: u) = decodeRune (s0 :: t)) ∧
      (decodeRune (s0 :: t)).2 = 4) := by
  by_cases h0 : s0 < 0x80
  · exact Or.inl ⟨h0, by simp [decodeRune, h0]⟩
  right
  by_cases h1 : s0 < 0xC2
  · exact Or.inl ⟨h0, by simp [decodeRune, h0, h1]⟩
  by_cases h2 : s0 < 0xE0
  · rcases t with _ | ⟨s1, t2⟩
    · exact Or.inl ⟨h0, by simp [decodeRune, h0, h1, h2]⟩
    · by_cases ha : accepts s0 s1 = true
      · exact Or.inr (Or.inl ⟨s1, t2, rfl, h0, accepts_isCont _ _ ha,
          fun u => by simp [decodeRune, h0, h1, h2, ha], by simp [decodeRune, h0, h1, h2, ha]⟩)
      · exact Or.inl ⟨h0, by simp [decodeRune, h0, h1, h2, ha]⟩
  by_cases h3 : s0 < 0xF0
  · rcases t with _ | ⟨s1, _ | ⟨s2, t2⟩⟩
    · exact Or.inl ⟨h0, by simp [decodeRune, h0, h1, h2, h3]⟩
    · exact Or.inl ⟨h0, by simp [decodeRune, h0, h1, h2, h3]⟩
    · by_cases ha : accepts s0 s1 = true ∧ isCont s2 = true
      · exact Or.inr (Or.inr (Or.inl ⟨s1, s2, t2, rfl, h0, accepts_isCont _ _ ha.1, ha.2,
          fun u => by simp [decodeRune, h0, h1, h2, h3, ha],
          by simp [decodeRune, h0, h1, h2, h3, ha]⟩))
      · exact Or.inl ⟨h0, by simp [decodeRune, h0, h1, h2, h3, ha]⟩
  by_cases h4 : s0 < 0xF5
  · rcases t with _ | ⟨s1, _ | ⟨s2, _ | ⟨s3, t2⟩⟩⟩
    · exact Or.inl ⟨h0, by simp [decodeRune, h0, h1, h2, h3, h4]⟩
    · exact Or.inl ⟨h0, by simp [decodeRune, h0, h1, h2, h3, h4]⟩
    · exact Or.inl ⟨h0, by simp [decodeRune, h0, h1, h2, h3, h4]⟩
    · by_cases ha : accepts s0 s1 = true ∧ isCont s2 = true ∧ isCont s3 = true
      · exact Or.inr (Or.inr (Or.inr ⟨s1, s2, s3, t2, rfl, h0, accepts_isCont _ _ ha.1, ha.2.1,
          ha.2.2, fun u => by simp [decodeRune, h0, h1, h2, h3, h4, ha],
          by simp [decodeRune, h0, h1, h2, h3, h4, ha]⟩))
      · exact Or.inl ⟨h0, by simp [decodeRune, h0, h1, h2, h3, h4, ha]⟩
  · exact Or.inl ⟨h0, by simp [decodeRune, h0, h1, h2, h3, h4]⟩

/-- A continuation byte is not an ASCII byte. -/
theorem isCont_ge (b : Nat) (h : isCont b = true) : 0x80 ≤ b := by
  simp [isCont] at h; omega

/-- A white-space rune is decoded from its own bytes alone, and none of them is a
colon. -/
theorem decodeRune_space (s0 : Nat) (t : Str) (h : isSpace (decodeRune (s0 :: t)).1 = true)
    (u : Str) :
    decodeRune ((s0 :: t).take (decodeRune (s0 :: t)).2 ++ u) = decodeRune (s0 :: t) ∧
    58 ∉ (s0 :: t).take (decodeRune (s0 :: t)).2 := by
  have hre : isSpace RuneError = false := by decide
  rcases decodeRune_cases s0 t with ⟨h0, hd⟩ | ⟨h0, hd⟩ | ⟨s1, t2, rfl, h0, c1, hd, hw⟩ |
      ⟨s1, s2, t2, rfl, h0, c1, c2, hd, hw⟩ | ⟨s1, s2, s3, t2, rfl, h0, c1, c2, c3, hd, hw⟩
  · rw [hd] at h ⊢
    constructor
    · simp [decodeRune, h0]
    · simp only [List.take_succ_cons, List.take_zero, List.mem_singleton]
      intro h58; rw [← h58] at h; revert h; decide
  · rw [hd, hre] at h; cases h
  · rw [hw]
    have g1 := isCont_ge _ c1
    exact ⟨hd u, by simp; omega⟩
  · rw [hw]
    have g1 := isCont_ge _ c1
    have g2 := isCont_ge _ c2
    exact ⟨hd u, by simp; omega⟩
  · rw [hw]
    have g1 := isCont_ge _ c1
    have g2 := isCont_ge _ c2
    have g3 := isCont_ge _ c3
    exact ⟨hd u, by simp; omega⟩

/-- `TrimLeft` splits a string into leading white space without colon and the rest; the
same white space in front of a visible ASCII byte is trimmed in the same way. -/
theorem trimLeftSpace_split : ∀ (fuel : Nat) (s : Str), s.length ≤ fuel →
    ∃ ws, s = ws ++ trimLeftSpace fuel s ∧ 58 ∉ ws ∧
      ∀ (c : Nat) (v : Str) (fuel2 : Nat), c < 0x80 → isSpace c = false →
        (ws ++ c :: v).length ≤ fuel2 → trimLeftSpace fuel2 (ws ++ c :: v) = c :: v
  | 0, s, h => by
    have : s = [] := List.length_eq_zero.1 (by omega)
    subst this
    refine ⟨[], rfl, by simp, ?_⟩
    intro c v fuel2 hc hs hl
    cases fuel2 with
    | zero => simp at hl
    | succ f => simp [trimLeftSpace, decodeRune_ascii c v hc, hs]
  | fuel + 1, [], _ => by
    refine ⟨[], rfl, by simp, ?_⟩
    intro c v fuel2 hc hs hl
    cases fuel2 with
    | zero => simp at hl
    | succ f => simp [trimLeftSpace, decodeRune_ascii c v hc, hs]
  | fuel + 1, b :: t, h => by
    by_cases hsp : isSpace (decodeRune (b :: t)).1 = true
    · have hw := decodeRune_width_pos b t
      have hle := decodeRune_width_le (b :: t)
      obtain ⟨ws, h1, h2, h3⟩ := trimLeftSpace_split fuel ((b :: t).drop (decodeRune (b :: t)).2)
        (by simp only [List.length_drop, List.length_cons] at *; omega)
      have hd := decodeRune_space b t hsp
      refine ⟨(b :: t).take (decodeRune (b :: t)).2 ++ ws, ?_, ?_, ?_⟩
      · rw [trimLeftSpace]
        simp only [hsp, if_true]
        rw [List.append_assoc, ← h1, List.take_append_drop]
      · intro hm
        rcases List.mem_append.1 hm with hm | hm
        · exact (hd []).2 hm
        · exact h2 hm
      · intro c v fuel2 hc hs hl
        cases fuel2 with
        | zero => simp at hl
        | succ f =>
          have htk : (b :: t).take (decodeRune (b :: t)).2 =
              b :: t.take ((decodeRune (b :: t)).2 - 1) := by
            obtain ⟨k, hk⟩ : ∃ k, (decodeRune (b :: t)).2 = k + 1 := ⟨_, (Nat.sub_add_cancel hw).symm⟩
            rw [hk]; simp
          have hdec := (hd (ws ++ c :: v)).1
          have hlen : ((b :: t).take (decodeRune (b :: t)).2).length = (decodeRune (b :: t)).2 := by
            rw [List.length_take]; omega
          have hdrop : List.drop (decodeRune (b :: t)).2
              ((b :: t).take (decodeRune (b :: t)).2 ++ (ws ++ c :: v)) = ws ++ c :: v := by
            have := List.drop_left ((b :: t).take (decodeRune (b :: t)).2) (ws ++ c :: v)
            rwa [hlen] at this
          rw [List.append_assoc]
          rw [htk] at hdec hdrop ⊢
          simp only [List.cons_append] at hdec hdrop
          rw [List.cons_append, trimLeftSpace, hdec]
          simp only [hsp, if_true]
          rw [hdrop]
          apply h3 c v f hc hs
          simp only [List.length_append, List.length_cons, hlen] at hl ⊢
          omega
    · refine ⟨[], ?_, by simp, ?_⟩
      · simp [trimLeftSpace, hsp]
      · intro c v fuel2 hc hs hl
        cases fuel2 with
        | zero => simp at hl
        | succ f => simp [trimLeftSpace, decodeRune_ascii c v hc, hs]

/-- `TrimRight` returns a leading part of the string. -/
theorem trimRightSpace_front : ∀ (fuel : Nat) (s : Str), trimRightSpace fuel s <+: s
  | 0, s => by simp [trimRightSpace]
  | fuel + 1, [] => by simp [trimRightSpace]
  | fuel + 1, b :: t => by
    rw [trimRightSpace]
    split_ifs
    · exact (trimRightSpace_front fuel _).trans (List.take_prefix _ _)
    · exact List.prefix_refl _

/-- The ways a last rune is decoded: an ASCII byte, or the rune found some bytes back,
when it ends at the end of the string. -/
theorem decodeLastRune_form (s : Str) :
    s = [] ∨ (∃ e, s.getLast? = some e ∧ e < 0x80) ∨
    ∃ back, decodeLastRune s =
      if (decodeRune (s.drop (s.length - 1 - back))).2 = back + 1 then
        decodeRune (s.drop (s.length - 1 - back))
      else (RuneError, 1) := by
  unfold decodeLastRune
  cases hrev : s.reverse with
  | nil => exact Or.inl (by simpa using hrev)
  | cons b0 rest =>
    right
    by_cases hb : b0 < 0x80
    · left
      refine ⟨b0, ?_, hb⟩
      rw [← List.head?_reverse, hrev]; rfl
    · right
      simp only [hb, if_false]
      exact ⟨_, rfl⟩

/-- The last rune of a string that starts with a visible ASCII byte, when it is white
space, does not cover the whole string. -/
theorem decodeLastRune_space_lt (c : Nat) (v : Str) (hc : c < 0x80) (hs : isSpace c = false)
    (h : isSpace (decodeLastRune (c :: v)).1 = true) :
    (decodeLastRune (c :: v)).2 < (c :: v).length := by
  have hre : isSpace RuneError = false := by decide
  rcases decodeLastRune_form (c :: v) with h0 | ⟨e, he, he2⟩ | ⟨back, hb⟩
  · cases h0
  · rw [decodeLastRune_ascii _ e he he2] at h ⊢
    rcases v with _ | ⟨x, v⟩
    · simp at he
      rw [← he, hs] at h; cases h
    · simp
  · rw [hb] at h ⊢
    split_ifs at h ⊢ with hw
    · by_contra hcon
      simp only [List.length_cons] at hw hcon
      have hz : (c :: v).length - 1 - back = 0 := by
        simp only [List.length_cons]; omega
      rw [hz, List.drop_zero, decodeRune_ascii c v hc, hs] at h
      cases h
    · rw [hre] at h; cases h

/-- `TrimRight` keeps a visible ASCII byte at the start. -/
theorem trimRightSpace_head (c : Nat) (hc : c < 0x80) (hs : isSpace c = false) :
    ∀ (fuel : Nat) (v : Str), ∃ v2, trimRightSpace fuel (c :: v) = c :: v2
  | 0, v => ⟨v, rfl⟩
  | fuel + 1, v => by
    rw [trimRightSpace]
    split_ifs with h
    · have hlt := decodeLastRune_space_lt c v hc hs h
      obtain ⟨k, hk⟩ : ∃ k, (c :: v).length - (decodeLastRune (c :: v)).2 = k + 1 :=
        ⟨(c :: v).length - (decodeLastRune (c :: v)).2 - 1, by omega⟩
      rw [hk, List.take_succ_cons]
      exact trimRightSpace_head c hc hs fuel _
    · exact ⟨v, rfl⟩

/-- A name whose trimmed form starts with `#` is white space without colon followed by
`#`, and each of its leading parts that reaches the `#` has a trimmed form that starts
with `#`. -/
theorem TrimSpace_hash (tn : Str) (h : startsWith (TrimSpace tn) [35] = true) :
    ∃ ws u, tn = ws ++ 35 :: u ∧ 58 ∉ ws ∧
      ∀ v, startsWith (TrimSpace (ws ++ 35 :: v)) [35] = true := by
  obtain ⟨ws, h1, h2, h3⟩ := trimLeftSpace_split tn.length tn (le_refl _)
  unfold TrimSpace at h
  simp only at h
  have hp := trimRightSpace_front (trimLeftSpace tn.length tn).length (trimLeftSpace tn.length tn)
  rw [startsWith, List.isPrefixOf_iff_prefix] at h
  have hp2 : [35] <+: trimLeftSpace tn.length tn := h.trans hp
  obtain ⟨u, hu⟩ := hp2
  refine ⟨ws, u, ?_, h2, ?_⟩
  · rw [h1]; congr 1; exact hu.symm
  · intro v
    unfold TrimSpace
    simp only
    rw [h3 35 v _ (by decide) (by decide) (le_refl _)]
    obtain ⟨v2, hv2⟩ := trimRightSpace_head 35 (by decide) (by decide) (35 :: v).length v
    rw [hv2]
    simp [startsWith]

/-- The trimmed text before the first colon of a name whose trimmed form starts with
`#` starts with `#`. -/
theorem TrimSpace_hash_take (tn : Str) (h : startsWith (TrimSpace tn) [35] = true)
    (hi : Index tn [58] > 0) :
    startsWith (TrimSpace (tn.take (Index tn [58]).toNat)) [35] = true := by
  obtain ⟨ws, u, h1, h2, h3⟩ := TrimSpace_hash tn h
  by_cases hu : 58 ∈ u
  · obtain ⟨a, b, hab, ha⟩ := split_first 58 u hu
    have e : tn = (ws ++ 35 :: a) ++ 58 :: b := by rw [h1, hab]; simp
    have hn : 58 ∉ ws ++ 35 :: a := by
      intro hm
      rcases List.mem_append.1 hm with hm | hm
      · exact h2 hm
      · rcases List.mem_cons.1 hm with hm | hm
        · cases hm
        · exact ha hm
    have hidx := Index_single_append 58 (ws ++ 35 :: a) b hn
    rw [← e] at hidx
    rw [hidx, Int.toNat_ofNat]
    conv_lhs => rw [e]
    rw [List.take_left]
    exact h3 a
  · have hn : 58 ∉ tn := by
      rw [h1]
      intro hm
      rcases List.mem_append.1 hm with hm | hm
      · exact h2 hm
      · rcases List.mem_cons.1 hm with hm | hm
        · cases hm
        · exact hu hm
    rw [Index_single_not_mem 58 tn hn] at hi
    omega

/-- Lower-casing keeps an ASCII byte at the start, lower-cased. -/
theorem ToLower_head (T : Tables) (c : Nat) (v : Str) (hc : c < 0x80) :
    (ToLower T (c :: v)).head? = some (lowerByte c) := by
  unfold ToLower
  split_ifs
  · simp
  · rw [Map, runes_cons_ascii c v hc]
    simp [toLowerRune, hc, encodeRune]
    have : lowerByte c < 128 := by
      unfold lowerByte; split_ifs <;> omega
    simp [this]

set_option maxRecDepth 100000 in
/-- No key of the two tables of magic words starts with `#`. -/
theorem magic_keys_no_hash :
    ∀ k ∈ noHashFunctionsMap ++ variablesMap, k.head? ≠ some 35 := by
  decide!

/-- C23: the classification of template names.  `templateType` gives `magic` exactly
when the base of the name (the lower-cased, trimmed text before the first `:`, or the
whole trimmed name when there is no `:` after position 0) is a key of `noHashFunctionsMap`
or of `variablesMap`; otherwise `ext` exactly when the trimmed name starts with `#`;
otherwise `normal`.  And every name whose trimmed form starts with `#` is classified
`ext`. -/
theorem C23_templateType_classification (T : Tables) (tn : Str) :
    (templateType T tn = str "magic" ↔
      (templateBase T tn ∈ noHashFunctionsMap ∨ templateBase T tn ∈ variablesMap)) ∧
    (templateType T tn = str "ext" ↔
      (¬ (templateBase T tn ∈ noHashFunctionsMap ∨ templateBase T tn ∈ variablesMap) ∧
        startsWith (TrimSpace tn) [35] = true)) ∧
    (templateType T tn = str "normal" ↔
      (¬ (templateBase T tn ∈ noHashFunctionsMap ∨ templateBase T tn ∈ variablesMap) ∧
        ¬ startsWith (TrimSpace tn) [35] = true)) ∧
    (startsWith (TrimSpace tn) [35] = true → templateType T tn = str "ext") := by
  have hdef : templateType T tn =
      if templateBase T tn ∈ noHashFunctionsMap ∨ templateBase T tn ∈ variablesMap then str "magic"
      else if startsWith (TrimSpace tn) [35] then str "ext"
      else str "normal" := rfl
  have d1 : str "magic" ≠ str "ext" := by decide
  have d2 : str "magic" ≠ str "normal" := by decide
  have d3 : str "ext" ≠ str "normal" := by decide
  have d4 : str "ext" ≠ str "magic" := by decide
  have d5 : str "normal" ≠ str "magic" := by decide
  have d6 : str "normal" ≠ str "ext" := by decide
  refine ⟨?_, ?_, ?_, ?_⟩
  · rw [hdef]; split_ifs <;> simp_all
  · rw [hdef]; split_ifs <;> simp_all
  · rw [hdef]; split_ifs <;> simp_all
  · intro h
    have hbase : (templateBase T tn).head? = some 35 := by
      unfold templateBase
      split_ifs with hi
      · have := TrimSpace_hash_take tn h hi
        rw [startsWith, List.isPrefixOf_iff_prefix] at this
        obtain ⟨w, hw⟩ := this
        rw [← hw]
        exact ToLower_head T 35 w (by decide)
      · rw [startsWith, List.isPrefixOf_iff_prefix] at h
        obtain ⟨w, hw⟩ := h
        rw [← hw]
        exact ToLower_head T 35 w (by decide)
    have hk : ¬ (templateBase T tn ∈ noHashFunctionsMap ∨ templateBase T tn ∈ variablesMap) := by
      intro hm
      exact magic_keys_no_hash _ (List.mem_append.2 hm) hbase
    rw [hdef, if_neg hk, if_pos h]

/-! ## C30: the sentinel tokens are resolved -/

/-- A value found in a map is among its values. -/
theorem mem_values_of_lookup {α : Type} (m : List (Str × α)) (k : Str) (v : α)
    (h : m.lookup k = some v) : v ∈ m.map Prod.snd := by
  induction m with
  | nil => simp at h
  | cons e m ih =>
    obtain ⟨k1, v1⟩ := e
    by_cases hk : k = k1
    · subst hk; simp [List.lookup] at h; simp [h]
    · have h2 : (k == k1) = false := by simpa using hk
      simp only [List.lookup, h2] at h
      simp [ih h]

/-- The values after the assignment `m[k] = v`. -/
theorem mem_values_mapSet {α : Type} (m : List (Str × α)) (k : Str) (v x : α)
    (h : x ∈ (mapSet m k v).map Prod.snd) : x = v ∨ x ∈ m.map Prod.snd := by
  unfold mapSet at h
  split at h
  · simp only [List.map_map, List.mem_map, Function.comp] at h
    obtain ⟨e, he, rfl⟩ := h
    by_cases hk : e.1 = k
    · simp [hk]
    · simp only [hk, if_false]
      exact Or.inr (List.mem_map.2 ⟨e, he, rfl⟩)
  · simp only [List.map_append, List.mem_append, List.map_cons, List.map_nil,
      List.mem_singleton] at h
    rcases h with h | h
    · exact Or.inr h
    · exact Or.inl h

/-- The pass over the specials fails exactly when the text of a special token is not in
the map. -/
theorem resolveSpecials_none (m : TokenMap) : ∀ ts : List Token,
    resolveSpecials m ts = none ↔
      ∃ t ∈ ts, t.TType = str "special" ∧ m.lookup t.TText = none
  | [] => by simp [resolveSpecials]
  | t :: ts => by
    have ih := resolveSpecials_none m ts
    rw [resolveSpecials]
    by_cases ht : t.TType = str "special"
    · simp only [ht, if_true]
      cases hl : m.lookup t.TText with
      | none =>
        simp only
        constructor
        · intro _; exact ⟨t, by simp, ht, hl⟩
        · intro _; trivial
      | some u =>
        cases hr : resolveSpecials m ts with
        | none =>
          simp only
          constructor
          · intro _
            obtain ⟨t2, h1, h2, h3⟩ := ih.1 hr
            exact ⟨t2, by simp [h1], h2, h3⟩
          · intro _; trivial
        | some us =>
          simp only
          constructor
          · intro h; cases h
          · rintro ⟨t2, h1, h2, h3⟩
            rcases List.mem_cons.1 h1 with h1 | h1
            · subst h1; rw [hl] at h3; cases h3
            · have := ih.2 ⟨t2, h1, h2, h3⟩
              rw [hr] at this; cases this
    · simp only [ht, if_false]
      rw [Option.map_eq_none', ih]
      constructor
      · rintro ⟨t2, h1, h2, h3⟩; exact ⟨t2, by simp [h1], h2, h3⟩
      · rintro ⟨t2, h1, h2, h3⟩
        rcases List.mem_cons.1 h1 with h1 | h1
        · subst h1; exact absurd h2 ht
        · exact ⟨t2, h1, h2, h3⟩

/-- When the pass over the specials succeeds, every special token has been replaced by
the token stored for its text. -/
theorem resolveSpecials_some (m : TokenMap) : ∀ (ts us : List Token),
    resolveSpecials m ts = some us → us = ts.map (resolveToken m)
  | [], us, h => by simp [resolveSpecials] at h; simp [h]
  | t :: ts, us, h => by
    rw [resolveSpecials] at h
    by_cases ht : t.TType = str "special"
    · simp only [ht, if_true] at h
      cases hl : m.lookup t.TText with
      | none => simp [hl] at h
      | some u =>
        cases hr : resolveSpecials m ts with
        | none => simp [hl, hr] at h
        | some us2 =>
          simp only [hl, hr, Option.some.injEq] at h
          rw [← h, List.map_cons, ← resolveSpecials_some m ts us2 hr]
          simp [resolveToken, ht, hl]
    · simp only [ht, if_false] at h
      cases hr : resolveSpecials m ts with
      | none => simp [hr] at h
      | some us2 =>
        simp only [hr, Option.map_some', Option.some.injEq] at h
        rw [← h, List.map_cons, ← resolveSpecials_some m ts us2 hr]
        simp [resolveToken, ht]

/-- When the pass over the specials succeeds and no token stored in the map is a special
token, no special token is left. -/
theorem resolveSpecials_no_special (m : TokenMap)
    (hm : ∀ v ∈ m.map Prod.snd, v.TType ≠ str "special") : ∀ (ts us : List Token),
    resolveSpecials m ts = some us → ∀ u ∈ us, u.TType ≠ str "special"
  | [], us, h => by simp [resolveSpecials] at h; simp [h]
  | t :: ts, us, h => by
    rw [resolveSpecials] at h
    by_cases ht : t.TType = str "special"
    · simp only [ht, if_true] at h
      cases hl : m.lookup t.TText with
      | none => simp [hl] at h
      | some u =>
        cases hr : resolveSpecials m ts with
        | none => simp [hl, hr] at h
        | some us2 =>
          simp only [hl, hr, Option.some.injEq] at h
          rw [← h]
          intro x hx
          rcases List.mem_cons.1 hx with hx | hx
          · rw [hx]; exact hm u (mem_values_of_lookup m _ u hl)
          · exact resolveSpecials_no_special m hm ts us2 hr x hx
    · simp only [ht, if_false] at h
      cases hr : resolveSpecials m ts with
      | none => simp [hr] at h
      | some us2 =>
        simp only [hr, Option.map_some', Option.some.injEq] at h
        rw [← h]
        intro x hx
        rcases List.mem_cons.1 hx with hx | hx
        · rw [hx]; exact ht
        · exact resolveSpecials_no_special m hm ts us2 hr x hx

/-- A match of a word that starts with a letter other than `k` and `s` starts with an
ASCII byte that is this letter up to case. -/
theorem matchFold_head (w : Nat) (ws s : Str) (k : Nat) (hw : w ≠ 107 ∧ w ≠ 115)
    (h : matchFold (w :: ws) s = some k) :
    ∃ b s2, s = b :: s2 ∧ b < 0x80 ∧ lowerByte b = w ∧ 1 ≤ k := by
  rw [matchFold] at h
  split_ifs at h with hc
  · obtain ⟨hne, hcase⟩ := hc
    rcases hcase with ⟨h1, h2⟩ | ⟨h1, _⟩ | ⟨h1, _⟩
    · rcases s with _ | ⟨b, s2⟩
      · exact absurd rfl hne
      · have hb := decodeRune_lt_ascii b s2 h1
        rw [decodeRune_ascii b s2 hb] at h h2
        refine ⟨b, s2, rfl, hb, h2, ?_⟩
        rcases Option.map_eq_some'.1 h with ⟨k2, _, hk⟩
        omega
    · exact absurd h1 hw.1
    · exact absurd h1 hw.2

/-- Every match found by `findAllTags` in the rest of the text from `pos` is a match of
the expression at some offset `p`, with the group at the offsets the expression gives. -/
theorem findAllTags_mem (m : Str → Option (Nat × Nat × Nat)) (typ : Nat) (mw : Str) :
    ∀ (fuel pos : Nat) (s : Str) (o : TagMatch), s = mw.drop pos →
      o ∈ findAllTags m typ fuel pos s →
      ∃ p len gs ge, m (mw.drop p) = some (len, gs, ge) ∧ o.gs = p + gs ∧ o.ge = p + ge
  | 0, _, _, _, _, h => by simp [findAllTags] at h
  | _ + 1, _, [], _, _, h => by simp [findAllTags] at h
  | fuel + 1, pos, c :: t, o, hs, h => by
    rw [findAllTags] at h
    cases hm : m (c :: t) with
    | none =>
      rw [hm] at h
      have e : t = mw.drop (pos + 1) := by
        have : t = (c :: t).drop 1 := rfl
        rw [this, hs, List.drop_drop]
      exact findAllTags_mem m typ mw fuel (pos + 1) t o e h
    | some r =>
      obtain ⟨len, gs, ge⟩ := r
      rw [hm] at h
      simp only [List.mem_cons] at h
      rcases h with h | h
      · exact ⟨pos, len, gs, ge, by rw [← hs, hm], by rw [h], by rw [h]⟩
      · have e : (c :: t).drop len = mw.drop (pos + len) := by
          rw [hs, List.drop_drop]
        exact findAllTags_mem m typ mw fuel (pos + len) _ o e h

/-- The text of a span of the rest of a text. -/
theorem slice_drop (mw : Str) (p lo hi : Nat) :
    slice mw (p + lo) (p + hi) = slice (mw.drop p) lo hi := by
  simp only [slice]
  rw [List.take_drop, List.drop_drop]

/-- The lower-cased group of a match of an opening tag starts with the first letter of
the tag name. -/
theorem matchOpenTag_group (T : Tables) (w : Nat) (ws : Str) (noSlash : Bool) (s : Str)
    (len gs ge : Nat) (hw : w ≠ 107 ∧ w ≠ 115)
    (h : matchOpenTag (w :: ws) noSlash s = some (len, gs, ge)) :
    (ToLower T (slice s gs ge)).head? = some w := by
  unfold matchOpenTag at h
  rcases s with _ | ⟨c, t⟩
  · cases h
  · split at h
    · rename_i t2 heq
      injection heq with hc ht
      subst ht
      subst hc
      simp only at h
      cases hf : matchFold (w :: ws) (t.drop ((t.takeWhile isReSpace).length)) with
      | none => rw [hf] at h; cases h
      | some k =>
        rw [hf] at h
        simp only at h
        cases hr : matchTagRest noSlash (t.drop ((t.takeWhile isReSpace).length + k)) with
        | none => rw [hr] at h; cases h
        | some r =>
          rw [hr] at h
          simp only [Option.some.injEq, Prod.mk.injEq] at h
          obtain ⟨_, hgs, hge⟩ := h
          obtain ⟨b, s2, hs2, hb, hlb, hk⟩ := matchFold_head w ws _ k hw hf
          have : slice (60 :: t) gs ge = b :: s2.take (k - 1) := by
            rw [← hgs, ← hge, slice]
            have e1 : 1 + (t.takeWhile isReSpace).length + k =
                ((t.takeWhile isReSpace).length + k) + 1 := by omega
            have e2 : 1 + (t.takeWhile isReSpace).length = (t.takeWhile isReSpace).length + 1 := by
              omega
            rw [e1, e2, List.take_succ_cons, List.drop_succ_cons, List.drop_take]
            have e3 : (t.takeWhile isReSpace).length + k - (t.takeWhile isReSpace).length = k := by
              omega
            rw [e3, hs2]
            obtain ⟨k2, rfl⟩ : ∃ k2, k = k2 + 1 := ⟨k - 1, by omega⟩
            simp
          rw [this, ToLower_head T b _ hb, hlb]
    · cases h

/-- The lower-cased group of a match of a closing tag starts with `/`. -/
theorem matchCloseTag_group (T : Tables) (name : Str) (noSlash : Bool) (s : Str)
    (len gs ge : Nat) (h : matchCloseTag name noSlash s = some (len, gs, ge)) :
    (ToLower T (slice s gs ge)).head? = some 47 := by
  unfold matchCloseTag at h
  rcases s with _ | ⟨c, t⟩
  · cases h
  · split at h
    · rename_i t2 heq
      injection heq with hc ht
      subst ht
      subst hc
      cases hf : matchFold (47 :: name) t with
      | none => rw [hf] at h; cases h
      | some k =>
        rw [hf] at h
        simp only at h
        cases hr : matchTagRest noSlash (t.drop k) with
        | none => rw [hr] at h; cases h
        | some r =>
          rw [hr] at h
          simp only [Option.some.injEq, Prod.mk.injEq] at h
          obtain ⟨_, hgs, hge⟩ := h
          obtain ⟨b, s2, hs2, hb, hlb, hk⟩ := matchFold_head 47 name _ k (by decide) hf
          have : slice (60 :: t) gs ge = b :: s2.take (k - 1) := by
            rw [← hgs, ← hge, slice, hs2]
            obtain ⟨k2, rfl⟩ : ∃ k2, k = k2 + 1 := ⟨k - 1, by omega⟩
            simp
            rw [Nat.add_comm]; simp
          rw [this, ToLower_head T b _ hb, hlb]
    · cases h

/-- Insertion keeps the matches. -/
theorem mem_insertByS (m o : TagMatch) : ∀ l : List TagMatch, o ∈ insertByS m l → o = m ∨ o ∈ l
  | [], h => by simpa [insertByS] using h
  | u :: us, h => by
    rw [insertByS] at h
    split_ifs at h
    · simpa using h
    · rcases List.mem_cons.1 h with h | h
      · exact Or.inr (by simp [h])
      · rcases mem_insertByS m o us h with h | h
        · exact Or.inl h
        · exact Or.inr (by simp [h])

/-- Sorting keeps the matches. -/
theorem mem_sortByS (o : TagMatch) : ∀ l : List TagMatch, o ∈ sortByS l → o ∈ l
  | [], h => by simp [sortByS] at h
  | m :: ms, h => by
    rw [sortByS] at h
    rcases mem_insertByS m o _ h with h | h
    · simp [h]
    · simp [mem_sortByS o ms h]

/-- The kind recorded for a region of `stripNowikiPreMath` does not start with `s`. -/
theorem regionToken_type (T : Tables) (mw : Str) (i stop : Nat) :
    (regionToken T mw (amAt (tagEvents mw) i) stop).TType.head? ≠ some 115 := by
  have hd : ∀ o : TagMatch, o ∈ tagEvents mw →
      (ToLower T (slice mw o.gs o.ge)).head? ≠ some 115 := by
    intro o ho
    have ho2 := mem_sortByS o _ ho
    simp only [List.mem_append] at ho2
    have hopen : ∀ (w : Nat) (ws : Str) (ns : Bool) (typ : Nat), w ≠ 107 ∧ w ≠ 115 →
        o ∈ findAllTags (matchOpenTag (w :: ws) ns) typ mw.length 0 mw →
        (ToLower T (slice mw o.gs o.ge)).head? = some w := by
      intro w ws ns typ hw h
      obtain ⟨p, len, gs, ge, h1, h2, h3⟩ := findAllTags_mem _ typ mw _ 0 mw o (by simp) h
      rw [h2, h3, slice_drop]
      exact matchOpenTag_group T w ws ns _ len gs ge hw h1
    have hclose : ∀ (name : Str) (ns : Bool) (typ : Nat),
        o ∈ findAllTags (matchCloseTag name ns) typ mw.length 0 mw →
        (ToLower T (slice mw o.gs o.ge)).head? = some 47 := by
      intro name ns typ h
      obtain ⟨p, len, gs, ge, h1, h2, h3⟩ := findAllTags_mem _ typ mw _ 0 mw o (by simp) h
      rw [h2, h3, slice_drop]
      exact matchCloseTag_group T name ns _ len gs ge h1
    have e1 : str "nowiki" = 110 :: str "owiki" := by decide
    have e2 : str "pre" = 112 :: str "re" := by decide
    have e3 : str "math" = 109 :: str "ath" := by decide
    rcases ho2 with ((((h | h) | h) | h) | h) | h
    · rw [e1] at h; rw [hopen _ _ _ _ (by decide) h]; decide
    · rw [hclose _ _ _ h]; decide
    · rw [e2] at h; rw [hopen _ _ _ _ (by decide) h]; decide
    · rw [hclose _ _ _ h]; decide
    · rw [e3] at h; rw [hopen _ _ _ _ (by decide) h]; decide
    · rw [hclose _ _ _ h]; decide
  show (ToLower T (slice mw (amAt (tagEvents mw) i).gs (amAt (tagEvents mw) i).ge)).head? ≠ some 115
  by_cases hi : i < (tagEvents mw).length
  · apply hd
    simp only [amAt, List.getD_eq_getElem?_getD, List.getElem?_eq_getElem hi, Option.getD_some]
    exact List.getElem_mem _
  · have : amAt (tagEvents mw) i = { s := 0, e := 0, gs := 0, ge := 0, typ := 0 } := by
      simp only [amAt, List.getD_eq_getElem?_getD]
      rw [List.getElem?_eq_none (by omega)]
      rfl
    rw [this]
    simp [slice, ToLower, isASCII]

/-- The property of the tokens stored in the placeholder map that rules out the kind
`special`: the kind does not start with `s`. -/
theorem not_special_of_head (t : Token) (h : t.TType.head? ≠ some 115) :
    t.TType ≠ str "special" := by
  intro e
  apply h
  rw [e]
  decide

/-- The sweep stores only tokens whose kind does not start with `s`. -/
theorem sweepStep_values (T : Tables) (mw : Str) (st : Sweep) (i : Nat)
    (h : ∀ v ∈ st.tokens.map Prod.snd, v.TType.head? ≠ some 115) :
    ∀ v ∈ (sweepStep T mw (tagEvents mw) st i).tokens.map Prod.snd, v.TType.head? ≠ some 115 := by
  unfold sweepStep
  simp only
  split_ifs
  · intro v hv
    rcases mem_values_mapSet _ _ _ _ hv with hv | hv
    · rw [hv]; exact regionToken_type T mw _ _
    · exact h v hv
  · exact h
  · exact h

/-- The same for the whole sweep. -/
theorem sweepFold_values (T : Tables) (mw : Str) : ∀ (l : List Nat) (st : Sweep),
    (∀ v ∈ st.tokens.map Prod.snd, v.TType.head? ≠ some 115) →
    ∀ v ∈ (l.foldl (sweepStep T mw (tagEvents mw)) st).tokens.map Prod.snd,
      v.TType.head? ≠ some 115
  | [], _, h => h
  | i :: l, st, h => by
    rw [List.foldl_cons]
    exact sweepFold_values T mw l _ (sweepStep_values T mw st i h)

/-- The map returned by `stripNowikiPreMath` holds only tokens whose kind does not start
with `s`. -/
theorem stripNowikiPreMath_values (T : Tables) (mw : Str) :
    ∀ v ∈ (stripNowikiPreMath T mw).2.map Prod.snd, v.TType.head? ≠ some 115 := by
  unfold stripNowikiPreMath
  simp only
  split_ifs
  · simp
  · have h := sweepFold_values T mw (List.range (tagEvents mw).length) {} (by simp)
    unfold sweepFinish
    simp only
    split_ifs
    · intro v hv
      rcases mem_values_mapSet _ _ _ _ hv with hv | hv
      · rw [hv]; exact regionToken_type T mw _ _
      · exact h v hv
    · exact h

/-- One iteration of the loop of `processTemplates` stores only `tb` and `te` tokens. -/
theorem processStep_values (T : Tables) (g : PageGetter) (fuel : Nat) (mws : Str)
    (acc : Res (List template × Nat × Nat × Processed)) (ti : Nat)
    (h : ∀ tl i last p, acc = .ok (tl, i, last, p) →
      ∀ v ∈ p.tokens.map Prod.snd, v.TType.head? ≠ some 115) :
    ∀ tl i last p, processStep T g fuel mws acc ti = .ok (tl, i, last, p) →
      ∀ v ∈ p.tokens.map Prod.snd, v.TType.head? ≠ some 115 := by
  intro tl i last p hp
  unfold processStep at hp
  rcases acc with ⟨tl0, i0, last0, p0⟩ | _ | _
  · simp only at hp
    cases hr : renderInnerTemplates T g fuel tl0 mws ti [] 0 with
    | ok r =>
      obtain ⟨tl2, ⟨tn, pm⟩, tr2⟩ := r
      rw [hr] at hp
      simp only at hp
      cases hg : tl2.get? ti with
      | none => rw [hg] at hp; cases hp
      | some t =>
        rw [hg] at hp
        simp only [Res.ok.injEq, Prod.mk.injEq] at hp
        obtain ⟨_, _, _, hp⟩ := hp
        rw [← hp]
        intro v hv
        simp only at hv
        have d1 : (str "te").head? ≠ some 115 := by decide
        have d2 : (str "tb").head? ≠ some 115 := by decide
        rcases mem_values_mapSet _ _ _ _ hv with hv | hv
        · rw [hv]; exact d1
        · rcases mem_values_mapSet _ _ _ _ hv with hv | hv
          · rw [hv]; exact d2
          · exact h tl0 i0 last0 p0 rfl v hv
    | panic => rw [hr] at hp; cases hp
    | fuel => rw [hr] at hp; cases hp
  · cases hp
  · cases hp

/-- The same for the whole loop. -/
theorem processFold_values (T : Tables) (g : PageGetter) (fuel : Nat) (mws : Str) :
    ∀ (l : List Nat) (acc : Res (List template × Nat × Nat × Processed)),
    (∀ tl i last p, acc = .ok (tl, i, last, p) →
      ∀ v ∈ p.tokens.map Prod.snd, v.TType.head? ≠ some 115) →
    ∀ tl i last p, l.foldl (processStep T g fuel mws) acc = .ok (tl, i, last, p) →
      ∀ v ∈ p.tokens.map Prod.snd, v.TType.head? ≠ some 115
  | [], _, h => h
  | ti :: l, acc, h => by
    rw [List.foldl_cons]
    exact processFold_values T g fuel mws l _ (processStep_values T g fuel mws acc ti h)

/-- The map returned by `processTemplates` holds only tokens whose kind does not start
with `s`, when the map passed in does. -/
theorem processTemplates_values (T : Tables) (fuel : Nat) (mws : Str) (tokens : TokenMap)
    (g : PageGetter) (p : Processed)
    (h0 : ∀ v ∈ tokens.map Prod.snd, v.TType.head? ≠ some 115)
    (h : processTemplates T fuel mws tokens g = .ok p) :
    ∀ v ∈ p.tokens.map Prod.snd, v.TType.head? ≠ some 115 := by
  unfold processTemplates at h
  cases hf : findTemplates mws with
  | panic => rw [hf] at h; cases h
  | fuel => rw [hf] at h; cases h
  | ok r =>
    obtain ⟨tl, mlt⟩ := r
    rw [hf] at h
    simp only at h
    cases hr : mlt.foldl (processStep T g fuel mws)
        (.ok (tl, 0, 0, { out := [], tokens := tokens, templates := [], trace := [] })) with
    | panic => rw [hr] at h; cases h
    | fuel => rw [hr] at h; cases h
    | ok q =>
      obtain ⟨tl2, i2, last2, p2⟩ := q
      rw [hr] at h
      simp only [Res.ok.injEq] at h
      have := processFold_values T g fuel mws mlt _ (by
        intro tl i last p hp
        simp only [Res.ok.injEq, Prod.mk.injEq] at hp
        rw [← hp.2.2.2]
        exact h0) tl2 i2 last2 p2 hr
      rw [← h]
      exact this

/-- C30: when `Tokenize` returns, with the map `p.tokens` and the tokens `tokens` of the
lines before the pass over the specials: it returns an error exactly when the text of some
special token is not a key of the map; otherwise the tokens returned are those of the
lines with every special token replaced by the token stored for its text, and none of
them has the kind `special`. -/
theorem C30_specials_resolved (T : Tables) (fuel : Nat) (mw : Str) (g : PageGetter)
    (p : Processed) (tokens : List Token) (r : Tokenized)
    (hp : processTemplates T fuel (stripNowikiPreMath T (stripComments mw)).1
      (stripNowikiPreMath T (stripComments mw)).2 g = .ok p)
    (ht : tokenizeLines T (splitLines (preprocessLinks p.out)) = .ok tokens)
    (hr : Tokenize T fuel mw g = .ok r) :
    ((∃ e, r.tokens = .error e) ↔
      ∃ t ∈ tokens, t.TType = str "special" ∧ p.tokens.lookup t.TText = none) ∧
    (∀ ts, r.tokens = .ok ts →
      ts = tokens.map (resolveToken p.tokens) ∧ ∀ t ∈ ts, t.TType ≠ str "special") := by
  have hv := processTemplates_values T fuel _ _ g p (stripNowikiPreMath_values T _) hp
  have hv2 : ∀ v ∈ p.tokens.map Prod.snd, v.TType ≠ str "special" :=
    fun v h => not_special_of_head v (hv v h)
  unfold Tokenize at hr
  simp only [hp, ht] at hr
  cases hres : resolveSpecials p.tokens tokens with
  | none =>
    rw [hres] at hr
    simp only [Res.ok.injEq] at hr
    rw [← hr]
    refine ⟨⟨fun _ => (resolveSpecials_none _ _).1 hres, fun _ => ⟨_, rfl⟩⟩, ?_⟩
    intro ts h
    cases h
  | some us =>
    rw [hres] at hr
    simp only [Res.ok.injEq] at hr
    rw [← hr]
    refine ⟨⟨?_, ?_⟩, ?_⟩
    · rintro ⟨e, he⟩; cases he
    · intro h
      have := (resolveSpecials_none _ _).2 h
      rw [hres] at this; cases this
    · intro ts h
      simp only [Except.ok.injEq] at h
      subst h
      exact ⟨resolveSpecials_some _ _ _ hres, resolveSpecials_no_special _ hv2 _ _ hres⟩

set_option maxRecDepth 100000 in
/-- C30, a witness: the text `<nowiki>x</nowiki>`, whose only token before the pass is
the special token of the region. -/
theorem C30_specials_resolved_witness :
    ((∃ e, (Except.ok [{ TText := str "x", TType := str "nowiki" }, { TType := str "newline" }] :
        Except Str (List Token)) = .error e) ↔
      ∃ t ∈ [({ TText := regionSentinel 0, TType := str "special" } : Token),
          { TType := str "newline" }],
        t.TType = str "special" ∧
        List.lookup t.TText [(regionSentinel 0, ({ TText := str "x", TType := str "nowiki" } : Token))]
          = none) ∧
    (∀ ts, (Except.ok [{ TText := str "x", TType := str "nowiki" }, { TType := str "newline" }] :
        Except Str (List Token)) = .ok ts →
      ts = [({ TText := regionSentinel 0, TType := str "special" } : Token),
          { TType := str "newline" }].map
        (resolveToken [(regionSentinel 0, { TText := str "x", TType := str "nowiki" })]) ∧
      ∀ t ∈ ts, t.TType ≠ str "special") :=
  C30_specials_resolved goTables 1 (str "<nowiki>x</nowiki>") DummyPageGetter
    { out := regionSentinel 0,
      tokens := [(regionSentinel 0, { TText := str "x", TType := str "nowiki" })],
      templates := [], trace := [] }
    [{ TText := regionSentinel 0, TType := str "special" }, { TType := str "newline" }]
    { tokens := .ok [{ TText := str "x", TType := str "nowiki" }, { TType := str "newline" }],
      templates := [], trace := [] }
    (by decide!) (by decide!) (by rfl)

/-! ## C22: brace pairing -/

/-- One iteration of the loop of `findCurlyStreaks` keeps the invariant. -/
theorem streakStep_inv (mw : Str) (st : List (Nat × Nat) × Nat × Nat) (i b : Nat) (t : Str)
    (hs : mw.drop i = b :: t) (h : streakInv mw st i) :
    streakInv mw (streakStep st (i, (decodeRune (b :: t)).1)) (i + (decodeRune (b :: t)).2) := by
  obtain ⟨out, found, beg⟩ := st
  obtain ⟨h1, h2, h3, h4⟩ := h
  simp only at h1 h2 h3 h4
  have hw := decodeRune_width_pos b t
  have hget : mw.get? i = some b := by
    have := congrArg List.head? hs
    rw [List.head?_drop] at this
    simpa [List.get?_eq_getElem?] using this
  -- a brace rune is the byte at `i`, of width 1
  have hbrace : ∀ r, (r = 123 ∨ r = 125) → (decodeRune (b :: t)).1 = r →
      b = r ∧ (decodeRune (b :: t)).2 = 1 := by
    intro r hr he
    have hb : b < 0x80 := decodeRune_lt_ascii b t (by rw [he]; rcases hr with hr | hr <;> omega)
    rw [decodeRune_ascii b t hb] at he ⊢
    exact ⟨he, rfl⟩
  unfold streakStep
  simp only
  by_cases e : (decodeRune (b :: t)).1 = found
  · rw [if_pos e]
    refine ⟨h1, h2, by simp only; omega, ?_⟩
    intro hf
    simp only at hf ⊢
    obtain ⟨hb1, hb2⟩ := hbrace found hf e
    intro k hk1 hk2
    by_cases hki : k < i
    · exact h4 hf k hk1 hki
    · have : k = i := by omega
      rw [this, hget, hb1]
  · rw [if_neg e]
    refine ⟨?_, ?_, by simp only; omega, ?_⟩
    · simp only
      split_ifs with hc
      · intro p hp
        rcases List.mem_append.1 hp with hp | hp
        · obtain ⟨a1, a2, a3⟩ := h1 p hp
          exact ⟨a1, by omega, a3⟩
        · simp only [List.mem_singleton] at hp
          subst hp
          exact ⟨by simp only; omega, le_refl _, found, hc.2, h4 hc.2⟩
      · intro p hp
        obtain ⟨a1, a2, a3⟩ := h1 p hp
        exact ⟨a1, by omega, a3⟩
    · simp only
      split_ifs with hc
      · rw [List.pairwise_append]
        refine ⟨h2, by simp, ?_⟩
        intro a ha x hx
        simp only [List.mem_singleton] at hx
        subst hx
        exact (h1 a ha).2.1
      · exact h2
    · intro hf
      simp only at hf ⊢
      obtain ⟨hb1, hb2⟩ := hbrace _ hf rfl
      intro k hk1 hk2
      have : k = i := by omega
      rw [this, hget]
      exact congrArg some hb1

/-- The loop of `findCurlyStreaks` keeps the invariant up to the end of the text. -/
theorem streakFold_inv (mw : Str) : ∀ (fuel i : Nat) (s : Str)
    (st : List (Nat × Nat) × Nat × Nat), s = mw.drop i → s.length ≤ fuel → i ≤ mw.length →
    streakInv mw st i → streakInv mw ((runesAux fuel i s).foldl streakStep st) mw.length
  | 0, i, s, st, hs, hl, hi, h => by
    have hnil : s = [] := List.length_eq_zero.1 (by omega)
    have : i = mw.length := by
      have := congrArg List.length hs
      rw [hnil, List.length_drop] at this
      simp at this; omega
    rw [hnil]; simp only [runesAux, List.foldl_nil]; rw [← this]; exact h
  | fuel + 1, i, [], st, hs, hl, hi, h => by
    have : i = mw.length := by
      have := congrArg List.length hs
      rw [List.length_drop] at this
      simp at this; omega
    simp only [runesAux, List.foldl_nil]; rw [← this]; exact h
  | fuel + 1, i, b :: t, st, hs, hl, hi, h => by
    have hw := decodeRune_width_pos b t
    have hle := decodeRune_width_le (b :: t)
    have hlen : (b :: t).length = mw.length - i := by rw [hs, List.length_drop]
    simp only [runesAux, List.foldl_cons]
    apply streakFold_inv mw fuel (i + (decodeRune (b :: t)).2) _ _
    · rw [hs, List.drop_drop]
    · simp only [List.length_drop, List.length_cons] at hl ⊢; omega
    · omega
    · exact streakStep_inv mw st i b t hs.symm h

/-- The spans returned by `findCurlyStreaks` are runs of at least two equal braces, in
increasing order. -/
theorem findCurlyStreaks_spec (mw : Str) :
    (∀ p ∈ findCurlyStreaks mw, p.1 + 2 ≤ p.2 ∧ p.2 ≤ mw.length ∧
      ∃ c, (c = 123 ∨ c = 125) ∧ allByte mw c p.1 p.2) ∧
    List.Pairwise (fun a b : Nat × Nat => a.2 ≤ b.1) (findCurlyStreaks mw) := by
  have h := streakFold_inv mw mw.length 0 mw ([], 46, 0) (by simp) (le_refl _) (Nat.zero_le _)
    ⟨by simp, by simp, le_refl _, by simp⟩
  unfold findCurlyStreaks
  simp only
  have hr : runes mw = runesAux mw.length 0 mw := rfl
  rw [hr]
  obtain ⟨h1, h2, h3, h4⟩ := h
  split_ifs with hc
  · constructor
    · intro p hp
      rcases List.mem_append.1 hp with hp | hp
      · obtain ⟨a1, a2, a3⟩ := h1 p hp
        exact ⟨a1, by omega, a3⟩
      · simp only [List.mem_singleton] at hp
        subst hp
        exact ⟨by simp only; omega, le_refl _, _, hc.2, h4 hc.2⟩
    · rw [List.pairwise_append]
      refine ⟨h2, by simp, ?_⟩
      intro a ha x hx
      simp only [List.mem_singleton] at hx
      subst hx
      exact (h1 a ha).2.1
  · exact ⟨fun p hp => by
      obtain ⟨a1, a2, a3⟩ := h1 p hp
      exact ⟨a1, by omega, a3⟩, h2⟩

theorem get?_set_self {α : Type} : ∀ (l : List α) (i : Nat) (x old : α),
    l.get? i = some old → (l.set i x).get? i = some x
  | [], _, _, _, h => by simp at h
  | _ :: _, 0, _, _, _ => rfl
  | _ :: l, i + 1, x, old, h => by
    simp only [List.set, List.get?] at h ⊢
    exact get?_set_self l i x old h

theorem get?_set_other {α : Type} : ∀ (l : List α) (i k : Nat) (x : α), i ≠ k →
    (l.set i x).get? k = l.get? k
  | [], _, _, _, _ => rfl
  | _ :: _, 0, 0, _, h => absurd rfl h
  | _ :: _, 0, _ + 1, _, _ => rfl
  | _ :: _, _ + 1, 0, _, _ => rfl
  | _ :: l, i + 1, k + 1, x, h => by
    simp only [List.set, List.get?]
    exact get?_set_other l i k x (by omega)

theorem get?_set_cases {α : Type} (l : List α) (i k : Nat) (x y : α)
    (h : (l.set i x).get? k = some y) : (k = i ∧ y = x) ∨ (k ≠ i ∧ l.get? k = some y) := by
  by_cases e : i = k
  · subst e
    left
    cases hl : l.get? i with
    | none =>
      have : i ≥ l.length := by
        rw [List.get?_eq_getElem?] at hl; exact List.getElem?_eq_none_iff.1 hl
      rw [List.get?_eq_getElem?, List.getElem?_eq_none (by simp; omega)] at h
      cases h
    | some old =>
      rw [get?_set_self l i x old hl] at h
      exact ⟨rfl, (Option.some.inj h).symm⟩
  · right
    rw [get?_set_other l i k x e] at h
    exact ⟨fun e2 => e e2.symm, h⟩

/-- The search for the opening streak returns the nearest position to the left that holds
an opening streak of remaining length at least 2. -/
theorem findOpening_spec (streaks : List streak) : ∀ (i : Nat),
    (∀ j, findOpening streaks ((List.range i).reverse) = some j →
      j < i ∧ (∃ sj, streaks.get? j = some sj ∧ sj.opening = true ∧ 2 ≤ sj.length) ∧
      ∀ k sk, j < k → k < i → streaks.get? k = some sk →
        ¬ (sk.opening = true ∧ 2 ≤ sk.length)) ∧
    (findOpening streaks ((List.range i).reverse) = none →
      ∀ k sk, k < i → streaks.get? k = some sk → ¬ (sk.opening = true ∧ 2 ≤ sk.length))
  | 0 => by
    refine ⟨?_, ?_⟩
    · intro j h; simp [findOpening] at h
    · intro _ k sk hk; omega
  | i + 1 => by
    have ih := findOpening_spec streaks i
    have e : (List.range (i + 1)).reverse = i :: (List.range i).reverse := by
      simp [List.range_succ]
    rw [e]
    unfold findOpening
    cases hi : streaks.get? i with
    | none =>
      simp only
      refine ⟨?_, ?_⟩
      · intro j hj
        obtain ⟨a1, a2, a3⟩ := ih.1 j hj
        refine ⟨by omega, a2, ?_⟩
        intro k sk h1 h2 h3
        by_cases hk : k = i
        · subst hk; rw [hi] at h3; cases h3
        · exact a3 k sk h1 (by omega) h3
      · intro hn k sk h2 h3
        by_cases hk : k = i
        · subst hk; rw [hi] at h3; cases h3
        · exact ih.2 hn k sk (by omega) h3
    | some si =>
      simp only
      by_cases hc : si.opening = true ∧ si.length > 1
      · rw [if_pos hc]
        refine ⟨?_, ?_⟩
        · intro j hj
          have : j = i := (Option.some.inj hj).symm
          subst this
          refine ⟨by omega, ⟨si, hi, hc.1, hc.2⟩, ?_⟩
          intro k sk h1 h2; omega
        · intro hn; cases hn
      · rw [if_neg hc]
        refine ⟨?_, ?_⟩
        · intro j hj
          obtain ⟨a1, a2, a3⟩ := ih.1 j hj
          refine ⟨by omega, a2, ?_⟩
          intro k sk h1 h2 h3
          by_cases hk : k = i
          · subst hk; rw [hi] at h3; cases h3
            intro hh; exact hc ⟨hh.1, hh.2⟩
          · exact a3 k sk h1 (by omega) h3
        · intro hn k sk h2 h3
          by_cases hk : k = i
          · subst hk; rw [hi] at h3; cases h3
            intro hh; exact hc ⟨hh.1, hh.2⟩
          · exact ih.2 hn k sk (by omega) h3

/-- Shortening one streak keeps the streak records in order. -/
theorem streaksInv_set (mw : Str) (l : List streak) (i : Nat) (s s2 : streak)
    (h : streaksInv mw l) (hi : l.get? i = some s) (ok : streakOK mw s2)
    (hb : s.b ≤ s2.b) (he : s2.e ≤ s.e) : streaksInv mw (l.set i s2) := by
  obtain ⟨h1, h2⟩ := h
  have hbe : s2.b ≤ s2.e := by have := ok.1; omega
  refine ⟨?_, ?_⟩
  · intro k x hk
    rcases get?_set_cases l i k s2 x hk with ⟨_, e⟩ | ⟨_, e⟩
    · rw [e]; exact ok
    · exact h1 k x e
  · intro k m sk sm hkm hk hm
    rcases get?_set_cases l i k s2 sk hk with ⟨e1, e2⟩ | ⟨e1, e2⟩
    · rcases get?_set_cases l i m s2 sm hm with ⟨f1, f2⟩ | ⟨f1, f2⟩
      · omega
      · subst e1 e2
        have := h2 k m s sm hkm hi f2
        omega
    · rcases get?_set_cases l i m s2 sm hm with ⟨f1, f2⟩ | ⟨f1, f2⟩
      · subst f1 f2
        have := h2 k m sk s hkm e2 hi
        omega
      · exact h2 k m sk sm hkm e2 f2

theorem sum_map_set {α : Type} (f : α → Nat) : ∀ (l : List α) (i : Nat) (x old : α),
    l.get? i = some old → ((l.set i x).map f).sum + f old = (l.map f).sum + f x
  | [], _, _, _, h => by simp at h
  | a :: l, 0, x, old, h => by
    simp only [List.get?, Option.some.injEq] at h
    subst h
    simp only [List.set, List.map_cons, List.sum_cons]; omega
  | a :: l, i + 1, x, old, h => by
    simp only [List.get?] at h
    have := sum_map_set f l i x old h
    simp only [List.set, List.map_cons, List.sum_cons]; omega

theorem length_le_of_get? {α : Type} (l : List α) (i : Nat) (h : l.get? i = none) :
    l.length ≤ i := by
  rw [List.get?_eq_getElem?] at h; exact List.getElem?_eq_none_iff.1 h

/-- The pairing loop of `findTemplates` ends, and every template it makes starts with
its opening braces and ends with its closing braces. -/
theorem pairStreaks_inv (mw : Str) : ∀ (fuel : Nat) (streaks : List streak) (i : Nat)
    (tl : List template), streaksInv mw streaks → (∀ t ∈ tl, templateOK mw t) →
    (streaks.length - i) + (streaks.map streak.length).sum < fuel →
    ∃ tl2, pairStreaks fuel streaks i tl = .ok tl2 ∧ ∀ t ∈ tl2, templateOK mw t
  | 0, _, _, _, _, _, hf => by omega
  | fuel + 1, streaks, i, tl, hinv, htl, hf => by
    unfold pairStreaks
    cases hi : streaks.get? i with
    | none => exact ⟨tl, rfl, htl⟩
    | some si =>
      have hlt : i < streaks.length := by
        by_contra hh
        rw [List.get?_eq_getElem?, List.getElem?_eq_none (by omega)] at hi; cases hi
      simp only
      have next : ∃ tl2, pairStreaks fuel streaks (i + 1) tl = .ok tl2 ∧
          ∀ t ∈ tl2, templateOK mw t :=
        pairStreaks_inv mw fuel streaks (i + 1) tl hinv htl (by omega)
      by_cases hc : ¬ si.opening = true ∧ si.length > 1
      · rw [if_pos hc]
        cases hj : findOpening streaks ((List.range i).reverse) with
        | none => exact next
        | some j =>
          obtain ⟨hji, ⟨sj, hsj, hop, hlen⟩, _⟩ := (findOpening_spec streaks i).1 j hj
          have hD : streaks.getD j si = sj := by
            rw [List.getD_eq_getElem?_getD, ← List.get?_eq_getElem?, hsj]; rfl
          simp only [hD]
          have oki := hinv.1 i si hi
          have okj := hinv.1 j sj hsj
          have hord := hinv.2 j i sj si hji hsj hi
          have hsio : si.opening = false := by simpa using hc.1
          obtain ⟨i1, i2, i3⟩ := oki
          obtain ⟨j1, j2, j3⟩ := okj
          rw [hsio] at i3
          rw [hop] at j3
          simp only [Bool.false_eq_true, if_false, if_true] at i3 j3
          -- the number of braces taken
          obtain ⟨n, hn, hn2, hni, hnj⟩ : ∃ n,
              n = (if decide (si.length > 2 ∧ sj.length > 2) = true then 3 else 2) ∧
              2 ≤ n ∧ n ≤ si.length ∧ n ≤ sj.length := by
            refine ⟨_, rfl, ?_, ?_, ?_⟩ <;> split_ifs with hh <;>
              simp only [decide_eq_true_eq] at hh <;> omega
          rw [← hn]
          apply pairStreaks_inv mw fuel
          · -- the streak records stay in order
            apply streaksInv_set mw _ j sj
            · exact streaksInv_set mw streaks i si _ hinv hi
                ⟨by simp only; omega, by simp only; omega, by
                  rw [hsio]; simp only [Bool.false_eq_true, if_false]
                  intro k h1 h2; exact i3 k (by omega) h2⟩
                (by simp only; omega) (by simp only; omega)
            · rw [get?_set_other _ i j _ (by omega : i ≠ j)]; exact hsj
            · refine ⟨by simp only; omega, by simp only; omega, ?_⟩
              rw [hop]; simp only [if_true]
              intro k h1 h2; exact j3 k h1 (by omega)
            · simp only; omega
            · simp only; omega
          · -- the new template
            intro t ht
            rcases List.mem_append.1 ht with ht | ht
            · exact htl t ht
            · simp only [List.mem_singleton] at ht
              have hbr : braces t = n := by rw [ht, hn]; rfl
              unfold templateOK
              rw [hbr]
              subst ht
              simp only
              refine ⟨?_, ?_, by omega⟩
              · intro k h1 h2; exact j3 k (by omega) (by omega)
              · intro k h1 h2; exact i3 k (by omega) (by omega)
          · -- the measure decreases
            have s1 := sum_map_set streak.length streaks i
              { si with length := si.length - n, b := si.b + n } si hi
            have s2 := sum_map_set streak.length
              (streaks.set i { si with length := si.length - n, b := si.b + n }) j
              { sj with length := sj.length - n, e := sj.e - n } sj
              (by rw [get?_set_other _ i j _ (by omega : i ≠ j)]; exact hsj)
            simp only [List.length_set] at s1 s2 ⊢
            omega
      · rw [if_neg hc]; exact next

theorem mem_of_get? {α : Type} : ∀ (l : List α) (k : Nat) (x : α), l.get? k = some x → x ∈ l
  | [], _, _, h => by simp at h
  | a :: l, 0, x, h => by
    simp only [List.get?, Option.some.injEq] at h; rw [h]; exact List.mem_cons_self _ _
  | a :: l, k + 1, x, h => List.mem_cons_of_mem _ (mem_of_get? l k x h)

theorem spans_sum_le (L : Nat) : ∀ (l : List (Nat × Nat)) (lo : Nat), lo ≤ L →
    List.Pairwise (fun a b : Nat × Nat => a.2 ≤ b.1) l →
    (∀ p ∈ l, lo ≤ p.1 ∧ p.1 ≤ p.2 ∧ p.2 ≤ L) →
    (l.map (fun p => p.2 - p.1)).sum + lo ≤ L
  | [], lo, hlo, _, _ => by
    simp only [List.map_nil, List.sum_nil, zero_add]; exact hlo
  | p :: rest, lo, _, hp, h => by
    rw [List.pairwise_cons] at hp
    have hpp := h p (List.mem_cons_self _ _)
    have ih := spans_sum_le L rest p.2 hpp.2.2 hp.2 (fun q hq =>
      ⟨hp.1 q hq, (h q (List.mem_cons_of_mem _ hq)).2⟩)
    simp only [List.map_cons, List.sum_cons]
    omega

/-- The streak records that `findTemplates` builds from the spans of `findCurlyStreaks`
describe runs of braces, in increasing order. -/
theorem initial_streaksInv (mw : Str) :
    streaksInv mw ((findCurlyStreaks mw).map (fun pair =>
      ({ opening := decide (mw.get? pair.1 = some 123), length := pair.2 - pair.1,
         b := pair.1, e := pair.2 } : streak))) := by
  obtain ⟨h1, h2⟩ := findCurlyStreaks_spec mw
  have hget : ∀ k s, ((findCurlyStreaks mw).map (fun pair =>
      ({ opening := decide (mw.get? pair.1 = some 123), length := pair.2 - pair.1,
         b := pair.1, e := pair.2 } : streak))).get? k = some s →
      ∃ p, (findCurlyStreaks mw).get? k = some p ∧
        s = { opening := decide (mw.get? p.1 = some 123), length := p.2 - p.1,
              b := p.1, e := p.2 } := by
    intro k s hk
    rw [List.get?_eq_getElem?, List.getElem?_map] at hk
    cases hp : (findCurlyStreaks mw)[k]? with
    | none => rw [hp] at hk; cases hk
    | some p =>
      rw [hp] at hk
      exact ⟨p, by rw [List.get?_eq_getElem?]; exact hp, (Option.some.inj hk).symm⟩
  refine ⟨?_, ?_⟩
  · intro k s hk
    obtain ⟨p, hp, hs⟩ := hget k s hk
    obtain ⟨a1, a2, c, hc, a3⟩ := h1 p (mem_of_get? _ k p hp)
    have hfirst : mw.get? p.1 = some c := a3 p.1 (le_refl _) (by omega)
    subst hs
    refine ⟨by simp only; omega, a2, ?_⟩
    simp only [hfirst, Option.some.injEq, decide_eq_true_eq]
    rcases hc with hc | hc
    · rw [if_pos hc]; rw [← hc]; exact a3
    · rw [if_neg (by omega)]; rw [← hc]; exact a3
  · intro k m sk sm hkm hk hm
    obtain ⟨p, hp, hs⟩ := hget k sk hk
    obtain ⟨q, hq, ht⟩ := hget m sm hm
    subst hs ht
    simp only
    rw [List.get?_eq_getElem?] at hp hq
    obtain ⟨hk1, hk2⟩ := List.getElem?_eq_some_iff.1 hp
    obtain ⟨hm1, hm2⟩ := List.getElem?_eq_some_iff.1 hq
    have := List.pairwise_iff_getElem.1 h2 k m hk1 hm1 hkm
    rw [hk2, hm2] at this
    exact this

theorem mem_insertByStart (t u : template) : ∀ (l : List template),
    u ∈ insertByStart t l ↔ u = t ∨ u ∈ l
  | [] => by simp [insertByStart]
  | v :: l => by
    unfold insertByStart
    split_ifs
    · simp
    · simp only [List.mem_cons, mem_insertByStart t u l]
      tauto

theorem mem_sortByStart (u : template) : ∀ (l : List template), u ∈ sortByStart l ↔ u ∈ l
  | [] => by simp [sortByStart]
  | t :: l => by
    simp only [sortByStart, mem_insertByStart, mem_sortByStart u l, List.mem_cons]

theorem map_set_same {α β : Type} (f : α → β) : ∀ (l : List α) (i : Nat) (x : α),
    (∀ old, l.get? i = some old → f old = f x) → (l.set i x).map f = l.map f
  | [], _, _, _ => rfl
  | a :: l, 0, x, h => by
    simp only [List.set, List.map_cons]
    rw [h a rfl]
  | a :: l, i + 1, x, h => by
    simp only [List.set, List.map_cons]
    rw [map_set_same f l i x (fun old ho => h old ho)]

/-- The nesting loop of `findTemplates` changes only the children of the templates. -/
theorem nestTemplates_keys : ∀ (is : List Nat) (tl : List template) (ce : Nat)
    (out : List Nat), (nestTemplates is tl ce out).1.map templateKey = tl.map templateKey
  | [], _, _, _ => rfl
  | i :: is, tl, ce, out => by
    unfold nestTemplates
    cases hi : tl.get? i with
    | none => simp only; exact nestTemplates_keys is tl ce out
    | some ti =>
      simp only
      have e1 : (tl.set i { ti with children := [] }).map templateKey = tl.map templateKey :=
        map_set_same templateKey tl i _ (fun old ho => by
          rw [hi] at ho; cases ho; rfl)
      split_ifs
      · rw [nestTemplates_keys, e1]
      · cases hj : findParent (tl.set i { ti with children := [] }) ti.e
            ((List.range i).reverse) with
        | none => simp only; rw [nestTemplates_keys, e1]
        | some j =>
          simp only
          rw [nestTemplates_keys, map_set_same templateKey _ j _ (fun old ho => by
            rw [List.getD_eq_getElem?_getD, ← List.get?_eq_getElem?, ho]; rfl), e1]

theorem templateOK_of_key (mw : Str) (t u : template) (h : templateKey t = templateKey u)
    (ok : templateOK mw u) : templateOK mw t := by
  simp only [templateKey, Prod.mk.injEq] at h
  obtain ⟨h1, h2, h3⟩ := h
  unfold templateOK braces at ok ⊢
  rw [h1, h2, h3]; exact ok

/-- C22.  Brace pairing in `findTemplates`.  At a closing streak `si` of remaining length
at least 2 the loop searches to the left: when the search finds position `j`, it is the
nearest position to the left of `i` holding an opening streak of remaining length at
least 2, and the loop makes one template from the two streaks, taking `n` braces from
each, where `n = 3` and `isparam` is set exactly when both remaining lengths are at least
3, and `n = 2` with `isparam` unset otherwise; when the search finds nothing, no position
to the left holds such a streak and the loop moves on.  And `findTemplates` returns for
every text, and every template `t` it finds has its `n` bytes from `t.b` all `'{'`
(byte 123), its `n` bytes up to `t.e` all `'}'` (byte 125), and `t.e - t.b ≥ 2n`. -/
theorem C22_brace_pairing (mw : Str) :
    (∀ (fuel : Nat) (streaks : List streak) (i : Nat) (tl : List template) (si : streak),
      streaks.get? i = some si → si.opening = false → 2 ≤ si.length →
      (∀ j, findOpening streaks ((List.range i).reverse) = some j →
        j < i ∧ ∃ sj, streaks.get? j = some sj ∧ sj.opening = true ∧ 2 ≤ sj.length ∧
          (∀ k sk, j < k → k < i → streaks.get? k = some sk →
            ¬ (sk.opening = true ∧ 2 ≤ sk.length)) ∧
          pairStreaks (fuel + 1) streaks i tl =
            pairStreaks fuel
              ((streaks.set i { si with
                  length := si.length - (if 3 ≤ si.length ∧ 3 ≤ sj.length then 3 else 2),
                  b := si.b + (if 3 ≤ si.length ∧ 3 ≤ sj.length then 3 else 2) }).set j
                { sj with
                  length := sj.length - (if 3 ≤ si.length ∧ 3 ≤ sj.length then 3 else 2),
                  e := sj.e - (if 3 ≤ si.length ∧ 3 ≤ sj.length then 3 else 2) })
              i
              (tl ++ [{ isparam := decide (3 ≤ si.length ∧ 3 ≤ sj.length),
                        b := sj.e - (if 3 ≤ si.length ∧ 3 ≤ sj.length then 3 else 2),
                        e := si.b + (if 3 ≤ si.length ∧ 3 ≤ sj.length then 3 else 2) }])) ∧
      (findOpening streaks ((List.range i).reverse) = none →
        (∀ k sk, k < i → streaks.get? k = some sk →
          ¬ (sk.opening = true ∧ 2 ≤ sk.length)) ∧
        pairStreaks (fuel + 1) streaks i tl = pairStreaks fuel streaks (i + 1) tl)) ∧
    (∃ r, findTemplates mw = .ok r ∧
      ∀ t ∈ r.1,
        (∀ k, k < (if t.isparam then 3 else 2) →
          mw.get? (t.b + k) = some 123 ∧
          mw.get? (t.e - (if t.isparam then 3 else 2) + k) = some 125) ∧
        t.b + 2 * (if t.isparam then 3 else 2) ≤ t.e) := by
  refine ⟨?_, ?_⟩
  · intro fuel streaks i tl si hi hop hlen
    have hc : ¬ si.opening = true ∧ si.length > 1 := ⟨by rw [hop]; simp, hlen⟩
    refine ⟨?_, ?_⟩
    · intro j hj
      obtain ⟨a1, ⟨sj, b1, b2, b3⟩, a3⟩ := (findOpening_spec streaks i).1 j hj
      refine ⟨a1, sj, b1, b2, b3, a3, ?_⟩
      have hD : streaks.getD j si = sj := by
        rw [List.getD_eq_getElem?_getD, ← List.get?_eq_getElem?, b1]; rfl
      rw [pairStreaks]
      simp only [hi, if_pos hc, hj, hD]
      by_cases hp : 3 ≤ si.length ∧ 3 ≤ sj.length
      · have hp2 : si.length > 2 ∧ sj.length > 2 := hp
        simp only [hp, hp2, and_self, decide_True, if_true]
      · have hp2 : ¬ (si.length > 2 ∧ sj.length > 2) := hp
        simp only [hp, hp2, decide_False, if_false, Bool.false_eq_true]
    · intro hn
      refine ⟨(findOpening_spec streaks i).2 hn, ?_⟩
      rw [pairStreaks]
      simp only [hi, if_pos hc, hn]
  · have hinv := initial_streaksInv mw
    obtain ⟨s1, s2⟩ := findCurlyStreaks_spec mw
    have hsum := spans_sum_le mw.length (findCurlyStreaks mw) 0 (Nat.zero_le _) s2
      (fun p hp => ⟨Nat.zero_le _, by have := (s1 p hp).1; omega, (s1 p hp).2.1⟩)
    obtain ⟨tl2, hrun, hok⟩ := pairStreaks_inv mw
      (mw.length + ((findCurlyStreaks mw).map (fun pair =>
        ({ opening := decide (mw.get? pair.1 = some 123), length := pair.2 - pair.1,
           b := pair.1, e := pair.2 } : streak))).length + 1)
      _ 0 [] hinv (by simp) (by
        rw [List.map_map]
        have e : (streak.length ∘ fun pair : Nat × Nat =>
            ({ opening := decide (mw.get? pair.1 = some 123), length := pair.2 - pair.1,
               b := pair.1, e := pair.2 } : streak)) = fun p => p.2 - p.1 := rfl
        rw [e]; omega)
    unfold findTemplates
    simp only [hrun]
    refine ⟨_, rfl, ?_⟩
    intro t ht
    have hk : templateKey t ∈ (sortByStart tl2).map templateKey := by
      rw [← nestTemplates_keys (List.range (sortByStart tl2).length) (sortByStart tl2) 0 []]
      exact List.mem_map_of_mem _ ht
    obtain ⟨u, hu, huk⟩ := List.mem_map.1 hk
    have okt := templateOK_of_key mw t u huk.symm (hok u ((mem_sortByStart u tl2).1 hu))
    obtain ⟨o1, o2, o3⟩ := okt
    unfold braces at o1 o2 o3
    refine ⟨fun k hk => ⟨o1 _ (by omega) (by omega), o2 _ (by omega) (by omega)⟩, o3⟩

/-! ## The loop of `internalParse`, one iteration at a time -/

theorem wikipreScan_ge : ∀ (fuel : Nat) (t : List Token) (ni : Nat),
    ni ≤ (wikipreScan fuel t ni).2.1
  | 0, _, _ => le_refl _
  | fuel + 1, t, ni => by
    unfold wikipreScan
    split_ifs with h
    · split
      · split_ifs
        · exact le_trans (Nat.le_succ _) (wikipreScan_ge fuel _ (ni + 1))
        · exact le_refl _
        · exact le_trans (Nat.le_succ _) (wikipreScan_ge fuel _ (ni + 1))
      · exact le_refl _
    · exact le_refl _

theorem inner_eq
    (loop : Article → List Token → Nat → Option Nat → List ParseNode → Res Parsed)
    (a : Article) (t : List Token) (ti : Nat) (nl : List ParseNode) (a1 : Article)
    (t1 : List Token) (ni next : Nat) (mk : List ParseNode → ParseNode) :
    (if ni > ti + 1 then
      match loop a1 (slice t1 (ti + 1) ni) 0 none [] with
      | .ok (a2, sub, .ok nodes) =>
        loop a2 (t1.take (ti + 1) ++ sub ++ t1.drop ni) next (some ti) (nl ++ [mk nodes])
      | .ok (a2, sub, .error e) => .ok (a2, t1.take (ti + 1) ++ sub ++ t1.drop ni, .error e)
      | .panic => .panic
      | .fuel => .fuel
    else loop a1 t1 next (some ti) (nl ++ [mk []])) =
    runStep loop a t ti nl (.nest a1 t1 ni next mk false) := by
  simp only [runStep]
  by_cases h : ni > ti + 1
  · rw [if_pos h, if_pos h]
    generalize loop a1 (slice t1 (ti + 1) ni) 0 none [] = res
    rcases res with ⟨a2, sub, (e | nodes)⟩ | _ | _ <;> simp
  · rw [if_neg h, if_neg h]

/-- The loop of `internalParse` runs the iteration `stepOf` at the token under the
cursor. -/
theorem parseLoop_step (T : Tables) (fuel : Nat) (a : Article) (t : List Token) (ti : Nat)
    (lastti : Option Nat) (nl : List ParseNode) :
    parseLoop T (fuel + 1) a t ti lastti nl =
      match t.get? ti with
      | none => .ok (a, t, .ok nl)
      | some tok =>
        if lastti = some ti then .ok (a, t, .error (str "parsing issue"))
        else runStep (parseLoop T fuel) a t ti nl (stepOf T a t ti tok) := by
  rw [parseLoop]
  cases hg : t.get? ti with
  | none => rfl
  | some tok =>
    simp only
    by_cases hl : lastti = some ti
    · rw [if_pos hl, if_pos hl]
    · rw [if_neg hl, if_neg hl]
      have hw := wikipreScan_ge t.length t (ti + 1)
      unfold stepOf
      dsimp only
      by_cases h_nowiki : tok.TType = str "nowiki"
      · rw [if_pos h_nowiki, if_pos h_nowiki]; rfl
      rw [if_neg h_nowiki, if_neg h_nowiki]
      by_cases h_text : tok.TType = str "text"
      · rw [if_pos h_text, if_pos h_text]; rfl
      rw [if_neg h_text, if_neg h_text]
      by_cases h_math : tok.TType = str "math"
      · rw [if_pos h_math, if_pos h_math]; rfl
      rw [if_neg h_math, if_neg h_math]
      by_cases h_pre : tok.TType = str "pre"
      · rw [if_pos h_pre, if_pos h_pre]; rfl
      rw [if_neg h_pre, if_neg h_pre]
      by_cases h_nop : tok.TType = str "nop"
      · rw [if_pos h_nop, if_pos h_nop]
        exact (congrArg (parseLoop T fuel a t (ti + 1) (some ti)) (List.append_nil nl)).symm
      rw [if_neg h_nop, if_neg h_nop]
      by_cases h_wikipre : tok.TType = str "wikipre"
      · rw [if_pos h_wikipre, if_pos h_wikipre]
        split_ifs
        · rfl
        · rw [← inner_eq, if_pos (by omega)]
          try rfl
      rw [if_neg h_wikipre, if_neg h_wikipre]
      by_cases h_extlink : tok.TType = str "extlink"
      · rw [if_pos h_extlink, if_pos h_extlink]
        rw [apply_ite (runStep (parseLoop T fuel) a t ti nl), ← inner_eq]
        rfl
      rw [if_neg h_extlink, if_neg h_extlink]
      by_cases h_closeextlink : tok.TType = str "closeextlink"
      · rw [if_pos h_closeextlink, if_pos h_closeextlink]; rfl
      rw [if_neg h_closeextlink, if_neg h_closeextlink]
      by_cases h_hrule : tok.TType = str "hrule"
      · rw [if_pos h_hrule, if_pos h_hrule]; rfl
      rw [if_neg h_hrule, if_neg h_hrule]
      by_cases h_magic : tok.TType = str "magic"
      · rw [if_pos h_magic, if_pos h_magic]; rfl
      rw [if_neg h_magic, if_neg h_magic]
      by_cases h_colon : tok.TType = str "colon"
      · rw [if_pos h_colon, if_pos h_colon]; rfl
      rw [if_neg h_colon, if_neg h_colon]
      by_cases h_space : tok.TType = str "space"
      · rw [if_pos h_space, if_pos h_space]; rfl
      rw [if_neg h_space, if_neg h_space]
      by_cases h_blank : tok.TType = str "blank"
      · rw [if_pos h_blank, if_pos h_blank]; rfl
      rw [if_neg h_blank, if_neg h_blank]
      by_cases h_redirect : tok.TType = str "redirect"
      · rw [if_pos h_redirect, if_pos h_redirect]
        generalize t.get? (findKind [str "newline", str "link"] (t.drop (ti + 1)) (ti + 1)) = g
        cases g with
        | none => rfl
        | some tni =>
          dsimp only
          split_ifs <;> rfl
      rw [if_neg h_redirect, if_neg h_redirect]
      by_cases h_link : tok.TType = str "link"
      · rw [if_pos h_link, if_pos h_link]
        rw [apply_ite (runStep (parseLoop T fuel) a t ti nl), ← inner_eq]
        rfl
      rw [if_neg h_link, if_neg h_link]
      by_cases h_filelink : tok.TType = str "filelink"
      · rw [if_pos h_filelink, if_pos h_filelink]
        rw [apply_ite (runStep (parseLoop T fuel) a t ti nl), ← inner_eq]
        rfl
      rw [if_neg h_filelink, if_neg h_filelink]
      by_cases h_closelink : tok.TType = str "closelink"
      · rw [if_pos h_closelink, if_pos h_closelink]; rfl
      rw [if_neg h_closelink, if_neg h_closelink]
      by_cases h_closefilelink : tok.TType = str "closefilelink"
      · rw [if_pos h_closefilelink, if_pos h_closefilelink]; rfl
      rw [if_neg h_closefilelink, if_neg h_closefilelink]
      by_cases h_html : tok.TType = str "html"
      · rw [if_pos h_html, if_pos h_html]
        generalize (ToLower T tok.TText).head? = g
        cases g with
        | none => rfl
        | some c0 =>
          dsimp only
          by_cases hc : c0 = 47
          · rw [if_pos hc, if_pos hc]
            exact (congrArg (parseLoop T fuel a t (ti + 1) (some ti)) (List.append_nil nl)).symm
          rw [if_neg hc, if_neg hc]
          by_cases hcl : tok.TClosed = true
          · rw [if_pos hcl, if_pos hcl]; rfl
          rw [if_neg hcl, if_neg hcl]
          simp only [runStep]
          by_cases hni : findCloseTag T (ToLower T tok.TText) (t.drop (ti + 1)) (ti + 1) 1 > ti + 1
          · rw [if_pos hni, if_pos hni]
            generalize parseLoop T fuel a (slice t (ti + 1) _) 0 none [] = res
            rcases res with ⟨a2, sub, (e | nodes)⟩ | _ | _ <;> simp
          · rw [if_neg hni, if_neg hni]
      rw [if_neg h_html, if_neg h_html]
      by_cases h_list : tok.TType = str "*" ∨ tok.TType = str "#" ∨ tok.TType = str ";" ∨
          tok.TType = str ":"
      · rw [if_pos h_list, if_pos h_list]
        exact (congrArg (parseLoop T fuel a t (ti + 1) (some ti)) (List.append_nil nl)).symm
      rw [if_neg h_list, if_neg h_list]
      by_cases h_newline : tok.TType = str "newline"
      · rw [if_pos h_newline, if_pos h_newline]; rfl
      rw [if_neg h_newline, if_neg h_newline]
      by_cases h_head : tok.TType = str "h1" ∨ tok.TType = str "h2" ∨ tok.TType = str "h3" ∨
          tok.TType = str "h4" ∨ tok.TType = str "h5" ∨ tok.TType = str "h6"
      · rw [if_pos h_head, if_pos h_head]
        rw [apply_ite (runStep (parseLoop T fuel) a t ti nl), ← inner_eq]
        rfl
      rw [if_neg h_head, if_neg h_head]
      by_cases h_tb : tok.TType = str "tb" ∨ tok.TType = str "te"
      · rw [if_pos h_tb, if_pos h_tb]
        generalize Atoi tok.TText = g
        cases g with
        | none => rfl
        | some templateIndex =>
          dsimp only
          split_ifs
          · rfl
          · rfl
          · generalize a.Templates.get? templateIndex.toNat = g2
            cases g2 <;> rfl
      rw [if_neg h_tb, if_neg h_tb]
      rfl

/-! ## Facts about the scans of `internalParse` -/

theorem retyped_refl : ∀ (t : List Token), retyped t t
  | [] => List.Forall₂.nil
  | _ :: t => List.Forall₂.cons (Or.inl rfl) (retyped_refl t)

theorem str_nop_ne_wikipre : str "nop" ≠ str "wikipre" := by decide

theorem retyped_trans : ∀ (t t1 t2 : List Token), retyped t t1 → retyped t1 t2 → retyped t t2
  | [], _, _, h1, h2 => by
    cases h1; cases h2; exact List.Forall₂.nil
  | x :: t, _, _, h1, h2 => by
    cases h1 with
    | cons hxy h1 =>
      cases h2 with
      | cons hyz h2 =>
        refine List.Forall₂.cons ?_ (retyped_trans t _ _ h1 h2)
        rcases hxy with hxy | ⟨hx, hxy⟩
        · subst hxy; exact hyz
        · rcases hyz with hyz | ⟨hy, hyz⟩
          · subst hyz; exact Or.inr ⟨hx, hxy⟩
          · subst hxy; exact absurd hy str_nop_ne_wikipre

theorem retyped_length (t t1 : List Token) (h : retyped t t1) : t1.length = t.length :=
  (List.Forall₂.length_eq h).symm

theorem retyped_append (a b a1 b1 : List Token) (h1 : retyped a a1) (h2 : retyped b b1) :
    retyped (a ++ b) (a1 ++ b1) := List.rel_append h1 h2

theorem linkKind_nop (x : Token) (hx : x.TType = str "wikipre") :
    linkKind { x with TType := str "nop" } = linkKind x := by
  unfold linkKind
  rw [hx]
  rfl

theorem retyped_linkKind : ∀ (t t1 : List Token), retyped t t1 →
    t1.map linkKind = t.map linkKind
  | [], _, h => by cases h; rfl
  | x :: t, _, h => by
    cases h with
    | cons hxy h =>
      simp only [List.map_cons]
      rw [retyped_linkKind t _ h]
      rcases hxy with hxy | ⟨hx, hxy⟩
      · rw [hxy]
      · rw [hxy, linkKind_nop x hx]

theorem retyped_sane : ∀ (t t1 : List Token), retyped t t1 → (∀ x ∈ t, saneToken x) →
    ∀ y ∈ t1, saneToken y
  | [], _, h, _ => by cases h; simp
  | x :: t, _, h, hs => by
    cases h with
    | cons hxy h =>
      intro y hy
      rcases List.mem_cons.1 hy with hy | hy
      · rcases hxy with hxy | ⟨hx, hxy⟩
        · rw [hy, hxy]; exact hs x (List.mem_cons_self _ _)
        · rw [hy, hxy]
          have d1 : str "nop" ≠ str "html" := by decide
          have d2 : str "nop" ≠ str "tb" := by decide
          have d3 : str "nop" ≠ str "te" := by decide
          refine ⟨fun h => absurd h d1, fun h => ?_⟩
          rcases h with h | h
          · exact absurd h d2
          · exact absurd h d3
      · exact retyped_sane t _ h (fun z hz => hs z (List.mem_cons_of_mem _ hz)) y hy

theorem retyped_set (t : List Token) (i : Nat) (b : Token) (hb : t.get? i = some b)
    (hw : b.TType = str "wikipre") : retyped t (t.set i { b with TType := str "nop" }) := by
  induction t generalizing i with
  | nil => exact List.Forall₂.nil
  | cons x t ih =>
    cases i with
    | zero =>
      simp only [List.get?, Option.some.injEq] at hb
      subst hb
      exact List.Forall₂.cons (Or.inr ⟨hw, rfl⟩) (retyped_refl t)
    | succ i =>
      simp only [List.get?] at hb
      exact List.Forall₂.cons (Or.inl rfl) (ih i hb)

/-- The scan of the `wikipre` case only turns `wikipre` tokens into `nop`, and stops
within the tokens. -/
theorem wikipreScan_spec : ∀ (fuel : Nat) (t : List Token) (ni : Nat),
    retyped t (wikipreScan fuel t ni).1 ∧ (wikipreScan fuel t ni).2.2 ≤ t.length
  | 0, t, _ => ⟨retyped_refl t, le_refl _⟩
  | fuel + 1, t, ni => by
    unfold wikipreScan
    split_ifs with h
    · split
      · rename_i a b ha hb
        split_ifs with h1 h2
        · have r1 := retyped_set t (ni + 1) b hb h2
          obtain ⟨i1, i2⟩ := wikipreScan_spec fuel (t.set (ni + 1) { b with TType := str "nop" })
            (ni + 1)
          refine ⟨retyped_trans _ _ _ r1 i1, ?_⟩
          rw [List.length_set] at i2; exact i2
        · exact ⟨retyped_refl t, by simp only; omega⟩
        · exact wikipreScan_spec fuel t (ni + 1)
      · exact ⟨retyped_refl t, le_refl _⟩
    · exact ⟨retyped_refl t, le_refl _⟩

/-- The result of `findKind` lies within the tokens, and the token there has one of the
kinds. -/
theorem findKind_spec (kinds : List Str) : ∀ (ts : List Token) (ni : Nat),
    ni ≤ findKind kinds ts ni ∧ findKind kinds ts ni ≤ ni + ts.length ∧
    (findKind kinds ts ni ≠ ni + ts.length →
      ∃ x, ts.get? (findKind kinds ts ni - ni) = some x ∧ x.TType ∈ kinds)
  | [], ni => by simp [findKind]
  | x :: ts, ni => by
    unfold findKind
    split_ifs with h
    · refine ⟨le_refl _, by simp, fun _ => ⟨x, by simp, h⟩⟩
    · obtain ⟨i1, i2, i3⟩ := findKind_spec kinds ts (ni + 1)
      refine ⟨by omega, by simp only [List.length_cons]; omega, fun hne => ?_⟩
      obtain ⟨y, hy, hk⟩ := i3 (by simp only [List.length_cons] at hne; omega)
      refine ⟨y, ?_, hk⟩
      have e : findKind kinds ts (ni + 1) - ni = (findKind kinds ts (ni + 1) - (ni + 1)) + 1 := by
        omega
      rw [e]; exact hy

/-- The result of `findClose` lies within the tokens, and the token there is a close
token. -/
theorem findClose_spec (opn cls : Str) : ∀ (ts : List Token) (ni nopen : Nat), 1 ≤ nopen →
    ni ≤ findClose opn cls ts ni nopen ∧ findClose opn cls ts ni nopen ≤ ni + ts.length ∧
    (findClose opn cls ts ni nopen ≠ ni + ts.length →
      ∃ x, ts.get? (findClose opn cls ts ni nopen - ni) = some x ∧ x.TType = cls)
  | [], ni, _, _ => by simp [findClose]
  | x :: ts, ni, nopen, hn => by
    have step : ∀ n2, 1 ≤ n2 → ni ≤ findClose opn cls ts (ni + 1) n2 ∧
        findClose opn cls ts (ni + 1) n2 ≤ ni + (x :: ts).length ∧
        (findClose opn cls ts (ni + 1) n2 ≠ ni + (x :: ts).length →
          ∃ y, (x :: ts).get? (findClose opn cls ts (ni + 1) n2 - ni) = some y ∧
            y.TType = cls) := by
      intro n2 h2
      obtain ⟨i1, i2, i3⟩ := findClose_spec opn cls ts (ni + 1) n2 h2
      refine ⟨by omega, by simp only [List.length_cons]; omega, fun hne => ?_⟩
      obtain ⟨y, hy, hk⟩ := i3 (by simp only [List.length_cons] at hne; omega)
      refine ⟨y, ?_, hk⟩
      have e : findClose opn cls ts (ni + 1) n2 - ni =
          (findClose opn cls ts (ni + 1) n2 - (ni + 1)) + 1 := by omega
      rw [e]; exact hy
    unfold findClose
    simp only
    by_cases ho : x.TType = opn
    · rw [if_pos ho, if_neg (by omega)]
      exact step _ (by omega)
    · rw [if_neg ho]
      by_cases hc : x.TType = cls
      · rw [if_pos hc]
        by_cases hz : nopen - 1 = 0
        · rw [if_pos hz]
          exact ⟨le_refl _, by simp, fun _ => ⟨x, by simp, hc⟩⟩
        · rw [if_neg hz]
          exact step _ (by omega)
      · rw [if_neg hc, if_neg (by omega)]
        exact step _ hn

/-- The result of `findCloseTag` lies within the tokens, and the token there is an html
token. -/
theorem findCloseTag_spec (T : Tables) (tag : Str) : ∀ (ts : List Token) (ni nopen : Nat),
    ni ≤ findCloseTag T tag ts ni nopen ∧ findCloseTag T tag ts ni nopen ≤ ni + ts.length ∧
    (findCloseTag T tag ts ni nopen ≠ ni + ts.length →
      ∃ x, ts.get? (findCloseTag T tag ts ni nopen - ni) = some x ∧ x.TType = str "html")
  | [], ni, _ => by simp [findCloseTag]
  | x :: ts, ni, nopen => by
    have step : ∀ n2, ni ≤ findCloseTag T tag ts (ni + 1) n2 ∧
        findCloseTag T tag ts (ni + 1) n2 ≤ ni + (x :: ts).length ∧
        (findCloseTag T tag ts (ni + 1) n2 ≠ ni + (x :: ts).length →
          ∃ y, (x :: ts).get? (findCloseTag T tag ts (ni + 1) n2 - ni) = some y ∧
            y.TType = str "html") := by
      intro n2
      obtain ⟨i1, i2, i3⟩ := findCloseTag_spec T tag ts (ni + 1) n2
      refine ⟨by omega, by simp only [List.length_cons]; omega, fun hne => ?_⟩
      obtain ⟨y, hy, hk⟩ := i3 (by simp only [List.length_cons] at hne; omega)
      refine ⟨y, ?_, hk⟩
      have e : findCloseTag T tag ts (ni + 1) n2 - ni =
          (findCloseTag T tag ts (ni + 1) n2 - (ni + 1)) + 1 := by omega
      rw [e]; exact hy
    unfold findCloseTag
    simp only
    by_cases h1 : x.TType = str "html"
    · rw [if_pos h1]
      split_ifs
      all_goals first
        | exact step _
        | exact ⟨le_refl _, by simp, fun _ => ⟨x, by simp, h1⟩⟩
    · rw [if_neg h1]
      exact step _

theorem preorderList_append : ∀ (xs ys : List ParseNode),
    preorderList (xs ++ ys) = preorderList xs ++ preorderList ys
  | [], _ => by simp [preorderList]
  | x :: xs, ys => by
    have ih := preorderList_append xs ys
    show preorderList (x :: (xs ++ ys)) = _
    rw [preorderList, preorderList, ih, List.append_assoc]

theorem linkNodes_nil : linkNodes [] = [] := by simp [linkNodes, preorderList]

theorem linkNodes_append (xs ys : List ParseNode) :
    linkNodes (xs ++ ys) = linkNodes xs ++ linkNodes ys := by
  simp only [linkNodes, preorderList_append, List.filter_append, List.map_append]

theorem linkNodes_mk (ty s : Str) (l : WikiLink) (c : Str) (f : Nat) (ns : List ParseNode) :
    linkNodes [.mk ty s l c f ns] = (if ty = str "link" then [l] else []) ++ linkNodes ns := by
  simp only [linkNodes, preorderList, preorder, List.append_nil, List.filter_cons,
    ParseNode.NType, decide_eq_true_eq]
  split_ifs <;> simp [ParseNode.Link]

theorem linkNodes_leaf (ty s : String) (c : Str) (h : str ty ≠ str "link") :
    linkNodes [leaf ty s c] = [] := by
  unfold leaf
  rw [linkNodes_mk, if_neg h, linkNodes_nil]; rfl

theorem linkKind_of_ne (tok : Token) (h : tok.TType ∉ linkKinds) : linkKind tok = [] := by
  unfold linkKind; rw [if_neg h]

theorem linkKind_of_eq (tok : Token) (s : Str) (h : tok.TType = s) (hs : s ∉ linkKinds) :
    linkKind tok = [] := linkKind_of_ne tok (by rw [h]; exact hs)

theorem get?_drop_sub (t : List Token) (ti ni : Nat) (h : ti + 1 ≤ ni) :
    (t.drop (ti + 1)).get? (ni - (ti + 1)) = t.get? ni := by
  rw [List.get?_eq_getElem?, List.get?_eq_getElem?, List.getElem?_drop]
  congr 1; omega

theorem lt_length_of_get? {α : Type} (l : List α) (i : Nat) (x : α) (h : l.get? i = some x) :
    i < l.length := by
  by_contra hh
  rw [List.get?_eq_getElem?, List.getElem?_eq_none (by omega)] at h; cases h

theorem ToLower_ne_nil (T : Tables) (s : Str) (h : s ≠ []) : ToLower T s ≠ [] := by
  cases s with
  | nil => exact absurd rfl h
  | cons b t =>
    unfold ToLower
    split_ifs
    · simp
    · unfold Map runes
      simp only [List.length_cons, runesAux, List.flatMap_cons]
      intro hh
      have := (List.append_eq_nil.1 hh).1
      unfold encodeRune at this
      split_ifs at this

/-- The facts about one iteration of the loop of `internalParse`. -/
theorem stepOf_facts (T : Tables) (a : Article) (t : List Token) (ti : Nat) (tok : Token)
    (hg : t.get? ti = some tok) : stepFacts a t ti tok (stepOf T a t ti tok) := by
  have hlt := lt_length_of_get? t ti tok hg
  have hdrop : (t.drop (ti + 1)).length = t.length - (ti + 1) := List.length_drop _ _
  unfold stepOf
  dsimp only
  by_cases h_nowiki : tok.TType = str "nowiki"
  · rw [if_pos h_nowiki]
    exact ⟨linkKind_of_eq tok _ h_nowiki (by decide), linkNodes_leaf _ _ _ (by decide), retyped_refl t⟩
  rw [if_neg h_nowiki]
  by_cases h_text : tok.TType = str "text"
  · rw [if_pos h_text]
    exact ⟨linkKind_of_eq tok _ h_text (by decide), linkNodes_leaf _ _ _ (by decide), retyped_refl t⟩
  rw [if_neg h_text]
  by_cases h_math : tok.TType = str "math"
  · rw [if_pos h_math]
    exact ⟨linkKind_of_eq tok _ h_math (by decide), linkNodes_leaf _ _ _ (by decide), retyped_refl t⟩
  rw [if_neg h_math]
  by_cases h_pre : tok.TType = str "pre"
  · rw [if_pos h_pre]
    refine ⟨linkKind_of_eq tok _ h_pre (by decide), ?_, retyped_refl t⟩
    rw [linkNodes_mk, if_neg (by decide)]
    exact linkNodes_leaf _ _ _ (by decide)
  rw [if_neg h_pre]
  by_cases h_nop : tok.TType = str "nop"
  · rw [if_pos h_nop]
    exact ⟨linkKind_of_eq tok _ h_nop (by decide), linkNodes_nil, retyped_refl t⟩
  rw [if_neg h_nop]
  by_cases h_wikipre : tok.TType = str "wikipre"
  · rw [if_pos h_wikipre]
    obtain ⟨w1, w2⟩ := wikipreScan_spec t.length t (ti + 1)
    have w3 := wikipreScan_ge t.length t (ti + 1)
    split_ifs with hc
    · exact ⟨linkKind_of_eq tok _ h_wikipre (by decide), linkNodes_leaf _ _ _ (by decide), w1⟩
    · exact ⟨by omega, w2, w1, rfl, rfl,
        Or.inl ⟨rfl, fun nodes => by rw [linkNodes_mk, if_neg (by decide)]; rfl⟩,
        Or.inr ⟨linkKind_of_eq tok _ h_wikipre (by decide), Or.inl rfl⟩⟩
  rw [if_neg h_wikipre]
  by_cases h_extlink : tok.TType = str "extlink"
  · rw [if_pos h_extlink]
    obtain ⟨s1, s2, s3⟩ := findKind_spec [str "closeextlink"] (t.drop (ti + 1)) (ti + 1)
    split_ifs with hn
    · exact trivial
    · obtain ⟨x, hx1, hx⟩ := s3 (by rw [hdrop]; omega)
      rw [get?_drop_sub t ti _ s1] at hx1
      exact ⟨s1, by rw [hdrop] at s2; omega, retyped_refl t, rfl, rfl, Or.inl ⟨rfl, fun nodes => by rw [linkNodes_mk, if_neg (by decide)]; rfl⟩,
        Or.inl ⟨(str "extlink", str "closeextlink"), by simp [linkPairs], h_extlink, rfl, rfl, x, hx1, by simpa using hx⟩⟩
  rw [if_neg h_extlink]
  by_cases h_closeextlink : tok.TType = str "closeextlink"
  · rw [if_pos h_closeextlink]; exact trivial
  rw [if_neg h_closeextlink]
  by_cases h_hrule : tok.TType = str "hrule"
  · rw [if_pos h_hrule]
    exact ⟨linkKind_of_eq tok _ h_hrule (by decide), linkNodes_leaf _ _ _ (by decide), retyped_refl t⟩
  rw [if_neg h_hrule]
  by_cases h_magic : tok.TType = str "magic"
  · rw [if_pos h_magic]
    exact ⟨linkKind_of_eq tok _ h_magic (by decide), linkNodes_leaf _ _ _ (by decide), retyped_refl t⟩
  rw [if_neg h_magic]
  by_cases h_colon : tok.TType = str "colon"
  · rw [if_pos h_colon]
    exact ⟨linkKind_of_eq tok _ h_colon (by decide), linkNodes_leaf _ _ _ (by decide), retyped_refl t⟩
  rw [if_neg h_colon]
  by_cases h_space : tok.TType = str "space"
  · rw [if_pos h_space]
    exact ⟨linkKind_of_eq tok _ h_space (by decide), linkNodes_leaf _ _ _ (by decide), retyped_refl t⟩
  rw [if_neg h_space]
  by_cases h_blank : tok.TType = str "blank"
  · rw [if_pos h_blank]
    exact ⟨linkKind_of_eq tok _ h_blank (by decide), linkNodes_leaf _ _ _ (by decide), retyped_refl t⟩
  rw [if_neg h_blank]
  by_cases h_redirect : tok.TType = str "redirect"
  · rw [if_pos h_redirect]
    have lk := linkKind_of_eq tok _ h_redirect (by decide)
    split
    · exact ⟨lk, linkNodes_leaf _ _ _ (by decide), retyped_refl t⟩
    · split_ifs
      · exact ⟨lk, linkNodes_leaf _ _ _ (by decide), retyped_refl t⟩
      · refine ⟨lk, ?_, retyped_refl t⟩
        rw [linkNodes_mk, if_neg (by decide), linkNodes_nil]; rfl
  rw [if_neg h_redirect]
  by_cases h_link : tok.TType = str "link"
  · rw [if_pos h_link]
    obtain ⟨s1, s2, s3⟩ := findClose_spec (str "link") (str "closelink") (t.drop (ti + 1)) (ti + 1) 1 (le_refl _)
    split_ifs with hn
    · exact trivial
    · obtain ⟨x, hx1, hx⟩ := s3 (by rw [hdrop]; omega)
      rw [get?_drop_sub t ti _ s1] at hx1
      exact ⟨s1, by rw [hdrop] at s2; omega, retyped_refl t, rfl, rfl, Or.inr ⟨rfl, fun nodes => by rw [linkNodes_mk, if_pos rfl]; rfl⟩,
        Or.inl ⟨(str "link", str "closelink"), by simp [linkPairs], h_link, rfl, rfl, x, hx1, hx⟩⟩
  rw [if_neg h_link]
  by_cases h_filelink : tok.TType = str "filelink"
  · rw [if_pos h_filelink]
    obtain ⟨s1, s2, s3⟩ := findClose_spec (str "filelink") (str "closefilelink") (t.drop (ti + 1)) (ti + 1) 1 (le_refl _)
    split_ifs with hn
    · exact trivial
    · obtain ⟨x, hx1, hx⟩ := s3 (by rw [hdrop]; omega)
      rw [get?_drop_sub t ti _ s1] at hx1
      exact ⟨s1, by rw [hdrop] at s2; omega, retyped_refl t, rfl, rfl, Or.inl ⟨rfl, fun nodes => by rw [linkNodes_mk, if_neg (by decide)]; rfl⟩,
        Or.inl ⟨(str "filelink", str "closefilelink"), by simp [linkPairs], h_filelink, rfl, rfl, x, hx1, hx⟩⟩
  rw [if_neg h_filelink]
  by_cases h_closelink : tok.TType = str "closelink"
  · rw [if_pos h_closelink]; exact trivial
  rw [if_neg h_closelink]
  by_cases h_closefilelink : tok.TType = str "closefilelink"
  · rw [if_pos h_closefilelink]; exact trivial
  rw [if_neg h_closefilelink]
  by_cases h_html : tok.TType = str "html"
  · rw [if_pos h_html]
    have lk := linkKind_of_eq tok _ h_html (by decide)
    split
    · rename_i hh
      intro hs
      exact ToLower_ne_nil T tok.TText (hs.1 h_html) (List.head?_eq_none_iff.1 hh)
    · rename_i c0 hh
      by_cases hc : c0 = 47
      · rw [if_pos hc]; exact ⟨lk, linkNodes_nil, retyped_refl t⟩
      rw [if_neg hc]
      by_cases hcl : tok.TClosed = true
      · rw [if_pos hcl]
        refine ⟨lk, ?_, retyped_refl t⟩
        rw [linkNodes_mk, if_neg (by decide), linkNodes_nil]; rfl
      rw [if_neg hcl]
      · obtain ⟨s1, s2, s3⟩ := findCloseTag_spec T (ToLower T tok.TText) (t.drop (ti + 1))
          (ti + 1) 1
        rw [hdrop] at s2 s3
        refine ⟨s1, by omega, retyped_refl t, rfl, rfl,
          Or.inl ⟨rfl, fun nodes => by rw [linkNodes_mk, if_neg (by decide)]; rfl⟩,
          Or.inr ⟨lk, ?_⟩⟩
        split_ifs with hlen
        · left; omega
        · right
          obtain ⟨x, hx1, hx⟩ := s3 (by omega)
          rw [get?_drop_sub t ti _ s1] at hx1
          exact ⟨rfl, x, hx1, linkKind_of_eq x _ hx (by decide)⟩
  rw [if_neg h_html]
  by_cases h_list : tok.TType = str "*" ∨ tok.TType = str "#" ∨ tok.TType = str ";" ∨
      tok.TType = str ":"
  · rw [if_pos h_list]
    refine ⟨?_, linkNodes_nil, retyped_refl t⟩
    rcases h_list with h | h | h | h <;> exact linkKind_of_eq tok _ h (by decide)
  rw [if_neg h_list]
  by_cases h_newline : tok.TType = str "newline"
  · rw [if_pos h_newline]
    exact ⟨linkKind_of_eq tok _ h_newline (by decide), linkNodes_leaf _ _ _ (by decide), retyped_refl t⟩
  rw [if_neg h_newline]
  by_cases h_head : tok.TType = str "h1" ∨ tok.TType = str "h2" ∨ tok.TType = str "h3" ∨
      tok.TType = str "h4" ∨ tok.TType = str "h5" ∨ tok.TType = str "h6"
  · rw [if_pos h_head]
    have lk : linkKind tok = [] := by
      rcases h_head with h | h | h | h | h | h <;> exact linkKind_of_eq tok _ h (by decide)
    obtain ⟨s1, s2, s3⟩ := findKind_spec [str "newline"] (t.drop (ti + 1)) (ti + 1)
    split_ifs with hn
    · exact trivial
    · obtain ⟨x, hx1, hx⟩ := s3 (by rw [hdrop]; omega)
      rw [get?_drop_sub t ti _ s1] at hx1
      have hx2 : x.TType = str "newline" := by simpa using hx
      exact ⟨s1, by rw [hdrop] at s2; omega, retyped_refl t, rfl, rfl,
        Or.inl ⟨rfl, fun nodes => by rw [linkNodes_mk, if_neg (by decide)]; rfl⟩,
        Or.inr ⟨lk, Or.inr ⟨rfl, x, hx1, linkKind_of_eq x _ hx2 (by decide)⟩⟩⟩
  rw [if_neg h_head]
  by_cases h_tb : tok.TType = str "tb" ∨ tok.TType = str "te"
  · rw [if_pos h_tb]
    have lk : linkKind tok = [] := by
      rcases h_tb with h | h <;> exact linkKind_of_eq tok _ h (by decide)
    have nl : tok.TType ≠ str "link" := by
      rcases h_tb with h | h <;> rw [h] <;> decide
    split
    · exact trivial
    · rename_i v hv
      split_ifs with h1 h2
      · exact trivial
      · intro hs
        have := hs.2 h_tb v hv
        omega
      · split
        · refine ⟨lk, ?_, retyped_refl t⟩
          rw [linkNodes_mk, if_neg nl, linkNodes_nil]; rfl
        · rename_i hnone
          have hlen := length_le_of_get? _ _ hnone
          omega
  rw [if_neg h_tb]
  exact trivial

/-! ## Invariants of the loop of `internalParse` -/

theorem split3 {α : Type} (l : List α) (lo hi : Nat) (h : lo ≤ hi) :
    l.take lo ++ slice l lo hi ++ l.drop hi = l := by
  unfold slice
  have e : l.take lo = (l.take hi).take lo := by
    rw [List.take_take, Nat.min_eq_left h]
  rw [e, List.take_append_drop, List.take_append_drop]

/-- The tokens returned by the loop of `internalParse` are the tokens given, with some
`wikipre` tokens turned into `nop`. -/
theorem parseLoop_retyped (T : Tables) : ∀ (fuel : Nat) (a : Article) (t : List Token)
    (ti : Nat) (lastti : Option Nat) (nl : List ParseNode) (a2 : Article) (t2 : List Token)
    (r : Except Str (List ParseNode)),
    parseLoop T fuel a t ti lastti nl = .ok (a2, t2, r) → retyped t t2
  | 0, _, _, _, _, _, _, _, _, h => by simp [parseLoop] at h
  | fuel + 1, a, t, ti, lastti, nl, a2, t2, r, h => by
    rw [parseLoop_step] at h
    cases hg : t.get? ti with
    | none =>
      rw [hg] at h
      simp only [Res.ok.injEq, Prod.mk.injEq] at h
      rw [← h.2.1]; exact retyped_refl t
    | some tok =>
      rw [hg] at h
      simp only at h
      by_cases hl : lastti = some ti
      · rw [if_pos hl] at h
        simp only [Res.ok.injEq, Prod.mk.injEq] at h
        rw [← h.2.1]; exact retyped_refl t
      rw [if_neg hl] at h
      have facts := stepOf_facts T a t ti tok hg
      cases hs : stepOf T a t ti tok with
      | stop e =>
        rw [hs] at h
        simp only [runStep, Res.ok.injEq, Prod.mk.injEq] at h
        rw [← h.2.1]; exact retyped_refl t
      | crash => rw [hs] at h; simp [runStep] at h
      | next t1 new =>
        rw [hs] at h facts
        simp only [runStep] at h
        exact retyped_trans _ _ _ facts.2.2 (parseLoop_retyped T fuel _ _ _ _ _ _ _ _ h)
      | nest a1 t1 ni next mk recover =>
        rw [hs] at h facts
        obtain ⟨f1, f2, f3, f4, f5, f6, f7⟩ := facts
        simp only [runStep] at h
        by_cases hni : ni > ti + 1
        · rw [if_pos hni] at h
          cases hin : parseLoop T fuel a1 (slice t1 (ti + 1) ni) 0 none [] with
          | panic => rw [hin] at h; simp at h
          | fuel => rw [hin] at h; simp at h
          | ok p =>
            obtain ⟨a3, sub, r3⟩ := p
            rw [hin] at h
            have hsub := parseLoop_retyped T fuel _ _ _ _ _ _ _ _ hin
            have h3 : retyped t (t1.take (ti + 1) ++ sub ++ t1.drop ni) := by
              apply retyped_trans _ _ _ f3
              have e := split3 t1 (ti + 1) ni f1
              nth_rewrite 1 [← e]
              exact retyped_append _ _ _ _
                (retyped_append _ _ _ _ (retyped_refl _) hsub) (retyped_refl _)
            cases r3 with
            | ok nodes =>
              simp only at h
              exact retyped_trans _ _ _ h3 (parseLoop_retyped T fuel _ _ _ _ _ _ _ _ h)
            | error e =>
              simp only at h
              cases recover with
              | false =>
                simp only [Bool.false_eq_true, if_false, Res.ok.injEq, Prod.mk.injEq] at h
                rw [← h.2.1]; exact h3
              | true =>
                simp only [if_true] at h
                split_ifs at h with hmax
                · simp only [Res.ok.injEq, Prod.mk.injEq] at h
                  rw [← h.2.1]; exact h3
                · exact retyped_trans _ _ _ h3 (parseLoop_retyped T fuel _ _ _ _ _ _ _ _ h)
        · rw [if_neg hni] at h
          exact retyped_trans _ _ _ f3 (parseLoop_retyped T fuel _ _ _ _ _ _ _ _ h)

/-- The loop of `internalParse` only appends to `Links`, and the links of the link nodes it
adds to the tree are, in pre-order, among the links appended, in the same order. -/
theorem parseLoop_links (T : Tables) : ∀ (fuel : Nat) (a : Article) (t : List Token)
    (ti : Nat) (lastti : Option Nat) (nl : List ParseNode) (a2 : Article) (t2 : List Token)
    (r : Except Str (List ParseNode)),
    parseLoop T fuel a t ti lastti nl = .ok (a2, t2, r) →
    ∃ extra, a2.Links = a.Links ++ extra ∧
      ∀ nodes, r = .ok nodes → ∃ new, nodes = nl ++ new ∧ List.Sublist (linkNodes new) extra
  | 0, _, _, _, _, _, _, _, _, h => by simp [parseLoop] at h
  | fuel + 1, a, t, ti, lastti, nl, a2, t2, r, h => by
    rw [parseLoop_step] at h
    cases hg : t.get? ti with
    | none =>
      rw [hg] at h
      simp only [Res.ok.injEq, Prod.mk.injEq] at h
      obtain ⟨h1, _, h3⟩ := h
      refine ⟨[], by rw [← h1, List.append_nil], fun nodes hn => ⟨[], ?_, ?_⟩⟩
      · rw [← h3] at hn; rw [List.append_nil]; exact (Except.ok.inj hn).symm
      · rw [linkNodes_nil]
    | some tok =>
      rw [hg] at h
      simp only at h
      by_cases hl : lastti = some ti
      · rw [if_pos hl] at h
        simp only [Res.ok.injEq, Prod.mk.injEq] at h
        obtain ⟨h1, _, h3⟩ := h
        exact ⟨[], by rw [← h1, List.append_nil], fun nodes hn => by rw [← h3] at hn; cases hn⟩
      rw [if_neg hl] at h
      have facts := stepOf_facts T a t ti tok hg
      cases hs : stepOf T a t ti tok with
      | stop e =>
        rw [hs] at h
        simp only [runStep, Res.ok.injEq, Prod.mk.injEq] at h
        obtain ⟨h1, _, h3⟩ := h
        exact ⟨[], by rw [← h1, List.append_nil], fun nodes hn => by rw [← h3] at hn; cases hn⟩
      | crash => rw [hs] at h; simp [runStep] at h
      | next t1 new =>
        rw [hs] at h facts
        simp only [runStep] at h
        obtain ⟨extra, e1, e2⟩ := parseLoop_links T fuel _ _ _ _ _ _ _ _ h
        refine ⟨extra, e1, fun nodes hn => ?_⟩
        obtain ⟨new2, n1, n2⟩ := e2 nodes hn
        refine ⟨new ++ new2, by rw [n1, List.append_assoc], ?_⟩
        rw [linkNodes_append, facts.2.1]
        exact n2
      | nest a1 t1 ni next mk recover =>
        rw [hs] at h facts
        obtain ⟨f1, f2, f3, f4, f5, f6, f7⟩ := facts
        obtain ⟨pre, p1, p2⟩ : ∃ pre, a1.Links = a.Links ++ pre ∧
            ∀ nodes, linkNodes [mk nodes] = pre ++ linkNodes nodes := by
          rcases f6 with ⟨g1, g2⟩ | ⟨g1, g2⟩
          · exact ⟨[], by rw [g1, List.append_nil], fun nodes => by rw [g2]; rfl⟩
          · exact ⟨[tok.TLink], g1, fun nodes => by rw [g2]; rfl⟩
        simp only [runStep] at h
        by_cases hni : ni > ti + 1
        · rw [if_pos hni] at h
          cases hin : parseLoop T fuel a1 (slice t1 (ti + 1) ni) 0 none [] with
          | panic => rw [hin] at h; simp at h
          | fuel => rw [hin] at h; simp at h
          | ok p =>
            obtain ⟨a3, sub, r3⟩ := p
            rw [hin] at h
            obtain ⟨x1, i1, i2⟩ := parseLoop_links T fuel _ _ _ _ _ _ _ _ hin
            cases r3 with
            | ok nodes =>
              simp only at h
              obtain ⟨x2, c1, c2⟩ := parseLoop_links T fuel _ _ _ _ _ _ _ _ h
              obtain ⟨new1, m1, m2⟩ := i2 nodes rfl
              rw [List.nil_append] at m1
              subst m1
              refine ⟨pre ++ x1 ++ x2, by rw [c1, i1, p1]; simp only [List.append_assoc],
                fun nodes2 hn => ?_⟩
              obtain ⟨new2, n1, n2⟩ := c2 nodes2 hn
              refine ⟨[mk nodes] ++ new2, by rw [n1, List.append_assoc], ?_⟩
              rw [linkNodes_append, p2]
              exact ((List.Sublist.refl pre).append m2).append n2
            | error e =>
              simp only at h
              cases recover with
              | false =>
                simp only [Bool.false_eq_true, if_false, Res.ok.injEq, Prod.mk.injEq] at h
                obtain ⟨h1, _, h3⟩ := h
                exact ⟨pre ++ x1, by rw [← h1, i1, p1, List.append_assoc],
                  fun nodes hn => by rw [← h3] at hn; cases hn⟩
              | true =>
                simp only [if_true] at h
                split_ifs at h with hmax
                · simp only [Res.ok.injEq, Prod.mk.injEq] at h
                  obtain ⟨h1, _, h3⟩ := h
                  exact ⟨pre ++ x1, by rw [← h1]; simp only; rw [i1, p1, List.append_assoc],
                    fun nodes hn => by rw [← h3] at hn; cases hn⟩
                · obtain ⟨x2, c1, c2⟩ := parseLoop_links T fuel _ _ _ _ _ _ _ _ h
                  simp only at c1
                  refine ⟨pre ++ x1 ++ x2, by rw [c1, i1, p1]; simp only [List.append_assoc],
                    fun nodes2 hn => ?_⟩
                  obtain ⟨new2, n1, n2⟩ := c2 nodes2 hn
                  exact ⟨new2, n1, List.sublist_append_of_sublist_right n2⟩
        · rw [if_neg hni] at h
          obtain ⟨x2, c1, c2⟩ := parseLoop_links T fuel _ _ _ _ _ _ _ _ h
          refine ⟨pre ++ x2, by rw [c1, p1, List.append_assoc], fun nodes2 hn => ?_⟩
          obtain ⟨new2, n1, n2⟩ := c2 nodes2 hn
          refine ⟨[mk []] ++ new2, by rw [n1, List.append_assoc], ?_⟩
          rw [linkNodes_append, p2, linkNodes_nil, List.append_nil]
          exact (List.Sublist.refl pre).append n2

theorem parsedOK_iff (r : Res (Article × Option Str)) :
    parsedOK r = true ↔ ∃ a, r = .ok (a, none) := by
  rcases r with ⟨a, (_ | e)⟩ | _ | _ <;> simp [parsedOK]

/-- C12.  Link collection: after a successful parse the article has a root, and the
`Link` values of the nodes of kind `link` of the parse tree, taken in pre-order, occur
in the same order in the article's `Links` list (they are a subsequence of it). -/
theorem C12_links_in_order (T : Tables) (fuel : Nat) (title text : Str) (g : PageGetter)
    (h : parsedOK (ParseArticle T fuel title text g) = true) :
    ∃ a, ParseArticle T fuel title text g = .ok (a, none) ∧
      ∃ root, a.Root = some root ∧ List.Sublist (linkNodes [root]) a.Links := by
  obtain ⟨a, ha⟩ := (parsedOK_iff _).1 h
  refine ⟨a, ha, ?_⟩
  have h := ha
  unfold ParseArticle at h
  simp only at h
  cases htk : Tokenize T fuel (NewArticle title text).MediaWiki g with
  | panic => rw [htk] at h; simp at h
  | fuel => rw [htk] at h; simp at h
  | ok tk =>
    rw [htk] at h
    simp only at h
    cases htoks : tk.tokens with
    | error e => rw [htoks] at h; simp at h
    | ok tokens =>
      rw [htoks] at h
      simp only at h
      unfold parse internalParse at h
      simp only at h
      generalize hres : parseLoop T _ _ _ 0 none [] = res at h
      rcases res with ⟨a3, t3, (e | nodes)⟩ | _ | _
      · simp at h
      · simp only [Res.ok.injEq, Prod.mk.injEq, and_true] at h
        obtain ⟨extra, e1, e2⟩ := parseLoop_links T _ _ _ _ _ _ _ _ _ hres
        obtain ⟨new, n1, n2⟩ := e2 nodes rfl
        rw [List.nil_append] at n1
        subst n1
        refine ⟨.mk (str "root") [] ⟨[], [], []⟩ [] 0 nodes, by rw [← h], ?_⟩
        rw [linkNodes_mk, if_neg (by decide), List.nil_append, ← h]
        simp only
        rw [e1]
        exact List.sublist_append_of_sublist_right n2
      · simp at h
      · simp at h

set_option maxRecDepth 100000 in
/-- C12 at the text `[[A]] [[B]]`, which parses without error. -/
theorem C12_links_in_order_witness :
    parsedOK (ParseArticle goTables 10 (str "T") (str "[[A]] [[B]]") DummyPageGetter) = true ∧
    ∃ a, ParseArticle goTables 10 (str "T") (str "[[A]] [[B]]") DummyPageGetter =
        .ok (a, none) ∧
      ∃ root, a.Root = some root ∧ List.Sublist (linkNodes [root]) a.Links :=
  ⟨by decide!, C12_links_in_order goTables 10 (str "T") (str "[[A]] [[B]]") DummyPageGetter
    (by decide!)⟩

/-! ## Bracket matching of the link tokens -/

theorem depthScan_append (o c : Str) : ∀ (xs ys : List Token) (d : Nat),
    depthScan o c (xs ++ ys) d = (depthScan o c xs d).bind (depthScan o c ys)
  | [], _, _ => rfl
  | x :: xs, ys, d => by
    simp only [List.cons_append, depthScan]
    split_ifs <;> first | rfl | exact depthScan_append o c xs ys _

theorem depthScan_shift (o c : Str) : ∀ (xs : List Token) (d e k : Nat),
    depthScan o c xs d = some e → depthScan o c xs (d + k) = some (e + k)
  | [], d, e, k, h => by
    simp only [depthScan, Option.some.injEq] at h ⊢; omega
  | x :: xs, d, e, k, h => by
    simp only [depthScan] at h ⊢
    split_ifs at h ⊢ with h1 h2 h3 h4
    · have := depthScan_shift o c xs (d + 1) e k h
      rw [show d + k + 1 = d + 1 + k by omega]; exact this
    · omega
    · have := depthScan_shift o c xs (d - 1) e k h
      rw [show d + k - 1 = d - 1 + k by omega]; exact this
    · exact depthScan_shift o c xs d e k h

theorem depthScan_balanced_at (o c : Str) (xs : List Token) (d : Nat)
    (h : depthScan o c xs 0 = some 0) : depthScan o c xs d = some d := by
  have := depthScan_shift o c xs 0 0 d h
  simpa using this

theorem linkPairs_kinds : ∀ p ∈ linkPairs, p.1 ∈ linkKinds ∧ p.2 ∈ linkKinds ∧ p.1 ≠ [] ∧
    p.2 ≠ [] ∧ p.1 ≠ p.2 := by decide

theorem linkPairs_apart : ∀ p ∈ linkPairs, ∀ q ∈ linkPairs,
    p = q ∨ (q.1 ≠ p.1 ∧ q.1 ≠ p.2 ∧ q.2 ≠ p.1 ∧ q.2 ≠ p.2) := by decide

theorem eq_iff_linkKind (tok : Token) (k : Str) (hk : k ∈ linkKinds) (hne : k ≠ []) :
    tok.TType = k ↔ linkKind tok = k := by
  unfold linkKind
  constructor
  · intro h; rw [if_pos (by rw [h]; exact hk)]; exact h
  · intro h
    split_ifs at h
    · exact h
    · exact absurd h.symm hne

/-- The bracket matching reads only the kinds of the link tokens. -/
theorem depthScan_congr (o c : Str) (ho : o ∈ linkKinds) (hc : c ∈ linkKinds) (ho2 : o ≠ [])
    (hc2 : c ≠ []) : ∀ (xs ys : List Token) (d : Nat), xs.map linkKind = ys.map linkKind →
    depthScan o c xs d = depthScan o c ys d
  | [], [], _, _ => rfl
  | [], _ :: _, _, h => by simp at h
  | _ :: _, [], _, h => by simp at h
  | x :: xs, y :: ys, d, h => by
    simp only [List.map_cons, List.cons.injEq] at h
    have e1 : x.TType = o ↔ y.TType = o := by
      rw [eq_iff_linkKind x o ho ho2, eq_iff_linkKind y o ho ho2, h.1]
    have e2 : x.TType = c ↔ y.TType = c := by
      rw [eq_iff_linkKind x c hc hc2, eq_iff_linkKind y c hc hc2, h.1]
    simp only [depthScan, e1, e2, depthScan_congr o c ho hc ho2 hc2 xs ys _ h.2]

theorem depthScan_pair_congr (p : Str × Str) (hp : p ∈ linkPairs) (xs ys : List Token)
    (d : Nat) (h : xs.map linkKind = ys.map linkKind) :
    depthScan p.1 p.2 xs d = depthScan p.1 p.2 ys d := by
  obtain ⟨a1, a2, a3, a4, _⟩ := linkPairs_kinds p hp
  exact depthScan_congr p.1 p.2 a1 a2 a3 a4 xs ys d h

theorem neutral_of_linkKind (tok : Token) (h : linkKind tok = []) (p : Str × Str)
    (hp : p ∈ linkPairs) : tok.TType ≠ p.1 ∧ tok.TType ≠ p.2 := by
  obtain ⟨a1, a2, a3, a4, _⟩ := linkPairs_kinds p hp
  constructor
  · intro e; rw [(eq_iff_linkKind tok p.1 a1 a3).1 e] at h; exact a3 h
  · intro e; rw [(eq_iff_linkKind tok p.2 a2 a4).1 e] at h; exact a4 h

theorem depthScan_neutral (o c : Str) (tok : Token) (xs : List Token) (d : Nat)
    (h1 : tok.TType ≠ o) (h2 : tok.TType ≠ c) :
    depthScan o c (tok :: xs) d = depthScan o c xs d := by
  simp only [depthScan, if_neg h1, if_neg h2]

theorem drop_cons_of_get? {α : Type} : ∀ (l : List α) (i : Nat) (x : α), l.get? i = some x →
    l.drop i = x :: l.drop (i + 1)
  | [], _, _, h => by simp at h
  | a :: l, 0, x, h => by
    simp only [List.get?, Option.some.injEq] at h; rw [h]; rfl
  | a :: l, i + 1, x, h => by
    simp only [List.get?] at h
    simp only [List.drop_succ_cons]
    exact drop_cons_of_get? l i x h

theorem drop_slice {α : Type} (l : List α) (lo hi : Nat) (h : lo ≤ hi) (hh : hi ≤ l.length) :
    l.drop lo = slice l lo hi ++ l.drop hi := by
  unfold slice
  nth_rewrite 1 [← List.take_append_drop hi l]
  rw [List.drop_append_eq_append_drop, List.length_take, Nat.min_eq_left hh]
  have : lo - hi = 0 := by omega
  rw [this, List.drop_zero]

/-- A group of the tree builder keeps the brackets matched: an open token, a matched
interior, its close token, and a matched rest; or a token that is no link token, a
matched interior, at most one more token that is no link token, and a matched rest. -/
theorem wrap_balanced (t : List Token) (ti ni next : Nat) (tok : Token) (recover : Bool)
    (hg : t.get? ti = some tok) (f1 : ti + 1 ≤ ni) (f2 : ni ≤ t.length)
    (f7 : (∃ p ∈ linkPairs, tok.TType = p.1 ∧ next = ni + 1 ∧ recover = false ∧
        ∃ tc, t.get? ni = some tc ∧ tc.TType = p.2) ∨
      (linkKind tok = [] ∧
        (next = ni ∨ (next = ni + 1 ∧ ∃ tc, t.get? ni = some tc ∧ linkKind tc = []))))
    (hin : ∀ p ∈ linkPairs, depthScan p.1 p.2 (slice t (ti + 1) ni) 0 = some 0)
    (hrest : ∀ p ∈ linkPairs, depthScan p.1 p.2 (t.drop next) 0 = some 0) :
    ∀ p ∈ linkPairs, depthScan p.1 p.2 (t.drop ti) 0 = some 0 := by
  intro p hp
  rw [drop_cons_of_get? t ti tok hg, drop_slice t (ti + 1) ni f1 f2]
  obtain ⟨_, _, _, _, k5⟩ := linkPairs_kinds p hp
  rcases f7 with ⟨q, hq, q1, q2, _, tc, q3, q4⟩ | ⟨n1, n2⟩
  · rw [drop_cons_of_get? t ni tc q3, ← q2]
    rcases linkPairs_apart p hp q hq with e | ⟨e1, e2, e3, e4⟩
    · subst e
      simp only [depthScan, if_pos q1]
      rw [depthScan_append, depthScan_balanced_at _ _ _ _ (hin p hp)]
      have k6 : ¬ p.2 = p.1 := fun e => k5 e.symm
      simpa [Option.bind, depthScan, k6, q4] using hrest p hp
    · rw [depthScan_neutral _ _ _ _ _ (by rw [q1]; exact e1) (by rw [q1]; exact e2),
        depthScan_append, hin p hp]
      simp only [Option.bind]
      rw [depthScan_neutral _ _ _ _ _ (by rw [q4]; exact e3) (by rw [q4]; exact e4)]
      exact hrest p hp
  · obtain ⟨m1, m2⟩ := neutral_of_linkKind tok n1 p hp
    rw [depthScan_neutral _ _ _ _ _ m1 m2, depthScan_append, hin p hp]
    simp only [Option.bind]
    rcases n2 with n2 | ⟨n2, tc, n3, n4⟩
    · rw [← n2]; exact hrest p hp
    · obtain ⟨m3, m4⟩ := neutral_of_linkKind tc n4 p hp
      rw [drop_cons_of_get? t ni tc n3, depthScan_neutral _ _ _ _ _ m3 m4, ← n2]
      exact hrest p hp

theorem retyped_splice (t t1 sub : List Token) (lo hi : Nat) (h : retyped t t1)
    (hlo : lo ≤ hi) (hs : retyped (slice t1 lo hi) sub) :
    retyped t (t1.take lo ++ sub ++ t1.drop hi) := by
  apply retyped_trans _ _ _ h
  have e := split3 t1 lo hi hlo
  nth_rewrite 1 [← e]
  exact retyped_append _ _ _ _ (retyped_append _ _ _ _ (retyped_refl _) hs) (retyped_refl _)

theorem balanced_of_retyped (t t1 : List Token) (k : Nat) (h : retyped t t1)
    (hb : ∀ p ∈ linkPairs, depthScan p.1 p.2 (t1.drop k) 0 = some 0) :
    ∀ p ∈ linkPairs, depthScan p.1 p.2 (t.drop k) 0 = some 0 := by
  intro p hp
  rw [← hb p hp]
  apply depthScan_pair_congr p hp
  rw [List.map_drop, List.map_drop, retyped_linkKind t t1 h]

theorem slice_balanced_of_retyped (t t1 : List Token) (lo hi : Nat) (h : retyped t t1)
    (hb : ∀ p ∈ linkPairs, depthScan p.1 p.2 (slice t1 lo hi) 0 = some 0) :
    ∀ p ∈ linkPairs, depthScan p.1 p.2 (slice t lo hi) 0 = some 0 := by
  intro p hp
  rw [← hb p hp]
  apply depthScan_pair_congr p hp
  unfold slice
  rw [List.map_drop, List.map_drop, List.map_take, List.map_take,
    retyped_linkKind t t1 h]

/-- When the loop of `internalParse` builds its nodes without an error, the link tokens
from the cursor on pair up as brackets, for each of the three kinds. -/
theorem parseLoop_balanced (T : Tables) : ∀ (fuel : Nat) (a : Article) (t : List Token)
    (ti : Nat) (lastti : Option Nat) (nl : List ParseNode) (a2 : Article) (t2 : List Token)
    (nodes : List ParseNode),
    parseLoop T fuel a t ti lastti nl = .ok (a2, t2, .ok nodes) →
    ∀ p ∈ linkPairs, depthScan p.1 p.2 (t.drop ti) 0 = some 0
  | 0, _, _, _, _, _, _, _, _, h => by simp [parseLoop] at h
  | fuel + 1, a, t, ti, lastti, nl, a2, t2, nodes, h => by
    rw [parseLoop_step] at h
    cases hg : t.get? ti with
    | none =>
      have := length_le_of_get? _ _ hg
      rw [List.drop_of_length_le this]
      intro p _; rfl
    | some tok =>
      rw [hg] at h
      simp only at h
      by_cases hl : lastti = some ti
      · rw [if_pos hl] at h; simp at h
      rw [if_neg hl] at h
      have facts := stepOf_facts T a t ti tok hg
      cases hs : stepOf T a t ti tok with
      | stop e => rw [hs] at h; simp [runStep] at h
      | crash => rw [hs] at h; simp [runStep] at h
      | next t1 new =>
        rw [hs] at h facts
        simp only [runStep] at h
        have ih := balanced_of_retyped t t1 (ti + 1) facts.2.2
          (parseLoop_balanced T fuel _ _ _ _ _ _ _ _ h)
        intro p hp
        obtain ⟨m1, m2⟩ := neutral_of_linkKind tok facts.1 p hp
        rw [drop_cons_of_get? t ti tok hg, depthScan_neutral _ _ _ _ _ m1 m2]
        exact ih p hp
      | nest a1 t1 ni next mk recover =>
        rw [hs] at h facts
        obtain ⟨f1, f2, f3, f4, f5, f6, f7⟩ := facts
        simp only [runStep] at h
        by_cases hni : ni > ti + 1
        · rw [if_pos hni] at h
          cases hin : parseLoop T fuel a1 (slice t1 (ti + 1) ni) 0 none [] with
          | panic => rw [hin] at h; simp at h
          | fuel => rw [hin] at h; simp at h
          | ok p =>
            obtain ⟨a3, sub, r3⟩ := p
            rw [hin] at h
            have h3 := retyped_splice t t1 sub (ti + 1) ni f3 f1
              (parseLoop_retyped T fuel _ _ _ _ _ _ _ _ hin)
            cases r3 with
            | ok nodes1 =>
              simp only at h
              have i1 := parseLoop_balanced T fuel _ _ _ _ _ _ _ _ hin
              rw [List.drop_zero] at i1
              exact wrap_balanced t ti ni next tok recover hg f1 f2 f7
                (slice_balanced_of_retyped t t1 _ _ f3 i1)
                (balanced_of_retyped t _ next h3 (parseLoop_balanced T fuel _ _ _ _ _ _ _ _ h))
            | error e =>
              simp only at h
              cases recover with
              | false => simp at h
              | true =>
                simp only [if_true] at h
                split_ifs at h with hmax
                · simp at h
                · have ih := balanced_of_retyped t _ (ti + 1) h3
                    (parseLoop_balanced T fuel _ _ _ _ _ _ _ _ h)
                  rcases f7 with ⟨q, _, _, _, q3, _⟩ | ⟨n1, _⟩
                  · cases q3
                  · intro p hp
                    obtain ⟨m1, m2⟩ := neutral_of_linkKind tok n1 p hp
                    rw [drop_cons_of_get? t ti tok hg, depthScan_neutral _ _ _ _ _ m1 m2]
                    exact ih p hp
        · rw [if_neg hni] at h
          have e : ni = ti + 1 := by omega
          refine wrap_balanced t ti ni next tok recover hg f1 f2 f7 ?_
            (balanced_of_retyped t t1 next f3 (parseLoop_balanced T fuel _ _ _ _ _ _ _ _ h))
          intro p _
          rw [e]
          unfold slice
          rw [List.drop_eq_nil_of_le (by rw [List.length_take]; omega)]
          rfl

theorem slice_length {α : Type} (l : List α) (lo hi : Nat) :
    (slice l lo hi).length = min hi l.length - lo := by
  simp [slice]

theorem mem_of_mem_slice {α : Type} (l : List α) (lo hi : Nat) (x : α)
    (h : x ∈ slice l lo hi) : x ∈ l :=
  List.mem_of_mem_take (List.mem_of_mem_drop h)

/-- The loop of `internalParse` ends: a budget above the number of tokens from the cursor
on is never used up. -/
theorem parseLoop_fuel (T : Tables) : ∀ (fuel : Nat) (a : Article) (t : List Token)
    (ti : Nat) (lastti : Option Nat) (nl : List ParseNode),
    t.length - ti < fuel → parseLoop T fuel a t ti lastti nl ≠ .fuel
  | 0, _, _, _, _, _, h => by omega
  | fuel + 1, a, t, ti, lastti, nl, hf => by
    rw [parseLoop_step]
    cases hg : t.get? ti with
    | none => simp
    | some tok =>
      have hlt := lt_length_of_get? t ti tok hg
      simp only
      by_cases hl : lastti = some ti
      · rw [if_pos hl]; simp
      rw [if_neg hl]
      have facts := stepOf_facts T a t ti tok hg
      cases hs : stepOf T a t ti tok with
      | stop e => simp [runStep]
      | crash => simp [runStep]
      | next t1 new =>
        rw [hs] at facts
        simp only [runStep]
        have hlen := retyped_length t t1 facts.2.2
        exact parseLoop_fuel T fuel _ _ _ _ _ (by omega)
      | nest a1 t1 ni next mk recover =>
        rw [hs] at facts
        obtain ⟨f1, f2, f3, f4, f5, f6, f7⟩ := facts
        have hlen := retyped_length t t1 f3
        have hnext : ti < next := by
          rcases f7 with ⟨_, _, _, q, _⟩ | ⟨_, q | ⟨q, _⟩⟩ <;> omega
        simp only [runStep]
        by_cases hni : ni > ti + 1
        · rw [if_pos hni]
          have hin0 := parseLoop_fuel T fuel a1 (slice t1 (ti + 1) ni) 0 none []
            (by rw [slice_length]; omega)
          cases hin : parseLoop T fuel a1 (slice t1 (ti + 1) ni) 0 none [] with
          | panic => simp
          | fuel => exact absurd hin hin0
          | ok p =>
            obtain ⟨a3, sub, r3⟩ := p
            have h3 := retyped_length _ _ (retyped_splice t t1 sub (ti + 1) ni f3 f1
              (parseLoop_retyped T fuel _ _ _ _ _ _ _ _ hin))
            cases r3 with
            | ok nodes1 =>
              simp only
              exact parseLoop_fuel T fuel _ _ _ _ _ (by omega)
            | error e =>
              simp only
              cases recover with
              | false => simp
              | true =>
                simp only [if_true]
                split_ifs with hmax
                · simp
                · exact parseLoop_fuel T fuel _ _ _ _ _ (by omega)
        · rw [if_neg hni]
          exact parseLoop_fuel T fuel _ _ _ _ _ (by omega)

/-- The loop of `internalParse` does not crash on tokens that are `saneToken`. -/
theorem parseLoop_no_panic (T : Tables) : ∀ (fuel : Nat) (a : Article) (t : List Token)
    (ti : Nat) (lastti : Option Nat) (nl : List ParseNode),
    (∀ x ∈ t, saneToken x) → parseLoop T fuel a t ti lastti nl ≠ .panic
  | 0, _, _, _, _, _, _ => by simp [parseLoop]
  | fuel + 1, a, t, ti, lastti, nl, hsane => by
    rw [parseLoop_step]
    cases hg : t.get? ti with
    | none => simp
    | some tok =>
      simp only
      by_cases hl : lastti = some ti
      · rw [if_pos hl]; simp
      rw [if_neg hl]
      have facts := stepOf_facts T a t ti tok hg
      cases hs : stepOf T a t ti tok with
      | stop e => simp [runStep]
      | crash =>
        rw [hs] at facts
        exact absurd (hsane tok (mem_of_get? t ti tok hg)) facts
      | next t1 new =>
        rw [hs] at facts
        simp only [runStep]
        exact parseLoop_no_panic T fuel _ _ _ _ _ (retyped_sane t t1 facts.2.2 hsane)
      | nest a1 t1 ni next mk recover =>
        rw [hs] at facts
        obtain ⟨f1, f2, f3, f4, f5, f6, f7⟩ := facts
        have hs1 := retyped_sane t t1 f3 hsane
        simp only [runStep]
        by_cases hni : ni > ti + 1
        · rw [if_pos hni]
          have hin0 := parseLoop_no_panic T fuel a1 (slice t1 (ti + 1) ni) 0 none []
            (fun x hx => hs1 x (mem_of_mem_slice _ _ _ x hx))
          cases hin : parseLoop T fuel a1 (slice t1 (ti + 1) ni) 0 none [] with
          | panic => exact absurd hin hin0
          | fuel => simp
          | ok p =>
            obtain ⟨a3, sub, r3⟩ := p
            have h3 := retyped_sane _ _ (retyped_splice t t1 sub (ti + 1) ni f3 f1
              (parseLoop_retyped T fuel _ _ _ _ _ _ _ _ hin)) hsane
            cases r3 with
            | ok nodes1 =>
              simp only
              exact parseLoop_no_panic T fuel _ _ _ _ _ h3
            | error e =>
              simp only
              cases recover with
              | false => simp
              | true =>
                simp only [if_true]
                split_ifs with hmax
                · simp
                · exact parseLoop_no_panic T fuel _ _ _ _ _ h3
        · rw [if_neg hni]
          exact parseLoop_no_panic T fuel _ _ _ _ _ hs1

/-! ## `doQuotes` and the link tokens -/

theorem quoteMade_html (s : String) (h : str s ∈ [str "i", str "/i", str "b", str "/b"]) :
    quoteMade (htmlTok s) := Or.inl ⟨rfl, h⟩

theorem closeOut_made (s : QS) : ∀ x ∈ closeOut s, quoteMade x := by
  have hcb := quoteMade_html "/b" (by decide)
  have hci := quoteMade_html "/i" (by decide)
  intro x hx
  cases s <;> simp only [closeOut, List.mem_cons, List.mem_singleton, List.not_mem_nil,
    or_false] at hx
  all_goals (try casesm* _ ∨ _)
  all_goals (subst_vars; assumption)

theorem quoteAction_made (l : Nat) (s : QS) : ∀ x ∈ (quoteAction l s).1, quoteMade x := by
  have apo : quoteMade { TText := str "'", TType := str "text" } :=
    Or.inr ⟨rfl, by decide⟩
  have rep : ∀ n, quoteMade { TText := List.replicate n 39, TType := str "text" } :=
    fun n => Or.inr ⟨rfl, fun c hc => (List.mem_replicate.1 hc).2⟩
  have hb := quoteMade_html "b" (by decide)
  have hi := quoteMade_html "i" (by decide)
  have hcb := quoteMade_html "/b" (by decide)
  have hci := quoteMade_html "/i" (by decide)
  intro x hx
  unfold quoteAction at hx
  simp only at hx
  split_ifs at hx <;> cases s <;>
    simp only [List.mem_append, List.mem_cons, List.mem_singleton, List.not_mem_nil,
      or_false, false_or, List.nil_append] at hx
  all_goals (try casesm* _ ∨ _)
  all_goals (subst_vars; first | assumption | exact rep _)

theorem quoteMade_not_link (x : Token) (h : quoteMade x) : isLinkToken x = false := by
  unfold isLinkToken
  rcases h with ⟨h, _⟩ | ⟨h, _⟩ <;> rw [h] <;> decide

theorem filter_made (l : List Token) (h : ∀ x ∈ l, quoteMade x) :
    l.filter isLinkToken = [] :=
  List.filter_eq_nil_iff.2 (fun x hx => by rw [quoteMade_not_link x (h x hx)]; simp)

theorem filter_closeOut (s : QS) : (closeOut s).filter isLinkToken = [] :=
  filter_made _ (closeOut_made s)

theorem filter_quoteAction (l : Nat) (s : QS) : (quoteAction l s).1.filter isLinkToken = [] :=
  filter_made _ (quoteAction_made l s)

theorem Inserted_made : ∀ (l : List Token), (∀ x ∈ l, quoteMade x) → Inserted [] l
  | [], _ => Inserted.done
  | y :: l, h => Inserted.add y [] l (h y (List.mem_cons_self _ _))
      (Inserted_made l (fun x hx => h x (List.mem_cons_of_mem _ hx)))

theorem Inserted_append (a b c d : List Token) (h1 : Inserted a b) (h2 : Inserted c d) :
    Inserted (a ++ c) (b ++ d) := by
  induction h1 with
  | done => exact h2
  | keep x xs ys _ ih => exact Inserted.keep x _ _ ih
  | add y xs ys hy _ ih => exact Inserted.add y _ _ hy ih

theorem Inserted_single (t : Token) : Inserted [t] [t] := Inserted.keep t [] [] Inserted.done

theorem Inserted_pre (l : List Token) (a b : List Token) (h : ∀ x ∈ l, quoteMade x)
    (h2 : Inserted a b) : Inserted a (l ++ b) := by
  have := Inserted_append [] l a b (Inserted_made l h) h2
  simpa using this

theorem Inserted_cons_post (t : Token) (l : List Token) (h : ∀ x ∈ l, quoteMade x) :
    Inserted [t] (t :: l) := Inserted.keep t [] l (Inserted_made l h)

/-- One iteration of the loop of `doQuotes` appends the token itself, unless it is a
`quote` token, with tokens made by `doQuotes` around it. -/
theorem quoteStep_inserted (st : QState) (t : Token) (last : Bool) :
    ∃ delta, (quoteStep st t last).tn = st.tn ++ delta ∧
      Inserted ([t].filter notQuote) delta := by
  have hA := quoteAction_made
  have hC := closeOut_made
  by_cases hq : t.TType = str "quote"
  · have f : [t].filter notQuote = [] := by simp [notQuote, hq]
    rw [f]
    cases last
    · exact ⟨[], by simp +decide [quoteStep, hq], Inserted.done⟩
    · simp +decide [quoteStep, hq]
      exact Inserted_pre _ _ _ (hA _ _) (Inserted_made _ (hC _))
  have f : [t].filter notQuote = [t] := by simp [notQuote, hq]
  rw [f]
  by_cases hn : t.TType = str "newline"
  · cases last <;> simp +decide [quoteStep, hn] <;>
      exact Inserted_pre _ _ _ (hA _ _) (Inserted_pre _ _ _ (hC _) (Inserted_single t))
  by_cases ho : t.TType = str "link" ∨ t.TType = str "extlink" ∨ t.TType = str "filelink"
  · rcases ho with ho | ho | ho <;> cases last <;> simp +decide [quoteStep, ho] <;>
      first
        | exact Inserted_pre _ _ _ (hA _ _) (Inserted_pre _ _ _ (hC _)
            (Inserted_cons_post t _ (hC _)))
        | exact Inserted_pre _ _ _ (hA _ _) (Inserted_pre _ _ _ (hC _) (Inserted_single t))
  by_cases hc : t.TType = str "closelink" ∨ t.TType = str "closeextlink" ∨
      t.TType = str "closefilelink"
  · rcases hc with hc | hc | hc <;> cases last <;> simp +decide [quoteStep, hc] <;>
      first
        | exact Inserted_pre _ _ _ (hA _ _) (Inserted_pre _ _ _ (hC _)
            (Inserted_cons_post t _ (hC _)))
        | exact Inserted_pre _ _ _ (hA _ _) (Inserted_pre _ _ _ (hC _) (Inserted_single t))
  · cases last <;> simp [quoteStep, hq, hn, ho, hc] <;>
      first
        | exact Inserted_pre _ _ _ (hA _ _) (Inserted_cons_post t _ (hC _))
        | exact Inserted_pre _ _ _ (hA _ _) (Inserted_single t)

theorem quoteLoop_inserted : ∀ (ts : List Token) (st : QState),
    ∃ delta, (quoteLoop ts st).tn = st.tn ++ delta ∧ Inserted (ts.filter notQuote) delta
  | [], st => ⟨[], by simp [quoteLoop], Inserted.done⟩
  | t :: rest, st => by
    obtain ⟨d1, e1, i1⟩ := quoteStep_inserted st t rest.isEmpty
    obtain ⟨d2, e2, i2⟩ := quoteLoop_inserted rest (quoteStep st t rest.isEmpty)
    refine ⟨d1 ++ d2, by rw [quoteLoop, e2, e1, List.append_assoc], ?_⟩
    have e : (t :: rest).filter notQuote = [t].filter notQuote ++ rest.filter notQuote := by
      rw [← List.filter_append]; rfl
    rw [e]
    exact Inserted_append _ _ _ _ i1 i2

/-- The output of `doQuotes` is the input without its `quote` tokens, with tokens made by
`doQuotes` put in between. -/
theorem doQuotes_inserted (ts : List Token) : Inserted (ts.filter notQuote) (doQuotes ts) := by
  obtain ⟨d, e, i⟩ := quoteLoop_inserted ts {}
  unfold doQuotes
  rw [e]
  exact i

theorem Inserted_mem (a b : List Token) (h : Inserted a b) :
    ∀ x ∈ b, x ∈ a ∨ quoteMade x := by
  induction h with
  | done => intro x hx; simp at hx
  | keep y xs ys _ ih =>
    intro x hx
    rcases List.mem_cons.1 hx with hx | hx
    · exact Or.inl (by rw [hx]; exact List.mem_cons_self _ _)
    · rcases ih x hx with h | h
      · exact Or.inl (List.mem_cons_of_mem _ h)
      · exact Or.inr h
  | add y xs ys hy _ ih =>
    intro x hx
    rcases List.mem_cons.1 hx with hx | hx
    · exact Or.inr (by rw [hx]; exact hy)
    · exact ih x hx

theorem Inserted_sublist (a b : List Token) (h : Inserted a b) : List.Sublist a b := by
  induction h with
  | done => exact List.Sublist.slnil
  | keep y xs ys _ ih => exact ih.cons₂ y
  | add y xs ys _ _ ih => exact ih.cons y

theorem Inserted_links (a b : List Token) (h : Inserted a b) :
    b.filter isLinkToken = a.filter isLinkToken := by
  induction h with
  | done => rfl
  | keep y xs ys _ ih => simp only [List.filter_cons, ih]
  | add y xs ys hy _ ih => rw [List.filter_cons, quoteMade_not_link y hy]; exact ih

theorem filter_notQuote_links (ts : List Token) :
    (ts.filter notQuote).filter isLinkToken = ts.filter isLinkToken := by
  rw [List.filter_filter]
  apply List.filter_congr
  intro x _
  by_cases h : x.TType = str "quote"
  · simp +decide [isLinkToken, notQuote, h]
  · simp [notQuote, h]

/-- The link tokens come out of `doQuotes` as they went in. -/
theorem doQuotes_links (ts : List Token) :
    (doQuotes ts).filter isLinkToken = ts.filter isLinkToken := by
  rw [Inserted_links _ _ (doQuotes_inserted ts), filter_notQuote_links]

/-- The bracket matching reads the link tokens only. -/
theorem depthScan_filter (p : Str × Str) (hp : p ∈ linkPairs) : ∀ (ts : List Token) (d : Nat),
    depthScan p.1 p.2 (ts.filter isLinkToken) d = depthScan p.1 p.2 ts d
  | [], _ => rfl
  | x :: ts, d => by
    rw [List.filter_cons]
    by_cases h : isLinkToken x = true
    · rw [if_pos h]
      simp only [depthScan, depthScan_filter p hp ts]
    · rw [if_neg h]
      have hk : linkKind x = [] := by
        unfold isLinkToken at h
        exact linkKind_of_ne x (by simpa using h)
      obtain ⟨m1, m2⟩ := neutral_of_linkKind x hk p hp
      rw [depthScan_neutral _ _ _ _ _ m1 m2]
      exact depthScan_filter p hp ts d

theorem quoteMade_sane (x : Token) (h : quoteMade x) : saneToken x := by
  have d1 : str "text" ≠ str "html" := by decide
  have d2 : str "text" ≠ str "tb" := by decide
  have d3 : str "text" ≠ str "te" := by decide
  have d4 : str "html" ≠ str "tb" := by decide
  have d5 : str "html" ≠ str "te" := by decide
  rcases h with ⟨h1, h2⟩ | ⟨h1, _⟩
  · refine ⟨fun _ hnil => ?_, fun h => ?_⟩
    · rw [hnil] at h2; revert h2; decide
    · rw [h1] at h; rcases h with h | h
      · exact absurd h d4
      · exact absurd h d5
  · refine ⟨fun h => ?_, fun h => ?_⟩
    · rw [h1] at h; exact absurd h d1
    · rw [h1] at h; rcases h with h | h
      · exact absurd h d2
      · exact absurd h d3

theorem doQuotes_sane (ts : List Token) (h : ∀ x ∈ ts, saneToken x) :
    ∀ x ∈ doQuotes ts, saneToken x := by
  intro x hx
  rcases Inserted_mem _ _ (doQuotes_inserted ts) x hx with h1 | h1
  · exact h x (List.mem_of_mem_filter h1)
  · exact quoteMade_sane x h1

/-- C21.  Unmatched link tokens are fatal.  When the tokens of an article hold, for one
of the three kinds of link, an open token without a close token of its kind after it or a
close token without an open token before it (the open and close tokens of the kind do
not pair up as brackets, wherever they stand, also inside an html element), `parse` does
not return without an error and does not run on for ever; and it returns an error,
provided no token makes it crash (every `html` token has a tag name and no `tb` or `te`
token holds a negative number). -/
theorem C21_unmatched_links_fatal (T : Tables) (a : Article) (p : Str × Str)
    (hp : p ∈ linkPairs) (hun : depthScan p.1 p.2 a.Tokens 0 ≠ some 0) :
    (∀ a2, parse T a ≠ .ok (a2, none)) ∧ parse T a ≠ .fuel ∧
    ((∀ x ∈ a.Tokens, saneToken x) → ∃ a2 e, parse T a = .ok (a2, some e)) := by
  have hun2 : depthScan p.1 p.2 (doQuotes a.Tokens) 0 ≠ some 0 := by
    rw [← depthScan_filter p hp, doQuotes_links, depthScan_filter p hp]; exact hun
  have hfuel := parseLoop_fuel T (2 * (doQuotes a.Tokens).length + 2)
    { a with Tokens := doQuotes a.Tokens } (doQuotes a.Tokens) 0 none [] (by omega)
  unfold parse internalParse
  simp only
  cases hres : parseLoop T (2 * (doQuotes a.Tokens).length + 2)
      { a with Tokens := doQuotes a.Tokens } (doQuotes a.Tokens) 0 none [] with
  | fuel => exact absurd hres hfuel
  | panic =>
    refine ⟨fun a2 => by simp, by simp, fun hs => ?_⟩
    exact absurd hres (parseLoop_no_panic T _ _ _ _ _ _ (doQuotes_sane _ hs))
  | ok r =>
    obtain ⟨a3, t3, (e | nodes)⟩ := r
    · exact ⟨fun a2 => by simp, by simp, fun _ => ⟨_, e, rfl⟩⟩
    · have := parseLoop_balanced T _ _ _ _ _ _ _ _ _ hres p hp
      rw [List.drop_zero] at this
      exact absurd this hun2

/-- C21 at the tokens `<b>`, an open link, `</b>`: the link token has no close token,
and `parse` returns an error. -/
theorem C21_unmatched_links_fatal_witness :
    depthScan (str "link") (str "closelink")
      [htmlTok "b", { TType := str "link" }, htmlTok "/b"] 0 ≠ some 0 ∧
    ∃ a2 e, parse goTables { Tokens := [htmlTok "b", { TType := str "link" }, htmlTok "/b"] } =
      .ok (a2, some e) :=
  ⟨by decide,
    (C21_unmatched_links_fatal goTables
      { Tokens := [htmlTok "b", { TType := str "link" }, htmlTok "/b"] }
      (str "link", str "closelink") (by decide) (by decide)).2.2 (by
        have d1 : str "link" ≠ str "html" := by decide
        have d2 : str "link" ≠ str "tb" := by decide
        have d3 : str "link" ≠ str "te" := by decide
        intro x hx
        simp only [List.mem_cons, List.mem_singleton, List.not_mem_nil, or_false] at hx
        rcases hx with hx | hx | hx
        · rw [hx]; exact quoteMade_sane _ (quoteMade_html "b" (by decide))
        · rw [hx]
          exact ⟨fun h => absurd h d1, fun h => h.elim (fun h => absurd h d2)
            (fun h => absurd h d3)⟩
        · rw [hx]; exact quoteMade_sane _ (quoteMade_html "/b" (by decide)))⟩

/-! ## C32: what `doQuotes` lets through -/

theorem quoteMade_not_quote (x : Token) (h : quoteMade x) : x.TType ≠ str "quote" := by
  rcases h with ⟨h, _⟩ | ⟨h, _⟩ <;> rw [h] <;> decide

/-- C32.  `doQuotes` pass-through, for every token list: no token of the output is of
kind `quote`; the input without its `quote` tokens is a subsequence of the output; and
the output is that list with tokens put in between each of which is an html token with
text `i`, `/i`, `b` or `/b` or a text token made only of apostrophes (so every token of
the output is an input token or such a token). -/
theorem C32_doQuotes_pass_through (ts : List Token) :
    (∀ x ∈ doQuotes ts, x.TType ≠ str "quote") ∧
    List.Sublist (ts.filter notQuote) (doQuotes ts) ∧
    Inserted (ts.filter notQuote) (doQuotes ts) ∧
    (∀ x ∈ doQuotes ts, (x ∈ ts ∧ x.TType ≠ str "quote") ∨
      (x.TType = str "html" ∧ x.TText ∈ [str "i", str "/i", str "b", str "/b"]) ∨
      (x.TType = str "text" ∧ ∀ c ∈ x.TText, c = 39)) := by
  have hi := doQuotes_inserted ts
  have hmem : ∀ x ∈ doQuotes ts, (x ∈ ts ∧ x.TType ≠ str "quote") ∨ quoteMade x := by
    intro x hx
    rcases Inserted_mem _ _ hi x hx with h | h
    · left
      rw [List.mem_filter] at h
      exact ⟨h.1, by simpa [notQuote] using h.2⟩
    · exact Or.inr h
  refine ⟨?_, Inserted_sublist _ _ hi, hi, ?_⟩
  · intro x hx
    rcases hmem x hx with h | h
    · exact h.2
    · exact quoteMade_not_quote x h
  · intro x hx
    rcases hmem x hx with h | h
    · exact Or.inl h
    · exact Or.inr h

/-! ## C36: `doQuotes` line by line -/

/-- The tokens written so far do not influence an iteration of the loop of `doQuotes`. -/
theorem quoteStep_tn_shift (st : QState) (t : Token) (last : Bool) (pre : List Token) :
    quoteStep { st with tn := pre ++ st.tn } t last =
      { quoteStep st t last with tn := pre ++ (quoteStep st t last).tn } := by
  by_cases hq : t.TType = str "quote"
  · cases last <;> simp +decide [quoteStep, hq]
  by_cases hn : t.TType = str "newline"
  · cases last <;> simp +decide [quoteStep, hn]
  by_cases ho : t.TType = str "link" ∨ t.TType = str "extlink" ∨ t.TType = str "filelink"
  · rcases ho with ho | ho | ho <;> cases last <;> simp +decide [quoteStep, ho]
  by_cases hc : t.TType = str "closelink" ∨ t.TType = str "closeextlink" ∨
      t.TType = str "closefilelink"
  · rcases hc with hc | hc | hc <;> cases last <;> simp +decide [quoteStep, hc]
  · cases last <;> simp [quoteStep, hq, hn, ho, hc]

theorem quoteLoop_tn_shift : ∀ (ts : List Token) (st : QState) (pre : List Token),
    quoteLoop ts { st with tn := pre ++ st.tn } =
      { quoteLoop ts st with tn := pre ++ (quoteLoop ts st).tn }
  | [], _, _ => rfl
  | t :: rest, st, pre => by
    rw [quoteLoop, quoteLoop, quoteStep_tn_shift]
    exact quoteLoop_tn_shift rest (quoteStep st t rest.isEmpty) pre

theorem quoteLoop_append : ∀ (xs : List Token) (y : Token) (ys : List Token) (st : QState),
    quoteLoop (xs ++ y :: ys) st =
      quoteLoop (y :: ys) (xs.foldl (fun s t => quoteStep s t false) st)
  | [], _, _, _ => rfl
  | x :: xs, y, ys, st => by
    have e : (xs ++ y :: ys).isEmpty = false := by cases xs <;> rfl
    rw [List.cons_append, quoteLoop, e, List.foldl_cons]
    exact quoteLoop_append xs y ys _

/-- At a newline token the loop of `doQuotes` resets the emphasis state, the saved state
and the apostrophe count, whether or not the token is the last one. -/
theorem quoteStep_newline (st : QState) (nl : Token) (hn : nl.TType = str "newline")
    (last : Bool) :
    quoteStep st nl last =
      { state := .none, save := .none, l := 0,
        tn := st.tn ++ ((quoteAction st.l st.state).1 ++
          (closeOut (quoteAction st.l st.state).2 ++ [nl])) } := by
  cases last <;> simp +decide [quoteStep, hn]

/-- C36.  `doQuotes` is compositional over lines: for a newline token `nl` and all token
lists `t1` and `t2`, `doQuotes (t1 ++ [nl] ++ t2) = doQuotes (t1 ++ [nl]) ++ doQuotes t2`;
after a newline token the emphasis state and the saved state are `none` and the
apostrophe count is 0. -/
theorem C36_doQuotes_by_lines (t1 t2 : List Token) (nl : Token)
    (hn : nl.TType = str "newline") :
    doQuotes (t1 ++ [nl] ++ t2) = doQuotes (t1 ++ [nl]) ++ doQuotes t2 ∧
    (quoteLoop (t1 ++ [nl]) {}).state = .none ∧ (quoteLoop (t1 ++ [nl]) {}).save = .none ∧
    (quoteLoop (t1 ++ [nl]) {}).l = 0 := by
  have e1 : quoteLoop (t1 ++ [nl]) {} =
      quoteStep (t1.foldl (fun s t => quoteStep s t false) {}) nl true := by
    rw [quoteLoop_append]; rfl
  refine ⟨?_, ?_, ?_, ?_⟩
  · unfold doQuotes
    rw [e1, List.append_assoc, List.singleton_append, quoteLoop_append, quoteLoop,
      quoteStep_newline _ nl hn, quoteStep_newline _ nl hn]
    have := quoteLoop_tn_shift t2 {}
      ((t1.foldl (fun s t => quoteStep s t false) {}).tn ++
        ((quoteAction (t1.foldl (fun s t => quoteStep s t false) {}).l
            (t1.foldl (fun s t => quoteStep s t false) {}).state).1 ++
          (closeOut (quoteAction (t1.foldl (fun s t => quoteStep s t false) {}).l
            (t1.foldl (fun s t => quoteStep s t false) {}).state).2 ++ [nl])))
    simp only [List.append_nil] at this
    rw [this]
  · rw [e1, quoteStep_newline _ nl hn]
  · rw [e1, quoteStep_newline _ nl hn]
  · rw [e1, quoteStep_newline _ nl hn]

/-- C36 on two lines of emphasised text. -/
theorem C36_doQuotes_by_lines_witness :
    doQuotes ([{ TType := str "quote" }, { TType := str "quote" },
        { TType := str "text", TText := str "a" }] ++ [{ TType := str "newline" }] ++
      [{ TType := str "quote" }, { TType := str "text", TText := str "b" }]) =
    doQuotes ([{ TType := str "quote" }, { TType := str "quote" },
        { TType := str "text", TText := str "a" }] ++ [{ TType := str "newline" }]) ++
      doQuotes [{ TType := str "quote" }, { TType := str "text", TText := str "b" }] :=
  (C36_doQuotes_by_lines _ _ { TType := str "newline" } rfl).1

/-! ## C31: the action table of `doQuotes` -/

theorem quoteFold_run (q : Token) (hq : q.TType = str "quote") : ∀ (l : Nat) (st : QState),
    (List.replicate l q).foldl (fun s t => quoteStep s t false) st = { st with l := st.l + l }
  | 0, _ => rfl
  | l + 1, st => by
    rw [List.replicate_succ, List.foldl_cons]
    have e : quoteStep st q false = { st with l := st.l + 1 } := by
      simp +decide [quoteStep, hq]
    rw [e, quoteFold_run q hq l]
    simp only [QState.mk.injEq, true_and, and_true]
    omega

theorem plainToken_spec (t : Token) (h : plainToken t = true) :
    t.TType ≠ str "quote" ∧ t.TType ≠ str "newline" ∧
    ¬ (t.TType = str "link" ∨ t.TType = str "extlink" ∨ t.TType = str "filelink") ∧
    ¬ (t.TType = str "closelink" ∨ t.TType = str "closeextlink" ∨
      t.TType = str "closefilelink") := by
  unfold plainToken at h
  simp only [List.mem_cons, List.mem_singleton, List.not_mem_nil, or_false,
    decide_eq_true_eq] at h
  tauto

theorem quoteStep_plain (st : QState) (t : Token) (h : plainToken t = true) :
    quoteStep st t false =
      { state := (quoteAction st.l st.state).2, save := st.save, l := 0,
        tn := st.tn ++ ((quoteAction st.l st.state).1 ++ [t]) } := by
  obtain ⟨hq, hn, ho, hc⟩ := plainToken_spec t h
  simp [quoteStep, hq, hn, ho, hc]

theorem quoteStep_plain_last (st : QState) (t : Token) (h : plainToken t = true) :
    quoteStep st t true =
      { state := .none, save := .none, l := 0,
        tn := st.tn ++ ((quoteAction st.l st.state).1 ++
          (t :: closeOut (quoteAction st.l st.state).2)) } := by
  obtain ⟨hq, hn, ho, hc⟩ := plainToken_spec t h
  simp [quoteStep, hq, hn, ho, hc]

/-- The action table for a first run from state none and the second run of the same
length. -/
theorem quoteAction_table (l : Nat) (hl : 1 ≤ l) :
    (quoteAction l .none).1 = openRun l ∧
    (quoteAction l (quoteAction l .none).2).1 = closeRun l ∧
    (quoteAction l (quoteAction l .none).2).2 = .none := by
  by_cases h1 : l = 1
  · subst h1; decide
  by_cases h2 : l = 2
  · subst h2; decide
  by_cases h3 : l = 3
  · subst h3; decide
  by_cases h4 : l = 4
  · subst h4; decide
  have h0 : l ≠ 0 := by omega
  have h34 : ¬ (l = 3 ∨ l = 4) := by omega
  by_cases h5 : l = 5
  · subst h5; decide
  have hpos : l - 5 > 0 := by omega
  simp [quoteAction, openRun, closeRun, h0, h1, h2, h3, h4, h5, hpos, apostrophes]

/-- C31.  The action table of `doQuotes`, from state none on a line without links: on
the tokens of a run of `l ≥ 1` apostrophes, a plain token `x`, a second run of `l`
apostrophes and a last plain token `y`, the output is the tokens of `openRun l`, then `x`,
then the tokens of `closeRun l`, then `y`, and nothing after `y`: the second run has
returned the state to none.  Here `openRun` is: a text token `'` for `l = 1`; html `i`
for 2; html `b` for 3; text `'` then html `b` for 4; for `l ≥ 5` a text token of `l - 5`
apostrophes (none when `l = 5`) then html `b` and html `i`; and `closeRun` holds the same
text token followed by the matching closing tags. -/
theorem C31_quote_action_table (l : Nat) (q x y : Token) (hl : 1 ≤ l)
    (hq : q.TType = str "quote") (hx : plainToken x = true) (hy : plainToken y = true) :
    doQuotes (List.replicate l q ++ [x] ++ List.replicate l q ++ [y]) =
      openRun l ++ [x] ++ closeRun l ++ [y] := by
  obtain ⟨t1, t2, t3⟩ := quoteAction_table l hl
  unfold doQuotes
  have e : List.replicate l q ++ [x] ++ List.replicate l q ++ [y] =
      List.replicate l q ++ x :: (List.replicate l q ++ [y]) := by simp
  have e2 : (List.replicate l q ++ [y]).isEmpty = false := by
    cases l with
    | zero => rfl
    | succ n => rfl
  rw [e, quoteLoop_append, quoteFold_run q hq, quoteLoop, e2, quoteStep_plain _ x hx]
  have e3 : List.replicate l q ++ [y] = List.replicate l q ++ y :: [] := rfl
  rw [e3, quoteLoop_append, quoteFold_run q hq, quoteLoop, quoteLoop]
  have e4 : ([] : List Token).isEmpty = true := rfl
  rw [e4, quoteStep_plain_last _ y hy]
  simp only [Nat.zero_add]
  have d : (({} : QState)).l = 0 ∧ (({} : QState)).state = .none ∧ (({} : QState)).tn = [] :=
    ⟨rfl, rfl, rfl⟩
  simp only [d.1, d.2.1, d.2.2, Nat.zero_add, List.nil_append, t1, t2, t3, closeOut,
    List.append_assoc, List.singleton_append, List.cons_append]

/-- C31 for runs of two apostrophes around the text tokens `a` and `b`. -/
theorem C31_quote_action_table_witness :
    doQuotes (List.replicate 2 { TType := str "quote" } ++
        [{ TType := str "text", TText := str "a" }] ++
        List.replicate 2 { TType := str "quote" } ++
        [{ TType := str "text", TText := str "b" }]) =
      openRun 2 ++ [{ TType := str "text", TText := str "a" }] ++ closeRun 2 ++
        [{ TType := str "text", TText := str "b" }] :=
  C31_quote_action_table 2 _ _ _ (by decide) rfl (by decide) (by decide)

/-! ## C37: the abstract is an initial part of the text -/

theorem absOK_appendText (a : Article) (t : Str) (h : absOK a) : absOK (appendText a t) := by
  unfold absOK appendText at *
  exact h.trans (List.prefix_append _ _)

mutual
/-- The text projection of a list of trees keeps the abstract an initial part of the
text. -/
theorem genTextNodes_absOK : ∀ (ns : List ParseNode) (lws : Bool) (a : Article),
    absOK a → absOK (genTextNodes ns lws a)
  | [], _, _, h => by simpa [genTextNodes] using h
  | n :: rest, lws, a, h => by
    rw [genTextNodes]
    exact genTextNodes_absOK rest _ _ (genTextNode_absOK n lws a h)
/-- The text projection of a tree keeps the abstract an initial part of the text. -/
theorem genTextNode_absOK : ∀ (n : ParseNode) (lws : Bool) (a : Article),
    absOK a → absOK (genTextNode n lws a)
  | .mk ntype nsub link contents f nodes, lws, a, h => by
    have key : ∀ r : Article × Str, absOK r.1 →
        absOK (appendText
          (if decide (ntype = str "link") = true then
            { genTextNodes nodes false r.1 with
              TextLinks := (genTextNodes nodes false r.1).TextLinks ++
                [{ Link := link, Start := a.nchar, End := (genTextNodes nodes false r.1).nchar,
                   Text := (genTextNodes nodes false r.1).text.drop a.text.length }] }
          else genTextNodes nodes false r.1) r.2) := by
      intro r hr
      apply absOK_appendText
      have ih := genTextNodes_absOK nodes false r.1 hr
      split_ifs
      · exact ih
      · exact ih
    rw [genTextNode]
    apply key
    dsimp only
    split_ifs
    all_goals first
      | exact absOK_appendText _ _ h
      | exact h
      | (unfold absOK; exact List.prefix_refl _)
end

/-- C37.  After `genText` on an article with a parse tree, `AbstractText` is an initial
part of `Text`; and `genText` returns for every such article. -/
theorem C37_abstract_prefix_of_text (a : Article) (root : ParseNode)
    (hroot : a.Root = some root) :
    ∃ a2, genText a = .ok a2 ∧ a2.AbstractText <+: a2.Text := by
  have key := genTextNodes_absOK root.Nodes false
    { a with text := [], nchar := 0, AbstractText := [] } List.nil_prefix
  simp only [hroot] at key
  simp only [genText, hroot]
  refine ⟨_, rfl, ?_⟩
  split_ifs
  · exact List.prefix_refl _
  · exact key

set_option maxRecDepth 100000 in
/-- C37 on a tree with a text, a heading and a text. -/
theorem C37_abstract_prefix_of_text_witness :
    ∃ a2, genText { Root := some (.mk (str "root") [] ⟨[], [], []⟩ [] 0
        [leaf "text" "" (str "a"), leaf "html" "h2" [], leaf "text" "" (str "b")]) } = .ok a2 ∧
      a2.AbstractText <+: a2.Text :=
  C37_abstract_prefix_of_text _ _ rfl

/-! ## C38: a second `GenText` -/

set_option maxRecDepth 100000 in
/-- C38 (defect of the code): on the article parsed from `[[A]]`, the first `GenText`
leaves one entry in `TextLinks` and the second leaves two, the same link twice; `Text`
and `AbstractText` are the same after both calls. -/
theorem C38_textlinks_duplicated :
    ((ParseArticle goTables 10 (str "T") (str "[[A]]") DummyPageGetter).bind
        (fun r => GenText r.1)).val?.map (fun a => (a.TextLinks.map (fun f => f.Link), a.Text,
          a.AbstractText)) = some ([⟨[], str "A", []⟩], str "A\n", str "A\n") ∧
    (((ParseArticle goTables 10 (str "T") (str "[[A]]") DummyPageGetter).bind
        (fun r => GenText r.1)).bind GenText).val?.map (fun a =>
          (a.TextLinks.map (fun f => f.Link), a.Text, a.AbstractText)) =
      some ([⟨[], str "A", []⟩, ⟨[], str "A", []⟩], str "A\n", str "A\n") := by
  decide!

/-! ## C35: the body of a transcluded page -/

/-- C35.  `TranscludeTemplatesRecursive` never returns anything but the empty string,
whatever the body, the parameters, the getter and the depth: the body it hands to
`stripNoinclude` is the empty outer variable.  For a body that is no redirect it returns
the empty string and asks the getter for nothing.  So `renderTemplateRecursive` returns
nothing but the empty string, and for a template whose page exists and is no redirect it
returns the empty string, having asked for that page only. -/
theorem C35_transclusion_is_empty (T : Tables)
    (rit : List template → Str → Nat → Params → Nat → Res Rendered)
    (mw : Str) (params : Params) (g : PageGetter) (depth : Nat) :
    (∀ r, TranscludeTemplatesRecursive T rit mw params g depth = .ok r → r.1 = []) ∧
    (checkRedirect T (stripComments mw) = .ok none →
      TranscludeTemplatesRecursive T rit mw params g depth = .ok ([], [])) ∧
    (∀ name r, renderTemplateRecursive T rit name params g depth = .ok r → r.1 = []) ∧
    (∀ name, depth ≤ 4 → templateType T name = str "normal" →
      g (WikiCanonicalFormNamespace T name (str "Template")) = some mw →
      checkRedirect T (stripComments mw) = .ok none →
      renderTemplateRecursive T rit name params g depth =
        .ok ([], [WikiCanonicalFormNamespace T name (str "Template")])) := by
  have e1 : stripNoinclude [] = [] := by decide
  have e2 : findTemplates [] = .ok ([], []) := by decide
  have main : ∀ mw2, ∀ r, TranscludeTemplatesRecursive T rit mw2 params g depth = .ok r →
      r.1 = [] := by
    intro mw2 r h
    unfold TranscludeTemplatesRecursive at h
    simp only [e1, e2, List.foldl_nil, List.drop_nil, List.append_nil] at h
    cases hf : followRedirects T g 6 mw2 0 [] with
    | panic => rw [hf] at h; simp at h
    | fuel => rw [hf] at h; simp at h
    | ok p =>
      obtain ⟨b, tr⟩ := p
      rw [hf] at h
      cases b <;> simp only [Res.ok.injEq] at h <;> rw [← h]
  have nored : checkRedirect T (stripComments mw) = .ok none →
      TranscludeTemplatesRecursive T rit mw params g depth = .ok ([], []) := by
    intro hc
    unfold TranscludeTemplatesRecursive
    have hf : followRedirects T g 6 mw 0 [] = .ok (true, []) := by
      simp [followRedirects, hc]
    simp only [e1, e2, hf, List.foldl_nil, List.drop_nil, List.append_nil]
  refine ⟨main mw, nored, ?_, ?_⟩
  · intro name r h
    unfold renderTemplateRecursive at h
    split_ifs at h
    · simp only [Res.ok.injEq] at h; rw [← h]
    · simp only [Res.ok.injEq] at h; rw [← h]
    · simp only [Res.ok.injEq] at h; rw [← h]
    · simp only at h
      cases hg : g (WikiCanonicalFormNamespace T name (str "Template")) with
      | none => rw [hg] at h; simp only [Res.ok.injEq] at h; rw [← h]
      | some body =>
        rw [hg] at h
        simp only at h
        cases ht : TranscludeTemplatesRecursive T rit body params g depth with
        | panic => rw [ht] at h; simp at h
        | fuel => rw [ht] at h; simp at h
        | ok p =>
          rw [ht] at h
          simp only [Res.ok.injEq] at h
          rw [← h]
          exact main body p ht
  · intro name hd hty hg hc
    unfold renderTemplateRecursive
    have d1 : str "normal" ≠ str "magic" := by decide
    have d2 : str "normal" ≠ str "ext" := by decide
    rw [if_neg (by omega), hty, if_neg d1, if_neg d2]
    simp only [hg, nored hc]

/-! ## C39: the indices of `parseHeadingLine` -/

/-- C39.  `parseHeadingLine` is index-safe: for every line `l` accepted by `isHeading`
the loop that matches the leading `=` against the trailing ones returns without an access
outside the line, and the range `start .. end` handed to `parseInlineText` (after the
cut to six levels) satisfies `start ≤ end ≤ len(l)`. -/
theorem C39_heading_index_safe (T : Tables) (l : Str) (h : isHeading l = true) :
    ∃ pf pl : Int, headingLoop l (l.length + 1) 0 (lastEq l) = .ok (pf, pl) ∧
      0 ≤ pf ∧ pf < pl ∧ pl < l.length ∧
      min (pf.toNat + 1) 6 ≤ pl.toNat + (pf.toNat + 1 - 6) ∧
      pl.toNat + (pf.toNat + 1 - 6) ≤ l.length ∧
      parseHeadingLine T l =
        match parseInlineText T (l.length + 1) l (min (pf.toNat + 1) 6)
            (pl.toNat + (pf.toNat + 1 - 6)) with
        | .ok nnt => .ok ({ TType := str "h" ++ itoa (min (pf.toNat + 1) 6) } :: nnt)
        | .panic => .panic
        | .fuel => .fuel := by
  have hne : l ≠ [] := by
    intro e; rw [e] at h; simp [isHeading] at h
  have h2 := isHeading_lastEq l h
  have h3 := lastEq_lt l hne
  obtain ⟨pf, pl, hrun, a1, a2, a3⟩ := headingLoop_ok l (l.length + 1) 0 (lastEq l)
    (le_refl _) (by omega) (by omega) (by omega)
  refine ⟨pf, pl, hrun, a1, a2, by omega, by omega, by omega,
    parseHeadingLine_of_loop T l pf pl hrun a1 a2⟩

/-- C39 on a line of fifteen `=`. -/
theorem C39_heading_index_safe_witness :
    ∃ pf pl : Int, headingLoop (str "===============") ((str "===============").length + 1) 0
        (lastEq (str "===============")) = .ok (pf, pl) ∧
      0 ≤ pf ∧ pf < pl ∧ pl < (str "===============").length ∧
      min (pf.toNat + 1) 6 ≤ pl.toNat + (pf.toNat + 1 - 6) ∧
      pl.toNat + (pf.toNat + 1 - 6) ≤ (str "===============").length ∧
      parseHeadingLine goTables (str "===============") =
        match parseInlineText goTables ((str "===============").length + 1) (str "===============")
            (min (pf.toNat + 1) 6) (pl.toNat + (pf.toNat + 1 - 6)) with
        | .ok nnt => .ok ({ TType := str "h" ++ itoa (min (pf.toNat + 1) 6) } :: nnt)
        | .panic => .panic
        | .fuel => .fuel :=
  C39_heading_index_safe goTables (str "===============") (by decide)

/-! ## C40: the width of the sentinels -/

theorem digits_length : ∀ (fuel n k : Nat), 1 ≤ k → n < 10 ^ k → (digits fuel n).length ≤ k
  | 0, _, _, _, _ => by simp [digits]
  | fuel + 1, n, k, hk, hn => by
    unfold digits
    split_ifs with h
    · simpa using hk
    · have hk2 : 2 ≤ k := by
        by_contra hc
        have : k = 1 := by omega
        rw [this] at hn
        omega
      have hdiv : n / 10 < 10 ^ (k - 1) := by
        have e : 10 ^ k = 10 * 10 ^ (k - 1) := by
          rw [← pow_succ']; congr 1; omega
        rw [e] at hn
        exact Nat.div_lt_of_lt_mul hn
      have := digits_length fuel (n / 10) (k - 1) (by omega) hdiv
      rw [List.length_append, List.length_singleton]
      omega

theorem padded_length (w n : Nat) (hw : 1 ≤ w) (hn : n < 10 ^ w) : (padded w n).length = w := by
  have := digits_length (n + 1) n w hw hn
  unfold padded itoa
  rw [List.length_append, List.length_replicate]
  omega

theorem sweepStep_keys (T : Tables) (mw : Str) (am : List TagMatch) (st : Sweep) (i : Nat)
    (h : ∀ k ∈ st.tokens.map Prod.fst, ∃ c, k = regionSentinel c) :
    ∀ k ∈ (sweepStep T mw am st i).tokens.map Prod.fst, ∃ c, k = regionSentinel c := by
  unfold sweepStep
  simp only
  split_ifs
  · intro k hk
    rcases (mem_keys_mapSet _ _ _ _).1 hk with hk | hk
    · exact h k hk
    · exact ⟨_, hk⟩
  · exact h
  · exact h

theorem sweepFold_keys (T : Tables) (mw : Str) (am : List TagMatch) :
    ∀ (l : List Nat) (st : Sweep),
    (∀ k ∈ st.tokens.map Prod.fst, ∃ c, k = regionSentinel c) →
    ∀ k ∈ (l.foldl (sweepStep T mw am) st).tokens.map Prod.fst, ∃ c, k = regionSentinel c
  | [], _, h => h
  | i :: l, st, h => by
    rw [List.foldl_cons]
    exact sweepFold_keys T mw am l _ (sweepStep_keys T mw am st i h)

/-- Every key of the map returned by `stripNowikiPreMath` is a region sentinel. -/
theorem stripNowikiPreMath_keys (T : Tables) (mw : Str) :
    ∀ k ∈ (stripNowikiPreMath T mw).2.map Prod.fst, ∃ c, k = regionSentinel c := by
  unfold stripNowikiPreMath
  simp only
  split_ifs
  · simp
  · have h := sweepFold_keys T mw (tagEvents mw) (List.range (tagEvents mw).length) {} (by simp)
    unfold sweepFinish
    simp only
    split_ifs
    · intro k hk
      rcases (mem_keys_mapSet _ _ _ _).1 hk with hk | hk
      · exact h k hk
      · exact ⟨_, hk⟩
    · exact h

theorem processStep_keys (T : Tables) (g : PageGetter) (fuel : Nat) (mws : Str)
    (K : Str → Prop) (hK : ∀ i, K ([7] ++ str "tb" ++ padded 5 i) ∧
      K ([7] ++ str "te" ++ padded 5 i))
    (acc : Res (List template × Nat × Nat × Processed)) (ti : Nat)
    (h : ∀ tl i last p, acc = .ok (tl, i, last, p) → ∀ k ∈ p.tokens.map Prod.fst, K k) :
    ∀ tl i last p, processStep T g fuel mws acc ti = .ok (tl, i, last, p) →
      ∀ k ∈ p.tokens.map Prod.fst, K k := by
  intro tl i last p hp
  unfold processStep at hp
  rcases acc with ⟨tl0, i0, last0, p0⟩ | _ | _
  · simp only at hp
    cases hr : renderInnerTemplates T g fuel tl0 mws ti [] 0 with
    | ok r =>
      obtain ⟨tl2, ⟨tn, pm⟩, tr2⟩ := r
      rw [hr] at hp
      simp only at hp
      cases hg : tl2.get? ti with
      | none => rw [hg] at hp; cases hp
      | some t =>
        rw [hg] at hp
        simp only [Res.ok.injEq, Prod.mk.injEq] at hp
        obtain ⟨_, _, _, hp⟩ := hp
        rw [← hp]
        intro k hk
        simp only at hk
        rcases (mem_keys_mapSet _ _ _ _).1 hk with hk | hk
        · rcases (mem_keys_mapSet _ _ _ _).1 hk with hk | hk
          · exact h tl0 i0 last0 p0 rfl k hk
          · rw [hk]; exact (hK i0).1
        · rw [hk]; exact (hK i0).2
    | panic => rw [hr] at hp; cases hp
    | fuel => rw [hr] at hp; cases hp
  · cases hp
  · cases hp

theorem processFold_keys (T : Tables) (g : PageGetter) (fuel : Nat) (mws : Str)
    (K : Str → Prop) (hK : ∀ i, K ([7] ++ str "tb" ++ padded 5 i) ∧
      K ([7] ++ str "te" ++ padded 5 i)) :
    ∀ (l : List Nat) (acc : Res (List template × Nat × Nat × Processed)),
    (∀ tl i last p, acc = .ok (tl, i, last, p) → ∀ k ∈ p.tokens.map Prod.fst, K k) →
    ∀ tl i last p, l.foldl (processStep T g fuel mws) acc = .ok (tl, i, last, p) →
      ∀ k ∈ p.tokens.map Prod.fst, K k
  | [], _, h => h
  | ti :: l, acc, h => by
    rw [List.foldl_cons]
    exact processFold_keys T g fuel mws K hK l _ (processStep_keys T g fuel mws K hK acc ti h)

/-- Every key of the map returned by `processTemplates` is a key of the map passed in
or a template sentinel. -/
theorem processTemplates_keys (T : Tables) (fuel : Nat) (mws : Str) (tokens : TokenMap)
    (g : PageGetter) (p : Processed) (h : processTemplates T fuel mws tokens g = .ok p) :
    ∀ k ∈ p.tokens.map Prod.fst, k ∈ tokens.map Prod.fst ∨
      ∃ i, k = [7] ++ str "tb" ++ padded 5 i ∨ k = [7] ++ str "te" ++ padded 5 i := by
  unfold processTemplates at h
  cases hf : findTemplates mws with
  | panic => rw [hf] at h; cases h
  | fuel => rw [hf] at h; cases h
  | ok r =>
    obtain ⟨tl, mlt⟩ := r
    rw [hf] at h
    simp only at h
    cases hr : mlt.foldl (processStep T g fuel mws)
        (.ok (tl, 0, 0, { out := [], tokens := tokens, templates := [], trace := [] })) with
    | panic => rw [hr] at h; cases h
    | fuel => rw [hr] at h; cases h
    | ok q =>
      obtain ⟨tl2, i2, last2, p2⟩ := q
      rw [hr] at h
      simp only [Res.ok.injEq] at h
      have := processFold_keys T g fuel mws
        (fun k => k ∈ tokens.map Prod.fst ∨
          ∃ i, k = [7] ++ str "tb" ++ padded 5 i ∨ k = [7] ++ str "te" ++ padded 5 i)
        (fun i => ⟨Or.inr ⟨i, Or.inl rfl⟩, Or.inr ⟨i, Or.inr rfl⟩⟩) mlt _ (by
          intro tl i last p hp
          simp only [Res.ok.injEq, Prod.mk.injEq] at hp
          obtain ⟨_, _, _, hp⟩ := hp
          rw [← hp]
          intro k hk
          exact Or.inl hk) tl2 i2 last2 p2 hr
      rw [← h]
      exact this

/-- At the byte 7 the loop of `parseInlineText` emits a `special` token whose text is the
eight bytes from there, and goes on after them. -/
theorem inlineLoop_special (T : Tables) (fuel : Nat) (l : Str) (end_ pos tStart tEnd : Nat)
    (nt : List Token) (h7 : l.get? pos = some 7) (hpos : pos < end_) (hend : end_ ≤ l.length)
    (h8 : pos + 8 ≤ l.length) :
    inlineLoop T (fuel + 1) l end_ pos tStart tEnd nt =
      inlineLoop T fuel l end_ (pos + 8) (pos + 8) (pos + 8)
        (flushText l tStart tEnd nt ++
          [{ TType := str "special", TText := slice l pos (pos + 8) }]) := by
  have hs : ∃ rest, slice l pos end_ = 7 :: rest := by
    unfold slice
    have hd := drop_cons_of_get? (l.take end_) pos 7 (by
      rw [List.get?_eq_getElem?, List.getElem?_take_of_lt hpos, ← List.get?_eq_getElem?]
      exact h7)
    exact ⟨_, hd⟩
  obtain ⟨rest, hs⟩ := hs
  have hd : decodeRune (slice l pos end_) = (7, 1) := by
    rw [hs]; exact decodeRune_ascii 7 rest (by decide)
  rw [inlineLoop]
  simp only [hd, if_pos hpos, if_neg (by omega : ¬ end_ > l.length)]
  simp +decide [h8]

/-- C40.  Sentinel width.  The sentinel of `stripNowikiPreMath` for a region count below
`10^7` and the two sentinels of `processTemplates` for a template index below `10^5` are
8 bytes long and start with the byte 7; the keys that `stripNowikiPreMath` and
`processTemplates` put into the placeholder map are such sentinels; and at a byte 7
`parseInlineText` reads 8 bytes for the text of the `special` token, a whole sentinel. -/
theorem C40_sentinel_width :
    (∀ c, c < 10 ^ 7 → (regionSentinel c).length = 8 ∧ (regionSentinel c).head? = some 7) ∧
    (∀ i, i < 10 ^ 5 →
      ([7] ++ str "tb" ++ padded 5 i).length = 8 ∧
      ([7] ++ str "tb" ++ padded 5 i).head? = some 7 ∧
      ([7] ++ str "te" ++ padded 5 i).length = 8 ∧
      ([7] ++ str "te" ++ padded 5 i).head? = some 7) ∧
    (∀ (T : Tables) (mw : Str), ∀ k ∈ (stripNowikiPreMath T mw).2.map Prod.fst,
      ∃ c, k = regionSentinel c) ∧
    (∀ (T : Tables) (fuel : Nat) (mws : Str) (tokens : TokenMap) (g : PageGetter)
      (p : Processed), processTemplates T fuel mws tokens g = .ok p →
      ∀ k ∈ p.tokens.map Prod.fst, k ∈ tokens.map Prod.fst ∨
        ∃ i, k = [7] ++ str "tb" ++ padded 5 i ∨ k = [7] ++ str "te" ++ padded 5 i) ∧
    (∀ (T : Tables) (fuel : Nat) (l : Str) (end_ pos tStart tEnd : Nat) (nt : List Token),
      l.get? pos = some 7 → pos < end_ → end_ ≤ l.length → pos + 8 ≤ l.length →
      inlineLoop T (fuel + 1) l end_ pos tStart tEnd nt =
        inlineLoop T fuel l end_ (pos + 8) (pos + 8) (pos + 8)
          (flushText l tStart tEnd nt ++
            [{ TType := str "special", TText := slice l pos (pos + 8) }])) := by
  refine ⟨?_, ?_, stripNowikiPreMath_keys, processTemplates_keys, inlineLoop_special⟩
  · intro c hc
    have := padded_length 7 c (by omega) hc
    exact ⟨by simp [regionSentinel, this], rfl⟩
  · intro i hi
    have := padded_length 5 i (by omega) hi
    have e1 : (str "tb").length = 2 := by decide
    have e2 : (str "te").length = 2 := by decide
    refine ⟨by simp [this, e1], rfl, by simp [this, e2], rfl⟩

/-! ## C34: `internalParse` ends -/

/-- C34.  `internalParse` terminates on every token list: the budget it is run with is
never used up.  The loop runs one iteration `stepOf` per position of the cursor; an
iteration returns, or moves the cursor from `ti` to `ti + 1`, or parses an interior that
is shorter than the token list and moves the cursor to `next > ti` (or to `ti + 1` after
a tolerated failure), over a token list of the same length.  When the cursor has not
moved since the last iteration, the outcome is the error `parsing issue`. -/
theorem C34_internalParse_terminates (T : Tables) :
    (∀ (a : Article) (t : List Token), internalParse T a t ≠ .fuel) ∧
    (∀ (fuel : Nat) (a : Article) (t : List Token) (ti : Nat) (lastti : Option Nat)
      (nl : List ParseNode) (tok : Token), t.get? ti = some tok → lastti ≠ some ti →
      parseLoop T (fuel + 1) a t ti lastti nl =
        runStep (parseLoop T fuel) a t ti nl (stepOf T a t ti tok)) ∧
    (∀ (a : Article) (t : List Token) (ti : Nat) (tok : Token), t.get? ti = some tok →
      match stepOf T a t ti tok with
      | .next t1 _ => t1.length = t.length
      | .nest _ t1 ni next _ _ =>
        (slice t1 (ti + 1) ni).length < t.length ∧ ti < next ∧ t1.length = t.length
      | _ => True) ∧
    (∀ (fuel : Nat) (a : Article) (t : List Token) (ti : Nat) (nl : List ParseNode)
      (tok : Token), t.get? ti = some tok →
      parseLoop T (fuel + 1) a t ti (some ti) nl =
        .ok (a, t, .error (str "parsing issue"))) := by
  refine ⟨?_, ?_, ?_, ?_⟩
  · intro a t
    exact parseLoop_fuel T _ a t 0 none [] (by omega)
  · intro fuel a t ti lastti nl tok hg hl
    rw [parseLoop_step, hg]
    simp only [if_neg hl]
  · intro a t ti tok hg
    have facts := stepOf_facts T a t ti tok hg
    have hlt := lt_length_of_get? t ti tok hg
    cases hs : stepOf T a t ti tok with
    | stop e => trivial
    | crash => trivial
    | next t1 new =>
      rw [hs] at facts
      exact retyped_length t t1 facts.2.2
    | nest a1 t1 ni next mk recover =>
      rw [hs] at facts
      obtain ⟨f1, f2, f3, f4, f5, f6, f7⟩ := facts
      have hlen := retyped_length t t1 f3
      refine ⟨by rw [slice_length]; omega, ?_, hlen⟩
      rcases f7 with ⟨_that, _, _, q, _⟩ | ⟨_, q | ⟨q, _⟩⟩ <;> omega
  · intro fuel a t ti nl tok hg
    rw [parseLoop_step, hg]
    simp only [if_true]

/-! ## C33: tolerated failures of html interiors -/

set_option maxRecDepth 1000000 in
/-- C33 (the claim fails): the tokens of four nests of html elements, of depths 6, 5, 2
and 2, make 63 + 31 + 3 + 3 = 100 interiors fail; each nest alone parses without error,
and on the four together `parse` returns the error of the hundredth failed interior,
with the counter at 100. -/
theorem C33_hundredth_failure_fatal :
    parseOutcome (parse goTables { Tokens := failingNest 6 }) = some (63, none) ∧
    parseOutcome (parse goTables { Tokens := failingNest 5 }) = some (31, none) ∧
    parseOutcome (parse goTables { Tokens := failingNest 2 }) = some (3, none) ∧
    parseOutcome (parse goTables
      { Tokens := failingNest 6 ++ failingNest 5 ++ failingNest 2 ++ failingNest 2 }) =
      some (100, some (str "No newline after heading")) := by
  decide!

set_option maxRecDepth 1000000 in
/-- The tokens of nests that make 63 + 31 + 3 + 1 + 1 = 99 interiors fail parse without
error, with the counter at 99. -/
theorem failingNest_tolerated :
    parseOutcome (parse goTables
      { Tokens := failingNest 6 ++ failingNest 5 ++ failingNest 2 ++ failingNest 1 ++ failingNest 1 }) =
      some (99, none) := by
  decide!

/-- C33, amended.  At an open html tag whose interior fails with the error `e`, the loop
of `internalParse` adds 1 to the counter; when the counter has then reached 100 it returns
`e`, and otherwise it goes on at the next token, without a node for the element.  So 99
failed interiors are tolerated and the hundredth is fatal: tokens that make 99 interiors
fail parse without error, with the counter at 99. -/
theorem C33_ninety_nine_tolerated :
    (∀ (T : Tables) (fuel : Nat) (a : Article) (t : List Token) (ti : Nat)
      (lastti : Option Nat) (nl : List ParseNode) (tok : Token) (c : Nat) (a2 : Article)
      (sub : List Token) (e : Str),
      t.get? ti = some tok → lastti ≠ some ti → tok.TType = str "html" →
      (ToLower T tok.TText).head? = some c → c ≠ 47 → tok.TClosed = false →
      findCloseTag T (ToLower T tok.TText) (t.drop (ti + 1)) (ti + 1) 1 > ti + 1 →
      parseLoop T fuel a
        (slice t (ti + 1) (findCloseTag T (ToLower T tok.TText) (t.drop (ti + 1)) (ti + 1) 1))
        0 none [] = .ok (a2, sub, .error e) →
      parseLoop T (fuel + 1) a t ti lastti nl =
        if a2.innerParseErrorCount + 1 ≥ 100 then
          .ok ({ a2 with innerParseErrorCount := a2.innerParseErrorCount + 1 },
            t.take (ti + 1) ++ sub ++
              t.drop (findCloseTag T (ToLower T tok.TText) (t.drop (ti + 1)) (ti + 1) 1),
            .error e)
        else
          parseLoop T fuel { a2 with innerParseErrorCount := a2.innerParseErrorCount + 1 }
            (t.take (ti + 1) ++ sub ++
              t.drop (findCloseTag T (ToLower T tok.TText) (t.drop (ti + 1)) (ti + 1) 1))
            (ti + 1) (some ti) nl) ∧
    parseOutcome (parse goTables
      { Tokens := failingNest 6 ++ failingNest 5 ++ failingNest 2 ++ failingNest 1 ++ failingNest 1 }) =
      some (99, none) := by
  refine ⟨?_, failingNest_tolerated⟩
  intro T fuel a t ti lastti nl tok c a2 sub e hg hl hty hc0 hc hcl hni hin
  have d : ∀ s : String, str s ≠ str "html" → ¬ (str "html" = str s) := fun s h e => h e.symm
  have hstep : stepOf T a t ti tok =
      .nest a t (findCloseTag T (ToLower T tok.TText) (t.drop (ti + 1)) (ti + 1) 1)
        (if findCloseTag T (ToLower T tok.TText) (t.drop (ti + 1)) (ti + 1) 1 + 1 > t.length
          then t.length
          else findCloseTag T (ToLower T tok.TText) (t.drop (ti + 1)) (ti + 1) 1 + 1)
        (fun nodes => .mk (str "html") (ToLower T tok.TText) ⟨[], [], []⟩ tok.TAttr 0 nodes)
        true := by
    unfold stepOf
    simp +decide [hty, hc0, hc, hcl]
  rw [parseLoop_step, hg]
  simp only [if_neg hl, hstep, runStep, if_pos hni, hin, if_true, maxInnerParseErrorCount]

end Gowiki
